import Mathlib

/-! ParOpt: distributed vectors and compact limited-memory quasi-Newton models.

A shallow embedding of `src/ParOptVec.c` (classes `ParOptVec`, `LBFGS`, `LSR1`), of the
maximum-step computation that `src/ParOpt.h` declares, and of the function `build_matrix`
of `examples/cholesky/cholesky.cpp`.

Conventions of the embedding.

* `ParOptScalar` (a `double` in the real build) is idealised as an exact rational, so the
  constants `0.2` and `0.8` are the rationals 1/5 and 4/5 and no rounding takes place.
* A division whose divisor is zero has no rational value (the real build produces an
  infinity or a NaN); every function that divides returns an `Option` and yields `none`
  in that case.
* A C array is a total map from the index to the stored value; only indices inside the
  allocated block are ever read or written by the code.
* A `ParOptVec` is held for the whole communicator at once: entry `r` of the outer list is
  the local array of rank `r`.  The small dense arrays of the quasi-Newton models are
  replicated, every rank holds the same values, so the embedding keeps one copy.
* The counters and indices of the quasi-Newton models, of type `int`, are bounded by the
  capacity of the model and are natural numbers.  Where the value of an `int` grows with
  the input, in `writeToFile` and in `build_matrix`, it is an integer that `int32` brings
  into the range of 32 bits.
* The pointer arrays `S`, `Y`, `Z` are kept by value: entry `i` is the content of the
  vector the pointer refers to.  `Z` is only dereferenced between two updates, when it
  refers to the vectors that `update` stored last.
-/

namespace ParOpt

/-- ParOptScalar, the scalar type of the library, taken as an exact rational. -/
abbrev ParOptScalar := ℚ

/-- The loop `for ( int i = 0; i < n; i++ ) body`: iterations 0, ..., n-1 in this order. -/
def forLoop {σ : Type} : Nat → (Nat → σ → σ) → σ → σ
  | 0, _, init => init
  | n + 1, body, init => body n (forLoop n body init)

/-- The loop `for ( int i = n-1; i >= 0; i-- ) body`: iterations n-1, ..., 0 in this order. -/
def forDown {σ : Type} : Nat → (Nat → σ → σ) → σ → σ
  | 0, _, init => init
  | n + 1, body, init => forDown n body (body n init)

/-- The sum f 0 + ... + f (n-1), accumulated in index order. -/
def sumTo : Nat → (Nat → ParOptScalar) → ParOptScalar
  | 0, _ => 0
  | n + 1, f => sumTo n f + f n

/-- The sum f lo + ... + f (hi-1). -/
def sumFromTo (lo hi : Nat) (f : Nat → ParOptScalar) : ParOptScalar :=
  sumTo (hi - lo) (fun t => f (lo + t))

/-- Scalar division `a / b`; there is no quotient when the divisor is zero. -/
def sdiv (a b : ParOptScalar) : Option ParOptScalar :=
  if b = 0 then none else some (a / b)

/-- The call `memset(a, 0, count*sizeof(ParOptScalar))`. -/
def memset0 (a : Nat → ParOptScalar) (count : Nat) : Nat → ParOptScalar :=
  fun i => if i < count then 0 else a i

/-- The call `memcpy(dst, src, count*sizeof(ParOptScalar))`. -/
def memcpy (dst src : Nat → ParOptScalar) (count : Nat) : Nat → ParOptScalar :=
  fun i => if i < count then src i else dst i

/-! ## BLAS level 1 on one local array -/

/-- BLASddot with unit strides: the sum of x[i]*y[i] for i < n. -/
def BLASddot (n : Nat) (x y : List ParOptScalar) : ParOptScalar :=
  sumTo n (fun i => x.getD i 0 * y.getD i 0)

/-- BLASdscal with unit stride on an array of n entries: x[i] <- alpha*x[i]. -/
def BLASdscal (n : Nat) (alpha : ParOptScalar) (x : List ParOptScalar) : List ParOptScalar :=
  (List.range n).map (fun i => alpha * x.getD i 0)

/-- BLASdaxpy with unit strides on arrays of n entries: y[i] <- y[i] + alpha*x[i]. -/
def BLASdaxpy (n : Nat) (alpha : ParOptScalar) (x y : List ParOptScalar) :
    List ParOptScalar :=
  (List.range n).map (fun i => y.getD i 0 + alpha * x.getD i 0)

/-- The sum reduction of MPI_Allreduce over the ranks 0, ..., nranks-1 of one scalar each. -/
def MPI_Allreduce_SUM (nranks : Nat) (contribution : Nat → ParOptScalar) : ParOptScalar :=
  sumTo nranks contribution

/-! ## ParOptVec -/

/-- The distributed vector: entry r of the list is the array `x` of rank r, whose length is
the member `size` of that rank. -/
abbrev ParOptVec := List (List ParOptScalar)

namespace ParOptVec

/-- The local array of rank r. -/
def loc (v : ParOptVec) (r : Nat) : List ParOptScalar := v.getD r []

/-- The member `size` on rank r. -/
def size (v : ParOptVec) (r : Nat) : Nat := (v.loc r).length

/-- Entry k of the local array of rank r. -/
def get (v : ParOptVec) (r k : Nat) : ParOptScalar := (v.loc r).getD k 0

/-- The local sizes, rank by rank. -/
def shape (v : ParOptVec) : List Nat := v.map List.length

/-- ParOptVec::ParOptVec: on every rank an array of the requested local size, zeroed. -/
def new (nvars : List Nat) : ParOptVec := nvars.map (fun n => List.replicate n 0)

/-- ParOptVec::set -/
def set (self : ParOptVec) (alpha : ParOptScalar) : ParOptVec :=
  self.map (fun x => (List.range x.length).map (fun _ => alpha))

/-- ParOptVec::zeroEntries -/
def zeroEntries (self : ParOptVec) : ParOptVec :=
  self.map (fun x => List.replicate x.length 0)

/-- ParOptVec::copyValues: memcpy of `size` entries from the argument, rank by rank. -/
def copyValues (self vec : ParOptVec) : ParOptVec :=
  (List.range self.length).map
    (fun r => (List.range (self.size r)).map (fun i => (vec.loc r).getD i 0))

/-- ParOptVec::dot: the local BLASddot over `size` entries, summed over the ranks. -/
def dot (self vec : ParOptVec) : ParOptScalar :=
  MPI_Allreduce_SUM self.length
    (fun r => BLASddot (self.size r) (self.loc r) (vec.loc r))

/-- ParOptVec::mdot: every rank fills output[i] (i < nvecs) with its local product, then
the array is summed in place over the ranks; entries from nvecs on are left alone. -/
def mdot (self : ParOptVec) (vecs : Nat → ParOptVec) (nvecs : Nat)
    (output : Nat → ParOptScalar) : Nat → ParOptScalar :=
  let localOutput : Nat → Nat → ParOptScalar := fun r =>
    forLoop nvecs
      (fun i out => Function.update out i
        (BLASddot (self.size r) (self.loc r) ((vecs i).loc r)))
      output
  fun i => if i < nvecs then MPI_Allreduce_SUM self.length (fun r => localOutput r i)
    else output i

/-- ParOptVec::scale -/
def scale (self : ParOptVec) (alpha : ParOptScalar) : ParOptVec :=
  (List.range self.length).map (fun r => BLASdscal (self.size r) alpha (self.loc r))

/-- ParOptVec::axpy: self <- self + alpha*vec. -/
def axpy (self : ParOptVec) (alpha : ParOptScalar) (vec : ParOptVec) : ParOptVec :=
  (List.range self.length).map
    (fun r => BLASdaxpy (self.size r) alpha (vec.loc r) (self.loc r))

end ParOptVec

/-! ## LAPACK: LU factorisation with partial pivoting and the solve that uses it

`LAPACKdgetrf` and `LAPACKdgetrs` belong to the numerical library the code links against.
They are modelled after their documented behaviour: the unblocked right-looking
factorisation (pivot search, row interchange, scaling of the column, rank-one update of the
trailing block) and, for the solve, the row interchanges followed by the two triangular
solves.  Matrices are column-major with leading dimension n; pivot indices are 0-based. -/

/-- Entry (i, k) of a column-major array with leading dimension n. -/
def toMat (n : Nat) (A : Nat → ParOptScalar) : Nat → Nat → ParOptScalar :=
  fun i k => A (i + n * k)

/-- Write the n x n block a back into the column-major array A. -/
def ofMat (n : Nat) (a : Nat → Nat → ParOptScalar) (A : Nat → ParOptScalar) :
    Nat → ParOptScalar :=
  fun idx => if idx < n * n then a (idx % n) (idx / n) else A idx

/-- Index of the first entry of largest absolute value among x 0, ..., x (cnt-1). -/
def idamax (cnt : Nat) (x : Nat → ParOptScalar) : Nat :=
  forLoop cnt (fun i best => if |x best| < |x i| then i else best) 0

/-- Exchange of the indices j and p. -/
def swapIdx (j p i : Nat) : Nat := if i = j then p else if i = p then j else i

/-- Step j of the factorisation on the matrix and the pivot array. -/
def dgetf2Step (n j : Nat) (st : (Nat → Nat → ParOptScalar) × (Nat → Nat)) :
    (Nat → Nat → ParOptScalar) × (Nat → Nat) :=
  let a := st.1
  let jp := j + idamax (n - j) (fun i => a (j + i) j)
  let a1 : Nat → Nat → ParOptScalar :=
    if a jp j = 0 then a
    else
      let sw : Nat → Nat → ParOptScalar := fun i k => a (swapIdx j jp i) k
      fun i k => if k = j ∧ j < i then sw i j / sw j j else sw i k
  let a2 : Nat → Nat → ParOptScalar :=
    fun i k => if j < i ∧ j < k then a1 i k - a1 i j * a1 j k else a1 i k
  (a2, Function.update st.2 j jp)

/-- LAPACKdgetrf on an n x n matrix: the factors L (unit lower, below the diagonal) and U
(on and above the diagonal) overwrite the matrix; the pivot rows are returned as well. -/
def LAPACKdgetrf (n : Nat) (A : Nat → ParOptScalar) (ipiv : Nat → Nat) :
    (Nat → ParOptScalar) × (Nat → Nat) :=
  let res := forLoop n (dgetf2Step n) (toMat n A, ipiv)
  (ofMat n res.1 A, res.2)

/-- The row interchanges of the solve: b[j] and b[ipiv[j]] are exchanged for j = 0, ..., n-1. -/
def dlaswp (n : Nat) (ipiv : Nat → Nat) (b : Nat → ParOptScalar) : Nat → ParOptScalar :=
  forLoop n (fun j b => fun i => b (swapIdx j (ipiv j) i)) b

/-- Solve with the unit lower triangular factor, row by row from the top. -/
def solveLower (n : Nat) (a : Nat → Nat → ParOptScalar) (b : Nat → ParOptScalar) :
    Nat → ParOptScalar :=
  forLoop n (fun i b => Function.update b i (b i - sumTo i (fun k => a i k * b k))) b

/-- Solve with the upper triangular factor, row by row from the bottom. -/
def solveUpper (n : Nat) (a : Nat → Nat → ParOptScalar) (b : Nat → ParOptScalar) :
    Nat → ParOptScalar :=
  forDown n
    (fun i b => Function.update b i ((b i - sumFromTo (i + 1) n (fun k => a i k * b k)) / a i i))
    b

/-- LAPACKdgetrs for one right-hand side and no transposition: b is overwritten by the
solution.  When the factor U has a zero on its diagonal the solve divides by zero. -/
def LAPACKdgetrs (n : Nat) (A : Nat → ParOptScalar) (ipiv : Nat → Nat)
    (b : Nat → ParOptScalar) : Option (Nat → ParOptScalar) :=
  if ∃ i, i < n ∧ toMat n A i i = 0 then none
  else some (solveUpper n (toMat n A) (solveLower n (toMat n A) (dlaswp n ipiv b)))

/-! ## LBFGS: the compact limited-memory BFGS model -/

/-- The members of class LBFGS.  `nvars` lists the local number of variables rank by rank
(the communicator together with the constructor argument `nvars`). -/
structure LBFGS where
  nvars : List Nat
  msub_max : Nat
  msub : Nat
  b0 : ParOptScalar
  S : Nat → ParOptVec
  Y : Nat → ParOptVec
  Z : Nat → ParOptVec
  r : ParOptVec
  M : Nat → ParOptScalar
  d0 : Nat → ParOptScalar
  M_factor : Nat → ParOptScalar
  mfpiv : Nat → Nat
  rz : Nat → ParOptScalar
  D : Nat → ParOptScalar
  L : Nat → ParOptScalar
  B : Nat → ParOptScalar

/-- The pointer shift `for i < cnt: V[i] = V[i+1]` of an array. -/
def shiftDown {α : Type} (cnt : Nat) (V : Nat → α) : Nat → α :=
  forLoop cnt (fun i V => Function.update V i (V (i + 1))) V

/-- The shift of the square array B by one row and one column:
`for i < cnt: for j < cnt: B[i + j*ld] = B[i+1 + (j+1)*ld]`. -/
def shiftSquare (cnt ld : Nat) (B : Nat → ParOptScalar) : Nat → ParOptScalar :=
  forLoop cnt
    (fun i B => forLoop cnt
      (fun j B => Function.update B (i + j * ld) (B (i + 1 + (j + 1) * ld))) B)
    B

/-- The shift of the strictly lower triangular array L by one row and one column:
`for i < cnt: for j < i: L[i + j*ld] = L[i+1 + (j+1)*ld]`. -/
def shiftLower (cnt ld : Nat) (L : Nat → ParOptScalar) : Nat → ParOptScalar :=
  forLoop cnt
    (fun i L => forLoop i
      (fun j L => Function.update L (i + j * ld) (L (i + 1 + (j + 1) * ld))) L)
    L

namespace LBFGS

/-- LBFGS::LBFGS -/
def new (nvars : List Nat) (msub_max : Nat) : LBFGS :=
  { nvars := nvars
    msub_max := msub_max
    msub := 0
    b0 := 1
    S := fun i => if i < msub_max then ParOptVec.new nvars else []
    Y := fun i => if i < msub_max then ParOptVec.new nvars else []
    Z := fun _ => []
    r := ParOptVec.new nvars
    M := fun _ => 0
    d0 := fun _ => 0
    M_factor := fun _ => 0
    mfpiv := fun _ => 0
    rz := fun _ => 0
    D := fun _ => 0
    L := fun _ => 0
    B := fun _ => 0 }

/-- LBFGS::getMaxLimitedMemorySize -/
def getMaxLimitedMemorySize (self : LBFGS) : Nat := self.msub_max

/-- LBFGS::reset -/
def reset (self : LBFGS) : LBFGS :=
  { self with
    msub := 0
    b0 := 1
    d0 := memset0 self.d0 (2 * self.msub_max)
    rz := memset0 self.rz (2 * self.msub_max)
    M := memset0 self.M (4 * self.msub_max * self.msub_max)
    M_factor := memset0 self.M_factor (4 * self.msub_max * self.msub_max)
    D := memset0 self.D self.msub_max
    L := memset0 self.L (self.msub_max * self.msub_max)
    B := memset0 self.B (self.msub_max * self.msub_max) }

/-- LBFGS::mult: y <- b0*x - Z*diag(d0)*M^{-1}*diag(d0)*Z^T*x.  Returns the model (its
scratch array rz is overwritten) and the new content of y. -/
def mult (self : LBFGS) (x y : ParOptVec) : Option (LBFGS × ParOptVec) :=
  let y := (y.copyValues x).scale self.b0
  if 0 < self.msub then
    let rz := x.mdot self.Z (2 * self.msub) self.rz
    let rz := forLoop (2 * self.msub) (fun i rz => Function.update rz i (rz i * self.d0 i)) rz
    (LAPACKdgetrs (2 * self.msub) self.M_factor self.mfpiv rz).map (fun rz =>
      let rz :=
        forLoop (2 * self.msub) (fun i rz => Function.update rz i (rz i * self.d0 i)) rz
      let y := forLoop (2 * self.msub) (fun i y => y.axpy (-(rz i)) (self.Z i)) y
      ({ self with rz := rz }, y))
  else some (self, y)

/-- LBFGS::multAdd: y <- y + alpha*(b0*x - Z*diag(d0)*M^{-1}*diag(d0)*Z^T*x). -/
def multAdd (self : LBFGS) (alpha : ParOptScalar) (x y : ParOptVec) :
    Option (LBFGS × ParOptVec) :=
  let y := y.axpy (self.b0 * alpha) x
  if 0 < self.msub then
    let rz := x.mdot self.Z (2 * self.msub) self.rz
    let rz := forLoop (2 * self.msub) (fun i rz => Function.update rz i (rz i * self.d0 i)) rz
    (LAPACKdgetrs (2 * self.msub) self.M_factor self.mfpiv rz).map (fun rz =>
      let rz :=
        forLoop (2 * self.msub) (fun i rz => Function.update rz i (rz i * self.d0 i)) rz
      let y := forLoop (2 * self.msub) (fun i y => y.axpy (-alpha * rz i) (self.Z i)) y
      ({ self with rz := rz }, y))
  else some (self, y)

/-- LBFGS::getCompactMat: the rank 2*msub together with b0, d0, M and Z. -/
def getCompactMat (self : LBFGS) :
    Nat × ParOptScalar × (Nat → ParOptScalar) × (Nat → ParOptScalar) × (Nat → ParOptVec) :=
  (2 * self.msub, self.b0, self.d0, self.M, self.Z)

/-- LBFGS::update, "Set the diagonal components on the first time through": with no pair
stored, b0 <- gamma/alpha, replaced by 1 when that is not positive. -/
def firstScale (self : LBFGS) (gamma alpha : ParOptScalar) : Option LBFGS :=
  if self.msub = 0 then
    (sdiv gamma alpha).map (fun q => { self with b0 := if q ≤ 0 then 1 else q })
  else some self

/-- LBFGS::update, "Compute the damped update if the curvature condition is violated":
from r = B*s, beta = r.s and the supplied y it yields the update type, the new content of
r, the vector `new_vec` to be stored, and the values of gamma and alpha that go with it. -/
def damp (r s y : ParOptVec) (gamma alpha beta : ParOptScalar) :
    Option (Nat × ParOptVec × ParOptVec × ParOptScalar × ParOptScalar) :=
  if alpha ≤ 0.2 * beta then
    (sdiv (0.8 * beta) (beta - alpha)).map (fun theta =>
      let r := (r.scale (1.0 - theta)).axpy theta y
      (1, r, r, r.dot r, r.dot s))
  else some (0, r, y, gamma, alpha)

/-- LBFGS::update, first part (up to "Update the diagonal component of the BFGS matrix"):
the scaling of the first pair, the product r = B*s, the damping and the new b0.  Returns the
model, the update type and the vector `new_vec`. -/
def curvature (self : LBFGS) (s y : ParOptVec) : Option (LBFGS × Nat × ParOptVec) :=
  let gamma := y.dot y
  let alpha := y.dot s
  (self.firstScale gamma alpha).bind (fun self =>
  (self.mult s self.r).bind (fun res =>
  let self := { res.1 with r := res.2 }
  let beta := self.r.dot s
  (damp self.r s y gamma alpha beta).bind (fun d =>
  (sdiv d.2.2.2.1 d.2.2.2.2).map (fun b0 =>
  ({ self with r := d.2.1, b0 := b0 }, d.1, d.2.2.1)))))

/-- LBFGS::update, "Set up the new values": the pair is appended, or, when the memory is
full, written over the oldest pair, which is then rotated to the last place while the
small arrays are shifted. -/
def setNewValues (self : LBFGS) (s new_vec : ParOptVec) : LBFGS :=
  if self.msub < self.msub_max then
    { self with
      S := Function.update self.S self.msub ((self.S self.msub).copyValues s)
      Y := Function.update self.Y self.msub ((self.Y self.msub).copyValues new_vec)
      msub := self.msub + 1 }
  else
    let S := Function.update self.S 0 ((self.S 0).copyValues s)
    let Y := Function.update self.Y 0 ((self.Y 0).copyValues new_vec)
    let stemp := S 0
    let ytemp := Y 0
    let S := shiftDown (self.msub - 1) S
    let Y := shiftDown (self.msub - 1) Y
    { self with
      S := Function.update S (self.msub - 1) stemp
      Y := Function.update Y (self.msub - 1) ytemp
      D := shiftDown (self.msub - 1) self.D
      B := shiftSquare (self.msub - 1) self.msub_max self.B
      L := shiftLower (self.msub - 1) self.msub_max self.L }

/-- LBFGS::update, "Update the matrices required for the limited-memory update": the new
row and column of B = S^T S, the new entry of D and the new row of L. -/
def updateSmall (self : LBFGS) : LBFGS :=
  { self with
    B := forLoop self.msub
      (fun i B =>
        let B := Function.update B (self.msub - 1 + i * self.msub_max)
          ((self.S (self.msub - 1)).dot (self.S i))
        Function.update B (i + (self.msub - 1) * self.msub_max)
          (B (self.msub - 1 + i * self.msub_max)))
      self.B
    D := Function.update self.D (self.msub - 1)
      ((self.S (self.msub - 1)).dot (self.Y (self.msub - 1)))
    L := forLoop (self.msub - 1)
      (fun i L => Function.update L (self.msub - 1 + i * self.msub_max)
        ((self.S (self.msub - 1)).dot (self.Y i)))
      self.L }

/-- LBFGS::update, "Set the values into the M-matrix". -/
def setM (self : LBFGS) : LBFGS :=
  let M := memset0 self.M (4 * self.msub * self.msub)
  let M := forLoop self.msub
    (fun i M => forLoop self.msub
      (fun j M => Function.update M (i + 2 * self.msub * j)
        (self.b0 * self.B (i + self.msub_max * j))) M)
    M
  let M := forLoop self.msub
    (fun i M => forLoop i
      (fun j M =>
        let M := Function.update M (i + 2 * self.msub * (j + self.msub))
          (self.L (i + self.msub_max * j))
        Function.update M (j + self.msub + 2 * self.msub * i)
          (self.L (i + self.msub_max * j))) M)
    M
  let M := forLoop self.msub
    (fun i M => Function.update M (self.msub + i + 2 * self.msub * (self.msub + i))
      (-(self.D i)))
    M
  { self with M := M }

/-- LBFGS::update, "Copy over the new ordering for the Z-vectors" and the diagonal d0. -/
def setZ (self : LBFGS) : LBFGS :=
  { self with
    Z := forLoop self.msub
      (fun i Z => Function.update (Function.update Z i (self.S i)) (i + self.msub) (self.Y i))
      self.Z
    d0 := forLoop self.msub
      (fun i d0 => Function.update (Function.update d0 i self.b0) (i + self.msub) 1.0)
      self.d0 }

/-- LBFGS::update, "Copy out the M matrix for factorization" and "Factor the M matrix". -/
def factor (self : LBFGS) : LBFGS :=
  let M_factor := memcpy self.M_factor self.M (4 * self.msub * self.msub)
  let res := LAPACKdgetrf (2 * self.msub) M_factor self.mfpiv
  { self with M_factor := res.1, mfpiv := res.2 }

/-- LBFGS::update: returns the model and the update type (0 = normal, 1 = damped). -/
def update (self : LBFGS) (s y : ParOptVec) : Option (LBFGS × Nat) :=
  (self.curvature s y).map (fun c =>
    ((((c.1.setNewValues s c.2.2).updateSmall).setM).setZ.factor, c.2.1))

/-- A sequence of calls update(s, y), one per pair of the list, in order. -/
def updates (self : LBFGS) : List (ParOptVec × ParOptVec) → Option LBFGS
  | [] => some self
  | p :: rest => (self.update p.1 p.2).bind (fun res => updates res.1 rest)

end LBFGS

/-! ## LSR1: the compact limited-memory SR1 model -/

/-- The members of class LSR1.  Here the vectors Z[i] are allocated by the model itself. -/
structure LSR1 where
  nvars : List Nat
  msub_max : Nat
  msub : Nat
  b0 : ParOptScalar
  S : Nat → ParOptVec
  Y : Nat → ParOptVec
  Z : Nat → ParOptVec
  r : ParOptVec
  M : Nat → ParOptScalar
  d0 : Nat → ParOptScalar
  M_factor : Nat → ParOptScalar
  mfpiv : Nat → Nat
  rz : Nat → ParOptScalar
  D : Nat → ParOptScalar
  L : Nat → ParOptScalar
  B : Nat → ParOptScalar

namespace LSR1

/-- LSR1::LSR1 -/
def new (nvars : List Nat) (msub_max : Nat) : LSR1 :=
  { nvars := nvars
    msub_max := msub_max
    msub := 0
    b0 := 1
    S := fun i => if i < msub_max then ParOptVec.new nvars else []
    Y := fun i => if i < msub_max then ParOptVec.new nvars else []
    Z := fun i => if i < msub_max then ParOptVec.new nvars else []
    r := ParOptVec.new nvars
    M := fun _ => 0
    d0 := fun _ => 0
    M_factor := fun _ => 0
    mfpiv := fun _ => 0
    rz := fun _ => 0
    D := fun _ => 0
    L := fun _ => 0
    B := fun _ => 0 }

/-- LSR1::getMaxLimitedMemorySize -/
def getMaxLimitedMemorySize (self : LSR1) : Nat := self.msub_max

/-- LSR1::reset -/
def reset (self : LSR1) : LSR1 :=
  { self with
    msub := 0
    b0 := 1
    d0 := memset0 self.d0 self.msub_max
    rz := memset0 self.rz self.msub_max
    M := memset0 self.M (self.msub_max * self.msub_max)
    M_factor := memset0 self.M_factor (self.msub_max * self.msub_max)
    D := memset0 self.D self.msub_max
    L := memset0 self.L (self.msub_max * self.msub_max)
    B := memset0 self.B (self.msub_max * self.msub_max) }

/-- LSR1::mult: y <- b0*x - Z*M^{-1}*Z^T*x.  Returns the model (its scratch array rz is
overwritten) and the new content of y. -/
def mult (self : LSR1) (x y : ParOptVec) : Option (LSR1 × ParOptVec) :=
  let y := (y.copyValues x).scale self.b0
  if 0 < self.msub then
    let rz := x.mdot self.Z self.msub self.rz
    (LAPACKdgetrs self.msub self.M_factor self.mfpiv rz).map (fun rz =>
      let y := forLoop self.msub (fun i y => y.axpy (-(rz i)) (self.Z i)) y
      ({ self with rz := rz }, y))
  else some (self, y)

/-- LSR1::multAdd: y <- y + alpha*(b0*x - Z*M^{-1}*Z^T*x). -/
def multAdd (self : LSR1) (alpha : ParOptScalar) (x y : ParOptVec) :
    Option (LSR1 × ParOptVec) :=
  let y := y.axpy (self.b0 * alpha) x
  if 0 < self.msub then
    let rz := x.mdot self.Z self.msub self.rz
    (LAPACKdgetrs self.msub self.M_factor self.mfpiv rz).map (fun rz =>
      let y := forLoop self.msub (fun i y => y.axpy (-alpha * rz i) (self.Z i)) y
      ({ self with rz := rz }, y))
  else some (self, y)

/-- LSR1::getCompactMat: the rank msub together with b0, d0, M and Z. -/
def getCompactMat (self : LSR1) :
    Nat × ParOptScalar × (Nat → ParOptScalar) × (Nat → ParOptScalar) × (Nat → ParOptVec) :=
  (self.msub, self.b0, self.d0, self.M, self.Z)

/-- LSR1::update, "Set the diagonal components on the first time through". -/
def firstScale (self : LSR1) (gamma alpha : ParOptScalar) : Option LSR1 :=
  if self.msub = 0 then (sdiv gamma alpha).map (fun q => { self with b0 := q })
  else some self

/-- LSR1::update, "Set up the new values". -/
def setNewValues (self : LSR1) (s y : ParOptVec) : LSR1 :=
  if self.msub < self.msub_max then
    { self with
      S := Function.update self.S self.msub ((self.S self.msub).copyValues s)
      Y := Function.update self.Y self.msub ((self.Y self.msub).copyValues y)
      msub := self.msub + 1 }
  else
    let S := Function.update self.S 0 ((self.S 0).copyValues s)
    let Y := Function.update self.Y 0 ((self.Y 0).copyValues y)
    let stemp := S 0
    let ytemp := Y 0
    let S := shiftDown (self.msub - 1) S
    let Y := shiftDown (self.msub - 1) Y
    { self with
      S := Function.update S (self.msub - 1) stemp
      Y := Function.update Y (self.msub - 1) ytemp
      D := shiftDown (self.msub - 1) self.D
      B := shiftSquare (self.msub - 1) self.msub_max self.B
      L := shiftLower (self.msub - 1) self.msub_max self.L }

/-- LSR1::update, "Update the matrices required for the limited-memory update". -/
def updateSmall (self : LSR1) : LSR1 :=
  { self with
    B := forLoop self.msub
      (fun i B =>
        let B := Function.update B (self.msub - 1 + i * self.msub_max)
          ((self.S (self.msub - 1)).dot (self.S i))
        Function.update B (i + (self.msub - 1) * self.msub_max)
          (B (self.msub - 1 + i * self.msub_max)))
      self.B
    D := Function.update self.D (self.msub - 1)
      ((self.S (self.msub - 1)).dot (self.Y (self.msub - 1)))
    L := forLoop (self.msub - 1)
      (fun i L => Function.update L (self.msub - 1 + i * self.msub_max)
        ((self.S (self.msub - 1)).dot (self.Y i)))
      self.L }

/-- LSR1::update, "Set the values into the M-matrix": the three loops add b0*B and subtract
L, its transpose and D. -/
def setM (self : LSR1) : LSR1 :=
  let M := memset0 self.M (self.msub * self.msub)
  let M := forLoop self.msub
    (fun i M => forLoop self.msub
      (fun j M => Function.update M (i + self.msub * j)
        (M (i + self.msub * j) + self.b0 * self.B (i + self.msub_max * j))) M)
    M
  let M := forLoop self.msub
    (fun i M => forLoop i
      (fun j M =>
        let M := Function.update M (i + self.msub * j)
          (M (i + self.msub * j) - self.L (i + self.msub_max * j))
        Function.update M (j + self.msub * i)
          (M (j + self.msub * i) - self.L (i + self.msub_max * j))) M)
    M
  let M := forLoop self.msub
    (fun i M => Function.update M (i * (self.msub + 1)) (M (i * (self.msub + 1)) - self.D i))
    M
  { self with M := M }

/-- LSR1::update, "Set the new values of the Z-vectors": Z[i] <- Y[i] - b0*S[i], d0[i] <- 1. -/
def setZ (self : LSR1) : LSR1 :=
  { self with
    Z := forLoop self.msub
      (fun i Z => Function.update Z i (((Z i).copyValues (self.Y i)).axpy (-self.b0) (self.S i)))
      self.Z
    d0 := forLoop self.msub (fun i d0 => Function.update d0 i 1.0) self.d0 }

/-- LSR1::update, "Copy out the M matrix for factorization" and "Factor the M matrix". -/
def factor (self : LSR1) : LSR1 :=
  let M_factor := memcpy self.M_factor self.M (self.msub * self.msub)
  let res := LAPACKdgetrf self.msub M_factor self.mfpiv
  { self with M_factor := res.1, mfpiv := res.2 }

/-- LSR1::update: returns the model and the update type.  The update type is the local
`update_type = 0`, which no statement assigns again, so it does not depend on the scalar
arithmetic; the model has no value when the first scaling divides by zero. -/
def update (self : LSR1) (s y : ParOptVec) : Option LSR1 × Nat :=
  let update_type := 0
  let gamma := y.dot y
  let alpha := y.dot s
  ((self.firstScale gamma alpha).map (fun self =>
    ((((self.setNewValues s y).updateSmall).setM).setZ).factor), update_type)

/-- A sequence of calls update(s, y), one per pair of the list, in order. -/
def updates (self : LSR1) : List (ParOptVec × ParOptVec) → Option LSR1
  | [] => some self
  | p :: rest => (self.update p.1 p.2).1.bind (fun res => updates res rest)

end LSR1

/-! ## Notions used to state the results -/

/-- The sum of f r k over all entries (rank r, local index k) of a vector with the local
sizes sh. -/
def dsum (sh : List Nat) (f : Nat → Nat → ParOptScalar) : ParOptScalar :=
  sumTo sh.length (fun r => sumTo (sh.getD r 0) (f r))

/-- The row permutation accumulated by the first t row interchanges of a factorisation
with the pivot rows piv. -/
def permOf (piv : Nat → Nat) : Nat → Nat → Nat
  | 0, i => i
  | t + 1, i => permOf piv t (swapIdx t (piv t) i)

/-- The unit lower triangular factor held below the diagonal of a. -/
def unitLowerOf (a : Nat → Nat → ParOptScalar) : Nat → Nat → ParOptScalar :=
  fun i s => if s < i then a i s else if s = i then 1 else 0

/-- The upper triangular factor held on and above the diagonal of a. -/
def upperOf (a : Nat → Nat → ParOptScalar) : Nat → Nat → ParOptScalar :=
  fun s k => if s ≤ k then a s k else 0

/-- The n x n matrix a is nonsingular: only the zero vector is mapped to zero. -/
def Nonsingular (n : Nat) (a : Nat → Nat → ParOptScalar) : Prop :=
  ∀ v : Nat → ParOptScalar,
    (∀ i, i < n → sumTo n (fun k => a i k * v k) = 0) → ∀ k, k < n → v k = 0

/-- The vectors allocated by the constructor of the model have the local sizes `nvars`. -/
def LBFGS.Alloc (self : LBFGS) : Prop :=
  (∀ i, i < self.msub_max → (self.S i).shape = self.nvars ∧ (self.Y i).shape = self.nvars) ∧
    self.r.shape = self.nvars

/-- The small arrays agree with the columns stored: B = S^T S, D is the diagonal of S^T Y
and L its strictly lower triangle. -/
def LBFGS.Consistent (self : LBFGS) : Prop :=
  ∀ i j, i < self.msub → j < self.msub →
    self.B (i + j * self.msub_max) = (self.S i).dot (self.S j) ∧
    self.D i = (self.S i).dot (self.Y i) ∧
    (j < i → self.L (i + j * self.msub_max) = (self.S i).dot (self.Y j))

/-- What holds of a model between two calls: at most msub_max pairs are stored, the
vectors have the sizes they were allocated with, and the small arrays agree with the
columns. -/
def LBFGS.Inv (self : LBFGS) : Prop :=
  self.msub ≤ self.msub_max ∧ 1 ≤ self.msub_max ∧ self.Alloc ∧ self.Consistent

/-- What LBFGS::update leaves besides the small arrays: the matrix M assembled from b0, B, L
and D, the columns Z with the diagonal d0, and the factors of the leading 2*msub x 2*msub
block of M. -/
def LBFGS.Assembled (self : LBFGS) : Prop :=
  (∀ i j, i < self.msub → j < self.msub →
    self.M (i + 2 * self.msub * j) = self.b0 * self.B (i + self.msub_max * j) ∧
    self.M (i + 2 * self.msub * (j + self.msub)) =
      (if j < i then self.L (i + self.msub_max * j) else 0) ∧
    self.M (j + self.msub + 2 * self.msub * i) =
      (if j < i then self.L (i + self.msub_max * j) else 0) ∧
    self.M (self.msub + i + 2 * self.msub * (self.msub + j)) =
      (if i = j then -(self.D i) else 0)) ∧
  (∀ i, i < self.msub →
    self.Z i = self.S i ∧ self.Z (i + self.msub) = self.Y i ∧
    self.d0 i = self.b0 ∧ self.d0 (i + self.msub) = 1) ∧
  (∃ F piv, self.M_factor = (LAPACKdgetrf (2 * self.msub) F piv).1 ∧
    self.mfpiv = (LAPACKdgetrf (2 * self.msub) F piv).2 ∧
    ∀ k, k < 4 * self.msub * self.msub → F k = self.M k)

/-- A model whose pairs all have positive curvature s.y, with a positive scaling b0 and
assembled arrays once it holds a pair. -/
def LBFGS.PosCurv (self : LBFGS) : Prop :=
  self.Inv ∧ (0 < self.msub → self.Assembled ∧ 0 < self.b0) ∧
    ∀ i, i < self.msub → 0 < (self.S i).dot (self.Y i)

/-- The 2*msub x 2*msub matrix that the model holds column-major in its array M. -/
def LBFGS.matM (self : LBFGS) :
    Matrix (Fin (2 * self.msub)) (Fin (2 * self.msub)) ParOptScalar :=
  Matrix.of (fun i j => self.M (i.val + 2 * self.msub * j.val))

/-- The members of an LSR1 model as an LBFGS record.  The two classes declare the same
members, and the code of "Set up the new values" and of "Update the matrices required for
the limited-memory update" is the same in both. -/
def LSR1.toLBFGS (self : LSR1) : LBFGS :=
  { nvars := self.nvars
    msub_max := self.msub_max
    msub := self.msub
    b0 := self.b0
    S := self.S
    Y := self.Y
    Z := self.Z
    r := self.r
    M := self.M
    d0 := self.d0
    M_factor := self.M_factor
    mfpiv := self.mfpiv
    rz := self.rz
    D := self.D
    L := self.L
    B := self.B }

/-- The vectors allocated by the constructor of the LSR1 model have the local sizes
`nvars`. -/
def LSR1.Alloc (self : LSR1) : Prop :=
  self.toLBFGS.Alloc ∧ ∀ i, i < self.msub_max → (self.Z i).shape = self.nvars

/-- The small arrays of the LSR1 model agree with the columns stored. -/
def LSR1.Consistent (self : LSR1) : Prop :=
  ∀ i j, i < self.msub → j < self.msub →
    self.B (i + j * self.msub_max) = (self.S i).dot (self.S j) ∧
    self.D i = (self.S i).dot (self.Y i) ∧
    (j < i → self.L (i + j * self.msub_max) = (self.S i).dot (self.Y j))

/-- What holds of an LSR1 model between two calls. -/
def LSR1.Inv (self : LSR1) : Prop :=
  self.msub ≤ self.msub_max ∧ 1 ≤ self.msub_max ∧ self.Alloc ∧ self.Consistent

/-- What LSR1::update leaves besides the small arrays: the matrix M assembled from b0, B, L
and D, the vectors Z with the diagonal d0, and the factors of the leading msub x msub block
of M. -/
def LSR1.Assembled (self : LSR1) : Prop :=
  (∀ i j, i < self.msub → j < self.msub →
    self.M (i + self.msub * j) = self.b0 * self.B (i + self.msub_max * j) -
      (if j < i then self.L (i + self.msub_max * j)
        else if i < j then self.L (j + self.msub_max * i) else self.D i)) ∧
  (∀ i, i < self.msub →
    self.Z i = (self.Y i).axpy (-self.b0) (self.S i) ∧ self.d0 i = 1) ∧
  (∃ F piv, self.M_factor = (LAPACKdgetrf self.msub F piv).1 ∧
    self.mfpiv = (LAPACKdgetrf self.msub F piv).2 ∧
    ∀ k, k < self.msub * self.msub → F k = self.M k)

/-- The msub x msub matrix that the LSR1 model holds column-major in its array M. -/
def LSR1.matM (self : LSR1) : Matrix (Fin self.msub) (Fin self.msub) ParOptScalar :=
  Matrix.of (fun i j => self.M (i.val + self.msub * j.val))

/-- The product of the dense matrix B with the vector x.  The rows and the columns of B
are indexed by the entries (rank, local index) of the vectors with the local sizes sh. -/
def denseMul (sh : List Nat) (B : Nat → Nat → Nat → Nat → ParOptScalar) (x : ParOptVec) :
    Nat → Nat → ParOptScalar :=
  fun r k => dsum sh (fun r' k' => B r k r' k' * x.get r' k')

/-- One step of the SR1 rank-one recursion of the specification,
B <- B + (y - B s)(y - B s)^T / ((y - B s)^T s). -/
def sr1Step (sh : List Nat) (B : Nat → Nat → Nat → Nat → ParOptScalar) (s y : ParOptVec) :
    Nat → Nat → Nat → Nat → ParOptScalar :=
  fun r k r' k' =>
    B r k r' k' +
      (y.get r k - denseMul sh B s r k) * (y.get r' k' - denseMul sh B s r' k') /
        dsum sh (fun a b => (y.get a b - denseMul sh B s a b) * s.get a b)

/-- The explicit dense SR1 Hessian of the specification: the rank-one recursion applied to
B_0 = b0*I for the pairs (s, y) of the list, in order. -/
def sr1Dense (sh : List Nat) (b0 : ParOptScalar) (ps : List (ParOptVec × ParOptVec)) :
    Nat → Nat → Nat → Nat → ParOptScalar :=
  ps.foldl (fun B p => sr1Step sh B p.1 p.2)
    (fun r k r' k' => if r = r' ∧ k = k' then b0 else 0)

/-- The matrix (D + L + L^T) - b0*S^T S of the specification for the pairs (s, y) of the
list: D is the diagonal and L the strict lower triangle of S^T Y. -/
def sr1Middle (b0 : ParOptScalar) (ps : List (ParOptVec × ParOptVec)) :
    Matrix (Fin ps.length) (Fin ps.length) ParOptScalar :=
  Matrix.of (fun i j =>
    (if j < i then (ps.get i).1.dot (ps.get j).2
      else if i < j then (ps.get j).1.dot (ps.get i).2
      else (ps.get i).1.dot (ps.get i).2) - b0 * (ps.get i).1.dot (ps.get j).1)

/-- The entries of the vector y - b0*s of a pair (s, y). -/
def sr1Col (b0 : ParOptScalar) (p : ParOptVec × ParOptVec) : Nat → Nat → ParOptScalar :=
  fun r k => p.2.get r k - b0 * p.1.get r k

/-- The product (y - b0*s).s of a pair (s, y). -/
def sr1Den (b0 : ParOptScalar) (p : ParOptVec × ParOptVec) : ParOptScalar :=
  p.2.dot p.1 - b0 * p.1.dot p.1

/-- The pairs (s, new_vec) of a sequence of calls update(s, y): the supplied step and the
vector that the call stores as gradient difference, y itself or its damped replacement. -/
def LBFGS.storedPairs (self : LBFGS) :
    List (ParOptVec × ParOptVec) → Option (List (ParOptVec × ParOptVec))
  | [] => some []
  | p :: rest =>
    (self.curvature p.1 p.2).bind (fun c =>
      (self.update p.1 p.2).bind (fun res =>
        (storedPairs res.1 rest).map (fun h => (p.1, c.2.2) :: h)))

end ParOpt

namespace ParOpt

/-! ## ParOptVec::writeToFile -/

/-- INT_MAX, the largest value of the type int (32 bits). -/
def INT_MAX : Int := 2147483647

/-- The value that an int holds after an arithmetic operation whose exact result is v:
v itself when it lies between -2^31 and 2^31 - 1, the two's complement wrap-around
otherwise. -/
def int32 (v : Int) : Int := (v + 2147483648) % 4294967296 - 2147483648

/-- The content of a file opened with MPI_File_open, in units of one ParOptScalar under
the view set by MPI_File_set_view: the value at each offset, none where nothing was
written. -/
abbrev MPIFile := Nat → Option ParOptScalar

/-- MPI_File_write_at_all on one rank: count scalars of the local array x go to the
offsets offset, ..., offset + count - 1.  A negative offset is rejected by MPI with an
error code, which the caller does not look at, and nothing is written. -/
def MPI_File_write_at (fp : MPIFile) (offset : Int) (x : List ParOptScalar) (count : Nat) :
    MPIFile :=
  if offset < 0 then fp
  else fun k =>
    if offset.toNat ≤ k ∧ k < offset.toNat + count then some (x.getD (k - offset.toNat) 0)
    else fp k

namespace ParOptVec

/-- The array `range` of ParOptVec::writeToFile, an array of int: range[0] = 0,
MPI_Allgather stores the local size of rank r at range[r+1], and the loop adds range[i] to
range[i+1] for i = 0, ..., mpisize-1, in the arithmetic of int. -/
def writeRange (self : ParOptVec) : Nat → Int :=
  let mpisize := self.length
  let gathered : Nat → Int := fun i => if i = 0 then 0 else (self.size (i - 1) : Int)
  forLoop mpisize
    (fun i range => Function.update range (i + 1) (int32 (range (i + 1) + range i)))
    gathered

/-- ParOptVec::writeToFile.  The argument fp is the handle that MPI_File_open leaves: none
for NULL, when the file could not be opened.  With a handle, every rank writes its local
array at the offset range[rank].  Yields the file and the value `fail` that is returned. -/
def writeToFile (self : ParOptVec) (fp : Option MPIFile) : Option MPIFile × Nat :=
  let mpisize := self.length
  let range := self.writeRange
  match fp with
  | some f =>
    (some (forLoop mpisize
      (fun rank f => MPI_File_write_at f (range rank) (self.loc rank) (self.size rank)) f), 0)
  | none => (none, 1)

end ParOptVec

end ParOpt

namespace ParOpt

/-! ## ParOpt::computeMaxStep -/

namespace KKTPoint

end KKTPoint

end ParOpt

namespace ParOpt

/-! ## examples/cholesky/cholesky.cpp: build_matrix

The variables of type int (nx, size, nnz, the loop counters, the node and variable
numbers, the entries of colp, rows and iperm) are integers of 32 bits.  An int expression
is evaluated exactly and brought into the range of int once, by `int32`; as `int32` is
compatible with sums and products this is the value that wrapping after every single
operation gives.  The loop counters never leave the range.  Arrays of int are indexed by
an int: they are total maps from the index to the stored value.
-/

/-- The local array `kmat` of build_matrix. -/
def kmat (ii jj : Nat) : ParOptScalar :=
  ([[4, 2, 2, 1], [2, 4, 1, 2], [2, 1, 4, 2], [1, 2, 2, 4]].getD ii []).getD jj 0

/-- The local array `ke` of build_matrix after its two initialisation loops. -/
def ke : Nat → ParOptScalar :=
  forLoop 2 (fun ki ke =>
    forLoop 4 (fun ii ke =>
      forLoop 4 (fun jj ke =>
        Function.update ke (8 * (2 * ii + ki) + 2 * jj + ki) (kmat ii jj / 9)) ke) ke)
    (forLoop 64 (fun k ke => Function.update ke k 0) (fun _ => 0))

/-- The local array `nodes` of the element (i, j): entry ii of
{i + j*(nx+1), i+1 + j*(nx+1), i + (j+1)*(nx+1), i+1 + (j+1)*(nx+1)}. -/
def nodes (nx i j ii : Nat) : Int :=
  [int32 ((i : Int) + j * ((nx : Int) + 1)), int32 ((i : Int) + 1 + j * ((nx : Int) + 1)),
    int32 ((i : Int) + ((j : Int) + 1) * ((nx : Int) + 1)),
    int32 ((i : Int) + 1 + ((j : Int) + 1) * ((nx : Int) + 1))].getD ii 0

/-- The statements `int ivar = 2 * nodes[ii] + k; if (iperm) { ivar = iperm[ivar]; }`. -/
def ivarOf (iperm : Option (Int → Int)) (node : Int) (k : Nat) : Int :=
  let ivar := int32 (2 * node + k)
  match iperm with
  | some p => p ivar
  | none => ivar

/-- The first pass of build_matrix: every element adds 8 to colp[ivar] for each of its
eight variables. -/
def countPass (nx : Nat) (iperm : Option (Int → Int)) (colp : Int → Int) : Int → Int :=
  forLoop nx (fun i colp =>
    forLoop nx (fun j colp =>
      forLoop 2 (fun k colp =>
        forLoop 4 (fun ii colp =>
          let ivar := ivarOf iperm (nodes nx i j ii) k
          Function.update colp ivar (int32 (colp ivar + 8))) colp) colp) colp) colp

/-- The second pass of build_matrix: colp[i] becomes the sum of the counts before i and
nnz their total; then colp[size] = nnz.  Yields colp and nnz. -/
def scanPass (size : Int) (colp : Int → Int) : (Int → Int) × Int :=
  let res := forLoop size.toNat
    (fun i (st : (Int → Int) × Int) =>
      let tmp := st.1 i
      (Function.update st.1 i st.2, int32 (st.2 + tmp)))
    (colp, 0)
  (Function.update res.1 size res.2, res.2)

/-- The body of the innermost loop of the third pass of build_matrix: the row index jvar
and the value of the element matrix are stored at the place colp[ivar] of the column of
ivar, which is then advanced.  The state is (colp, rows, kvals). -/
def fillEntry (nx : Nat) (iperm : Option (Int → Int)) (i j ki kj ii jj : Nat)
    (st : (Int → Int) × (Int → Int) × (Int → ParOptScalar)) :
    (Int → Int) × (Int → Int) × (Int → ParOptScalar) :=
  let ivar := ivarOf iperm (nodes nx i j ii) ki
  let jvar := ivarOf iperm (nodes nx i j jj) kj
  let rows := Function.update st.2.1 (st.1 ivar) jvar
  let kvals := Function.update st.2.2 (st.1 ivar) (ke (8 * (2 * ii + ki) + (2 * jj + kj)))
  (Function.update st.1 ivar (int32 (st.1 ivar + 1)), rows, kvals)

/-- The third pass of build_matrix: every element stores its 64 entries. -/
def fillPass (nx : Nat) (iperm : Option (Int → Int))
    (st : (Int → Int) × (Int → Int) × (Int → ParOptScalar)) :
    (Int → Int) × (Int → Int) × (Int → ParOptScalar) :=
  forLoop nx (fun i st =>
    forLoop nx (fun j st =>
      forLoop 2 (fun ki st =>
        forLoop 2 (fun kj st =>
          forLoop 4 (fun ii st =>
            forLoop 4 (fun jj st => fillEntry nx iperm i j ki kj ii jj st)
            st) st) st) st) st) st

/-- The last loop of build_matrix, `for (i = size-1; i >= 0; i--) colp[i+1] = colp[i]`,
and the statement `colp[0] = 0`. -/
def shiftPass (size : Int) (colp : Int → Int) : Int → Int :=
  Function.update
    (forDown size.toNat (fun i colp => Function.update colp ((i : Int) + 1) (colp i)) colp) 0 0

/-- What build_matrix hands back through its pointer arguments. -/
structure SparseMatrix where
  size : Int
  colp : Int → Int
  rows : Int → Int
  kvals : Int → ParOptScalar

/-- The column starts of build_matrix as they stand before the fill pass: colp after the
first two passes. -/
def columnStarts (nx : Nat) (iperm : Option (Int → Int)) : Int → Int :=
  let size := int32 (2 * ((nx : Int) + 1) * ((nx : Int) + 1))
  (scanPass size (countPass nx iperm (fun _ => 0))).1

/-- The function build_matrix.  The arguments rows0 and kvals0 are what the arrays
obtained from `new int[nnz]` and `new ParOptScalar[nnz]` hold before anything is stored in
them; iperm is none for the null pointer. -/
def build_matrix (nx : Nat) (iperm : Option (Int → Int)) (rows0 : Int → Int)
    (kvals0 : Int → ParOptScalar) : SparseMatrix :=
  let size := int32 (2 * ((nx : Int) + 1) * ((nx : Int) + 1))
  let colp := columnStarts nx iperm
  let res := fillPass nx iperm (colp, rows0, kvals0)
  { size := size
    colp := shiftPass size res.1
    rows := res.2.1
    kvals := res.2.2 }

/-- The argument iperm of build_matrix is absent or a permutation of 0, ..., size-1: it
maps these numbers to these numbers, and different ones to different ones. -/
def IsPerm (size : Nat) (iperm : Option (Int → Int)) : Prop :=
  match iperm with
  | none => True
  | some p =>
    (∀ u : Int, 0 ≤ u → u < size → 0 ≤ p u ∧ p u < size) ∧
    ∀ u w : Int, 0 ≤ u → u < size → 0 ≤ w → w < size → p u = p w → u = w

/-- What holds of the state (colp, rows, kvals) during the third pass of build_matrix when
the column of each variable v started at S[v] and has advanced F[v] times: colp[v] is
S[v] + F[v], and the F[v] places passed hold row indices between 0 and size-1; the places
are taken in the arithmetic of int. -/
def FillInv (size : Int) (S : Int → Int) (F : Int → Nat)
    (st : (Int → Int) × (Int → Int) × (Int → ParOptScalar)) : Prop :=
  (∀ v, st.1 v = int32 (S v + (F v : Int))) ∧
  ∀ v (f : Nat), f < F v →
    0 ≤ st.2.1 (int32 (S v + (f : Int))) ∧ st.2.1 (int32 (S v + (f : Int))) < size

/-- The number of node ii of the element (i, j) of the grid, as a natural number. -/
def gridNode (nx i j ii : Nat) : Nat := (i + ii % 2) + (j + ii / 2) * (nx + 1)

/-- The number of elements of the nx x nx grid that are incident to the node n, that is
that have n among their four nodes. -/
def incident (nx n : Nat) : Nat :=
  ∑ i in Finset.range nx, ∑ j in Finset.range nx,
    if n ∈ [gridNode nx i j 0, gridNode nx i j 1, gridNode nx i j 2, gridNode nx i j 3]
    then 1 else 0

/-- The number of times the first pass of build_matrix meets the variable v. -/
def visits (nx : Nat) (iperm : Option (Int → Int)) (v : Int) : Nat :=
  ∑ i in Finset.range nx, ∑ j in Finset.range nx, ∑ k in Finset.range 2,
    ∑ ii in Finset.range 4, if ivarOf iperm (nodes nx i j ii) k = v then 1 else 0

end ParOpt

/-! # Auxiliary results -/

namespace ParOpt

theorem sumTo_eq_sum (n : Nat) (f : Nat → ParOptScalar) :
    sumTo n f = Finset.sum (Finset.range n) f := by
  induction n with
  | zero => simp [sumTo]
  | succ n ih => simp [sumTo, Finset.sum_range_succ, ih]

theorem sumTo_congr (n : Nat) (f g : Nat → ParOptScalar) (h : ∀ i, i < n → f i = g i) :
    sumTo n f = sumTo n g := by
  rw [sumTo_eq_sum, sumTo_eq_sum]
  exact Finset.sum_congr rfl (fun i hi => h i (Finset.mem_range.mp hi))

theorem sumTo_add (n : Nat) (f g : Nat → ParOptScalar) :
    sumTo n (fun i => f i + g i) = sumTo n f + sumTo n g := by
  simp [sumTo_eq_sum, Finset.sum_add_distrib]

theorem sumTo_mul_left (n : Nat) (c : ParOptScalar) (f : Nat → ParOptScalar) :
    sumTo n (fun i => c * f i) = c * sumTo n f := by
  simp [sumTo_eq_sum, Finset.mul_sum]

theorem sumTo_zero (n : Nat) : sumTo n (fun _ => 0) = 0 := by
  simp [sumTo_eq_sum]

theorem getD_map_range {α : Type} (n : Nat) (f : Nat → α) (i : Nat) (d : α) :
    ((List.range n).map f).getD i d = if i < n then f i else d := by
  by_cases h : i < n
  · simp [h, List.getD_eq_getElem?_getD, List.getElem?_map, List.getElem?_range h]
  · simp [h, List.getD_eq_getElem?_getD, List.getElem?_map]
    have : (List.range n)[i]? = none := by
      apply List.getElem?_eq_none; simp; omega
    simp [this]

namespace ParOptVec

theorem size_eq_shape (v : ParOptVec) (r : Nat) : v.size r = v.shape.getD r 0 := by
  unfold size loc shape
  by_cases h : r < v.length
  · simp [List.getD_eq_getElem?_getD, List.getElem?_map, List.getElem?_eq_getElem h]
  · have h1 : v[r]? = none := List.getElem?_eq_none (by omega)
    simp [List.getD_eq_getElem?_getD, List.getElem?_map, h1]

theorem length_eq_shape (v : ParOptVec) : v.length = v.shape.length := by
  simp [shape]

theorem size_of_ge (v : ParOptVec) (r : Nat) (h : v.length ≤ r) : v.size r = 0 := by
  unfold size loc
  have h1 : v[r]? = none := List.getElem?_eq_none h
  simp [List.getD_eq_getElem?_getD, h1]

theorem get_of_not (v : ParOptVec) (r k : Nat) (h : ¬ (r < v.length ∧ k < v.size r)) :
    v.get r k = 0 := by
  unfold get
  by_cases hr : r < v.length
  · have hk : ¬ k < v.size r := fun hk => h ⟨hr, hk⟩
    unfold size at hk
    have : (v.loc r)[k]? = none := List.getElem?_eq_none (by omega)
    simp [List.getD_eq_getElem?_getD, this]
  · have : v.loc r = [] := by
      unfold loc
      have h1 : v[r]? = none := List.getElem?_eq_none (by omega)
      simp [List.getD_eq_getElem?_getD, h1]
    simp [this]

/-- Two vectors with the same local sizes and the same entries are equal. -/
theorem ext_get (v w : ParOptVec) (hs : v.shape = w.shape)
    (h : ∀ r k, r < v.length → k < v.size r → v.get r k = w.get r k) : v = w := by
  have hl : v.length = w.length := by rw [length_eq_shape, length_eq_shape, hs]
  apply List.ext_getElem hl
  intro r h1 h2
  have hsz : v.size r = w.size r := by rw [size_eq_shape, size_eq_shape, hs]
  have e1 : v.loc r = v[r] := by
    unfold loc; simp [List.getD_eq_getElem?_getD, List.getElem?_eq_getElem h1]
  have e2 : w.loc r = w[r] := by
    unfold loc; simp [List.getD_eq_getElem?_getD, List.getElem?_eq_getElem h2]
  have hlen : v[r].length = w[r].length := by
    have := hsz; unfold size at this; rw [e1, e2] at this; exact this
  apply List.ext_getElem hlen
  intro k k1 k2
  have hk : k < v.size r := by unfold size; rw [e1]; exact k1
  have := h r k h1 hk
  unfold get at this
  rw [e1, e2] at this
  simpa [List.getD_eq_getElem?_getD, List.getElem?_eq_getElem k1, List.getElem?_eq_getElem k2]
    using this

theorem shape_copyValues (self vec : ParOptVec) : (self.copyValues vec).shape = self.shape := by
  unfold copyValues shape
  apply List.ext_getElem (by simp)
  intro r h1 h2
  simp at h1
  simp [size, loc, List.getD_eq_getElem?_getD, List.getElem?_eq_getElem h1]

theorem shape_scale (self : ParOptVec) (a : ParOptScalar) : (self.scale a).shape = self.shape := by
  unfold scale shape BLASdscal
  apply List.ext_getElem (by simp)
  intro r h1 h2
  simp at h1
  simp [size, loc, List.getD_eq_getElem?_getD, List.getElem?_eq_getElem h1]

theorem shape_axpy (self : ParOptVec) (a : ParOptScalar) (vec : ParOptVec) :
    (self.axpy a vec).shape = self.shape := by
  unfold axpy shape BLASdaxpy
  apply List.ext_getElem (by simp)
  intro r h1 h2
  simp at h1
  simp [size, loc, List.getD_eq_getElem?_getD, List.getElem?_eq_getElem h1]

theorem get_copyValues (self vec : ParOptVec) (r k : Nat) :
    (self.copyValues vec).get r k =
      if r < self.length ∧ k < self.size r then vec.get r k else 0 := by
  unfold copyValues get loc
  rw [getD_map_range]
  by_cases hr : r < self.length
  · simp only [hr, if_true, true_and]
    rw [getD_map_range]
  · simp [hr]

theorem get_scale (self : ParOptVec) (a : ParOptScalar) (r k : Nat) :
    (self.scale a).get r k = a * self.get r k := by
  by_cases h : r < self.length ∧ k < self.size r
  · unfold scale get loc BLASdscal
    rw [getD_map_range]
    simp only [h.1, if_true]
    rw [getD_map_range]
    simp [h.2]
  · rw [get_of_not self r k h, get_of_not]
    · simp
    · have := shape_scale self a
      rw [length_eq_shape, size_eq_shape, this, ← length_eq_shape, ← size_eq_shape]
      exact h

theorem get_axpy (self : ParOptVec) (a : ParOptScalar) (vec : ParOptVec) (r k : Nat) :
    (self.axpy a vec).get r k =
      if r < self.length ∧ k < self.size r then self.get r k + a * vec.get r k else 0 := by
  unfold axpy get loc BLASdaxpy
  rw [getD_map_range]
  by_cases hr : r < self.length
  · simp only [hr, if_true, true_and]
    rw [getD_map_range]
  · simp [hr]

end ParOptVec
end ParOpt

namespace ParOpt

theorem dsum_congr (sh : List Nat) (f g : Nat → Nat → ParOptScalar)
    (h : ∀ r k, r < sh.length → k < sh.getD r 0 → f r k = g r k) :
    dsum sh f = dsum sh g := by
  unfold dsum
  apply sumTo_congr
  intro r hr
  apply sumTo_congr
  intro k hk
  exact h r k hr hk

theorem dsum_add (sh : List Nat) (f g : Nat → Nat → ParOptScalar) :
    dsum sh (fun r k => f r k + g r k) = dsum sh f + dsum sh g := by
  unfold dsum
  rw [← sumTo_add]
  apply sumTo_congr
  intro r _
  rw [sumTo_add]

theorem dsum_sub (sh : List Nat) (f g : Nat → Nat → ParOptScalar) :
    dsum sh (fun r k => f r k - g r k) = dsum sh f - dsum sh g := by
  unfold dsum
  simp only [sumTo_eq_sum, Finset.sum_sub_distrib]

theorem dsum_mul_left (sh : List Nat) (c : ParOptScalar) (f : Nat → Nat → ParOptScalar) :
    dsum sh (fun r k => c * f r k) = c * dsum sh f := by
  unfold dsum
  rw [← sumTo_mul_left]
  apply sumTo_congr
  intro r _
  rw [sumTo_mul_left]

theorem dsum_zero (sh : List Nat) : dsum sh (fun _ _ => 0) = 0 := by
  unfold dsum
  simp [sumTo_eq_sum]

theorem dsum_sumTo (sh : List Nat) (n : Nat) (f : Nat → Nat → Nat → ParOptScalar) :
    dsum sh (fun r k => sumTo n (fun i => f i r k)) = sumTo n (fun i => dsum sh (f i)) := by
  induction n with
  | zero => simp [sumTo, dsum_zero]
  | succ n ih =>
    simp only [sumTo]
    rw [dsum_add, ih]

theorem dsum_nonneg (sh : List Nat) (f : Nat → Nat → ParOptScalar)
    (h : ∀ r k, r < sh.length → k < sh.getD r 0 → 0 ≤ f r k) : 0 ≤ dsum sh f := by
  unfold dsum
  simp only [sumTo_eq_sum]
  apply Finset.sum_nonneg
  intro r hr
  apply Finset.sum_nonneg
  intro k hk
  exact h r k (Finset.mem_range.mp hr) (Finset.mem_range.mp hk)

theorem dsum_eq_zero (sh : List Nat) (f : Nat → Nat → ParOptScalar)
    (h : ∀ r k, r < sh.length → k < sh.getD r 0 → 0 ≤ f r k) (h0 : dsum sh f = 0) :
    ∀ r k, r < sh.length → k < sh.getD r 0 → f r k = 0 := by
  unfold dsum at h0
  simp only [sumTo_eq_sum] at h0
  intro r k hr hk
  have h1 := (Finset.sum_eq_zero_iff_of_nonneg (fun r hr =>
    Finset.sum_nonneg (fun k hk => h r k (Finset.mem_range.mp hr) (Finset.mem_range.mp hk)))).mp h0
    r (Finset.mem_range.mpr hr)
  exact (Finset.sum_eq_zero_iff_of_nonneg (fun k hk =>
    h r k hr (Finset.mem_range.mp hk))).mp h1 k (Finset.mem_range.mpr hk)

namespace ParOptVec

theorem dot_eq_dsum (x y : ParOptVec) :
    x.dot y = dsum x.shape (fun r k => x.get r k * y.get r k) := by
  unfold dot MPI_Allreduce_SUM BLASddot dsum
  rw [← length_eq_shape]
  apply sumTo_congr
  intro r _
  rw [size_eq_shape]
  rfl

theorem dot_comm (x y : ParOptVec) (h : x.shape = y.shape) : x.dot y = y.dot x := by
  rw [dot_eq_dsum, dot_eq_dsum, h]
  apply dsum_congr
  intro r k _ _
  ring

theorem in_range_of_shape (x : ParOptVec) (sh : List Nat) (h : x.shape = sh) (r k : Nat)
    (hr : r < sh.length) (hk : k < sh.getD r 0) : r < x.length ∧ k < x.size r := by
  subst h
  rw [length_eq_shape, size_eq_shape]
  exact ⟨hr, hk⟩

theorem copyValues_eq (self vec : ParOptVec) (h : self.shape = vec.shape) :
    self.copyValues vec = vec := by
  apply ext_get
  · rw [shape_copyValues, h]
  · intro r k hr hk
    rw [get_copyValues]
    have h1 := shape_copyValues self vec
    have : r < self.length ∧ k < self.size r := by
      rw [length_eq_shape, size_eq_shape, ← h1, ← length_eq_shape, ← size_eq_shape]
      exact ⟨hr, hk⟩
    simp [this]

theorem dot_scale_left (w : ParOptVec) (a : ParOptScalar) (u : ParOptVec) :
    (w.scale a).dot u = a * w.dot u := by
  rw [dot_eq_dsum, dot_eq_dsum, shape_scale, ← dsum_mul_left]
  apply dsum_congr
  intro r k _ _
  rw [get_scale]
  ring

theorem dot_axpy_left (w : ParOptVec) (a : ParOptScalar) (v u : ParOptVec)
    (h : v.shape = w.shape) : (w.axpy a v).dot u = w.dot u + a * v.dot u := by
  rw [dot_eq_dsum, dot_eq_dsum, dot_eq_dsum, shape_axpy, h, ← dsum_mul_left, ← dsum_add]
  apply dsum_congr
  intro r k hr hk
  rw [get_axpy]
  have := in_range_of_shape w w.shape rfl r k hr hk
  simp [this]
  ring

theorem dot_self_nonneg (x : ParOptVec) : 0 ≤ x.dot x := by
  rw [dot_eq_dsum]
  apply dsum_nonneg
  intro r k _ _
  exact mul_self_nonneg _

theorem get_eq_zero_of_dot_self (x : ParOptVec) (h : x.dot x = 0) (r k : Nat) :
    x.get r k = 0 := by
  by_cases hin : r < x.length ∧ k < x.size r
  · rw [dot_eq_dsum] at h
    have := dsum_eq_zero x.shape _ (fun r k _ _ => mul_self_nonneg (x.get r k)) h r k
      (by rw [← length_eq_shape]; exact hin.1) (by rw [← size_eq_shape]; exact hin.2)
    exact mul_self_eq_zero.mp this
  · exact get_of_not x r k hin

theorem shape_new (nvars : List Nat) : (ParOptVec.new nvars).shape = nvars := by
  unfold ParOptVec.new shape
  simp [List.map_map, Function.comp_def]

theorem get_new (nvars : List Nat) (r k : Nat) : (ParOptVec.new nvars).get r k = 0 := by
  unfold ParOptVec.new get loc
  by_cases hr : r < nvars.length
  · simp [List.getD_eq_getElem?_getD, List.getElem?_map, List.getElem?_eq_getElem hr]
  · have : nvars[r]? = none := List.getElem?_eq_none (by omega)
    simp [List.getD_eq_getElem?_getD, List.getElem?_map, this]

/-- A vector whose product with itself vanishes is the zero vector of its shape. -/
theorem eq_new_of_dot_self (x : ParOptVec) (h : x.dot x = 0) : x = ParOptVec.new x.shape := by
  apply ext_get
  · rw [shape_new]
  · intro r k _ _
    rw [get_eq_zero_of_dot_self x h, get_new]

theorem dot_self_pos (x : ParOptVec) (h : x ≠ ParOptVec.new x.shape) : 0 < x.dot x := by
  rcases (dot_self_nonneg x).lt_or_eq with h1 | h1
  · exact h1
  · exact absurd (eq_new_of_dot_self x h1.symm) h

end ParOptVec
end ParOpt

namespace ParOpt

theorem forLoop_succ {σ : Type} (n : Nat) (body : Nat → σ → σ) (init : σ) :
    forLoop (n + 1) body init = body n (forLoop n body init) := rfl

/-- The invariant rule for a counted loop. -/
theorem forLoop_inv {σ : Type} (P : Nat → σ → Prop) (n : Nat) (body : Nat → σ → σ) (init : σ)
    (h0 : P 0 init) (hs : ∀ i s, i < n → P i s → P (i + 1) (body i s)) :
    P n (forLoop n body init) := by
  induction n with
  | zero => exact h0
  | succ n ih =>
    rw [forLoop_succ]
    exact hs n _ (Nat.lt_succ_self n) (ih (fun i s hi hp => hs i s (Nat.lt_succ_of_lt hi) hp))

/-- A loop on an array leaves alone an entry that no iteration writes. -/
theorem forLoop_frame {α : Type} (n : Nat) (body : Nat → (Nat → α) → Nat → α) (a0 : Nat → α)
    (k : Nat) (h : ∀ i, i < n → ∀ a, body i a k = a k) : forLoop n body a0 k = a0 k := by
  induction n with
  | zero => rfl
  | succ n ih =>
    rw [forLoop_succ, h n (Nat.lt_succ_self n)]
    exact ih (fun i hi => h i (Nat.lt_succ_of_lt hi))

/-- A loop on an array: iteration i stores at entry k the value x, whatever the array holds,
and no later iteration writes entry k. -/
theorem forLoop_write {α : Type} (n : Nat) (body : Nat → (Nat → α) → Nat → α) (a0 : Nat → α)
    (k i : Nat) (x : α) (hi : i < n) (hw : ∀ a, body i a k = x)
    (hf : ∀ i', i < i' → i' < n → ∀ a, body i' a k = a k) : forLoop n body a0 k = x := by
  induction n with
  | zero => omega
  | succ n ih =>
    rw [forLoop_succ]
    by_cases h : i = n
    · subst h; exact hw _
    · rw [hf n (by omega) (Nat.lt_succ_self n)]
      exact ih (by omega) (fun i' h1 h2 => hf i' h1 (Nat.lt_succ_of_lt h2))

/-- A loop on an array: iteration i copies to entry k the entry src, which no earlier
iteration has written, and no later iteration writes entry k. -/
theorem forLoop_move {α : Type} (n : Nat) (body : Nat → (Nat → α) → Nat → α) (a0 : Nat → α)
    (k src i : Nat) (hi : i < n) (hw : ∀ a, body i a k = a src)
    (hsrc : ∀ i', i' < i → ∀ a, body i' a src = a src)
    (hf : ∀ i', i < i' → i' < n → ∀ a, body i' a k = a k) : forLoop n body a0 k = a0 src := by
  induction n with
  | zero => omega
  | succ n ih =>
    rw [forLoop_succ]
    by_cases h : i = n
    · subst h
      rw [hw]
      exact forLoop_frame i body a0 src hsrc
    · rw [hf n (by omega) (Nat.lt_succ_self n)]
      exact ih (by omega) (fun i' h1 h2 => hf i' h1 (Nat.lt_succ_of_lt h2))

theorem flat_inj (n i j i' j' : Nat) (hi : i < n) (hi' : i' < n)
    (h : i + n * j = i' + n * j') : i = i' ∧ j = j' := by
  have h1 : (i + n * j) % n = i := by
    rw [Nat.add_mul_mod_self_left]; exact Nat.mod_eq_of_lt hi
  have h2 : (i' + n * j') % n = i' := by
    rw [Nat.add_mul_mod_self_left]; exact Nat.mod_eq_of_lt hi'
  have hii : i = i' := by rw [← h1, ← h2, h]
  subst hii
  have hn : 0 < n := by omega
  have : n * j = n * j' := by omega
  exact ⟨rfl, Nat.eq_of_mul_eq_mul_left hn this⟩

theorem flat_ne (n i j i' j' : Nat) (hi : i < n) (hi' : i' < n) (h : i ≠ i' ∨ j ≠ j') :
    i + n * j ≠ i' + n * j' := by
  intro e
  have := flat_inj n i j i' j' hi hi' e
  omega

theorem flat_lt (n i j : Nat) (hi : i < n) (hj : j < n) : i + n * j < n * n := by
  have : n * j + n ≤ n * n := by
    have := Nat.mul_le_mul_left n (Nat.succ_le_of_lt hj)
    rw [Nat.mul_succ] at this
    exact this
  omega

theorem shiftDown_lt {α : Type} (cnt : Nat) (V : Nat → α) (k : Nat) (h : k < cnt) :
    shiftDown cnt V k = V (k + 1) := by
  unfold shiftDown
  apply forLoop_move cnt _ V k (k + 1) k h
  · intro a; simp
  · intro i' hi' a
    rw [Function.update_noteq (by omega)]
  · intro i' h1 _ a
    rw [Function.update_noteq (by omega)]

theorem shiftDown_ge {α : Type} (cnt : Nat) (V : Nat → α) (k : Nat) (h : cnt ≤ k) :
    shiftDown cnt V k = V k := by
  unfold shiftDown
  apply forLoop_frame
  intro i hi a
  rw [Function.update_noteq (by omega)]

/-- Both shifts of the small square arrays: entry (i, j) receives entry (i+1, j+1). -/
theorem shift_block (cnt ld : Nat) (c : Nat → Nat) (B : Nat → ParOptScalar) (hld : cnt < ld)
    (i j : Nat) (hi : i < cnt) (hj : j < c i) :
    forLoop cnt
      (fun i B => forLoop (c i)
        (fun j B => Function.update B (i + j * ld) (B (i + 1 + (j + 1) * ld))) B) B
      (i + j * ld) = B (i + 1 + (j + 1) * ld) := by
  have key : ∀ (i1 j1 i2 j2 : Nat), i1 < ld → i2 < ld → (i1 ≠ i2 ∨ j1 ≠ j2) →
      i1 + j1 * ld ≠ i2 + j2 * ld := by
    intro i1 j1 i2 j2 h1 h2 h
    rw [Nat.mul_comm j1, Nat.mul_comm j2]
    exact flat_ne ld i1 j1 i2 j2 h1 h2 h
  apply forLoop_move cnt _ B (i + j * ld) (i + 1 + (j + 1) * ld) i hi
  · intro a
    apply forLoop_move (c i) _ a (i + j * ld) (i + 1 + (j + 1) * ld) j hj
    · intro a; simp
    · intro j' _ a
      rw [Function.update_noteq (key _ _ _ _ (by omega) (by omega) (by omega))]
    · intro j' h1 _ a
      rw [Function.update_noteq (key _ _ _ _ (by omega) (by omega) (by omega))]
  · intro i' hi' a
    apply forLoop_frame
    intro j' _ a
    rw [Function.update_noteq (key _ _ _ _ (by omega) (by omega) (by omega))]
  · intro i' h1 h2 a
    apply forLoop_frame
    intro j' _ a
    rw [Function.update_noteq (key _ _ _ _ (by omega) (by omega) (by omega))]

theorem shiftSquare_block (cnt ld : Nat) (B : Nat → ParOptScalar) (hld : cnt < ld)
    (i j : Nat) (hi : i < cnt) (hj : j < cnt) :
    shiftSquare cnt ld B (i + j * ld) = B (i + 1 + (j + 1) * ld) :=
  shift_block cnt ld (fun _ => cnt) B hld i j hi hj

theorem shiftLower_block (cnt ld : Nat) (L : Nat → ParOptScalar) (hld : cnt < ld)
    (i j : Nat) (hi : i < cnt) (hj : j < i) :
    shiftLower cnt ld L (i + j * ld) = L (i + 1 + (j + 1) * ld) :=
  shift_block cnt ld (fun i => i) L hld i j hi hj

end ParOpt

namespace ParOpt
namespace LBFGS

theorem setNewValues_append (st : LBFGS) (s nv : ParOptVec) (h : st.msub < st.msub_max) :
    st.setNewValues s nv =
      { st with
        S := Function.update st.S st.msub ((st.S st.msub).copyValues s)
        Y := Function.update st.Y st.msub ((st.Y st.msub).copyValues nv)
        msub := st.msub + 1 } := by
  unfold setNewValues
  rw [if_pos h]

theorem setNewValues_evict (st : LBFGS) (s nv : ParOptVec) (h : ¬ st.msub < st.msub_max) :
    st.setNewValues s nv =
      { st with
        S := Function.update
          (shiftDown (st.msub - 1) (Function.update st.S 0 ((st.S 0).copyValues s)))
          (st.msub - 1) ((st.S 0).copyValues s)
        Y := Function.update
          (shiftDown (st.msub - 1) (Function.update st.Y 0 ((st.Y 0).copyValues nv)))
          (st.msub - 1) ((st.Y 0).copyValues nv)
        D := shiftDown (st.msub - 1) st.D
        B := shiftSquare (st.msub - 1) st.msub_max st.B
        L := shiftLower (st.msub - 1) st.msub_max st.L } := by
  unfold setNewValues
  rw [if_neg h]
  simp

/-- The number of pairs after the new pair has been set. -/
theorem msub_setNewValues (st : LBFGS) (s nv : ParOptVec) :
    (st.setNewValues s nv).msub = if st.msub < st.msub_max then st.msub + 1 else st.msub := by
  by_cases h : st.msub < st.msub_max
  · rw [setNewValues_append st s nv h, if_pos h]
  · rw [setNewValues_evict st s nv h, if_neg h]

theorem frame_setNewValues (st : LBFGS) (s nv : ParOptVec) :
    (st.setNewValues s nv).msub_max = st.msub_max ∧ (st.setNewValues s nv).nvars = st.nvars ∧
    (st.setNewValues s nv).b0 = st.b0 ∧ (st.setNewValues s nv).r = st.r ∧
    (st.setNewValues s nv).Z = st.Z ∧ (st.setNewValues s nv).M = st.M ∧
    (st.setNewValues s nv).d0 = st.d0 ∧ (st.setNewValues s nv).M_factor = st.M_factor ∧
    (st.setNewValues s nv).mfpiv = st.mfpiv ∧ (st.setNewValues s nv).rz = st.rz := by
  by_cases h : st.msub < st.msub_max
  · rw [setNewValues_append st s nv h]; simp
  · rw [setNewValues_evict st s nv h]; simp

/-- The pair stored last sits at index msub-1: it is the copy of the supplied vectors. -/
theorem newest_setNewValues (st : LBFGS) (s nv : ParOptVec) :
    (st.setNewValues s nv).S ((st.setNewValues s nv).msub - 1) =
        (st.S (if st.msub < st.msub_max then st.msub else 0)).copyValues s ∧
    (st.setNewValues s nv).Y ((st.setNewValues s nv).msub - 1) =
        (st.Y (if st.msub < st.msub_max then st.msub else 0)).copyValues nv := by
  by_cases h : st.msub < st.msub_max
  · rw [setNewValues_append st s nv h]; simp [h]
  · rw [setNewValues_evict st s nv h]; simp [h]

/-- The older pairs and the entries of the small arrays that belong to them: kept in place
when the pair is appended, moved down by one when the oldest pair is discarded. -/
theorem older_setNewValues (st : LBFGS) (s nv : ParOptVec) (hm : st.msub ≤ st.msub_max)
    (hp : 1 ≤ st.msub_max) (i : Nat) (hi : i + 1 < (st.setNewValues s nv).msub) :
    (st.setNewValues s nv).S i = st.S (i + if st.msub < st.msub_max then 0 else 1) ∧
    (st.setNewValues s nv).Y i = st.Y (i + if st.msub < st.msub_max then 0 else 1) ∧
    (st.setNewValues s nv).D i = st.D (i + if st.msub < st.msub_max then 0 else 1) := by
  rw [msub_setNewValues] at hi
  by_cases h : st.msub < st.msub_max
  · rw [if_pos h] at hi
    rw [setNewValues_append st s nv h]
    have hne : i ≠ st.msub := by omega
    simp [h, Function.update_noteq hne]
  · rw [if_neg h] at hi
    rw [setNewValues_evict st s nv h]
    simp only [h, if_false]
    rw [Function.update_noteq (by omega), Function.update_noteq (by omega),
      shiftDown_lt _ _ _ (by omega), shiftDown_lt _ _ _ (by omega),
      shiftDown_lt _ _ _ (by omega),
      Function.update_noteq (by omega), Function.update_noteq (by omega)]
    exact ⟨rfl, rfl, rfl⟩

theorem older_small_setNewValues (st : LBFGS) (s nv : ParOptVec) (hm : st.msub ≤ st.msub_max)
    (hp : 1 ≤ st.msub_max) (i j : Nat) (hi : i + 1 < (st.setNewValues s nv).msub)
    (hj : j + 1 < (st.setNewValues s nv).msub) :
    (st.setNewValues s nv).B (i + j * st.msub_max) =
      st.B (i + (if st.msub < st.msub_max then 0 else 1) +
        (j + if st.msub < st.msub_max then 0 else 1) * st.msub_max) ∧
    (j < i → (st.setNewValues s nv).L (i + j * st.msub_max) =
      st.L (i + (if st.msub < st.msub_max then 0 else 1) +
        (j + if st.msub < st.msub_max then 0 else 1) * st.msub_max)) := by
  rw [msub_setNewValues] at hi hj
  by_cases h : st.msub < st.msub_max
  · rw [setNewValues_append st s nv h]
    simp [h]
  · rw [if_neg h] at hi hj
    rw [setNewValues_evict st s nv h]
    simp only [h, if_false]
    refine ⟨shiftSquare_block _ _ _ (by omega) i j (by omega) (by omega), fun hji => ?_⟩
    exact shiftLower_block _ _ _ (by omega) i j (by omega) hji

theorem alloc_setNewValues (st : LBFGS) (s nv : ParOptVec) (hm : st.msub ≤ st.msub_max)
    (hp : 1 ≤ st.msub_max) (ha : st.Alloc) : (st.setNewValues s nv).Alloc := by
  obtain ⟨hSY, hr⟩ := ha
  have hfr := frame_setNewValues st s nv
  refine ⟨?_, by rw [hfr.2.2.2.1, hfr.2.1]; exact hr⟩
  intro i hi
  rw [hfr.1] at hi
  rw [hfr.2.1]
  by_cases h : st.msub < st.msub_max
  · rw [setNewValues_append st s nv h]
    simp only
    by_cases hi2 : i = st.msub
    · subst hi2
      simp only [Function.update_same, ParOptVec.shape_copyValues]
      exact hSY _ h
    · rw [Function.update_noteq hi2, Function.update_noteq hi2]
      exact hSY i hi
  · rw [setNewValues_evict st s nv h]
    simp only
    by_cases hi2 : i = st.msub - 1
    · subst hi2
      simp only [Function.update_same, ParOptVec.shape_copyValues]
      exact hSY 0 (by omega)
    · rw [Function.update_noteq hi2, Function.update_noteq hi2,
        shiftDown_lt _ _ _ (by omega), shiftDown_lt _ _ _ (by omega),
        Function.update_noteq (by omega), Function.update_noteq (by omega)]
      exact hSY (i + 1) (by omega)

end LBFGS
end ParOpt

namespace ParOpt
namespace LBFGS

theorem frame_updateSmall (st : LBFGS) :
    st.updateSmall.msub = st.msub ∧ st.updateSmall.msub_max = st.msub_max ∧
    st.updateSmall.nvars = st.nvars ∧ st.updateSmall.S = st.S ∧ st.updateSmall.Y = st.Y ∧
    st.updateSmall.b0 = st.b0 ∧ st.updateSmall.r = st.r ∧ st.updateSmall.Z = st.Z ∧
    st.updateSmall.M = st.M ∧ st.updateSmall.d0 = st.d0 ∧
    st.updateSmall.M_factor = st.M_factor ∧ st.updateSmall.mfpiv = st.mfpiv ∧
    st.updateSmall.rz = st.rz := by
  simp [updateSmall]

theorem flatr_ne (n i j i' j' : Nat) (hi : i < n) (hi' : i' < n) (h : i ≠ i' ∨ j ≠ j') :
    i + j * n ≠ i' + j' * n := by
  rw [Nat.mul_comm j, Nat.mul_comm j']
  exact flat_ne n i j i' j' hi hi' h

/-- The new row and column of B. -/
theorem B_updateSmall_new (st : LBFGS) (h1 : 1 ≤ st.msub) (hm : st.msub ≤ st.msub_max)
    (i : Nat) (hi : i < st.msub) :
    st.updateSmall.B (st.msub - 1 + i * st.msub_max) = (st.S (st.msub - 1)).dot (st.S i) ∧
    st.updateSmall.B (i + (st.msub - 1) * st.msub_max) = (st.S (st.msub - 1)).dot (st.S i) := by
  unfold updateSmall
  simp only
  constructor
  · apply forLoop_write st.msub _ st.B _ i _ hi
    · intro a
      by_cases e : st.msub - 1 + i * st.msub_max = i + (st.msub - 1) * st.msub_max
      · rw [← e]; simp
      · rw [Function.update_noteq e]; simp
    · intro i' h2 h3 a
      rw [Function.update_noteq (flatr_ne _ _ _ _ _ (by omega) (by omega) (by omega)),
        Function.update_noteq (flatr_ne _ _ _ _ _ (by omega) (by omega) (by omega))]
  · apply forLoop_write st.msub _ st.B _ i _ hi
    · intro a; simp
    · intro i' h2 h3 a
      rw [Function.update_noteq (flatr_ne _ _ _ _ _ (by omega) (by omega) (by omega)),
        Function.update_noteq (flatr_ne _ _ _ _ _ (by omega) (by omega) (by omega))]

/-- The entries of B that belong to older pairs are kept. -/
theorem B_updateSmall_old (st : LBFGS) (hm : st.msub ≤ st.msub_max)
    (i j : Nat) (hi : i + 1 < st.msub) (hj : j + 1 < st.msub) :
    st.updateSmall.B (i + j * st.msub_max) = st.B (i + j * st.msub_max) := by
  unfold updateSmall
  simp only
  apply forLoop_frame
  intro i' h2 a
  rw [Function.update_noteq (flatr_ne _ _ _ _ _ (by omega) (by omega) (by omega)),
    Function.update_noteq (flatr_ne _ _ _ _ _ (by omega) (by omega) (by omega))]

theorem D_updateSmall (st : LBFGS) (i : Nat) :
    st.updateSmall.D i =
      if i = st.msub - 1 then (st.S (st.msub - 1)).dot (st.Y (st.msub - 1)) else st.D i := by
  unfold updateSmall
  simp only [Function.update_apply]

theorem L_updateSmall_new (st : LBFGS) (hm : st.msub ≤ st.msub_max)
    (i : Nat) (hi : i + 1 < st.msub) :
    st.updateSmall.L (st.msub - 1 + i * st.msub_max) = (st.S (st.msub - 1)).dot (st.Y i) := by
  unfold updateSmall
  simp only
  apply forLoop_write (st.msub - 1) _ st.L _ i _ (by omega)
  · intro a; simp
  · intro i' h2 h3 a
    rw [Function.update_noteq (flatr_ne _ _ _ _ _ (by omega) (by omega) (by omega))]

theorem L_updateSmall_old (st : LBFGS) (hm : st.msub ≤ st.msub_max)
    (i j : Nat) (hi : i + 1 < st.msub) :
    st.updateSmall.L (i + j * st.msub_max) = st.L (i + j * st.msub_max) := by
  unfold updateSmall
  simp only
  apply forLoop_frame
  intro i' h2 a
  rw [Function.update_noteq (flatr_ne _ _ _ _ _ (by omega) (by omega) (by omega))]

theorem alloc_updateSmall (st : LBFGS) (ha : st.Alloc) : st.updateSmall.Alloc := by
  unfold Alloc at *
  simpa [updateSmall] using ha

/-- Once the new row and column have been computed the small arrays agree with the stored
columns, provided the entries of the older pairs did. -/
theorem consistent_updateSmall (st : LBFGS) (hm : st.msub ≤ st.msub_max)
    (ha : st.Alloc)
    (hold : ∀ i j, i + 1 < st.msub → j + 1 < st.msub →
      st.B (i + j * st.msub_max) = (st.S i).dot (st.S j) ∧
      st.D i = (st.S i).dot (st.Y i) ∧
      (j < i → st.L (i + j * st.msub_max) = (st.S i).dot (st.Y j))) :
    st.updateSmall.Consistent := by
  intro i j hi hj
  have hfr := frame_updateSmall st
  rw [hfr.1] at hi hj
  rw [hfr.2.1, hfr.2.2.2.1, hfr.2.2.2.2.1]
  have h1 : 1 ≤ st.msub := by omega
  have hshape : ∀ a b, a < st.msub → b < st.msub → (st.S a).shape = (st.S b).shape := by
    intro a b ha' hb'
    rw [(ha.1 a (by omega)).1, (ha.1 b (by omega)).1]
  refine ⟨?_, ?_, ?_⟩
  · by_cases e1 : i = st.msub - 1
    · subst e1
      exact (B_updateSmall_new st h1 hm j hj).1
    · by_cases e2 : j = st.msub - 1
      · subst e2
        rw [(B_updateSmall_new st h1 hm i hi).2]
        exact ParOptVec.dot_comm _ _ (hshape _ _ (by omega) hi)
      · rw [B_updateSmall_old st hm i j (by omega) (by omega)]
        exact (hold i j (by omega) (by omega)).1
  · rw [D_updateSmall]
    by_cases e1 : i = st.msub - 1
    · subst e1; simp
    · rw [if_neg e1]
      exact (hold i i (by omega) (by omega)).2.1
  · intro hji
    by_cases e1 : i = st.msub - 1
    · subst e1
      exact L_updateSmall_new st hm j (by omega)
    · rw [L_updateSmall_old st hm i j (by omega)]
      exact (hold i j (by omega) (by omega)).2.2 hji

/-- Storing a pair and refreshing the small arrays keeps them in agreement with the
columns. -/
theorem consistent_store (st : LBFGS) (s nv : ParOptVec) (hm : st.msub ≤ st.msub_max)
    (hp : 1 ≤ st.msub_max) (ha : st.Alloc) (hc : st.Consistent) :
    ((st.setNewValues s nv).updateSmall).Consistent := by
  have hfr := frame_setNewValues st s nv
  have hms := msub_setNewValues st s nv
  apply consistent_updateSmall
  · rw [hfr.1, hms]; split_ifs <;> omega
  · exact alloc_setNewValues st s nv hm hp ha
  · intro i j hi hj
    rw [hfr.1]
    obtain ⟨hSi, hYi, hDi⟩ := older_setNewValues st s nv hm hp i hi
    obtain ⟨hSj, hYj, _⟩ := older_setNewValues st s nv hm hp j hj
    obtain ⟨hB, hL⟩ := older_small_setNewValues st s nv hm hp i j hi hj
    rw [hSi, hYi, hDi, hSj, hYj, hB]
    rw [hms] at hi hj
    have hc' := hc (i + if st.msub < st.msub_max then 0 else 1)
      (j + if st.msub < st.msub_max then 0 else 1)
      (by split_ifs at hi ⊢ <;> omega) (by split_ifs at hj ⊢ <;> omega)
    refine ⟨hc'.1, hc'.2.1, fun hji => ?_⟩
    rw [hL hji]
    exact hc'.2.2 (by omega)

end LBFGS
end ParOpt

namespace ParOpt

theorem forLoop2_frame {α : Type} (n : Nat) (c : Nat → Nat)
    (body : Nat → Nat → (Nat → α) → Nat → α) (a0 : Nat → α) (k : Nat)
    (h : ∀ i j, i < n → j < c i → ∀ a, body i j a k = a k) :
    forLoop n (fun i a => forLoop (c i) (fun j a => body i j a) a) a0 k = a0 k := by
  apply forLoop_frame
  intro i hi a
  apply forLoop_frame
  intro j hj a
  exact h i j hi hj a

theorem forLoop2_write {α : Type} (n : Nat) (c : Nat → Nat)
    (body : Nat → Nat → (Nat → α) → Nat → α) (a0 : Nat → α) (k i j : Nat) (x : α)
    (hi : i < n) (hj : j < c i) (hw : ∀ a, body i j a k = x)
    (hf : ∀ i' j', i' < n → j' < c i' → (i' ≠ i ∨ j' ≠ j) → ∀ a, body i' j' a k = a k) :
    forLoop n (fun i a => forLoop (c i) (fun j a => body i j a) a) a0 k = x := by
  apply forLoop_write n _ a0 k i x hi
  · intro a
    apply forLoop_write (c i) _ a k j x hj hw
    intro j' h1 h2 a
    exact hf i j' hi h2 (Or.inr (by omega)) a
  · intro i' h1 h2 a
    apply forLoop_frame
    intro j' hj' a
    exact hf i' j' h2 hj' (Or.inl (by omega)) a

namespace LBFGS

theorem frame_setM (st : LBFGS) :
    st.setM.msub = st.msub ∧ st.setM.msub_max = st.msub_max ∧
    st.setM.nvars = st.nvars ∧ st.setM.S = st.S ∧ st.setM.Y = st.Y ∧
    st.setM.b0 = st.b0 ∧ st.setM.r = st.r ∧ st.setM.Z = st.Z ∧
    st.setM.B = st.B ∧ st.setM.d0 = st.d0 ∧
    st.setM.M_factor = st.M_factor ∧ st.setM.mfpiv = st.mfpiv ∧
    st.setM.rz = st.rz ∧ st.setM.D = st.D ∧ st.setM.L = st.L := by
  simp [setM]

/-- The leading block of M is b0 times B. -/
theorem setM_block11 (st : LBFGS) (i j : Nat) (hi : i < st.msub) (hj : j < st.msub) :
    st.setM.M (i + 2 * st.msub * j) = st.b0 * st.B (i + st.msub_max * j) := by
  unfold setM
  simp only
  rw [forLoop_frame]
  · rw [forLoop2_frame]
    · apply forLoop2_write st.msub (fun _ => st.msub) _ _ _ i j _ hi hj
      · intro a; simp
      · intro i' j' h1 h2 h3 a
        rw [Function.update_noteq (flat_ne _ _ _ _ _ (by omega) (by omega) (by omega))]
    · intro i' j' h1 h2 a
      rw [Function.update_noteq (flat_ne _ _ _ _ _ (by omega) (by omega) (by omega)),
        Function.update_noteq (flat_ne _ _ _ _ _ (by omega) (by omega) (by omega))]
  · intro i' h1 a
    rw [Function.update_noteq (flat_ne _ _ _ _ _ (by omega) (by omega) (by omega))]

/-- The upper right block of M is L. -/
theorem setM_block12 (st : LBFGS) (i j : Nat) (hi : i < st.msub) (hj : j < st.msub) :
    st.setM.M (i + 2 * st.msub * (j + st.msub)) =
      if j < i then st.L (i + st.msub_max * j) else 0 := by
  unfold setM
  simp only
  rw [forLoop_frame]
  · by_cases hji : j < i
    · rw [if_pos hji]
      apply forLoop2_write st.msub (fun i => i) _ _ _ i j _ hi hji
      · intro a
        rw [Function.update_noteq (flat_ne _ _ _ _ _ (by omega) (by omega) (by omega))]
        simp
      · intro i' j' h1 h2 h3 a
        rw [Function.update_noteq (flat_ne _ _ _ _ _ (by omega) (by omega) (by omega)),
          Function.update_noteq (flat_ne _ _ _ _ _ (by omega) (by omega) (by omega))]
    · rw [if_neg hji, forLoop2_frame]
      · rw [forLoop2_frame]
        · simp only [memset0]
          rw [if_pos]
          have := flat_lt (2 * st.msub) i (j + st.msub) (by omega) (by omega)
          calc i + 2 * st.msub * (j + st.msub) < 2 * st.msub * (2 * st.msub) := this
            _ = 4 * st.msub * st.msub := by ring
        · intro i' j' h1 h2 a
          rw [Function.update_noteq (flat_ne _ _ _ _ _ (by omega) (by omega) (by omega))]
      · intro i' j' h1 h2 a
        rw [Function.update_noteq (flat_ne _ _ _ _ _ (by omega) (by omega) (by omega)),
          Function.update_noteq (flat_ne _ _ _ _ _ (by omega) (by omega) (by omega))]
  · intro i' h1 a
    rw [Function.update_noteq (flat_ne _ _ _ _ _ (by omega) (by omega) (by omega))]

/-- The lower left block of M is the transpose of L. -/
theorem setM_block21 (st : LBFGS) (i j : Nat) (hi : i < st.msub) (hj : j < st.msub) :
    st.setM.M (j + st.msub + 2 * st.msub * i) =
      if j < i then st.L (i + st.msub_max * j) else 0 := by
  unfold setM
  simp only
  rw [forLoop_frame]
  · by_cases hji : j < i
    · rw [if_pos hji]
      apply forLoop2_write st.msub (fun i => i) _ _ _ i j _ hi hji
      · intro a; simp
      · intro i' j' h1 h2 h3 a
        rw [Function.update_noteq (flat_ne _ _ _ _ _ (by omega) (by omega) (by omega)),
          Function.update_noteq (flat_ne _ _ _ _ _ (by omega) (by omega) (by omega))]
    · rw [if_neg hji, forLoop2_frame]
      · rw [forLoop2_frame]
        · simp only [memset0]
          rw [if_pos]
          have := flat_lt (2 * st.msub) (j + st.msub) i (by omega) (by omega)
          calc j + st.msub + 2 * st.msub * i < 2 * st.msub * (2 * st.msub) := this
            _ = 4 * st.msub * st.msub := by ring
        · intro i' j' h1 h2 a
          rw [Function.update_noteq (flat_ne _ _ _ _ _ (by omega) (by omega) (by omega))]
      · intro i' j' h1 h2 a
        rw [Function.update_noteq (flat_ne _ _ _ _ _ (by omega) (by omega) (by omega)),
          Function.update_noteq (flat_ne _ _ _ _ _ (by omega) (by omega) (by omega))]
  · intro i' h1 a
    rw [Function.update_noteq (flat_ne _ _ _ _ _ (by omega) (by omega) (by omega))]

/-- The trailing block of M is -D. -/
theorem setM_block22 (st : LBFGS) (i j : Nat) (hi : i < st.msub) (hj : j < st.msub) :
    st.setM.M (st.msub + i + 2 * st.msub * (st.msub + j)) =
      if i = j then -(st.D i) else 0 := by
  unfold setM
  simp only
  by_cases hij : i = j
  · subst hij
    rw [if_pos rfl]
    apply forLoop_write st.msub _ _ _ i _ hi
    · intro a; simp
    · intro i' h1 h2 a
      rw [Function.update_noteq (flat_ne _ _ _ _ _ (by omega) (by omega) (by omega))]
  · rw [if_neg hij, forLoop_frame]
    · rw [forLoop2_frame]
      · rw [forLoop2_frame]
        · simp only [memset0]
          rw [if_pos]
          have := flat_lt (2 * st.msub) (st.msub + i) (st.msub + j) (by omega) (by omega)
          calc st.msub + i + 2 * st.msub * (st.msub + j) < 2 * st.msub * (2 * st.msub) := this
            _ = 4 * st.msub * st.msub := by ring
        · intro i' j' h1 h2 a
          rw [Function.update_noteq (flat_ne _ _ _ _ _ (by omega) (by omega) (by omega))]
      · intro i' j' h1 h2 a
        rw [Function.update_noteq (flat_ne _ _ _ _ _ (by omega) (by omega) (by omega)),
          Function.update_noteq (flat_ne _ _ _ _ _ (by omega) (by omega) (by omega))]
    · intro i' h1 a
      rw [Function.update_noteq (flat_ne _ _ _ _ _ (by omega) (by omega) (by omega))]

theorem frame_setZ (st : LBFGS) :
    st.setZ.msub = st.msub ∧ st.setZ.msub_max = st.msub_max ∧
    st.setZ.nvars = st.nvars ∧ st.setZ.S = st.S ∧ st.setZ.Y = st.Y ∧
    st.setZ.b0 = st.b0 ∧ st.setZ.r = st.r ∧ st.setZ.M = st.M ∧
    st.setZ.B = st.B ∧ st.setZ.M_factor = st.M_factor ∧ st.setZ.mfpiv = st.mfpiv ∧
    st.setZ.rz = st.rz ∧ st.setZ.D = st.D ∧ st.setZ.L = st.L := by
  simp [setZ]

/-- The column list is Z = [S[0], ..., S[m-1], Y[0], ..., Y[m-1]] and d0 = [b0, ..., 1, ...]. -/
theorem setZ_spec (st : LBFGS) (i : Nat) (hi : i < st.msub) :
    st.setZ.Z i = st.S i ∧ st.setZ.Z (i + st.msub) = st.Y i ∧
    st.setZ.d0 i = st.b0 ∧ st.setZ.d0 (i + st.msub) = 1 := by
  unfold setZ
  simp only
  refine ⟨?_, ?_, ?_, ?_⟩
  · apply forLoop_write st.msub _ _ _ i _ hi
    · intro a
      rw [Function.update_noteq (by omega)]; simp
    · intro i' h1 h2 a
      rw [Function.update_noteq (by omega), Function.update_noteq (by omega)]
  · apply forLoop_write st.msub _ _ _ i _ hi
    · intro a; simp
    · intro i' h1 h2 a
      rw [Function.update_noteq (by omega), Function.update_noteq (by omega)]
  · apply forLoop_write st.msub _ _ _ i _ hi
    · intro a
      rw [Function.update_noteq (by omega)]; simp
    · intro i' h1 h2 a
      rw [Function.update_noteq (by omega), Function.update_noteq (by omega)]
  · apply forLoop_write st.msub _ _ _ i _ hi
    · intro a; simp; norm_num
    · intro i' h1 h2 a
      rw [Function.update_noteq (by omega), Function.update_noteq (by omega)]

theorem frame_factor (st : LBFGS) :
    st.factor.msub = st.msub ∧ st.factor.msub_max = st.msub_max ∧
    st.factor.nvars = st.nvars ∧ st.factor.S = st.S ∧ st.factor.Y = st.Y ∧
    st.factor.b0 = st.b0 ∧ st.factor.r = st.r ∧ st.factor.M = st.M ∧
    st.factor.B = st.B ∧ st.factor.Z = st.Z ∧ st.factor.d0 = st.d0 ∧
    st.factor.rz = st.rz ∧ st.factor.D = st.D ∧ st.factor.L = st.L := by
  simp [factor]

end LBFGS
end ParOpt

namespace ParOpt

theorem shape_axpyLoop (n : Nat) (c : Nat → ParOptScalar) (Z : Nat → ParOptVec) (y : ParOptVec) :
    (forLoop n (fun i y => y.axpy (c i) (Z i)) y).shape = y.shape := by
  induction n with
  | zero => rfl
  | succ n ih => rw [forLoop_succ, ParOptVec.shape_axpy, ih]

namespace LBFGS

theorem mult_zero (st : LBFGS) (x y : ParOptVec) (h : st.msub = 0) :
    st.mult x y = some (st, (y.copyValues x).scale st.b0) := by
  unfold mult
  simp [h]

/-- LBFGS::mult changes no member of the model except the scratch array rz, and the result
has the local sizes of the output vector. -/
theorem mult_frame (st st1 : LBFGS) (x y out : ParOptVec) (h : st.mult x y = some (st1, out)) :
    st1 = { st with rz := st1.rz } ∧ out.shape = y.shape := by
  unfold mult at h
  by_cases hm : 0 < st.msub
  · simp only [hm, if_true, Option.map_eq_some'] at h
    obtain ⟨rz, _, h2⟩ := h
    simp only [Prod.mk.injEq] at h2
    obtain ⟨h3, h4⟩ := h2
    subst h3 h4
    exact ⟨rfl, by rw [shape_axpyLoop, ParOptVec.shape_scale, ParOptVec.shape_copyValues]⟩
  · simp only [hm, if_false, Option.some.injEq, Prod.mk.injEq] at h
    obtain ⟨h3, h4⟩ := h
    subst h3 h4
    exact ⟨rfl, by rw [ParOptVec.shape_scale, ParOptVec.shape_copyValues]⟩

theorem firstScale_frame (st st1 : LBFGS) (g a : ParOptScalar)
    (h : st.firstScale g a = some st1) : st1 = { st with b0 := st1.b0 } := by
  unfold firstScale at h
  by_cases hm : st.msub = 0
  · simp only [hm, if_true, Option.map_eq_some'] at h
    obtain ⟨q, _, h2⟩ := h
    subst h2
    simp [hm]
  · simp only [hm, if_false, Option.some.injEq] at h
    subst h
    rfl

/-- The vector chosen for storage has the local sizes of r when damped and is y otherwise. -/
theorem damp_spec (r s y : ParOptVec) (g a b : ParOptScalar)
    (d : Nat × ParOptVec × ParOptVec × ParOptScalar × ParOptScalar)
    (h : damp r s y g a b = some d) :
    (a ≤ 0.2 * b ∧ b - a ≠ 0 ∧ d.1 = 1 ∧
      d.2.1 = (r.scale (1.0 - 0.8 * b / (b - a))).axpy (0.8 * b / (b - a)) y ∧
      d.2.2.1 = d.2.1 ∧ d.2.2.2.1 = d.2.1.dot d.2.1 ∧ d.2.2.2.2 = d.2.1.dot s) ∨
    (¬ a ≤ 0.2 * b ∧ d = (0, r, y, g, a)) := by
  unfold damp at h
  by_cases hc : a ≤ 0.2 * b
  · left
    simp only [hc, if_true, Option.map_eq_some'] at h
    obtain ⟨theta, h1, h2⟩ := h
    unfold sdiv at h1
    by_cases hz : b - a = 0
    · simp [hz] at h1
    · simp only [hz, if_false, Option.some.injEq] at h1
      subst h1 h2
      exact ⟨hc, hz, rfl, rfl, rfl, rfl, rfl⟩
  · right
    simp only [hc, if_false, Option.some.injEq] at h
    exact ⟨hc, h.symm⟩

/-- The first part of LBFGS::update changes only b0, r and rz. -/
theorem curvature_frame (st st1 : LBFGS) (s y nv : ParOptVec) (t : Nat)
    (h : st.curvature s y = some (st1, t, nv)) :
    st1 = { st with b0 := st1.b0, r := st1.r, rz := st1.rz } := by
  unfold curvature at h
  simp only [Option.bind_eq_some, Option.map_eq_some'] at h
  obtain ⟨sa, h1, ⟨sb, ob⟩, h2, d, h3, b0, h4, h5⟩ := h
  have f1 := firstScale_frame st sa _ _ h1
  have f2 := (mult_frame sa sb s sa.r ob h2).1
  simp only [Prod.mk.injEq] at h5
  obtain ⟨h6, _, _⟩ := h5
  subst h6
  rw [f2, f1]

theorem curvature_shape (st st1 : LBFGS) (s y nv : ParOptVec) (t : Nat)
    (h : st.curvature s y = some (st1, t, nv)) (ha : st.Alloc) (hy : y.shape = st.nvars) :
    nv.shape = st.nvars ∧ st1.r.shape = st.nvars := by
  unfold curvature at h
  simp only [Option.bind_eq_some, Option.map_eq_some'] at h
  obtain ⟨sa, h1, ⟨sb, ob⟩, h2, d, h3, b0, h4, h5⟩ := h
  have f1 := firstScale_frame st sa _ _ h1
  have f2 := (mult_frame sa sb s sa.r ob h2).2
  have hr : sa.r = st.r := by rw [f1]
  rw [hr, ha.2] at f2
  simp only [Prod.mk.injEq] at h5
  obtain ⟨h6, _, h7⟩ := h5
  subst h6 h7
  simp only
  rcases damp_spec _ _ _ _ _ _ _ h3 with ⟨_, _, _, hd, hd2, _⟩ | ⟨_, hd⟩
  · rw [hd2, hd, ParOptVec.shape_axpy, ParOptVec.shape_scale]
    exact ⟨f2, f2⟩
  · subst hd
    exact ⟨hy, f2⟩

theorem update_eq (st st' : LBFGS) (s y : ParOptVec) (t : Nat)
    (h : st.update s y = some (st', t)) :
    ∃ st1 nv, st.curvature s y = some (st1, t, nv) ∧
      st' = ((((st1.setNewValues s nv).updateSmall).setM).setZ).factor := by
  unfold update at h
  simp only [Option.map_eq_some'] at h
  obtain ⟨⟨st1, t1, nv⟩, h1, h2⟩ := h
  simp only [Prod.mk.injEq] at h2
  obtain ⟨h3, h4⟩ := h2
  subst h4
  exact ⟨st1, nv, h1, h3.symm⟩

end LBFGS
end ParOpt

namespace ParOpt
namespace LBFGS

theorem curvature_r_shape (st st1 : LBFGS) (s y nv : ParOptVec) (t : Nat)
    (h : st.curvature s y = some (st1, t, nv)) : st1.r.shape = st.r.shape := by
  unfold curvature at h
  simp only [Option.bind_eq_some, Option.map_eq_some'] at h
  obtain ⟨sa, h1, ⟨sb, ob⟩, h2, d, h3, b0, h4, h5⟩ := h
  have f1 := firstScale_frame st sa _ _ h1
  have f2 := (mult_frame sa sb s sa.r ob h2).2
  have hr : sa.r = st.r := by rw [f1]
  rw [hr] at f2
  simp only [Prod.mk.injEq] at h5
  obtain ⟨h6, _, h7⟩ := h5
  subst h6 h7
  simp only
  rcases damp_spec _ _ _ _ _ _ _ h3 with ⟨_, _, _, hd, hd2, _⟩ | ⟨_, hd⟩
  · rw [hd, ParOptVec.shape_axpy, ParOptVec.shape_scale]
    exact f2
  · subst hd
    exact f2

theorem inv_curvature (st st1 : LBFGS) (s y nv : ParOptVec) (t : Nat)
    (h : st.curvature s y = some (st1, t, nv)) (hi : st.Inv) : st1.Inv := by
  have f := curvature_frame st st1 s y nv t h
  have fr := curvature_r_shape st st1 s y nv t h
  obtain ⟨h1, h2, h3, h4⟩ := hi
  have e1 : st1.msub = st.msub := by rw [f]
  have e2 : st1.msub_max = st.msub_max := by rw [f]
  have e3 : st1.S = st.S := by rw [f]
  have e4 : st1.Y = st.Y := by rw [f]
  have e5 : st1.B = st.B := by rw [f]
  have e6 : st1.D = st.D := by rw [f]
  have e7 : st1.L = st.L := by rw [f]
  have e8 : st1.nvars = st.nvars := by rw [f]
  refine ⟨by rw [e1, e2]; exact h1, by rw [e2]; exact h2, ?_, ?_⟩
  · unfold Alloc
    rw [e2, e3, e4, e8, fr]
    exact h3
  · unfold Consistent
    rw [e1, e2, e3, e4, e5, e6, e7]
    exact h4

/-- Assembling M, Z, d0 and the factors does not touch the pairs and the small arrays. -/
theorem frame_finish (st : LBFGS) :
    st.setM.setZ.factor.msub = st.msub ∧ st.setM.setZ.factor.msub_max = st.msub_max ∧
    st.setM.setZ.factor.nvars = st.nvars ∧ st.setM.setZ.factor.S = st.S ∧
    st.setM.setZ.factor.Y = st.Y ∧ st.setM.setZ.factor.b0 = st.b0 ∧
    st.setM.setZ.factor.r = st.r ∧ st.setM.setZ.factor.B = st.B ∧
    st.setM.setZ.factor.D = st.D ∧ st.setM.setZ.factor.L = st.L ∧
    st.setM.setZ.factor.rz = st.rz := by
  simp [factor, setZ, setM]

theorem assembled_finish (st : LBFGS) : st.setM.setZ.factor.Assembled := by
  have f1 := frame_setM st
  have f2 := frame_setZ st.setM
  have f3 := frame_factor st.setM.setZ
  have f := frame_finish st
  refine ⟨?_, ?_, ?_⟩
  · intro i j hi hj
    rw [f.1] at hi hj
    rw [f.1, f.2.1, f.2.2.2.2.2.1, f.2.2.2.2.2.2.2.1, f.2.2.2.2.2.2.2.2.1,
      f.2.2.2.2.2.2.2.2.2.1, f3.2.2.2.2.2.2.2.1, f2.2.2.2.2.2.2.2.1]
    refine ⟨setM_block11 st i j hi hj, setM_block12 st i j hi hj,
      setM_block21 st i j hi hj, setM_block22 st i j hi hj⟩
  · intro i hi
    rw [f.1] at hi
    rw [f.1, f.2.2.2.1, f.2.2.2.2.1, f.2.2.2.2.2.1, f3.2.2.2.2.2.2.2.2.2.1,
      f3.2.2.2.2.2.2.2.2.2.2.1]
    have hi' : i < st.setM.msub := by rw [f1.1]; exact hi
    have := setZ_spec st.setM i hi'
    rw [f1.1, f1.2.2.2.1, f1.2.2.2.2.1, f1.2.2.2.2.2.1] at this
    exact this
  · refine ⟨memcpy st.setM.setZ.M_factor st.setM.setZ.M
      (4 * st.setM.setZ.msub * st.setM.setZ.msub), st.setM.setZ.mfpiv, ?_, ?_, ?_⟩
    · rw [f.1]; unfold factor; simp only; rw [f2.1, f1.1]
    · rw [f.1]; unfold factor; simp only; rw [f2.1, f1.1]
    · intro k hk
      rw [f.1] at hk
      rw [f3.2.2.2.2.2.2.2.1, f2.1, f1.1]
      simp [memcpy, hk]

/-- One call of update keeps the invariant and leaves M, Z, d0 and the factors assembled. -/
theorem inv_update (st st' : LBFGS) (s y : ParOptVec) (t : Nat)
    (h : st.update s y = some (st', t)) (hi : st.Inv) : st'.Inv ∧ st'.Assembled := by
  obtain ⟨st1, nv, hc, hst⟩ := update_eq st st' s y t h
  have hi1 := inv_curvature st st1 s y nv t hc hi
  obtain ⟨h1, h2, h3, h4⟩ := hi1
  subst hst
  refine ⟨?_, assembled_finish _⟩
  have f := frame_finish (st1.setNewValues s nv).updateSmall
  have fu := frame_updateSmall (st1.setNewValues s nv)
  have fs := frame_setNewValues st1 s nv
  have hms := msub_setNewValues st1 s nv
  have hcons := consistent_store st1 s nv h1 h2 h3 h4
  have hall := alloc_updateSmall _ (alloc_setNewValues st1 s nv h1 h2 h3)
  refine ⟨?_, ?_, ?_, ?_⟩
  · rw [f.1, f.2.1, fu.1, fu.2.1, fs.1, hms]; split_ifs <;> omega
  · rw [f.2.1, fu.2.1, fs.1]; exact h2
  · unfold Alloc at hall ⊢
    rw [f.2.1, f.2.2.1, f.2.2.2.1, f.2.2.2.2.1, f.2.2.2.2.2.2.1]
    exact hall
  · unfold Consistent at hcons ⊢
    rw [f.1, f.2.1, f.2.2.2.1, f.2.2.2.2.1, f.2.2.2.2.2.2.2.1, f.2.2.2.2.2.2.2.2.1,
      f.2.2.2.2.2.2.2.2.2.1]
    exact hcons

theorem inv_start (st : LBFGS) (h0 : st.msub = 0) (hp : 1 ≤ st.msub_max) (ha : st.Alloc) :
    st.Inv := by
  refine ⟨by omega, hp, ha, ?_⟩
  intro i j hi
  omega

/-- Every state reached by calls of update from a state without pairs satisfies the
invariant, and after at least one call M, Z, d0 and the factors are assembled. -/
theorem inv_updates (ps : List (ParOptVec × ParOptVec)) (st0 st : LBFGS)
    (h : st0.updates ps = some st) (hi : st0.Inv) (hq : st0.Assembled ∨ ps ≠ []) :
    st.Inv ∧ st.Assembled := by
  induction ps generalizing st0 with
  | nil =>
    simp only [updates, Option.some.injEq] at h
    subst h
    rcases hq with hq | hq
    · exact ⟨hi, hq⟩
    · exact absurd rfl hq
  | cons p rest ih =>
    simp only [updates, Option.bind_eq_some] at h
    obtain ⟨⟨st1, t⟩, h1, h2⟩ := h
    have := inv_update st0 st1 p.1 p.2 t h1 hi
    exact ih st1 h2 this.1 (Or.inl this.2)

end LBFGS
end ParOpt

namespace ParOpt
namespace LBFGS

theorem alloc_new (nvars : List Nat) (p : Nat) : (LBFGS.new nvars p).Alloc := by
  refine ⟨?_, ?_⟩
  · intro i hi
    simp only [LBFGS.new] at hi ⊢
    rw [if_pos hi]
    exact ⟨ParOptVec.shape_new _, ParOptVec.shape_new _⟩
  · exact ParOptVec.shape_new _

theorem alloc_reset (st : LBFGS) (h : st.Alloc) : st.reset.Alloc := h

theorem inv_of_updates (ps : List (ParOptVec × ParOptVec)) (st0 st : LBFGS)
    (h : st0.updates ps = some st) (hi : st0.Inv) : st.Inv := by
  induction ps generalizing st0 with
  | nil =>
    simp only [updates, Option.some.injEq] at h
    subst h
    exact hi
  | cons p rest ih =>
    simp only [updates, Option.bind_eq_some] at h
    obtain ⟨⟨st1, t⟩, h1, h2⟩ := h
    exact ih st1 h2 (inv_update st0 st1 p.1 p.2 t h1 hi).1

theorem msub_max_updates (ps : List (ParOptVec × ParOptVec)) (st0 st : LBFGS)
    (h : st0.updates ps = some st) : st.msub_max = st0.msub_max ∧ st.nvars = st0.nvars := by
  induction ps generalizing st0 with
  | nil =>
    simp only [updates, Option.some.injEq] at h
    subst h
    exact ⟨rfl, rfl⟩
  | cons p rest ih =>
    simp only [updates, Option.bind_eq_some] at h
    obtain ⟨⟨st1, t⟩, h1, h2⟩ := h
    obtain ⟨sa, nv, hc, hst⟩ := update_eq st0 st1 p.1 p.2 t h1
    have f := curvature_frame st0 sa p.1 p.2 nv t hc
    have e1 : sa.msub_max = st0.msub_max := by rw [f]
    have e2 : sa.nvars = st0.nvars := by rw [f]
    have ff := frame_finish (sa.setNewValues p.1 nv).updateSmall
    have fu := frame_updateSmall (sa.setNewValues p.1 nv)
    have fs := frame_setNewValues sa p.1 nv
    have := ih st1 h2
    rw [this.1, this.2, hst, ff.2.1, ff.2.2.1, fu.2.1, fu.2.2.1, fs.1, fs.2.1, e1, e2]
    exact ⟨rfl, rfl⟩

/-- The matrix M assembled by update is symmetric once B is. -/
theorem M_symm (st : LBFGS) (hi : st.Inv) (hq : st.Assembled) (a b : Nat)
    (ha : a < 2 * st.msub) (hb : b < 2 * st.msub) :
    toMat (2 * st.msub) st.M a b = toMat (2 * st.msub) st.M b a := by
  obtain ⟨hm, hp, hal, hc⟩ := hi
  obtain ⟨hM, _, _⟩ := hq
  have hB : ∀ i j, i < st.msub → j < st.msub →
      st.B (i + st.msub_max * j) = st.B (j + st.msub_max * i) := by
    intro i j h1 h2
    rw [Nat.mul_comm st.msub_max j, Nat.mul_comm st.msub_max i, (hc i j h1 h2).1,
      (hc j i h2 h1).1]
    apply ParOptVec.dot_comm
    rw [(hal.1 i (by omega)).1, (hal.1 j (by omega)).1]
  unfold toMat
  by_cases ha1 : a < st.msub
  · by_cases hb1 : b < st.msub
    · rw [(hM a b ha1 hb1).1, (hM b a hb1 ha1).1, hB a b ha1 hb1]
    · obtain ⟨j, rfl⟩ : ∃ j, b = j + st.msub := ⟨b - st.msub, by omega⟩
      rw [(hM a j ha1 (by omega)).2.1, (hM a j ha1 (by omega)).2.2.1]
  · obtain ⟨i, rfl⟩ : ∃ i, a = i + st.msub := ⟨a - st.msub, by omega⟩
    by_cases hb1 : b < st.msub
    · rw [(hM b i hb1 (by omega)).2.1, (hM b i hb1 (by omega)).2.2.1]
    · obtain ⟨j, rfl⟩ : ∃ j, b = j + st.msub := ⟨b - st.msub, by omega⟩
      have h1 := (hM i j (by omega) (by omega)).2.2.2
      have h2 := (hM j i (by omega) (by omega)).2.2.2
      rw [Nat.add_comm i st.msub, Nat.add_comm j st.msub, h1, h2]
      by_cases e : i = j
      · subst e; rfl
      · rw [if_neg e, if_neg (Ne.symm e)]

end LBFGS
end ParOpt

namespace ParOpt
namespace LBFGS

/-- The stored pairs are the last msub entries of the history H, oldest first. -/
theorem fifo_step (st st1 : LBFGS) (s y nv : ParOptVec) (t : Nat)
    (H : List (ParOptVec × ParOptVec)) (hi : st.Inv)
    (hc : st.curvature s y = some (st1, t, nv))
    (hs : s.shape = st.nvars) (hy : y.shape = st.nvars)
    (hm : st.msub = min H.length st.msub_max)
    (hH : ∀ i, i < st.msub → H[H.length - st.msub + i]? = some (st.S i, st.Y i)) :
    (st1.setNewValues s nv).msub = min (H ++ [(s, nv)]).length st.msub_max ∧
    ∀ i, i < (st1.setNewValues s nv).msub →
      (H ++ [(s, nv)])[(H ++ [(s, nv)]).length - (st1.setNewValues s nv).msub + i]? =
        some ((st1.setNewValues s nv).S i, (st1.setNewValues s nv).Y i) := by
  have hi1 := inv_curvature st st1 s y nv t hc hi
  have f := curvature_frame st st1 s y nv t hc
  have hnv := (curvature_shape st st1 s y nv t hc hi.2.2.1 hy).1
  have e1 : st1.msub = st.msub := by rw [f]
  have e2 : st1.msub_max = st.msub_max := by rw [f]
  have e3 : st1.S = st.S := by rw [f]
  have e4 : st1.Y = st.Y := by rw [f]
  have e8 : st1.nvars = st.nvars := by rw [f]
  obtain ⟨h1, h2, h3, h4⟩ := hi1
  have hms := msub_setNewValues st1 s nv
  have hlen : (H ++ [(s, nv)]).length = H.length + 1 := by simp
  have hmsub : (st1.setNewValues s nv).msub = min (H.length + 1) st.msub_max := by
    rw [hms, e1, e2]
    split_ifs with hlt
    · rw [hm] at hlt ⊢; omega
    · rw [hm] at hlt ⊢; omega
  refine ⟨by rw [hlen]; exact hmsub, ?_⟩
  intro i hilt
  rw [hlen]
  by_cases hlast : i + 1 = (st1.setNewValues s nv).msub
  · have hidx : H.length + 1 - (st1.setNewValues s nv).msub + i = H.length := by
      rw [hmsub] at hlast ⊢; omega
    rw [hidx, List.getElem?_append_right (le_refl _)]
    have hn := newest_setNewValues st1 s nv
    have hi' : i = (st1.setNewValues s nv).msub - 1 := by omega
    rw [hi', hn.1, hn.2]
    have hidx2 : (if st1.msub < st1.msub_max then st1.msub else 0) < st1.msub_max := by
      split_ifs <;> omega
    rw [ParOptVec.copyValues_eq _ s (by rw [(h3.1 _ hidx2).1, e8, hs]),
      ParOptVec.copyValues_eq _ nv (by rw [(h3.1 _ hidx2).2, e8, hnv])]
    simp
  · have hilt2 : i + 1 < (st1.setNewValues s nv).msub := by omega
    obtain ⟨hS, hY, _⟩ := older_setNewValues st1 s nv h1 h2 i hilt2
    rw [hS, hY, e3, e4]
    rw [hms, e1, e2] at hilt2 ⊢
    by_cases hlt : st.msub < st.msub_max
    · simp only [hlt, if_true, Nat.add_zero] at hilt2 ⊢
      have hidx : H.length + 1 - (st.msub + 1) + i = H.length - st.msub + i := by omega
      rw [hidx, List.getElem?_append_left (by rw [hm] at hilt2 ⊢; omega)]
      exact hH i (by omega)
    · simp only [hlt, if_false] at hilt2 ⊢
      have hidx : H.length + 1 - st.msub + i = H.length - st.msub + (i + 1) := by
        rw [hm] at hilt2 ⊢; omega
      rw [hidx, List.getElem?_append_left (by rw [hm] at hilt2 ⊢; omega)]
      exact hH (i + 1) (by omega)

theorem fifo_updates (ps : List (ParOptVec × ParOptVec)) (st0 st : LBFGS)
    (H : List (ParOptVec × ParOptVec)) (hi : st0.Inv)
    (hsh : ∀ p, p ∈ ps → p.1.shape = st0.nvars ∧ p.2.shape = st0.nvars)
    (h : st0.updates ps = some st)
    (hm : st0.msub = min H.length st0.msub_max)
    (hH : ∀ i, i < st0.msub → H[H.length - st0.msub + i]? = some (st0.S i, st0.Y i)) :
    ∃ K, st0.storedPairs ps = some K ∧ K.map Prod.fst = ps.map Prod.fst ∧
      st.msub = min (H ++ K).length st0.msub_max ∧
      ∀ i, i < st.msub → (H ++ K)[(H ++ K).length - st.msub + i]? = some (st.S i, st.Y i) := by
  induction ps generalizing st0 H with
  | nil =>
    simp only [updates, Option.some.injEq] at h
    subst h
    exact ⟨[], rfl, rfl, by simpa using hm, by simpa using hH⟩
  | cons p rest ih =>
    simp only [updates, Option.bind_eq_some] at h
    obtain ⟨⟨st1, t⟩, h1, h2⟩ := h
    obtain ⟨sa, nv, hc, hst⟩ := update_eq st0 st1 p.1 p.2 t h1
    have hshp := hsh p (List.mem_cons_self _ _)
    have hstep := fifo_step st0 sa p.1 p.2 nv t H hi hc hshp.1 hshp.2 hm hH
    have hinv := (inv_update st0 st1 p.1 p.2 t h1 hi).1
    have ff := frame_finish (sa.setNewValues p.1 nv).updateSmall
    have fu := frame_updateSmall (sa.setNewValues p.1 nv)
    have hmm := msub_max_updates [p] st0 st1 (by simp [updates, h1])
    have e1 : st1.msub = (sa.setNewValues p.1 nv).msub := by rw [hst, ff.1, fu.1]
    have e2 : st1.S = (sa.setNewValues p.1 nv).S := by rw [hst, ff.2.2.2.1, fu.2.2.2.1]
    have e3 : st1.Y = (sa.setNewValues p.1 nv).Y := by
      rw [hst, ff.2.2.2.2.1, fu.2.2.2.2.1]
    obtain ⟨K, hK1, hK2, hK3, hK4⟩ := ih st1 (H ++ [(p.1, nv)]) hinv
      (fun q hq => by rw [hmm.2]; exact hsh q (List.mem_cons_of_mem _ hq)) h2
      (by rw [e1, hmm.1]; exact hstep.1)
      (by rw [e1, e2, e3]; exact hstep.2)
    refine ⟨(p.1, nv) :: K, ?_, ?_, ?_, ?_⟩
    · simp only [storedPairs, hc, h1, hK1, Option.some_bind, Option.map_some']
    · simp [hK2]
    · rw [hK3, hmm.1]; simp
    · intro i hilt
      have := hK4 i hilt
      simpa using this

end LBFGS
end ParOpt

namespace ParOpt
namespace LBFGS

/-- The steps of the first part of LBFGS::update, one by one. -/
theorem curvature_spec (st st1 : LBFGS) (s y nv : ParOptVec) (t : Nat)
    (h : st.curvature s y = some (st1, t, nv)) :
    ∃ stA stB r d b0, st.firstScale (y.dot y) (y.dot s) = some stA ∧
      stA.mult s stA.r = some (stB, r) ∧
      damp r s y (y.dot y) (y.dot s) (r.dot s) = some d ∧
      sdiv d.2.2.2.1 d.2.2.2.2 = some b0 ∧
      st1 = { stB with r := d.2.1, b0 := b0 } ∧ t = d.1 ∧ nv = d.2.2.1 := by
  unfold curvature at h
  simp only [Option.bind_eq_some, Option.map_eq_some'] at h
  obtain ⟨sa, h1, ⟨sb, ob⟩, h2, d, h3, b0, h4, h5⟩ := h
  simp only [Prod.mk.injEq] at h5
  obtain ⟨h6, h7, h8⟩ := h5
  exact ⟨sa, sb, ob, d, b0, h1, h2, h3, h4, h6.symm, h7.symm, h8.symm⟩

theorem curvature_of_steps (st stA stB : LBFGS) (s y r : ParOptVec)
    (d : Nat × ParOptVec × ParOptVec × ParOptScalar × ParOptScalar) (b0 : ParOptScalar)
    (h1 : st.firstScale (y.dot y) (y.dot s) = some stA)
    (h2 : stA.mult s stA.r = some (stB, r))
    (h3 : damp r s y (y.dot y) (y.dot s) (r.dot s) = some d)
    (h4 : sdiv d.2.2.2.1 d.2.2.2.2 = some b0) :
    st.curvature s y = some ({ stB with r := d.2.1, b0 := b0 }, d.1, d.2.2.1) := by
  unfold curvature
  simp only [h1, Option.some_bind, h2, h3, h4, Option.map_some']

theorem firstScale_spec (st stA : LBFGS) (g a : ParOptScalar)
    (h : st.firstScale g a = some stA) :
    (st.msub ≠ 0 → stA = st) ∧
    (st.msub = 0 → a ≠ 0 ∧ stA = { st with b0 := if g / a ≤ 0 then 1 else g / a }) := by
  unfold firstScale at h
  by_cases hm : st.msub = 0
  · rw [if_pos hm] at h
    simp only [Option.map_eq_some'] at h
    obtain ⟨q, hq, h2⟩ := h
    unfold sdiv at hq
    by_cases ha : a = 0
    · simp [ha] at hq
    · simp only [ha, if_false, Option.some.injEq] at hq
      subst hq
      exact ⟨fun hne => absurd hm hne, fun _ => ⟨ha, h2.symm⟩⟩
  · rw [if_neg hm] at h
    simp only [Option.some.injEq] at h
    exact ⟨fun _ => h.symm, fun h0 => absurd h0 hm⟩

/-- The newest column of Y after an update is the vector chosen by the first part. -/
theorem newest_update (st st' st1 : LBFGS) (s y nv : ParOptVec) (t : Nat) (hi : st.Inv)
    (hy : y.shape = st.nvars) (hc : st.curvature s y = some (st1, t, nv))
    (hst : st' = ((((st1.setNewValues s nv).updateSmall).setM).setZ).factor) :
    st'.Y (st'.msub - 1) = nv ∧ st'.b0 = st1.b0 ∧
      (s.shape = st.nvars → st'.S (st'.msub - 1) = s) := by
  have hi1 := inv_curvature st st1 s y nv t hc hi
  have f := curvature_frame st st1 s y nv t hc
  have hnv := (curvature_shape st st1 s y nv t hc hi.2.2.1 hy).1
  have e8 : st1.nvars = st.nvars := by rw [f]
  obtain ⟨h1, h2, h3, h4⟩ := hi1
  have ff := frame_finish (st1.setNewValues s nv).updateSmall
  have fu := frame_updateSmall (st1.setNewValues s nv)
  have fs := frame_setNewValues st1 s nv
  have hn := newest_setNewValues st1 s nv
  have hidx2 : (if st1.msub < st1.msub_max then st1.msub else 0) < st1.msub_max := by
    split_ifs <;> omega
  subst hst
  rw [ff.1, ff.2.2.2.2.1, ff.2.2.2.1, ff.2.2.2.2.2.1, fu.1, fu.2.2.2.2.1, fu.2.2.2.1,
    fu.2.2.2.2.2.1, fs.2.2.1, hn.2, hn.1]
  refine ⟨ParOptVec.copyValues_eq _ nv (by rw [(h3.1 _ hidx2).2, e8, hnv]), rfl, fun hs => ?_⟩
  exact ParOptVec.copyValues_eq _ s (by rw [(h3.1 _ hidx2).1, e8, hs])

/-- The damped vector y' = theta*y + (1 - theta)*r has y'.s = 0.2*beta. -/
theorem damped_dot (r s y : ParOptVec) (hy : y.shape = r.shape)
    (hne : r.dot s - y.dot s ≠ 0) :
    ((r.scale (1.0 - 0.8 * r.dot s / (r.dot s - y.dot s))).axpy
      (0.8 * r.dot s / (r.dot s - y.dot s)) y).dot s = 0.2 * r.dot s := by
  rw [ParOptVec.dot_axpy_left _ _ _ _ (by rw [ParOptVec.shape_scale, hy]),
    ParOptVec.dot_scale_left]
  field_simp
  norm_num
  ring

end LBFGS
end ParOpt

namespace ParOpt

theorem sdiv_spec (a b q : ParOptScalar) (h : sdiv a b = some q) : b ≠ 0 ∧ q = a / b := by
  unfold sdiv at h
  by_cases hb : b = 0
  · simp [hb] at h
  · simp only [hb, if_false, Option.some.injEq] at h
    exact ⟨hb, h.symm⟩

namespace LBFGS

/-- The scaling left by the first part of update is b0 = y'.y' / y'.s for the vector y'
chosen for storage, which is y itself when the update is not damped. -/
theorem b0_curvature (st st1 : LBFGS) (s y nv : ParOptVec) (t : Nat)
    (hc : st.curvature s y = some (st1, t, nv)) :
    nv.dot s ≠ 0 ∧ st1.b0 = nv.dot nv / nv.dot s ∧ (t = 0 → nv = y) ∧ (t = 0 ∨ t = 1) := by
  obtain ⟨stA, stB, r, d, b0, _, _, h3, h4, hst, ht, hnv⟩ := curvature_spec st st1 s y nv t hc
  obtain ⟨hne, hb0⟩ := sdiv_spec _ _ _ h4
  have hb : st1.b0 = b0 := by rw [hst]
  rcases damp_spec _ _ _ _ _ _ _ h3 with ⟨_, _, hd1, _, hd3, hd4, hd5⟩ | ⟨_, hd⟩
  · have hnv2 : d.2.1 = nv := by rw [hnv, hd3]
    rw [hd4, hd5, hnv2] at hb0
    rw [hd5, hnv2] at hne
    refine ⟨hne, by rw [hb, hb0], fun e => ?_, Or.inr (by rw [ht, hd1])⟩
    rw [ht, hd1] at e
    exact absurd e (by decide)
  · subst hd
    simp only at hb0 hne ht hnv
    subst hnv
    exact ⟨hne, by rw [hb, hb0], fun _ => rfl, Or.inl ht⟩

theorem msub_update (st st' : LBFGS) (s y : ParOptVec) (t : Nat)
    (h : st.update s y = some (st', t)) :
    st'.msub = if st.msub < st.msub_max then st.msub + 1 else st.msub := by
  obtain ⟨st1, nv, hc, hst⟩ := update_eq st st' s y t h
  have f := curvature_frame st st1 s y nv t hc
  have e1 : st1.msub = st.msub := by rw [f]
  have e2 : st1.msub_max = st.msub_max := by rw [f]
  have ff := frame_finish (st1.setNewValues s nv).updateSmall
  have fu := frame_updateSmall (st1.setNewValues s nv)
  rw [hst, ff.1, fu.1, msub_setNewValues, e1, e2]

end LBFGS
end ParOpt

namespace ParOpt

theorem inrange_congr (v w : ParOptVec) (h : v.shape = w.shape) (r k : Nat) :
    (r < v.length ∧ k < v.size r) ↔ (r < w.length ∧ k < w.size r) := by
  rw [ParOptVec.length_eq_shape, ParOptVec.size_eq_shape, ParOptVec.length_eq_shape,
    ParOptVec.size_eq_shape, h]

/-- Entry by entry, a loop of axpy calls adds the combination of the columns. -/
theorem get_axpyLoop (n : Nat) (c : Nat → ParOptScalar) (Z : Nat → ParOptVec) (y : ParOptVec)
    (r k : Nat) :
    (forLoop n (fun i y => y.axpy (c i) (Z i)) y).get r k =
      if r < y.length ∧ k < y.size r then y.get r k + sumTo n (fun i => c i * (Z i).get r k)
      else 0 := by
  induction n with
  | zero =>
    simp only [forLoop, sumTo, add_zero]
    split_ifs with h
    · rfl
    · exact ParOptVec.get_of_not y r k h
  | succ n ih =>
    rw [forLoop_succ, ParOptVec.get_axpy, ih]
    have hc := inrange_congr _ _ (shape_axpyLoop n c Z y) r k
    by_cases h : r < y.length ∧ k < y.size r
    · rw [if_pos (hc.mpr h), if_pos h, if_pos h]
      simp only [sumTo]
      ring
    · rw [if_neg (fun h' => h (hc.mp h')), if_neg h]

theorem zeroEntries_shape (y : ParOptVec) : y.zeroEntries.shape = y.shape := by
  unfold ParOptVec.zeroEntries ParOptVec.shape
  simp [List.map_map, Function.comp_def]

theorem zeroEntries_eq_new (y : ParOptVec) : y.zeroEntries = ParOptVec.new y.shape := by
  unfold ParOptVec.zeroEntries ParOptVec.new ParOptVec.shape
  simp [List.map_map, Function.comp_def]

theorem get_zeroEntries (y : ParOptVec) (r k : Nat) : y.zeroEntries.get r k = 0 := by
  rw [zeroEntries_eq_new, ParOptVec.get_new]

/-- The two accumulations agree: starting from y + (b0*alpha)*x and adding -alpha*rz[i]*Z[i]
gives y + alpha*(b0*x - sum of rz[i]*Z[i]). -/
theorem multAdd_vec (n : Nat) (rz : Nat → ParOptScalar) (Z : Nat → ParOptVec)
    (b0 alpha : ParOptScalar) (x y y0 : ParOptVec) (h : y0.shape = y.shape) :
    forLoop n (fun i y => y.axpy (-alpha * rz i) (Z i)) (y.axpy (b0 * alpha) x) =
      y.axpy alpha (forLoop n (fun i y => y.axpy (-(rz i)) (Z i))
        ((y0.copyValues x).scale b0)) := by
  apply ParOptVec.ext_get
  · rw [shape_axpyLoop, ParOptVec.shape_axpy, ParOptVec.shape_axpy]
  · intro r k hr hk
    have hin : r < y.length ∧ k < y.size r :=
      (inrange_congr (forLoop n (fun i y => y.axpy (-alpha * rz i) (Z i))
        (y.axpy (b0 * alpha) x)) y (by rw [shape_axpyLoop, ParOptVec.shape_axpy]) r k).mp
        ⟨hr, hk⟩
    have hin1 : r < (y.axpy (b0 * alpha) x).length ∧ k < (y.axpy (b0 * alpha) x).size r :=
      (inrange_congr (y.axpy (b0 * alpha) x) y (ParOptVec.shape_axpy _ _ _) r k).mpr hin
    have hin0 : r < y0.length ∧ k < y0.size r := (inrange_congr y0 y h r k).mpr hin
    have hin2 : r < ((y0.copyValues x).scale b0).length ∧
        k < ((y0.copyValues x).scale b0).size r :=
      (inrange_congr ((y0.copyValues x).scale b0) y0
        (by rw [ParOptVec.shape_scale, ParOptVec.shape_copyValues]) r k).mpr hin0
    rw [get_axpyLoop, if_pos hin1, ParOptVec.get_axpy, if_pos hin, ParOptVec.get_axpy,
      if_pos hin, get_axpyLoop, if_pos hin2, ParOptVec.get_scale, ParOptVec.get_copyValues,
      if_pos hin0]
    have e : sumTo n (fun i => -alpha * rz i * (Z i).get r k) =
        alpha * sumTo n (fun i => -(rz i) * (Z i).get r k) := by
      rw [← sumTo_mul_left]
      apply sumTo_congr
      intro i _
      ring
    rw [e]
    ring

theorem axpy_zero_one (y m : ParOptVec) (h : m.shape = y.shape) :
    y.zeroEntries.axpy 1 m = m := by
  apply ParOptVec.ext_get
  · rw [ParOptVec.shape_axpy, zeroEntries_shape, h]
  · intro r k hr hk
    have hin : r < y.zeroEntries.length ∧ k < y.zeroEntries.size r :=
      (inrange_congr (y.zeroEntries.axpy 1 m) y.zeroEntries (ParOptVec.shape_axpy _ _ _)
        r k).mp ⟨hr, hk⟩
    rw [ParOptVec.get_axpy, if_pos hin, get_zeroEntries]
    ring

namespace LBFGS

theorem multAdd_eq (st : LBFGS) (alpha : ParOptScalar) (x y y0 : ParOptVec)
    (h : y0.shape = y.shape) :
    st.multAdd alpha x y = (st.mult x y0).map (fun q => (q.1, y.axpy alpha q.2)) := by
  unfold multAdd mult
  by_cases hm : 0 < st.msub
  · simp only [hm, if_true, Option.map_map]
    congr 1
    funext rz
    simp only [Function.comp_apply, Prod.mk.injEq, true_and]
    exact multAdd_vec _ _ _ _ _ x y y0 h
  · simp only [hm, if_false, Option.map_some', Option.some.injEq, Prod.mk.injEq, true_and]
    have := multAdd_vec 0 (fun _ => 0) st.Z st.b0 alpha x y y0 h
    simpa [forLoop] using this

end LBFGS

namespace LSR1

theorem sr1_mult_frame (st st1 : LSR1) (x y out : ParOptVec) (h : st.mult x y = some (st1, out)) :
    st1 = { st with rz := st1.rz } ∧ out.shape = y.shape := by
  unfold mult at h
  by_cases hm : 0 < st.msub
  · simp only [hm, if_true, Option.map_eq_some'] at h
    obtain ⟨rz, _, h2⟩ := h
    simp only [Prod.mk.injEq] at h2
    obtain ⟨h3, h4⟩ := h2
    subst h3 h4
    exact ⟨rfl, by rw [shape_axpyLoop, ParOptVec.shape_scale, ParOptVec.shape_copyValues]⟩
  · simp only [hm, if_false, Option.some.injEq, Prod.mk.injEq] at h
    obtain ⟨h3, h4⟩ := h
    subst h3 h4
    exact ⟨rfl, by rw [ParOptVec.shape_scale, ParOptVec.shape_copyValues]⟩

theorem sr1_multAdd_eq (st : LSR1) (alpha : ParOptScalar) (x y y0 : ParOptVec)
    (h : y0.shape = y.shape) :
    st.multAdd alpha x y = (st.mult x y0).map (fun q => (q.1, y.axpy alpha q.2)) := by
  unfold multAdd mult
  by_cases hm : 0 < st.msub
  · simp only [hm, if_true, Option.map_map]
    congr 1
    funext rz
    simp only [Function.comp_apply, Prod.mk.injEq, true_and]
    exact multAdd_vec _ _ _ _ _ x y y0 h
  · simp only [hm, if_false, Option.map_some', Option.some.injEq, Prod.mk.injEq, true_and]
    have := multAdd_vec 0 (fun _ => 0) st.Z st.b0 alpha x y y0 h
    simpa [forLoop] using this

end LSR1
end ParOpt

namespace ParOpt

theorem idamax_spec (cnt : Nat) (x : Nat → ParOptScalar) :
    (0 < cnt → idamax cnt x < cnt) ∧ (∀ i, i < cnt → |x i| ≤ |x (idamax cnt x)|) := by
  induction cnt with
  | zero => exact ⟨fun h => absurd h (by omega), fun i hi => absurd hi (by omega)⟩
  | succ n ih =>
    have e : idamax (n + 1) x =
        if |x (idamax n x)| < |x n| then n else idamax n x := rfl
    rw [e]
    constructor
    · intro _
      split_ifs
      · omega
      · by_cases hn : 0 < n
        · have := ih.1 hn; omega
        · have hn0 : n = 0 := by omega
          subst hn0
          show idamax 0 x < 0 + 1
          have : idamax 0 x = 0 := rfl
          omega
    · intro i hi
      by_cases hin : i = n
      · subst hin
        split_ifs with h
        · exact le_refl _
        · exact not_lt.mp h
      · have h1 := ih.2 i (by omega)
        split_ifs with h
        · exact le_trans h1 h.le
        · exact h1

theorem idamax_zero (cnt : Nat) (x : Nat → ParOptScalar) (h : ∀ i, i < cnt → x i = 0) :
    idamax cnt x = 0 := by
  induction cnt with
  | zero => rfl
  | succ n ih =>
    have e : idamax (n + 1) x =
        if |x (idamax n x)| < |x n| then n else idamax n x := rfl
    rw [e, ih (fun i hi => h i (by omega)), h n (by omega)]
    have : ¬ |x 0| < |(0 : ParOptScalar)| := by
      rw [abs_zero]; exact not_lt.mpr (abs_nonneg _)
    rw [if_neg this]

theorem swapIdx_self (j i : Nat) : swapIdx j j i = i := by
  unfold swapIdx
  split_ifs with h <;> simp [h]

theorem swapIdx_invol (j p i : Nat) : swapIdx j p (swapIdx j p i) = i := by
  unfold swapIdx
  split_ifs <;> omega

theorem swapIdx_lt (n j p i : Nat) (hj : j < n) (hp : p < n) (hi : i < n) :
    swapIdx j p i < n := by
  unfold swapIdx
  split_ifs <;> omega

theorem swapIdx_of_lt (j p i : Nat) (hjp : j ≤ p) (hi : i < j) : swapIdx j p i = i := by
  unfold swapIdx
  split_ifs <;> omega

theorem swapIdx_ge (j p i : Nat) (hjp : j ≤ p) (hi : j ≤ i) : j ≤ swapIdx j p i := by
  unfold swapIdx
  split_ifs <;> omega

/-- The pivot row chosen at step j. -/
theorem pivot_spec (n j : Nat) (a : Nat → Nat → ParOptScalar) (hj : j < n) :
    j ≤ j + idamax (n - j) (fun i => a (j + i) j) ∧
    j + idamax (n - j) (fun i => a (j + i) j) < n ∧
    (a (j + idamax (n - j) (fun i => a (j + i) j)) j = 0 →
      (∀ i, j ≤ i → i < n → a i j = 0) ∧ idamax (n - j) (fun i => a (j + i) j) = 0) := by
  have hs := idamax_spec (n - j) (fun i => a (j + i) j)
  have h1 := hs.1 (by omega)
  refine ⟨by omega, by omega, fun h0 => ?_⟩
  have hall : ∀ i, j ≤ i → i < n → a i j = 0 := by
    intro i h2 h3
    have := hs.2 (i - j) (by omega)
    simp only at this
    rw [h0, abs_zero, show j + (i - j) = i by omega] at this
    exact abs_eq_zero.mp (le_antisymm this (abs_nonneg _))
  exact ⟨hall, idamax_zero _ _ (fun i hi => hall (j + i) (by omega) (by omega))⟩

/-- One step of the factorisation, described entry by entry. -/
theorem dgetf2Step_spec (n t : Nat) (a : Nat → Nat → ParOptScalar) (piv : Nat → Nat)
    (ht : t < n) :
    ∃ jp, t ≤ jp ∧ jp < n ∧ (dgetf2Step n t (a, piv)).2 = Function.update piv t jp ∧
      (∀ s k, s < t → (dgetf2Step n t (a, piv)).1 s k = a s k) ∧
      (∀ i k, k < t → (dgetf2Step n t (a, piv)).1 i k = a (swapIdx t jp i) k) ∧
      (∀ k, (dgetf2Step n t (a, piv)).1 t k = a jp k) ∧
      (∀ i, t < i → i < n →
        (dgetf2Step n t (a, piv)).1 i t * a jp t = a (swapIdx t jp i) t) ∧
      (∀ i k, t < i → i < n → t < k →
        (dgetf2Step n t (a, piv)).1 i k =
          a (swapIdx t jp i) k - (dgetf2Step n t (a, piv)).1 i t * a jp k) := by
  obtain ⟨p1, p2, p3⟩ := pivot_spec n t a ht
  refine ⟨t + idamax (n - t) (fun i => a (t + i) t), p1, p2, rfl, ?_⟩
  by_cases hz : a (t + idamax (n - t) (fun i => a (t + i) t)) t = 0
  · obtain ⟨hall, hid⟩ := p3 hz
    have hjp : t + idamax (n - t) (fun i => a (t + i) t) = t := by rw [hid]; rfl
    have hstep : ∀ i k, (dgetf2Step n t (a, piv)).1 i k =
        if t < i ∧ t < k then a i k - a i t * a t k else a i k := by
      intro i k
      unfold dgetf2Step
      simp only [hz, if_true]
    simp only [hstep, hjp, swapIdx_self]
    refine ⟨?_, ?_, ?_, ?_, ?_⟩
    · intro s k hs
      rw [if_neg (by omega)]
    · intro i k hk
      rw [if_neg (by omega)]
    · intro k
      rw [if_neg (by omega)]
    · intro i h1 h2
      rw [if_neg (by omega), hall i (by omega) h2]
      ring
    · intro i k h1 h2 h3
      rw [if_pos ⟨h1, h3⟩, if_neg (by omega)]
  · have hstep : ∀ i k, (dgetf2Step n t (a, piv)).1 i k =
        if t < i ∧ t < k then
          (if k = t ∧ t < i then
            a (swapIdx t (t + idamax (n - t) (fun i => a (t + i) t)) i) t /
              a (swapIdx t (t + idamax (n - t) (fun i => a (t + i) t)) t) t
          else a (swapIdx t (t + idamax (n - t) (fun i => a (t + i) t)) i) k) -
          (if t = t ∧ t < i then
            a (swapIdx t (t + idamax (n - t) (fun i => a (t + i) t)) i) t /
              a (swapIdx t (t + idamax (n - t) (fun i => a (t + i) t)) t) t
          else a (swapIdx t (t + idamax (n - t) (fun i => a (t + i) t)) i) t) *
          (if k = t ∧ t < t then
            a (swapIdx t (t + idamax (n - t) (fun i => a (t + i) t)) t) t /
              a (swapIdx t (t + idamax (n - t) (fun i => a (t + i) t)) t) t
          else a (swapIdx t (t + idamax (n - t) (fun i => a (t + i) t)) t) k)
        else
          (if k = t ∧ t < i then
            a (swapIdx t (t + idamax (n - t) (fun i => a (t + i) t)) i) t /
              a (swapIdx t (t + idamax (n - t) (fun i => a (t + i) t)) t) t
          else a (swapIdx t (t + idamax (n - t) (fun i => a (t + i) t)) i) k) := by
      intro i k
      unfold dgetf2Step
      simp only [hz, if_false]
    generalize t + idamax (n - t) (fun i => a (t + i) t) = jp at *
    have hsw : swapIdx t jp t = jp := by unfold swapIdx; simp
    refine ⟨?_, ?_, ?_, ?_, ?_⟩
    · intro s k hs
      simp [hstep, hsw, show ¬ t < s from by omega, swapIdx_of_lt t jp s p1 hs]
    · intro i k hk
      simp [hstep, hsw, show ¬ t < k from by omega, show k ≠ t from by omega]
    · intro k
      simp [hstep, hsw]
    · intro i h1 h2
      simp [hstep, hsw, h1]
      field_simp
    · intro i k h1 h2 h3
      simp [hstep, hsw, h1, h3, show k ≠ t from by omega]

end ParOpt

namespace ParOpt

theorem permOf_congr (p q : Nat → Nat) (t : Nat) (h : ∀ s, s < t → p s = q s) (i : Nat) :
    permOf p t i = permOf q t i := by
  induction t generalizing i with
  | zero => rfl
  | succ t ih =>
    simp only [permOf]
    rw [h t (by omega), ih (fun s hs => h s (by omega))]

theorem permOf_lt (piv : Nat → Nat) (n t : Nat) (ht : t ≤ n)
    (hp : ∀ s, s < t → s ≤ piv s ∧ piv s < n) (i : Nat) (hi : i < n) :
    permOf piv t i < n := by
  induction t generalizing i with
  | zero => exact hi
  | succ t ih =>
    simp only [permOf]
    exact ih (by omega) (fun s hs => hp s (by omega)) _
      (swapIdx_lt n t (piv t) i (by omega) (hp t (by omega)).2 hi)

theorem permOf_surj (piv : Nat → Nat) (n t : Nat) (ht : t ≤ n)
    (hp : ∀ s, s < t → s ≤ piv s ∧ piv s < n) (j : Nat) (hj : j < n) :
    ∃ i, i < n ∧ permOf piv t i = j := by
  induction t with
  | zero => exact ⟨j, hj, rfl⟩
  | succ t ih =>
    obtain ⟨i, hi, e⟩ := ih (by omega) (fun s hs => hp s (by omega))
    refine ⟨swapIdx t (piv t) i, swapIdx_lt n t (piv t) i (by omega) (hp t (by omega)).2 hi, ?_⟩
    simp only [permOf]
    rw [swapIdx_invol, e]

theorem dlaswp_eq (n : Nat) (piv : Nat → Nat) (b : Nat → ParOptScalar) (i : Nat) :
    dlaswp n piv b i = b (permOf piv n i) := by
  unfold dlaswp
  induction n generalizing i with
  | zero => rfl
  | succ n ih =>
    rw [forLoop_succ]
    simp only [permOf]
    exact ih _

/-- The invariant of the factorisation: after t steps the permuted rows of the matrix are
the product of the factors found so far with the remaining trailing block. -/
theorem lu_inv (n : Nat) (a0 : Nat → Nat → ParOptScalar) (piv0 : Nat → Nat) (t : Nat)
    (ht : t ≤ n) :
    (∀ s, s < t → s ≤ (forLoop t (dgetf2Step n) (a0, piv0)).2 s ∧
      (forLoop t (dgetf2Step n) (a0, piv0)).2 s < n) ∧
    (∀ i k, i < n →
      a0 (permOf (forLoop t (dgetf2Step n) (a0, piv0)).2 t i) k =
        sumTo (min i t) (fun s => if s ≤ k then
            (forLoop t (dgetf2Step n) (a0, piv0)).1 i s *
              (forLoop t (dgetf2Step n) (a0, piv0)).1 s k else 0) +
          (if min i t ≤ k then (forLoop t (dgetf2Step n) (a0, piv0)).1 i k else 0)) := by
  induction t with
  | zero =>
    refine ⟨fun s hs => absurd hs (by omega), fun i k hi => ?_⟩
    simp [forLoop, permOf, sumTo]
  | succ t ih =>
    obtain ⟨ihp, ihf⟩ := ih (by omega)
    rw [forLoop_succ]
    generalize forLoop t (dgetf2Step n) (a0, piv0) = st at ihp ihf ⊢
    obtain ⟨a, piv⟩ := st
    obtain ⟨jp, h1, h2, hpiv, S1, S2, S3, S4, S5⟩ := dgetf2Step_spec n t a piv (by omega)
    simp only at ihp ihf
    refine ⟨fun s hs => ?_, fun i k hi => ?_⟩
    · rw [hpiv]
      by_cases e : s = t
      · subst e; simp; exact ⟨h1, h2⟩
      · rw [Function.update_noteq e]; exact ihp s (by omega)
    · rw [hpiv]
      simp only [permOf, Function.update_same]
      rw [permOf_congr (Function.update piv t jp) piv t
        (fun s hs => Function.update_noteq (by omega) _ _)]
      rw [ihf _ k (swapIdx_lt n t jp i (by omega) h2 hi)]
      rcases Nat.lt_trichotomy i t with hlt | heq | hgt
      · rw [swapIdx_of_lt t jp i h1 hlt]
        rw [show min i t = i from by omega, show min i (t + 1) = i from by omega]
        rw [S1 i k hlt]
        congr 1
        apply sumTo_congr
        intro s hs
        rw [S1 i s hlt, S1 s k (by omega)]
      · subst heq
        have hsw : swapIdx i jp i = jp := by simp [swapIdx]
        rw [hsw, show min jp i = i from by omega, show min i (i + 1) = i from by omega]
        rw [S3 k]
        congr 1
        apply sumTo_congr
        intro s hs
        rw [S3 s, S1 s k hs]
      · have hge := swapIdx_ge t jp i h1 (by omega)
        rw [show min (swapIdx t jp i) t = t from by omega,
          show min i (t + 1) = t + 1 from by omega]
        simp only [sumTo]
        have hsum : sumTo t (fun s => if s ≤ k then
              (dgetf2Step n t (a, piv)).1 i s * (dgetf2Step n t (a, piv)).1 s k else 0) =
            sumTo t (fun s => if s ≤ k then a (swapIdx t jp i) s * a s k else 0) := by
          apply sumTo_congr
          intro s hs
          rw [S2 i s hs, S1 s k hs]
        rw [hsum, S3 k, add_assoc]
        congr 1
        rcases Nat.lt_trichotomy k t with hk | hk | hk
        · simp [show ¬ t ≤ k from by omega, show ¬ t + 1 ≤ k from by omega]
        · subst hk
          simp [S4 i hgt hi]
        · simp [show t ≤ k from by omega, show t + 1 ≤ k from by omega, S5 i k hgt hi hk]

end ParOpt

namespace ParOpt

theorem sumTo_lower_split (n i : Nat) (hi : i < n) (f : Nat → ParOptScalar) (g : ParOptScalar) :
    sumTo n (fun s => if s < i then f s else if s = i then g else 0) = sumTo i f + g := by
  induction n with
  | zero => omega
  | succ n ih =>
    simp only [sumTo]
    by_cases e : i = n
    · subst e
      simp
      apply sumTo_congr
      intro s hs
      simp [hs]
    · rw [ih (by omega)]
      simp [show ¬ n < i from by omega, show ¬ n = i from by omega]

theorem sumTo_extend (m n : Nat) (h : m ≤ n) (g : Nat → ParOptScalar)
    (hz : ∀ k, m ≤ k → k < n → g k = 0) : sumTo n g = sumTo m g := by
  induction n with
  | zero => rw [show m = 0 from by omega]
  | succ n ih =>
    by_cases e : m = n + 1
    · rw [e]
    · simp only [sumTo]
      rw [ih (by omega) (fun k h1 h2 => hz k h1 (by omega)), hz n (by omega) (by omega), add_zero]

theorem sumTo_eq_zero (n : Nat) (g : Nat → ParOptScalar) (hz : ∀ k, k < n → g k = 0) :
    sumTo n g = 0 := by
  rw [sumTo_congr n g (fun _ => 0) hz, sumTo_zero]

theorem sumTo_upper_split (n i : Nat) (hi : i < n) (f : Nat → ParOptScalar) :
    sumTo n (fun k => if i ≤ k then f k else 0) = f i + sumFromTo (i + 1) n f := by
  induction n with
  | zero => omega
  | succ n ih =>
    simp only [sumTo]
    by_cases e : i = n
    · subst e
      rw [sumTo_eq_zero _ _ (fun k hk => by simp [show ¬ i ≤ k from by omega])]
      simp [sumFromTo, sumTo]
    · rw [ih (by omega)]
      unfold sumFromTo
      rw [show n + 1 - (i + 1) = (n - (i + 1)) + 1 from by omega]
      simp only [sumTo]
      rw [show i + 1 + (n - (i + 1)) = n from by omega]
      simp [show i ≤ n from by omega, add_assoc]

theorem sumFromTo_congr (lo hi : Nat) (f g : Nat → ParOptScalar)
    (h : ∀ k, lo ≤ k → k < hi → f k = g k) : sumFromTo lo hi f = sumFromTo lo hi g := by
  unfold sumFromTo
  apply sumTo_congr
  intro t ht
  exact h _ (by omega) (by omega)

theorem sumTo_comm_mul (n : Nat) (l : Nat → ParOptScalar) (u : Nat → Nat → ParOptScalar)
    (v : Nat → ParOptScalar) :
    sumTo n (fun k => sumTo n (fun s => l s * u s k) * v k) =
      sumTo n (fun s => l s * sumTo n (fun k => u s k * v k)) := by
  simp only [sumTo_eq_sum, Finset.sum_mul, Finset.mul_sum]
  rw [Finset.sum_comm]
  apply Finset.sum_congr rfl
  intro s _
  apply Finset.sum_congr rfl
  intro k _
  ring

theorem solveLower_spec (a : Nat → Nat → ParOptScalar) (b : Nat → ParOptScalar) (n : Nat) :
    (∀ i, i < n →
      solveLower n a b i + sumTo i (fun k => a i k * solveLower n a b k) = b i) ∧
    (∀ i, n ≤ i → solveLower n a b i = b i) := by
  induction n with
  | zero => exact ⟨fun i hi => absurd hi (by omega), fun i _ => rfl⟩
  | succ n ih =>
    obtain ⟨ih1, ih2⟩ := ih
    have hstep : solveLower (n + 1) a b = Function.update (solveLower n a b) n
        (solveLower n a b n - sumTo n (fun k => a n k * solveLower n a b k)) := rfl
    rw [hstep]
    refine ⟨fun i hi => ?_, fun i hi => ?_⟩
    · have hc : sumTo i (fun k => a i k * Function.update (solveLower n a b) n
          (solveLower n a b n - sumTo n (fun k => a n k * solveLower n a b k)) k) =
          sumTo i (fun k => a i k * solveLower n a b k) := by
        apply sumTo_congr
        intro k hk
        rw [Function.update_noteq (by omega)]
      rw [hc]
      by_cases e : i = n
      · subst e
        rw [Function.update_same, ih2 i (le_refl _)]
        ring
      · rw [Function.update_noteq e]
        exact ih1 i (by omega)
    · rw [Function.update_noteq (by omega)]
      exact ih2 i (by omega)

theorem solveLower_full (a : Nat → Nat → ParOptScalar) (b : Nat → ParOptScalar) (n i : Nat)
    (hi : i < n) :
    sumTo n (fun s => unitLowerOf a i s * solveLower n a b s) = b i := by
  rw [← (solveLower_spec a b n).1 i hi]
  rw [sumTo_congr n _ (fun s => if s < i then a i s * solveLower n a b s
    else if s = i then solveLower n a b i else 0)]
  · rw [sumTo_lower_split n i hi]
    ring
  · intro s _
    unfold unitLowerOf
    split_ifs with h1 h2
    · rfl
    · subst h2; ring
    · ring

theorem forDown_upper (n : Nat) (a : Nat → Nat → ParOptScalar) (t : Nat)
    (c : Nat → ParOptScalar) (hd : ∀ i, i < t → a i i ≠ 0) :
    (∀ i, i < t →
      a i i * forDown t (fun i b => Function.update b i
          ((b i - sumFromTo (i + 1) n (fun k => a i k * b k)) / a i i)) c i +
        sumFromTo (i + 1) n (fun k => a i k * forDown t (fun i b => Function.update b i
          ((b i - sumFromTo (i + 1) n (fun k => a i k * b k)) / a i i)) c k) = c i) ∧
    (∀ i, t ≤ i → forDown t (fun i b => Function.update b i
          ((b i - sumFromTo (i + 1) n (fun k => a i k * b k)) / a i i)) c i = c i) := by
  induction t generalizing c with
  | zero => exact ⟨fun i hi => absurd hi (by omega), fun i _ => rfl⟩
  | succ t ih =>
    simp only [forDown]
    obtain ⟨ih1, ih2⟩ := ih (Function.update c t
      ((c t - sumFromTo (t + 1) n (fun k => a t k * c k)) / a t t)) (fun i hi => hd i (by omega))
    refine ⟨fun i hi => ?_, fun i hi => ?_⟩
    · by_cases e : i = t
      · subst e
        have hs : ∀ x : Nat → ParOptScalar, (∀ k, i + 1 ≤ k → x k = c k) →
            sumFromTo (i + 1) n (fun k => a i k * x k) =
              sumFromTo (i + 1) n (fun k => a i k * c k) :=
          fun x hx => sumFromTo_congr _ _ _ _ (fun k hk _ => by rw [hx k hk])
        rw [ih2 i (le_refl _), Function.update_same,
          hs _ (fun k hk => (ih2 k (by omega)).trans (Function.update_noteq (by omega) _ _))]
        field_simp [hd i (by omega)]
      · rw [ih1 i (by omega), Function.update_noteq e]
    · rw [ih2 i (by omega), Function.update_noteq (by omega)]

theorem solveUpper_spec (n : Nat) (a : Nat → Nat → ParOptScalar) (c : Nat → ParOptScalar)
    (hd : ∀ i, i < n → a i i ≠ 0) :
    (∀ i, i < n → sumTo n (fun k => upperOf a i k * solveUpper n a c k) = c i) ∧
    (∀ i, n ≤ i → solveUpper n a c i = c i) := by
  obtain ⟨h1, h2⟩ := forDown_upper n a n c hd
  refine ⟨fun i hi => ?_, h2⟩
  rw [sumTo_congr n _ (fun k => if i ≤ k then a i k * solveUpper n a c k else 0)]
  · rw [sumTo_upper_split n i hi]
    exact h1 i hi
  · intro k _
    unfold upperOf
    split_ifs <;> simp

end ParOpt

namespace ParOpt

/-- After all n steps the permuted matrix is the product of the two triangular factors. -/
theorem lu_factor_full (n : Nat) (a0 : Nat → Nat → ParOptScalar) (piv0 : Nat → Nat)
    (i k : Nat) (hi : i < n) :
    a0 (permOf (forLoop n (dgetf2Step n) (a0, piv0)).2 n i) k =
      sumTo n (fun s => unitLowerOf (forLoop n (dgetf2Step n) (a0, piv0)).1 i s *
        upperOf (forLoop n (dgetf2Step n) (a0, piv0)).1 s k) := by
  rw [(lu_inv n a0 piv0 n (le_refl _)).2 i k hi, show min i n = i from by omega]
  rw [sumTo_congr n _ (fun s => if s < i then
      (if s ≤ k then (forLoop n (dgetf2Step n) (a0, piv0)).1 i s *
        (forLoop n (dgetf2Step n) (a0, piv0)).1 s k else 0)
    else if s = i then
      (if i ≤ k then (forLoop n (dgetf2Step n) (a0, piv0)).1 i k else 0) else 0)]
  · rw [sumTo_lower_split n i hi]
  · intro s _
    unfold unitLowerOf upperOf
    by_cases h1 : s < i
    · simp only [if_pos h1]
      split_ifs <;> simp
    · by_cases h2 : s = i
      · subst h2
        simp
      · simp [h1, h2]

theorem lu_apply (n : Nat) (a0 : Nat → Nat → ParOptScalar) (piv0 : Nat → Nat)
    (v w : Nat → ParOptScalar)
    (hv : ∀ s, s < n →
      sumTo n (fun k => upperOf (forLoop n (dgetf2Step n) (a0, piv0)).1 s k * v k) = w s)
    (i : Nat) (hi : i < n) :
    sumTo n (fun k => a0 (permOf (forLoop n (dgetf2Step n) (a0, piv0)).2 n i) k * v k) =
      sumTo n (fun s => unitLowerOf (forLoop n (dgetf2Step n) (a0, piv0)).1 i s * w s) := by
  rw [sumTo_congr n _ (fun k => sumTo n (fun s =>
      unitLowerOf (forLoop n (dgetf2Step n) (a0, piv0)).1 i s *
        upperOf (forLoop n (dgetf2Step n) (a0, piv0)).1 s k) * v k)
    (fun k _ => by rw [lu_factor_full n a0 piv0 i k hi])]
  rw [sumTo_comm_mul]
  apply sumTo_congr
  intro s hs
  rw [hv s hs]

/-- The rows of a matrix product vanish on all rows once they vanish on the permuted rows. -/
theorem rows_of_perm (n : Nat) (a0 : Nat → Nat → ParOptScalar) (piv0 : Nat → Nat)
    (v b : Nat → ParOptScalar)
    (h : ∀ i, i < n →
      sumTo n (fun k => a0 (permOf (forLoop n (dgetf2Step n) (a0, piv0)).2 n i) k * v k) =
        b (permOf (forLoop n (dgetf2Step n) (a0, piv0)).2 n i))
    (j : Nat) (hj : j < n) : sumTo n (fun k => a0 j k * v k) = b j := by
  obtain ⟨i, hi, e⟩ := permOf_surj (forLoop n (dgetf2Step n) (a0, piv0)).2 n n (le_refl _)
    (lu_inv n a0 piv0 n (le_refl _)).1 j hj
  have := h i hi
  rw [e] at this
  exact this

/-- The factor U of a nonsingular matrix has no zero on its diagonal. -/
theorem upper_diag_ne_zero (n : Nat) (a0 : Nat → Nat → ParOptScalar) (piv0 : Nat → Nat)
    (hns : Nonsingular n a0) (t : Nat) (ht : t < n) :
    (forLoop n (dgetf2Step n) (a0, piv0)).1 t t ≠ 0 := by
  induction t using Nat.strong_induction_on with
  | _ t ih =>
    intro h0
    obtain ⟨hv1, hv2⟩ := solveUpper_spec t (forLoop n (dgetf2Step n) (a0, piv0)).1
      (fun k => if k < t then -((forLoop n (dgetf2Step n) (a0, piv0)).1 k t)
        else if k = t then 1 else 0)
      (fun i hi => ih i hi (by omega))
    generalize solveUpper t (forLoop n (dgetf2Step n) (a0, piv0)).1
      (fun k => if k < t then -((forLoop n (dgetf2Step n) (a0, piv0)).1 k t)
        else if k = t then 1 else 0) = v at hv1 hv2
    have hvt : v t = 1 := by rw [hv2 t (le_refl _)]; simp
    have hU : ∀ s, s < n →
        sumTo n (fun k => upperOf (forLoop n (dgetf2Step n) (a0, piv0)).1 s k * v k) = 0 := by
      intro s hs
      rw [sumTo_extend (t + 1) n (by omega) _ (fun k h1 _ => by
        rw [hv2 k (by omega)]
        simp [show ¬ k < t from by omega, show ¬ k = t from by omega])]
      simp only [sumTo]
      rw [hvt]
      rcases Nat.lt_trichotomy s t with hlt | heq | hgt
      · rw [hv1 s hlt]
        simp [hlt, upperOf, show s ≤ t from by omega]
      · subst heq
        rw [sumTo_eq_zero _ _ (fun k hk => by simp [upperOf, show ¬ s ≤ k from by omega])]
        simp [upperOf, h0]
      · rw [sumTo_eq_zero _ _ (fun k hk => by simp [upperOf, show ¬ s ≤ k from by omega])]
        simp [upperOf, show ¬ s ≤ t from by omega]
    have hrows : ∀ j, j < n → sumTo n (fun k => a0 j k * v k) = 0 := by
      apply rows_of_perm n a0 piv0 v (fun _ => 0)
      intro i hi
      rw [lu_apply n a0 piv0 v (fun _ => 0) hU i hi]
      simp [sumTo_zero]
    have := hns v hrows t ht
    rw [hvt] at this
    exact one_ne_zero this

theorem toMat_ofMat (n : Nat) (a : Nat → Nat → ParOptScalar) (A : Nat → ParOptScalar)
    (i k : Nat) (hi : i < n) (hk : k < n) : toMat n (ofMat n a A) i k = a i k := by
  unfold toMat ofMat
  have hlt : i + n * k < n * n := by
    calc i + n * k < n + n * k := by omega
      _ = n * (k + 1) := by ring
      _ ≤ n * n := Nat.mul_le_mul_left n (by omega)
  rw [if_pos hlt]
  congr 1
  · rw [Nat.add_mul_mod_self_left, Nat.mod_eq_of_lt hi]
  · rw [Nat.add_mul_div_left _ _ (by omega : 0 < n), Nat.div_eq_of_lt hi, Nat.zero_add]

/-- LAPACKdgetrs after LAPACKdgetrf solves the linear system of a nonsingular matrix. -/
theorem dgetrs_dgetrf (n : Nat) (F : Nat → ParOptScalar) (piv0 : Nat → Nat)
    (b : Nat → ParOptScalar) (hns : Nonsingular n (toMat n F)) :
    ∃ x, LAPACKdgetrs n (LAPACKdgetrf n F piv0).1 (LAPACKdgetrf n F piv0).2 b = some x ∧
      ∀ i, i < n → sumTo n (fun k => toMat n F i k * x k) = b i := by
  have hd := upper_diag_ne_zero n (toMat n F) piv0 hns
  unfold LAPACKdgetrs LAPACKdgetrf
  simp only
  generalize hst : forLoop n (dgetf2Step n) (toMat n F, piv0) = st at hd
  have hd2 : ∀ i, i < n → toMat n (ofMat n st.1 F) i i ≠ 0 := by
    intro i hi
    rw [toMat_ofMat n _ _ i i hi hi]
    exact hd i hi
  have hno : ¬ ∃ i, i < n ∧ toMat n (ofMat n st.1 F) i i = 0 := by
    rintro ⟨i, hi, e⟩
    exact hd2 i hi e
  rw [if_neg hno]
  refine ⟨_, rfl, ?_⟩
  obtain ⟨hu, _⟩ := solveUpper_spec n (toMat n (ofMat n st.1 F))
    (solveLower n (toMat n (ofMat n st.1 F)) (dlaswp n st.2 b)) hd2
  generalize solveUpper n (toMat n (ofMat n st.1 F))
    (solveLower n (toMat n (ofMat n st.1 F)) (dlaswp n st.2 b)) = x at hu
  have hl := solveLower_full (toMat n (ofMat n st.1 F)) (dlaswp n st.2 b) n
  generalize solveLower n (toMat n (ofMat n st.1 F)) (dlaswp n st.2 b) = z at hu hl
  subst hst
  apply rows_of_perm n (toMat n F) piv0 x b
  intro i hi
  rw [lu_apply n (toMat n F) piv0 x z _ i hi]
  · rw [← dlaswp_eq n _ b i, ← hl i hi]
    apply sumTo_congr
    intro s hs
    unfold unitLowerOf
    rw [toMat_ofMat n _ _ i s hi hs]
  · intro s hs
    rw [← hu s hs]
    apply sumTo_congr
    intro k hk
    unfold upperOf
    rw [toMat_ofMat n _ _ s k hs hk]

end ParOpt

namespace ParOpt

theorem mdot_spec (x : ParOptVec) (Z : Nat → ParOptVec) (n : Nat) (out : Nat → ParOptScalar)
    (i : Nat) (hi : i < n) : x.mdot Z n out i = x.dot (Z i) := by
  unfold ParOptVec.mdot ParOptVec.dot
  simp only [if_pos hi]
  congr 1
  funext r
  exact forLoop_write n _ out i i _ hi (fun a => Function.update_same _ _ _)
    (fun i' h1 _ a => Function.update_noteq (by omega) _ _)

theorem scaleLoop_spec (d rz0 : Nat → ParOptScalar) (n i : Nat) :
    forLoop n (fun i rz => Function.update rz i (rz i * d i)) rz0 i =
      if i < n then rz0 i * d i else rz0 i := by
  induction n with
  | zero => simp [forLoop]
  | succ n ih =>
    rw [forLoop_succ]
    by_cases e : i = n
    · subst e
      rw [Function.update_same, ih]
      simp
    · rw [Function.update_noteq e, ih]
      by_cases h : i < n
      · simp [h, show i < n + 1 from by omega]
      · simp [h, show ¬ i < n + 1 from by omega]

theorem flat_lt_sq (n i k : Nat) (hi : i < n) (hk : k < n) : i + n * k < n * n := by
  calc i + n * k < n + n * k := by omega
    _ = n * (k + 1) := by ring
    _ ≤ n * n := Nat.mul_le_mul_left n (by omega)

theorem nonsingular_congr (n : Nat) (a b : Nat → Nat → ParOptScalar)
    (h : ∀ i k, i < n → k < n → a i k = b i k) (hb : Nonsingular n b) : Nonsingular n a := by
  intro v hv
  apply hb v
  intro i hi
  rw [← hv i hi]
  apply sumTo_congr
  intro k hk
  rw [h i k hi hk]

/-- A matrix of nonzero determinant is nonsingular in the elementary sense. -/
theorem nonsingular_of_det (st : LBFGS) (h : st.matM.det ≠ 0) :
    Nonsingular (2 * st.msub) (toMat (2 * st.msub) st.M) := by
  intro v hv k hk
  have hz : st.matM.mulVec (fun j => v j.val) = 0 := by
    funext i
    have := hv i.val i.isLt
    rw [sumTo_eq_sum] at this
    simp only [Matrix.mulVec, Matrix.dotProduct, Pi.zero_apply]
    rw [← this, ← Fin.sum_univ_eq_sum_range (fun k => toMat (2 * st.msub) st.M i.val k * v k)]
    rfl
  have := Matrix.eq_zero_of_mulVec_eq_zero h hz
  exact congrFun this ⟨k, hk⟩

/-- The solution of a linear system with the matrix M is the product with the inverse. -/
theorem solution_eq_inv (st : LBFGS) (h : st.matM.det ≠ 0) (c b : Nat → ParOptScalar)
    (hc : ∀ i, i < 2 * st.msub →
      sumTo (2 * st.msub) (fun k => toMat (2 * st.msub) st.M i k * c k) = b i)
    (i : Fin (2 * st.msub)) :
    c i.val = (st.matM)⁻¹.mulVec (fun j => b j.val) i := by
  have hz : st.matM.mulVec (fun j => c j.val) = fun j => b j.val := by
    funext i
    have := hc i.val i.isLt
    rw [sumTo_eq_sum] at this
    simp only [Matrix.mulVec, Matrix.dotProduct]
    rw [← this, ← Fin.sum_univ_eq_sum_range (fun k => toMat (2 * st.msub) st.M i.val k * c k)]
    rfl
  rw [← hz, Matrix.mulVec_mulVec, Matrix.nonsing_inv_mul _ (by
    rw [isUnit_iff_ne_zero]; exact h), Matrix.one_mulVec]

namespace LBFGS

/-- LBFGS::mult on a model with assembled arrays and a nonsingular M: the solve succeeds
and y receives b0*x minus the combination of the columns of Z with the scaled solution. -/
theorem mult_solve (st : LBFGS) (x y : ParOptVec) (hm : 0 < st.msub) (ha : st.Assembled)
    (hns : Nonsingular (2 * st.msub) (toMat (2 * st.msub) st.M)) :
    ∃ (c rz : Nat → ParOptScalar) (w : ParOptVec),
      st.mult x y = some ({ st with rz := rz }, w) ∧ w.shape = y.shape ∧
      (∀ i, i < 2 * st.msub →
        sumTo (2 * st.msub) (fun k => toMat (2 * st.msub) st.M i k * c k) =
          x.dot (st.Z i) * st.d0 i) ∧
      (∀ r k, r < y.length → k < y.size r →
        w.get r k = st.b0 * x.get r k -
          sumTo (2 * st.msub) (fun i => (st.Z i).get r k * (st.d0 i * c i))) := by
  obtain ⟨_, _, F, piv, hF, hp, hFM⟩ := ha
  have hFM2 : ∀ i k, i < 2 * st.msub → k < 2 * st.msub →
      toMat (2 * st.msub) F i k = toMat (2 * st.msub) st.M i k := by
    intro i k hi hk
    unfold toMat
    apply hFM
    have := flat_lt_sq (2 * st.msub) i k hi hk
    calc i + 2 * st.msub * k < 2 * st.msub * (2 * st.msub) := this
      _ = 4 * st.msub * st.msub := by ring
  have hns2 : Nonsingular (2 * st.msub) (toMat (2 * st.msub) F) :=
    nonsingular_congr _ _ _ hFM2 hns
  obtain ⟨c, hc, hsol⟩ := dgetrs_dgetrf (2 * st.msub) F piv
    (forLoop (2 * st.msub) (fun i rz => Function.update rz i (rz i * st.d0 i))
      (x.mdot st.Z (2 * st.msub) st.rz)) hns2
  rw [← hF, ← hp] at hc
  refine ⟨c, forLoop (2 * st.msub) (fun i rz => Function.update rz i (rz i * st.d0 i)) c,
    forLoop (2 * st.msub) (fun i y => y.axpy
      (-(forLoop (2 * st.msub) (fun i rz => Function.update rz i (rz i * st.d0 i)) c i))
      (st.Z i)) ((y.copyValues x).scale st.b0), ?_, ?_, ?_, ?_⟩
  · unfold mult
    simp only [if_pos hm, hc, Option.map_some']
  · rw [shape_axpyLoop, ParOptVec.shape_scale, ParOptVec.shape_copyValues]
  · intro i hi
    have h1 := hsol i hi
    rw [scaleLoop_spec, if_pos hi, mdot_spec _ _ _ _ _ hi] at h1
    rw [← h1]
    apply sumTo_congr
    intro k hk
    rw [hFM2 i k hi hk]
  · intro r k hr hk
    have hin : r < ((y.copyValues x).scale st.b0).length ∧
        k < ((y.copyValues x).scale st.b0).size r := by
      refine (inrange_congr ((y.copyValues x).scale st.b0) y ?_ r k).mpr ⟨hr, hk⟩
      rw [ParOptVec.shape_scale, ParOptVec.shape_copyValues]
    have h2 := get_axpyLoop (2 * st.msub)
      (fun i => -(forLoop (2 * st.msub)
        (fun i rz => Function.update rz i (rz i * st.d0 i)) c i))
      st.Z ((y.copyValues x).scale st.b0) r k
    rw [if_pos hin, ParOptVec.get_scale, ParOptVec.get_copyValues, if_pos ⟨hr, hk⟩] at h2
    rw [h2, sub_eq_add_neg, ← neg_one_mul (sumTo _ _), ← sumTo_mul_left]
    congr 1
    apply sumTo_congr
    intro i hi
    rw [scaleLoop_spec, if_pos hi]
    ring

end LBFGS
end ParOpt

namespace ParOpt

theorem sumTo_sub (n : Nat) (f g : Nat → ParOptScalar) :
    sumTo n (fun i => f i - g i) = sumTo n f - sumTo n g := by
  simp only [sumTo_eq_sum, Finset.sum_sub_distrib]

theorem sumTo_append (a b : Nat) (f : Nat → ParOptScalar) :
    sumTo (a + b) f = sumTo a f + sumTo b (fun j => f (j + a)) := by
  induction b with
  | zero => simp [sumTo]
  | succ b ih =>
    rw [← Nat.add_assoc]
    simp only [sumTo]
    rw [ih, add_assoc, Nat.add_comm b a]

theorem sumTo_nonneg (n : Nat) (f : Nat → ParOptScalar) (h : ∀ i, i < n → 0 ≤ f i) :
    0 ≤ sumTo n f := by
  rw [sumTo_eq_sum]
  exact Finset.sum_nonneg (fun i hi => h i (Finset.mem_range.mp hi))

theorem sumTo_eq_zero_iff (n : Nat) (f : Nat → ParOptScalar) (h : ∀ i, i < n → 0 ≤ f i)
    (h0 : sumTo n f = 0) : ∀ i, i < n → f i = 0 := by
  rw [sumTo_eq_sum] at h0
  intro i hi
  exact (Finset.sum_eq_zero_iff_of_nonneg (fun i hi => h i (Finset.mem_range.mp hi))).mp h0 i
    (Finset.mem_range.mpr hi)

theorem sumTo_single (n i : Nat) (hi : i < n) (f : Nat → ParOptScalar)
    (h : ∀ j, j < n → j ≠ i → f j = 0) : sumTo n f = f i := by
  rw [sumTo_eq_sum]
  exact Finset.sum_eq_single i (fun j hj hne => h j (Finset.mem_range.mp hj) hne)
    (fun hni => absurd (Finset.mem_range.mpr hi) hni)

theorem sumTo_swap_tri (m : Nat) (w : Nat → Nat → ParOptScalar) (p q : Nat → ParOptScalar) :
    sumTo m (fun i => p i * sumTo m (fun j => (if j < i then w i j else 0) * q j)) =
      sumTo m (fun i => q i * sumTo m (fun j => (if i < j then w j i else 0) * p j)) := by
  simp only [sumTo_eq_sum, Finset.mul_sum]
  rw [Finset.sum_comm]
  apply Finset.sum_congr rfl
  intro i _
  apply Finset.sum_congr rfl
  intro j _
  ring

/-- The quadratic form of the compact representation, with (p, q) the solution of the small
system, is a weighted sum of squares. -/
theorem quad_identity (m : Nat) (b0 xx : ParOptScalar) (g w : Nat → Nat → ParOptScalar)
    (a e p q : Nat → ParOptScalar)
    (h1 : ∀ i, i < m → b0 * sumTo m (fun j => g i j * p j) +
      sumTo m (fun j => (if j < i then w i j else 0) * q j) = a i * b0)
    (h2 : ∀ i, i < m → sumTo m (fun j => (if i < j then w j i else 0) * p j) -
      w i i * q i = e i) :
    b0 * xx - (sumTo m (fun i => a i * (b0 * p i)) + sumTo m (fun i => e i * q i)) =
      b0 * (xx - 2 * sumTo m (fun i => a i * p i) +
        sumTo m (fun i => p i * sumTo m (fun j => g i j * p j))) +
      sumTo m (fun i => w i i * (q i * q i)) := by
  have E1 : sumTo m (fun i => a i * (b0 * p i)) =
      b0 * sumTo m (fun i => p i * sumTo m (fun j => g i j * p j)) +
        sumTo m (fun i => p i * sumTo m (fun j => (if j < i then w i j else 0) * q j)) := by
    rw [← sumTo_mul_left, ← sumTo_add]
    apply sumTo_congr
    intro i hi
    have := h1 i hi
    linear_combination (-(p i)) * this
  have E2 : sumTo m (fun i => e i * q i) =
      sumTo m (fun i => q i * sumTo m (fun j => (if i < j then w j i else 0) * p j)) -
        sumTo m (fun i => w i i * (q i * q i)) := by
    rw [← sumTo_sub]
    apply sumTo_congr
    intro i hi
    rw [← h2 i hi]
    ring
  have E3 : sumTo m (fun i => a i * (b0 * p i)) = b0 * sumTo m (fun i => a i * p i) := by
    rw [← sumTo_mul_left]
    apply sumTo_congr
    intro i _
    ring
  have E4 := sumTo_swap_tri m w p q
  linarith

/-- A lower triangular system with nonzero diagonal has only the zero solution. -/
theorem tri_zero (m : Nat) (w : Nat → Nat → ParOptScalar) (p : Nat → ParOptScalar)
    (hd : ∀ i, i < m → w i i ≠ 0)
    (h : ∀ i, i < m → sumTo m (fun j => (if j ≤ i then w j i else 0) * p j) = 0) :
    ∀ i, i < m → p i = 0 := by
  intro i
  induction i using Nat.strong_induction_on with
  | _ i ih =>
    intro hi
    have h1 := h i hi
    rw [sumTo_single m i hi] at h1
    · simp only [le_refl, if_true] at h1
      rcases mul_eq_zero.mp h1 with h2 | h2
      · exact absurd h2 (hd i hi)
      · exact h2
    · intro j hj hne
      by_cases hlt : j < i
      · rw [ih j hlt hj, mul_zero]
      · rw [if_neg (by omega), zero_mul]

end ParOpt

namespace ParOpt

theorem dot_dsum (u v : ParOptVec) (sh : List Nat) (h : u.shape = sh) :
    u.dot v = dsum sh (fun r k => u.get r k * v.get r k) := by
  rw [ParOptVec.dot_eq_dsum, h]

theorem dsum_comb (sh : List Nat) (m : Nat) (f : Nat → Nat → ParOptScalar)
    (F : Nat → Nat → Nat → ParOptScalar) (p : Nat → ParOptScalar) :
    dsum sh (fun r k => f r k * sumTo m (fun j => p j * F j r k)) =
      sumTo m (fun j => p j * dsum sh (fun r k => f r k * F j r k)) := by
  rw [dsum_congr sh _ (fun r k => sumTo m (fun j => p j * (f r k * F j r k)))
    (fun r k _ _ => by rw [← sumTo_mul_left]; apply sumTo_congr; intro j _; ring)]
  rw [dsum_sumTo sh m (fun j r k => p j * (f r k * F j r k))]
  apply sumTo_congr
  intro j _
  rw [dsum_mul_left]

/-- The squared norm of f minus a combination of the columns F. -/
theorem norm_expand (sh : List Nat) (m : Nat) (f : Nat → Nat → ParOptScalar)
    (F : Nat → Nat → Nat → ParOptScalar) (p : Nat → ParOptScalar) :
    dsum sh (fun r k => (f r k - sumTo m (fun j => p j * F j r k)) *
        (f r k - sumTo m (fun j => p j * F j r k))) =
      dsum sh (fun r k => f r k * f r k) -
        2 * sumTo m (fun i => dsum sh (fun r k => f r k * F i r k) * p i) +
        sumTo m (fun i => p i * sumTo m (fun j =>
          dsum sh (fun r k => F i r k * F j r k) * p j)) := by
  have e1 := dsum_comb sh m f F p
  have e2 := dsum_comb sh m (fun r k => sumTo m (fun j => p j * F j r k)) F p
  have e3 : ∀ i, dsum sh (fun r k => sumTo m (fun j => p j * F j r k) * F i r k) =
      sumTo m (fun j => dsum sh (fun r k => F i r k * F j r k) * p j) := by
    intro i
    rw [dsum_congr sh _ (fun r k => F i r k * sumTo m (fun j => p j * F j r k))
      (fun r k _ _ => mul_comm _ _), dsum_comb]
    apply sumTo_congr
    intro j _
    ring
  rw [dsum_congr sh _ (fun r k => (f r k * f r k +
      (-2) * (f r k * sumTo m (fun j => p j * F j r k))) +
      sumTo m (fun j => p j * F j r k) * sumTo m (fun j => p j * F j r k))
    (fun r k _ _ => by ring)]
  rw [dsum_add sh (fun r k => f r k * f r k +
      (-2) * (f r k * sumTo m (fun j => p j * F j r k)))
    (fun r k => sumTo m (fun j => p j * F j r k) * sumTo m (fun j => p j * F j r k)),
    dsum_add sh (fun r k => f r k * f r k)
      (fun r k => (-2) * (f r k * sumTo m (fun j => p j * F j r k))),
    dsum_mul_left sh (-2) (fun r k => f r k * sumTo m (fun j => p j * F j r k)), e1, e2]
  have e4 : sumTo m (fun j => p j * dsum sh (fun r k => f r k * F j r k)) =
      sumTo m (fun i => dsum sh (fun r k => f r k * F i r k) * p i) :=
    sumTo_congr _ _ _ (fun i _ => mul_comm _ _)
  have e5 : sumTo m (fun j => p j *
        dsum sh (fun r k => sumTo m (fun j => p j * F j r k) * F j r k)) =
      sumTo m (fun i => p i * sumTo m (fun j =>
        dsum sh (fun r k => F i r k * F j r k) * p j)) :=
    sumTo_congr _ _ _ (fun i _ => by rw [e3 i])
  rw [e4, e5]
  ring

namespace LBFGS

/-- The four blocks of M in terms of the columns stored. -/
theorem M_blocks (st : LBFGS) (hi : st.Inv) (ha : st.Assembled) (i j : Nat)
    (h1 : i < st.msub) (h2 : j < st.msub) :
    toMat (2 * st.msub) st.M i j = st.b0 * (st.S i).dot (st.S j) ∧
    toMat (2 * st.msub) st.M i (j + st.msub) =
      (if j < i then (st.S i).dot (st.Y j) else 0) ∧
    toMat (2 * st.msub) st.M (i + st.msub) j =
      (if i < j then (st.S j).dot (st.Y i) else 0) ∧
    toMat (2 * st.msub) st.M (i + st.msub) (j + st.msub) =
      (if i = j then -((st.S i).dot (st.Y i)) else 0) := by
  obtain ⟨_, _, _, hc⟩ := hi
  obtain ⟨hM, _, _⟩ := ha
  obtain ⟨a1, a2, _, a4⟩ := hM i j h1 h2
  obtain ⟨_, _, a3, _⟩ := hM j i h2 h1
  obtain ⟨c1, c2, c3⟩ := hc i j h1 h2
  obtain ⟨_, _, c4⟩ := hc j i h2 h1
  unfold toMat
  refine ⟨?_, ?_, ?_, ?_⟩
  · rw [a1, Nat.mul_comm st.msub_max j, c1]
  · rw [a2]
    split_ifs with h
    · rw [Nat.mul_comm st.msub_max j, c3 h]
    · rfl
  · rw [a3]
    split_ifs with h
    · rw [Nat.mul_comm st.msub_max i, c4 h]
    · rfl
  · rw [Nat.add_comm i st.msub, Nat.add_comm j st.msub, a4, c2]

end LBFGS
end ParOpt

namespace ParOpt

theorem sumTo_two (m : Nat) (f : Nat → ParOptScalar) :
    sumTo (2 * m) f = sumTo m f + sumTo m (fun j => f (j + m)) := by
  rw [two_mul]
  exact sumTo_append m m f

namespace LBFGS

/-- The small system of LBFGS::mult, written block by block. -/
theorem system_blocks (st : LBFGS) (hi : st.Inv) (ha : st.Assembled)
    (c rhs : Nat → ParOptScalar)
    (hc : ∀ i, i < 2 * st.msub →
      sumTo (2 * st.msub) (fun k => toMat (2 * st.msub) st.M i k * c k) = rhs i) :
    (∀ i, i < st.msub →
      st.b0 * sumTo st.msub (fun j => (st.S i).dot (st.S j) * c j) +
        sumTo st.msub (fun j =>
          (if j < i then (st.S i).dot (st.Y j) else 0) * c (j + st.msub)) = rhs i) ∧
    (∀ i, i < st.msub →
      sumTo st.msub (fun j => (if i < j then (st.S j).dot (st.Y i) else 0) * c j) -
        (st.S i).dot (st.Y i) * c (i + st.msub) = rhs (i + st.msub)) := by
  refine ⟨fun i h => ?_, fun i h => ?_⟩
  · rw [← hc i (by omega), sumTo_two, ← sumTo_mul_left]
    congr 1
    · apply sumTo_congr
      intro j hj
      rw [(M_blocks st hi ha i j h hj).1]
      ring
    · apply sumTo_congr
      intro j hj
      rw [(M_blocks st hi ha i j h hj).2.1]
  · rw [← hc (i + st.msub) (by omega), sumTo_two, sub_eq_add_neg]
    congr 1
    · apply sumTo_congr
      intro j hj
      rw [(M_blocks st hi ha i j h hj).2.2.1]
    · rw [sumTo_single st.msub i h]
      · rw [(M_blocks st hi ha i i h h).2.2.2, if_pos rfl]
        ring
      · intro j hj hne
        rw [(M_blocks st hi ha i j h hj).2.2.2, if_neg (fun e => hne e.symm), zero_mul]

/-- The quadratic form x.(B x) of a model with positive curvature pairs and b0 > 0 is
nonnegative, and it vanishes only when x and the solution of the small system vanish. -/
theorem pd_core (st : LBFGS) (hi : st.Inv) (ha : st.Assembled) (hb : 0 < st.b0)
    (hD : ∀ i, i < st.msub → 0 < (st.S i).dot (st.Y i))
    (x : ParOptVec) (hx : x.shape = st.nvars) (c : Nat → ParOptScalar)
    (hc : ∀ i, i < 2 * st.msub →
      sumTo (2 * st.msub) (fun k => toMat (2 * st.msub) st.M i k * c k) =
        x.dot (st.Z i) * st.d0 i) :
    0 ≤ st.b0 * x.dot x -
        sumTo (2 * st.msub) (fun i => x.dot (st.Z i) * (st.d0 i * c i)) ∧
    (st.b0 * x.dot x -
        sumTo (2 * st.msub) (fun i => x.dot (st.Z i) * (st.d0 i * c i)) = 0 →
      x.dot x = 0 ∧ ∀ i, i < 2 * st.msub → c i = 0) := by
  obtain ⟨hle, _, hal, _⟩ := hi
  have hiv : st.Inv := ⟨hle, ‹_›, hal, ‹_›⟩
  have hS : ∀ i, i < st.msub → (st.S i).shape = st.nvars := fun i h => (hal.1 i (by omega)).1
  have hZ := ha.2.1
  obtain ⟨h1, h2⟩ := system_blocks st hiv ha c _ hc
  -- the quadratic form in blocks
  have hq : sumTo (2 * st.msub) (fun i => x.dot (st.Z i) * (st.d0 i * c i)) =
      sumTo st.msub (fun i => x.dot (st.S i) * (st.b0 * c i)) +
        sumTo st.msub (fun i => x.dot (st.Y i) * c (i + st.msub)) := by
    rw [sumTo_two]
    congr 1
    · apply sumTo_congr
      intro i h
      rw [(hZ i h).1, (hZ i h).2.2.1]
    · apply sumTo_congr
      intro i h
      rw [(hZ i h).2.1, (hZ i h).2.2.2]
      ring
  have h1' : ∀ i, i < st.msub →
      st.b0 * sumTo st.msub (fun j => (st.S i).dot (st.S j) * c j) +
        sumTo st.msub (fun j =>
          (if j < i then (st.S i).dot (st.Y j) else 0) * c (j + st.msub)) =
        x.dot (st.S i) * st.b0 := by
    intro i h
    rw [h1 i h, (hZ i h).1, (hZ i h).2.2.1]
  have h2' : ∀ i, i < st.msub →
      sumTo st.msub (fun j => (if i < j then (st.S j).dot (st.Y i) else 0) * c j) -
        (st.S i).dot (st.Y i) * c (i + st.msub) = x.dot (st.Y i) := by
    intro i h
    rw [h2 i h, (hZ i h).2.1, (hZ i h).2.2.2, mul_one]
  have hQ := quad_identity st.msub st.b0 (x.dot x) (fun i j => (st.S i).dot (st.S j))
    (fun i j => (st.S i).dot (st.Y j)) (fun i => x.dot (st.S i)) (fun i => x.dot (st.Y i))
    c (fun i => c (i + st.msub)) h1' h2'
  simp only at hQ
  -- the norm of x minus the combination of the columns of S
  have hN := norm_expand st.nvars st.msub (fun r k => x.get r k)
    (fun j r k => (st.S j).get r k) c
  simp only at hN
  have hxx : x.dot x = dsum st.nvars (fun r k => x.get r k * x.get r k) := dot_dsum x x _ hx
  have hxS : ∀ i, x.dot (st.S i) = dsum st.nvars (fun r k => x.get r k * (st.S i).get r k) :=
    fun i => dot_dsum x _ _ hx
  have hSS : ∀ i j, i < st.msub → (st.S i).dot (st.S j) =
      dsum st.nvars (fun r k => (st.S i).get r k * (st.S j).get r k) :=
    fun i j h => dot_dsum _ _ _ (hS i h)
  have hN2 : dsum st.nvars (fun r k =>
        (x.get r k - sumTo st.msub (fun j => c j * (st.S j).get r k)) *
        (x.get r k - sumTo st.msub (fun j => c j * (st.S j).get r k))) =
      x.dot x - 2 * sumTo st.msub (fun i => x.dot (st.S i) * c i) +
        sumTo st.msub (fun i => c i *
          sumTo st.msub (fun j => (st.S i).dot (st.S j) * c j)) := by
    rw [hN, hxx]
    congr 1
    · congr 2
      apply sumTo_congr
      intro i _
      rw [hxS i]
    · apply sumTo_congr
      intro i h
      congr 1
      apply sumTo_congr
      intro j _
      rw [hSS i j h]
  rw [hq, hQ, ← hN2]
  have hn0 : 0 ≤ dsum st.nvars (fun r k =>
        (x.get r k - sumTo st.msub (fun j => c j * (st.S j).get r k)) *
        (x.get r k - sumTo st.msub (fun j => c j * (st.S j).get r k))) :=
    dsum_nonneg _ _ (fun r k _ _ => mul_self_nonneg _)
  have hs0 : ∀ i, i < st.msub →
      0 ≤ (st.S i).dot (st.Y i) * (c (i + st.msub) * c (i + st.msub)) :=
    fun i h => mul_nonneg (le_of_lt (hD i h)) (mul_self_nonneg _)
  have hs1 := sumTo_nonneg st.msub _ hs0
  refine ⟨add_nonneg (mul_nonneg (le_of_lt hb) hn0) hs1, fun h0 => ?_⟩
  have hz1 : dsum st.nvars (fun r k =>
        (x.get r k - sumTo st.msub (fun j => c j * (st.S j).get r k)) *
        (x.get r k - sumTo st.msub (fun j => c j * (st.S j).get r k))) = 0 := by
    have : 0 ≤ st.b0 * dsum st.nvars (fun r k =>
        (x.get r k - sumTo st.msub (fun j => c j * (st.S j).get r k)) *
        (x.get r k - sumTo st.msub (fun j => c j * (st.S j).get r k))) :=
      mul_nonneg (le_of_lt hb) hn0
    have h3 : st.b0 * dsum st.nvars (fun r k =>
        (x.get r k - sumTo st.msub (fun j => c j * (st.S j).get r k)) *
        (x.get r k - sumTo st.msub (fun j => c j * (st.S j).get r k))) = 0 := by linarith
    rcases mul_eq_zero.mp h3 with h4 | h4
    · exact absurd h4 (ne_of_gt hb)
    · exact h4
  have hz2 : sumTo st.msub (fun i =>
      (st.S i).dot (st.Y i) * (c (i + st.msub) * c (i + st.msub))) = 0 := by
    rw [hz1] at h0
    linarith
  have hq0 : ∀ i, i < st.msub → c (i + st.msub) = 0 := by
    intro i h
    have := sumTo_eq_zero_iff st.msub _ hs0 hz2 i h
    rcases mul_eq_zero.mp this with h4 | h4
    · exact absurd h4 (ne_of_gt (hD i h))
    · exact mul_self_eq_zero.mp h4
  have hxc : ∀ r k, r < st.nvars.length → k < st.nvars.getD r 0 →
      x.get r k = sumTo st.msub (fun j => c j * (st.S j).get r k) := by
    intro r k hr hk
    have := dsum_eq_zero st.nvars _ (fun r k _ _ => mul_self_nonneg _) hz1 r k hr hk
    exact sub_eq_zero.mp (mul_self_eq_zero.mp this)
  -- the columns of S enter x with zero coefficients
  have hxY : ∀ i, i < st.msub →
      x.dot (st.Y i) = sumTo st.msub (fun j => (st.S j).dot (st.Y i) * c j) := by
    intro i _
    rw [dot_dsum x _ _ hx,
      dsum_congr st.nvars _ (fun r k => (st.Y i).get r k *
          sumTo st.msub (fun j => c j * (st.S j).get r k))
        (fun r k hr hk => by rw [hxc r k hr hk]; ring),
      dsum_comb]
    apply sumTo_congr
    intro j hj
    rw [dot_dsum _ _ _ (hS j hj), mul_comm]
    congr 1
    apply dsum_congr
    intro r k _ _
    ring
  have hp0 : ∀ i, i < st.msub → c i = 0 := by
    apply tri_zero st.msub (fun j i => (st.S j).dot (st.Y i)) c
      (fun i h => ne_of_gt (hD i h))
    intro i h
    have e1 := h2' i h
    rw [hq0 i h, mul_zero, sub_zero, hxY i h] at e1
    have e2 : sumTo st.msub (fun j => (st.S j).dot (st.Y i) * c j) -
        sumTo st.msub (fun j => (if i < j then (st.S j).dot (st.Y i) else 0) * c j) = 0 := by
      rw [e1]; ring
    rw [← sumTo_sub] at e2
    refine Eq.trans (sumTo_congr _ _ _ ?_) e2
    intro j _
    by_cases hji : j ≤ i
    · rw [if_pos hji, if_neg (by omega)]
      ring
    · rw [if_neg hji, if_pos (by omega)]
      ring
  refine ⟨?_, fun i h => ?_⟩
  · rw [hxx]
    rw [dsum_congr st.nvars _ (fun _ _ => 0) (fun r k hr hk => by
      rw [hxc r k hr hk, sumTo_eq_zero _ _ (fun j hj => by rw [hp0 j hj, zero_mul])]
      ring)]
    exact dsum_zero _
  · by_cases hlt : i < st.msub
    · exact hp0 i hlt
    · have := hq0 (i - st.msub) (by omega)
      rwa [Nat.sub_add_cancel (by omega)] at this

end LBFGS
end ParOpt

namespace ParOpt
namespace LBFGS

theorem dot_new_left (sh : List Nat) (v : ParOptVec) : (ParOptVec.new sh).dot v = 0 := by
  rw [dot_dsum _ _ sh (ParOptVec.shape_new sh),
    dsum_congr sh _ (fun _ _ => 0) (fun r k _ _ => by rw [ParOptVec.get_new, zero_mul])]
  exact dsum_zero _

/-- The matrix M of a model with positive curvature pairs and b0 > 0 is nonsingular. -/
theorem nonsingular_pos (st : LBFGS) (hi : st.Inv) (ha : st.Assembled) (hb : 0 < st.b0)
    (hD : ∀ i, i < st.msub → 0 < (st.S i).dot (st.Y i)) :
    Nonsingular (2 * st.msub) (toMat (2 * st.msub) st.M) := by
  intro v hv
  have h := pd_core st hi ha hb hD (ParOptVec.new st.nvars) (ParOptVec.shape_new _) v
    (fun i h => by rw [hv i h, dot_new_left, zero_mul])
  apply (h.2 ?_).2
  rw [dot_new_left, mul_zero, sumTo_eq_zero _ _ (fun i _ => by rw [dot_new_left, zero_mul])]
  ring

/-- The product x.(B x) computed by LBFGS::mult on a model with positive curvature pairs. -/
theorem mult_pos (st : LBFGS) (hi : st.Inv) (ha : st.Assembled) (hb : 0 < st.b0)
    (hD : ∀ i, i < st.msub → 0 < (st.S i).dot (st.Y i)) (hm : 0 < st.msub)
    (x y : ParOptVec) (hx : x.shape = st.nvars) (hy : y.shape = st.nvars) :
    ∃ (rz : Nat → ParOptScalar) (w : ParOptVec),
      st.mult x y = some ({ st with rz := rz }, w) ∧ w.shape = st.nvars ∧
      0 ≤ x.dot w ∧ (x.dot x ≠ 0 → 0 < x.dot w) := by
  obtain ⟨c, rz, w, hmult, hsh, hc, hw⟩ :=
    mult_solve st x y hm ha (nonsingular_pos st hi ha hb hD)
  have hq : x.dot w = st.b0 * x.dot x -
      sumTo (2 * st.msub) (fun i => x.dot (st.Z i) * (st.d0 i * c i)) := by
    rw [dot_dsum x w _ hx,
      dsum_congr st.nvars _ (fun r k => st.b0 * (x.get r k * x.get r k) -
          x.get r k * sumTo (2 * st.msub) (fun i => (st.d0 i * c i) * (st.Z i).get r k))
        (fun r k hr hk => by
          have hin := ParOptVec.in_range_of_shape y st.nvars hy r k hr hk
          rw [hw r k hin.1 hin.2, mul_sub]
          congr 1
          · ring
          · congr 1
            apply sumTo_congr
            intro i _
            ring),
      dsum_sub, dsum_mul_left, ← dot_dsum x x _ hx,
      dsum_comb st.nvars (2 * st.msub) (fun r k => x.get r k)
        (fun j r k => (st.Z j).get r k) (fun i => st.d0 i * c i)]
    congr 1
    apply sumTo_congr
    intro i _
    rw [← dot_dsum x (st.Z i) _ hx]
    ring
  obtain ⟨p1, p2⟩ := pd_core st hi ha hb hD x hx c hc
  rw [← hq] at p1 p2
  refine ⟨rz, w, hmult, hsh.trans hy, p1, fun hne => ?_⟩
  rcases p1.lt_or_eq with h | h
  · exact h
  · exact absurd (p2 h.symm).1 hne

end LBFGS
end ParOpt

namespace ParOpt
namespace LBFGS

theorem dot_self_pos_of (nv s : ParOptVec) (h : nv.dot s ≠ 0) : 0 < nv.dot nv := by
  rcases (ParOptVec.dot_self_nonneg nv).lt_or_eq with h1 | h1
  · exact h1
  · exfalso
    apply h
    rw [ParOptVec.dot_eq_dsum,
      dsum_congr nv.shape _ (fun _ _ => 0) (fun r k _ _ => by
        rw [ParOptVec.get_eq_zero_of_dot_self nv h1.symm, zero_mul])]
    exact dsum_zero _

/-- The preliminary product r = B*s of LBFGS::update on a model with positive curvature
pairs: it is defined and r.s >= 0, with r.s > 0 for a nonzero s. -/
theorem prelim (st : LBFGS) (hg : st.PosCurv) (s y : ParOptVec) (hs : s.shape = st.nvars) :
    (∀ stA, st.firstScale (y.dot y) (y.dot s) = some stA →
      ∃ stB r, stA.mult s stA.r = some (stB, r) ∧ r.shape = st.nvars ∧ 0 ≤ r.dot s ∧
        (s.dot s ≠ 0 → 0 < r.dot s)) ∧
    ((st.msub = 0 → y.dot s ≠ 0) → ∃ stA, st.firstScale (y.dot y) (y.dot s) = some stA) := by
  obtain ⟨hi, hpos, hD⟩ := hg
  have hr : st.r.shape = st.nvars := hi.2.2.1.2
  refine ⟨fun stA h1 => ?_, fun h0 => ?_⟩
  · by_cases hm : st.msub = 0
    · obtain ⟨_, hA⟩ := (firstScale_spec st stA _ _ h1).2 hm
      have hmA : stA.msub = 0 := by rw [hA]; exact hm
      have hrA : stA.r = st.r := by rw [hA]
      have hb : 0 < stA.b0 := by
        rw [hA]
        simp only
        split_ifs with hq
        · exact one_pos
        · exact lt_of_not_le hq
      refine ⟨stA, (stA.r.copyValues s).scale stA.b0, mult_zero stA s stA.r hmA, ?_, ?_, ?_⟩
      · rw [ParOptVec.shape_scale, ParOptVec.shape_copyValues, hrA, hr]
      · rw [hrA, ParOptVec.copyValues_eq _ s (by rw [hr, hs]), ParOptVec.dot_scale_left]
        exact mul_nonneg (le_of_lt hb) (ParOptVec.dot_self_nonneg s)
      · intro hne
        rw [hrA, ParOptVec.copyValues_eq _ s (by rw [hr, hs]), ParOptVec.dot_scale_left]
        exact mul_pos hb (lt_of_le_of_ne (ParOptVec.dot_self_nonneg s) (Ne.symm hne))
    · have hA := (firstScale_spec st stA _ _ h1).1 hm
      subst hA
      have hm' : 0 < stA.msub := by omega
      obtain ⟨ha, hb⟩ := hpos hm'
      obtain ⟨rz, w, hmult, hsh, h0, hp⟩ := mult_pos stA hi ha hb hD hm' s stA.r hs hr
      have hc : w.dot s = s.dot w := ParOptVec.dot_comm w s (by rw [hsh, hs])
      exact ⟨_, w, hmult, hsh, by rw [hc]; exact h0, fun hne => by rw [hc]; exact hp hne⟩
  · unfold firstScale sdiv
    by_cases hm : st.msub = 0
    · rw [if_pos hm, if_neg (h0 hm)]
      exact ⟨_, rfl⟩
    · rw [if_neg hm]
      exact ⟨_, rfl⟩

/-- What the damping step yields when r.s >= 0. -/
theorem damp_facts (r s y : ParOptVec) (hy : y.shape = r.shape) (hb : 0 ≤ r.dot s)
    (d : Nat × ParOptVec × ParOptVec × ParOptScalar × ParOptScalar)
    (h : damp r s y (y.dot y) (y.dot s) (r.dot s) = some d) :
    d.2.2.2.1 = d.2.2.1.dot d.2.2.1 ∧ d.2.2.2.2 = d.2.2.1.dot s ∧ 0 ≤ d.2.2.1.dot s := by
  rcases damp_spec _ _ _ _ _ _ _ h with ⟨_, hne, _, hd, hd2, hd3, hd4⟩ | ⟨hc, hd⟩
  · rw [hd2]
    refine ⟨hd3, hd4, ?_⟩
    rw [hd, damped_dot r s y hy hne]
    exact mul_nonneg (by norm_num) hb
  · subst hd
    refine ⟨rfl, rfl, ?_⟩
    simp only
    have : (0.2 : ParOptScalar) * r.dot s < y.dot s := lt_of_not_le hc
    have h2 : (0 : ParOptScalar) ≤ 0.2 * r.dot s := mul_nonneg (by norm_num) hb
    linarith

/-- The damping step is defined when r.s > 0, and the vector it chooses has positive
curvature with s. -/
theorem damp_defined (r s y : ParOptVec) (hy : y.shape = r.shape) (hb : 0 < r.dot s) :
    ∃ d, damp r s y (y.dot y) (y.dot s) (r.dot s) = some d ∧ d.2.2.2.2 ≠ 0 := by
  by_cases hc : y.dot s ≤ 0.2 * r.dot s
  · have hne : r.dot s - y.dot s ≠ 0 := by
      have : (0.2 : ParOptScalar) * r.dot s < r.dot s := by
        have : (0 : ParOptScalar) < 0.8 * r.dot s := mul_pos (by norm_num) hb
        linarith
      intro h0
      linarith
    refine ⟨_, by unfold damp sdiv; rw [if_pos hc, if_neg hne]; rfl, ?_⟩
    simp only
    have := damped_dot r s y hy hne
    norm_num at this ⊢
    rw [this]
    intro h0
    have h1 : (0 : ParOptScalar) < 1 / 5 * r.dot s := mul_pos (by norm_num) hb
    linarith
  · refine ⟨_, by unfold damp; rw [if_neg hc], ?_⟩
    simp only
    have : (0.2 : ParOptScalar) * r.dot s < y.dot s := lt_of_not_le hc
    have h2 : (0 : ParOptScalar) < 0.2 * r.dot s := mul_pos (by norm_num) hb
    intro h0
    linarith

end LBFGS
end ParOpt

namespace ParOpt
namespace LBFGS

/-- LBFGS::update keeps the curvature of all stored pairs positive. -/
theorem poscurv_update (st st' : LBFGS) (s y : ParOptVec) (t : Nat) (hg : st.PosCurv)
    (hs : s.shape = st.nvars) (hy : y.shape = st.nvars)
    (hu : st.update s y = some (st', t)) :
    st'.PosCurv ∧ 0 < st'.msub ∧ st'.nvars = st.nvars ∧ st'.msub_max = st.msub_max := by
  obtain ⟨st1, nv, hc, hst⟩ := update_eq st st' s y t hu
  obtain ⟨stA, stB, r, d, b0, h1, h2, h3, h4, hst1, ht, hnv⟩ := curvature_spec st st1 s y nv t hc
  obtain ⟨stB', r', h2', hrs, hbeta, _⟩ := (prelim st hg s y hs).1 stA h1
  rw [h2] at h2'
  simp only [Option.some.injEq, Prod.mk.injEq] at h2'
  obtain ⟨_, e⟩ := h2'
  subst e
  obtain ⟨d1, d2, d3⟩ := damp_facts r s y (by rw [hy, hrs]) hbeta d h3
  obtain ⟨hne, hb0⟩ := sdiv_spec _ _ _ h4
  rw [d2, ← hnv] at hne
  rw [d1, d2, ← hnv] at hb0
  rw [← hnv] at d3
  have hpos : 0 < nv.dot s := lt_of_le_of_ne d3 (Ne.symm hne)
  have hb1 : 0 < st1.b0 := by
    rw [hst1]
    simp only
    rw [hb0]
    exact div_pos (dot_self_pos_of nv s hne) hpos
  obtain ⟨hi, _, hD⟩ := hg
  obtain ⟨hi', ha'⟩ := inv_update st st' s y t hu hi
  obtain ⟨n1, n2, n3⟩ := newest_update st st' st1 s y nv t hi hy hc hst
  have hms := msub_update st st' s y t hu
  have hnvs := (curvature_shape st st1 s y nv t hc hi.2.2.1 hy).1
  have f := curvature_frame st st1 s y nv t hc
  have e1 : st1.msub = st.msub := by rw [f]
  have e2 : st1.msub_max = st.msub_max := by rw [f]
  have e3 : st1.S = st.S := by rw [f]
  have e4 : st1.Y = st.Y := by rw [f]
  have e5 : st1.nvars = st.nvars := by rw [f]
  have ff := frame_finish (st1.setNewValues s nv).updateSmall
  have fu := frame_updateSmall (st1.setNewValues s nv)
  have fs := frame_setNewValues st1 s nv
  have hm0 : 0 < st'.msub := by
    rw [hms]
    have := hi.1
    have := hi.2.1
    split_ifs <;> omega
  refine ⟨⟨hi', fun _ => ⟨ha', by rw [n2]; exact hb1⟩, fun i hlt => ?_⟩, hm0, ?_, ?_⟩
  · by_cases hnew : i = st'.msub - 1
    · rw [hnew, n1, n3 hs, ParOptVec.dot_comm s nv (by rw [hs, hnvs])]
      exact hpos
    · have hi1 : i + 1 < (st1.setNewValues s nv).msub := by
        have : st'.msub = (st1.setNewValues s nv).msub := by rw [hst, ff.1, fu.1]
        omega
      obtain ⟨o1, o2, _⟩ := older_setNewValues st1 s nv (by rw [e1, e2]; exact hi.1)
        (by rw [e2]; exact hi.2.1) i hi1
      have hS : st'.S i = st.S (i + if st.msub < st.msub_max then 0 else 1) := by
        rw [hst, ff.2.2.2.1, fu.2.2.2.1, o1, e3, e1, e2]
      have hY : st'.Y i = st.Y (i + if st.msub < st.msub_max then 0 else 1) := by
        rw [hst, ff.2.2.2.2.1, fu.2.2.2.2.1, o2, e4, e1, e2]
      rw [hS, hY]
      apply hD
      by_cases hcap : st.msub < st.msub_max
      · rw [if_pos hcap] at hms ⊢
        omega
      · rw [if_neg hcap] at hms ⊢
        omega
  · rw [hst, ff.2.2.1, fu.2.2.1, fs.2.1, e5]
  · rw [hst, ff.2.1, fu.2.1, fs.1, e2]

/-- LBFGS::update returns on a model with positive curvature pairs when the step s is not
zero and, for a model without pairs, y.s is not zero. -/
theorem update_defined (st : LBFGS) (s y : ParOptVec) (hg : st.PosCurv)
    (hs : s.shape = st.nvars) (hy : y.shape = st.nvars) (hss : s.dot s ≠ 0)
    (h0 : st.msub = 0 → y.dot s ≠ 0) : ∃ st' t, st.update s y = some (st', t) := by
  obtain ⟨stA, h1⟩ := (prelim st hg s y hs).2 h0
  obtain ⟨stB, r, h2, hrs, _, hbeta⟩ := (prelim st hg s y hs).1 stA h1
  obtain ⟨d, h3, hne⟩ := damp_defined r s y (by rw [hy, hrs]) (hbeta hss)
  have h4 : sdiv d.2.2.2.1 d.2.2.2.2 = some (d.2.2.2.1 / d.2.2.2.2) := by
    unfold sdiv
    rw [if_neg hne]
  have hc := curvature_of_steps st stA stB s y r d _ h1 h2 h3 h4
  unfold update
  rw [hc]
  exact ⟨_, _, rfl⟩

theorem poscurv_start (st : LBFGS) (h0 : st.msub = 0) (hp : 1 ≤ st.msub_max) (ha : st.Alloc) :
    st.PosCurv :=
  ⟨inv_start st h0 hp ha, fun h => absurd h0 (by omega), fun i h => absurd h (by omega)⟩

/-- Every model reached by calls of update from a model without pairs has positive
curvature pairs. -/
theorem poscurv_updates (ps : List (ParOptVec × ParOptVec)) (st0 st : LBFGS)
    (hg : st0.PosCurv)
    (hsh : ∀ p, p ∈ ps → p.1.shape = st0.nvars ∧ p.2.shape = st0.nvars)
    (h : st0.updates ps = some st) :
    st.PosCurv ∧ st.nvars = st0.nvars ∧ st.msub_max = st0.msub_max ∧
      (ps ≠ [] → 0 < st.msub) := by
  induction ps generalizing st0 with
  | nil =>
    simp only [updates, Option.some.injEq] at h
    subst h
    exact ⟨hg, rfl, rfl, fun h => absurd rfl h⟩
  | cons p rest ih =>
    simp only [updates, Option.bind_eq_some] at h
    obtain ⟨⟨st1, t⟩, h1, h2⟩ := h
    obtain ⟨g1, m1, n1, x1⟩ := poscurv_update st0 st1 p.1 p.2 t hg
      (hsh p (List.mem_cons_self _ _)).1 (hsh p (List.mem_cons_self _ _)).2 h1
    obtain ⟨g2, n2, x2, m2⟩ := ih st1 g1
      (fun q hq => by rw [n1]; exact hsh q (List.mem_cons_of_mem _ hq)) h2
    refine ⟨g2, by rw [n2, n1], by rw [x2, x1], fun _ => ?_⟩
    by_cases hr : rest = []
    · subst hr
      simp only [updates, Option.some.injEq] at h2
      subst h2
      exact m1
    · exact m2 hr

end LBFGS
end ParOpt

namespace ParOpt
namespace LBFGS

/-- LBFGS::mult on a model that holds one pair (s, y') of positive curvature. -/
theorem single_pair (st : LBFGS) (hg : st.PosCurv) (hm : st.msub = 1) (x y0 : ParOptVec)
    (hx : x.shape = st.nvars) (hy0 : y0.shape = st.nvars) :
    ∃ (rz : Nat → ParOptScalar) (w : ParOptVec),
      st.mult x y0 = some ({ st with rz := rz }, w) ∧ w.shape = st.nvars ∧
      ∀ r k, r < x.length → k < x.size r →
        w.get r k = st.b0 * x.get r k -
          st.b0 * (st.S 0).get r k * ((st.S 0).dot x / (st.S 0).dot (st.S 0)) +
          (st.Y 0).get r k * ((st.Y 0).dot x / (st.Y 0).dot (st.S 0)) := by
  obtain ⟨hi, hpos, hD⟩ := hg
  have hm0 : 0 < st.msub := by omega
  obtain ⟨ha, hb⟩ := hpos hm0
  obtain ⟨c, rz, w, hmult, hsh, hc, hw⟩ :=
    mult_solve st x y0 hm0 ha (nonsingular_pos st hi ha hb hD)
  obtain ⟨h1, h2⟩ := system_blocks st hi ha c _ hc
  have e1 := h1 0 hm0
  have e2 := h2 0 hm0
  obtain ⟨z1, z2, z3, z4⟩ := ha.2.1 0 hm0
  rw [hm] at e1 e2 z2 z4
  simp only [sumTo, zero_add, lt_irrefl, if_false, zero_mul, add_zero, zero_sub] at e1 e2
  rw [z1, z3] at e1
  rw [z2, z4] at e2
  have hS0 : (st.S 0).shape = st.nvars := (hi.2.2.1.1 0 (by have := hi.1; omega)).1
  have hY0 : (st.Y 0).shape = st.nvars := (hi.2.2.1.1 0 (by have := hi.1; omega)).2
  have hd := hD 0 hm0
  have hss : 0 < (st.S 0).dot (st.S 0) := by
    apply dot_self_pos_of (st.S 0) (st.Y 0)
    exact ne_of_gt hd
  have c1 : (st.S 0).dot x = x.dot (st.S 0) := ParOptVec.dot_comm _ _ (by rw [hS0, hx])
  have c2 : (st.Y 0).dot x = x.dot (st.Y 0) := ParOptVec.dot_comm _ _ (by rw [hY0, hx])
  have c3 : (st.Y 0).dot (st.S 0) = (st.S 0).dot (st.Y 0) :=
    ParOptVec.dot_comm _ _ (by rw [hY0, hS0])
  have hc0 : c 0 = x.dot (st.S 0) / (st.S 0).dot (st.S 0) := by
    field_simp
    have := e1
    have hb' := ne_of_gt hb
    apply mul_left_cancel₀ hb'
    linear_combination this
  have hc1 : c 1 = -(x.dot (st.Y 0) / (st.S 0).dot (st.Y 0)) := by
    have hd' := ne_of_gt hd
    field_simp
    linear_combination -e2
  refine ⟨rz, w, hmult, hsh.trans hy0, fun r k hr hk => ?_⟩
  have hin := (inrange_congr y0 x (by rw [hy0, hx]) r k).mpr ⟨hr, hk⟩
  rw [hw r k hin.1 hin.2, hm]
  simp only [sumTo, zero_add, Nat.mul_one]
  rw [z1, z2, z3, z4, hc0, hc1, c1, c2, c3]
  ring

/-- The type of the first update: it is not damped exactly when y.s exceeds one fifth of
s.(B0 s) for B0 = (y.y / y.s) I. -/
theorem first_update_type (st st' : LBFGS) (s y : ParOptVec) (t : Nat) (h0 : st.msub = 0)
    (ha : st.Alloc) (hs : s.shape = st.nvars) (hys : 0 < y.dot s)
    (hu : st.update s y = some (st', t)) :
    (t = 0 ↔ 0.2 * (y.dot y / y.dot s * s.dot s) < y.dot s) ∧ (t = 0 ∨ t = 1) := by
  obtain ⟨st1, nv, hc, _⟩ := update_eq st st' s y t hu
  obtain ⟨stA, stB, r, d, b0, h1, h2, h3, _, _, ht, _⟩ := curvature_spec st st1 s y nv t hc
  obtain ⟨_, hA⟩ := (firstScale_spec st stA _ _ h1).2 h0
  have hmA : stA.msub = 0 := by rw [hA]; exact h0
  have hrA : stA.r = st.r := by rw [hA]
  have hq : 0 < y.dot y / y.dot s :=
    div_pos (dot_self_pos_of y s (ne_of_gt hys)) hys
  have hbA : stA.b0 = y.dot y / y.dot s := by
    rw [hA]
    simp only
    rw [if_neg (not_le.mpr hq)]
  rw [mult_zero stA s stA.r hmA] at h2
  simp only [Option.some.injEq, Prod.mk.injEq] at h2
  obtain ⟨_, hr⟩ := h2
  have hbeta : r.dot s = y.dot y / y.dot s * s.dot s := by
    rw [← hr, hrA, ParOptVec.copyValues_eq _ s (by rw [ha.2, hs]), ParOptVec.dot_scale_left, hbA]
  rw [← hbeta]
  rcases damp_spec _ _ _ _ _ _ _ h3 with ⟨hle, _, hd1, _⟩ | ⟨hgt, hd⟩
  · rw [ht, hd1]
    exact ⟨⟨fun e => absurd e (by decide), fun hlt => absurd hle (not_le.mpr hlt)⟩, Or.inr rfl⟩
  · rw [ht, hd]
    exact ⟨⟨fun _ => lt_of_not_le hgt, fun _ => rfl⟩, Or.inl rfl⟩

end LBFGS
end ParOpt

namespace ParOpt

theorem scale_one (v : ParOptVec) : v.scale 1 = v := by
  apply ParOptVec.ext_get
  · rw [ParOptVec.shape_scale]
  · intro r k _ _
    rw [ParOptVec.get_scale, one_mul]

theorem memset0_idem (a : Nat → ParOptScalar) (n : Nat) : memset0 (memset0 a n) n = memset0 a n := by
  funext i
  unfold memset0
  split_ifs <;> rfl

theorem memset0_zero (n : Nat) : memset0 (fun _ => 0) n = fun _ => 0 := by
  funext i
  unfold memset0
  split_ifs <;> rfl

theorem memset0_lt (a : Nat → ParOptScalar) (n i : Nat) (h : i < n) : memset0 a n i = 0 := by
  unfold memset0
  rw [if_pos h]

namespace LSR1

theorem sr1_mult_zero (st : LSR1) (x y : ParOptVec) (h : st.msub = 0) :
    st.mult x y = some (st, (y.copyValues x).scale st.b0) := by
  unfold mult
  simp [h]

end LSR1
end ParOpt

namespace ParOpt

/-- A matrix M that maps only the zero vector to zero has a nonzero determinant. -/
theorem nonsingular_det (st : LBFGS) (h : Nonsingular (2 * st.msub) (toMat (2 * st.msub) st.M)) :
    st.matM.det ≠ 0 := by
  intro hdet
  obtain ⟨v, hv, hz⟩ := Matrix.exists_mulVec_eq_zero_iff.mpr hdet
  apply hv
  funext k
  have := h (fun j => if hj : j < 2 * st.msub then v ⟨j, hj⟩ else 0) (fun i hi => by
    have e := congrFun hz ⟨i, hi⟩
    simp only [Matrix.mulVec, Matrix.dotProduct, Pi.zero_apply] at e
    rw [sumTo_eq_sum, ← Fin.sum_univ_eq_sum_range (fun k =>
      toMat (2 * st.msub) st.M i k * (if hj : k < 2 * st.msub then v ⟨k, hj⟩ else 0))]
    rw [← e]
    apply Finset.sum_congr rfl
    intro j _
    simp only [j.isLt, dite_true]
    rfl) k.val k.isLt
  simpa using this

namespace LBFGS

/-- Storing a pair of positive curvature on a model whose pairs all have positive
curvature: the model that update leaves has positive b0, positive curvature pairs and
assembled arrays. -/
theorem poscurv_store (st st' st1 : LBFGS) (s y nv : ParOptVec) (t : Nat) (hi : st.Inv)
    (hD : ∀ i, i < st.msub → 0 < (st.S i).dot (st.Y i))
    (hs : s.shape = st.nvars) (hy : y.shape = st.nvars)
    (hc : st.curvature s y = some (st1, t, nv))
    (hst : st' = ((((st1.setNewValues s nv).updateSmall).setM).setZ).factor)
    (hu : st.update s y = some (st', t)) (hpos : 0 < nv.dot s) :
    st'.PosCurv ∧ 0 < st'.msub := by
  obtain ⟨_, b2, _, _⟩ := b0_curvature st st1 s y nv t hc
  have hb1 : 0 < st1.b0 := by
    rw [b2]
    exact div_pos (dot_self_pos_of nv s (ne_of_gt hpos)) hpos
  obtain ⟨hi', ha'⟩ := inv_update st st' s y t hu hi
  obtain ⟨n1, n2, n3⟩ := newest_update st st' st1 s y nv t hi hy hc hst
  have hms := msub_update st st' s y t hu
  have hnvs := (curvature_shape st st1 s y nv t hc hi.2.2.1 hy).1
  have f := curvature_frame st st1 s y nv t hc
  have e1 : st1.msub = st.msub := by rw [f]
  have e2 : st1.msub_max = st.msub_max := by rw [f]
  have e3 : st1.S = st.S := by rw [f]
  have e4 : st1.Y = st.Y := by rw [f]
  have ff := frame_finish (st1.setNewValues s nv).updateSmall
  have fu := frame_updateSmall (st1.setNewValues s nv)
  have hm0 : 0 < st'.msub := by
    rw [hms]
    have := hi.1
    have := hi.2.1
    split_ifs <;> omega
  refine ⟨⟨hi', fun _ => ⟨ha', by rw [n2]; exact hb1⟩, fun i hlt => ?_⟩, hm0⟩
  by_cases hnew : i = st'.msub - 1
  · rw [hnew, n1, n3 hs, ParOptVec.dot_comm s nv (by rw [hs, hnvs])]
    exact hpos
  · have hi1 : i + 1 < (st1.setNewValues s nv).msub := by
      have : st'.msub = (st1.setNewValues s nv).msub := by rw [hst, ff.1, fu.1]
      omega
    obtain ⟨o1, o2, _⟩ := older_setNewValues st1 s nv (by rw [e1, e2]; exact hi.1)
      (by rw [e2]; exact hi.2.1) i hi1
    have hS : st'.S i = st.S (i + if st.msub < st.msub_max then 0 else 1) := by
      rw [hst, ff.2.2.2.1, fu.2.2.2.1, o1, e3, e1, e2]
    have hY : st'.Y i = st.Y (i + if st.msub < st.msub_max then 0 else 1) := by
      rw [hst, ff.2.2.2.2.1, fu.2.2.2.2.1, o2, e4, e1, e2]
    rw [hS, hY]
    apply hD
    by_cases hcap : st.msub < st.msub_max
    · rw [if_pos hcap] at hms ⊢
      omega
    · rw [if_neg hcap] at hms ⊢
      omega

end LBFGS
end ParOpt

namespace ParOpt

/-- A loop whose iteration i rewrites entry i from its own content. -/
theorem forLoop_map_spec {α : Type} (g : Nat → α → α) (a0 : Nat → α) (n i : Nat) :
    forLoop n (fun i a => Function.update a i (g i (a i))) a0 i =
      if i < n then g i (a0 i) else a0 i := by
  induction n with
  | zero => simp [forLoop]
  | succ n ih =>
    rw [forLoop_succ]
    by_cases e : i = n
    · subst e
      rw [Function.update_same, ih]
      simp
    · rw [Function.update_noteq e, ih]
      by_cases h : i < n
      · simp [h, show i < n + 1 from by omega]
      · simp [h, show ¬ i < n + 1 from by omega]

/-- A loop whose iterations each add something to the entries of an array adds the sum. -/
theorem forLoop_additive (n : Nat) (f : Nat → (Nat → ParOptScalar) → Nat → ParOptScalar)
    (c : Nat → Nat → ParOptScalar) (a0 : Nat → ParOptScalar)
    (h : ∀ i, i < n → ∀ a k, f i a k = a k + c i k) (k : Nat) :
    forLoop n f a0 k = a0 k + sumTo n (fun i => c i k) := by
  induction n with
  | zero => simp [forLoop, sumTo]
  | succ n ih =>
    rw [forLoop_succ, h n (by omega), ih (fun i hi => h i (by omega))]
    simp only [sumTo]
    ring

theorem addAt_spec (a : Nat → ParOptScalar) (idx : Nat) (v : ParOptScalar) (k : Nat) :
    Function.update a idx (a idx + v) k = a k + (if k = idx then v else 0) := by
  by_cases e : k = idx
  · subst e
    simp
  · rw [Function.update_noteq e, if_neg e, add_zero]

theorem subAt_spec (a : Nat → ParOptScalar) (idx : Nat) (v : ParOptScalar) (k : Nat) :
    Function.update a idx (a idx - v) k = a k + (if k = idx then -v else 0) := by
  rw [sub_eq_add_neg]
  exact addAt_spec a idx (-v) k

/-- A double sum with a single nonzero term. -/
theorem sumTo2_single (n : Nat) (c : Nat → Nat) (a b : Nat) (ha : a < n) (hb : b < c a)
    (f : Nat → Nat → ParOptScalar)
    (h : ∀ i j, i < n → j < c i → (i ≠ a ∨ j ≠ b) → f i j = 0) :
    sumTo n (fun i => sumTo (c i) (fun j => f i j)) = f a b := by
  rw [sumTo_single n a ha]
  · exact sumTo_single (c a) b hb _ (fun j hj hne => h a j ha hj (Or.inr hne))
  · intro i hi hne
    exact sumTo_eq_zero _ _ (fun j hj => h i j hi hj (Or.inl hne))

namespace LSR1

theorem toLBFGS_setNewValues (st : LSR1) (s y : ParOptVec) :
    (st.setNewValues s y).toLBFGS = st.toLBFGS.setNewValues s y := by
  unfold setNewValues LBFGS.setNewValues
  by_cases h : st.msub < st.msub_max
  · rw [if_pos h, if_pos (show st.toLBFGS.msub < st.toLBFGS.msub_max from h)]
    rfl
  · rw [if_neg h, if_neg (show ¬ st.toLBFGS.msub < st.toLBFGS.msub_max from h)]
    rfl

theorem toLBFGS_updateSmall (st : LSR1) : st.updateSmall.toLBFGS = st.toLBFGS.updateSmall := rfl

theorem sr1_frame_finish (st : LSR1) :
    st.setM.setZ.factor.msub = st.msub ∧ st.setM.setZ.factor.msub_max = st.msub_max ∧
    st.setM.setZ.factor.nvars = st.nvars ∧ st.setM.setZ.factor.S = st.S ∧
    st.setM.setZ.factor.Y = st.Y ∧ st.setM.setZ.factor.b0 = st.b0 ∧
    st.setM.setZ.factor.r = st.r ∧ st.setM.setZ.factor.B = st.B ∧
    st.setM.setZ.factor.D = st.D ∧ st.setM.setZ.factor.L = st.L ∧
    st.setM.setZ.factor.rz = st.rz := by
  simp [factor, setZ, setM]

end LSR1
end ParOpt

namespace ParOpt
namespace LSR1

/-- The array M after "Set the values into the M-matrix": b0*B minus L, its transpose and
D. -/
theorem sr1_setM_entry (st : LSR1) (a b : Nat) (ha : a < st.msub) (hb : b < st.msub) :
    st.setM.M (a + st.msub * b) = st.b0 * st.B (a + st.msub_max * b) -
      (if b < a then st.L (a + st.msub_max * b)
        else if a < b then st.L (b + st.msub_max * a) else st.D a) := by
  unfold setM
  simp only
  rw [forLoop_additive st.msub _
    (fun i k => if k = i * (st.msub + 1) then -(st.D i) else 0) _
    (fun i _ a k => subAt_spec a _ _ k)]
  rw [forLoop_additive st.msub _
    (fun i k => sumTo i (fun j =>
      (if k = i + st.msub * j then -(st.L (i + st.msub_max * j)) else 0) +
      (if k = j + st.msub * i then -(st.L (i + st.msub_max * j)) else 0))) _
    (fun i _ a k => forLoop_additive i _
      (fun j k => (if k = i + st.msub * j then -(st.L (i + st.msub_max * j)) else 0) +
        (if k = j + st.msub * i then -(st.L (i + st.msub_max * j)) else 0)) a
      (fun j _ a k => by
        simp only
        rw [subAt_spec, subAt_spec, add_assoc]) k)]
  rw [forLoop_additive st.msub _
    (fun i k => sumTo st.msub (fun j =>
      if k = i + st.msub * j then st.b0 * st.B (i + st.msub_max * j) else 0)) _
    (fun i _ a k => forLoop_additive st.msub _
      (fun j k => if k = i + st.msub * j then st.b0 * st.B (i + st.msub_max * j) else 0) a
      (fun j _ a k => addAt_spec a _ _ k) k)]
  rw [memset0_lt _ _ _ (flat_lt st.msub a b ha hb), zero_add]
  -- the first loop
  have s1 : sumTo st.msub (fun i => sumTo st.msub (fun j =>
      if a + st.msub * b = i + st.msub * j then st.b0 * st.B (i + st.msub_max * j) else 0)) =
      st.b0 * st.B (a + st.msub_max * b) := by
    rw [sumTo2_single st.msub (fun _ => st.msub) a b ha hb]
    · simp
    · intro i j hi _ hne
      rw [if_neg (flat_ne _ _ _ _ _ ha hi (by omega))]
  -- the second loop, the entries below the diagonal
  have s2 : sumTo st.msub (fun i => sumTo i (fun j =>
      if a + st.msub * b = i + st.msub * j then -(st.L (i + st.msub_max * j)) else 0)) =
      if b < a then -(st.L (a + st.msub_max * b)) else 0 := by
    by_cases hba : b < a
    · rw [if_pos hba, sumTo2_single st.msub (fun i => i) a b ha hba]
      · simp
      · intro i j hi _ hne
        rw [if_neg (flat_ne _ _ _ _ _ ha hi (by omega))]
    · rw [if_neg hba]
      apply sumTo_eq_zero
      intro i hi
      apply sumTo_eq_zero
      intro j hj
      rw [if_neg (flat_ne _ _ _ _ _ ha hi (by omega))]
  -- the second loop, the entries above the diagonal
  have s3 : sumTo st.msub (fun i => sumTo i (fun j =>
      if a + st.msub * b = j + st.msub * i then -(st.L (i + st.msub_max * j)) else 0)) =
      if a < b then -(st.L (b + st.msub_max * a)) else 0 := by
    by_cases hab : a < b
    · rw [if_pos hab, sumTo2_single st.msub (fun i => i) b a hb hab]
      · simp
      · intro i j hi hj hne
        rw [if_neg (flat_ne _ _ _ _ _ ha (by omega) (by omega))]
    · rw [if_neg hab]
      apply sumTo_eq_zero
      intro i hi
      apply sumTo_eq_zero
      intro j hj
      rw [if_neg (flat_ne _ _ _ _ _ ha (by omega) (by omega))]
  -- the third loop
  have s4 : sumTo st.msub (fun i =>
      if a + st.msub * b = i * (st.msub + 1) then -(st.D i) else 0) =
      if a = b then -(st.D a) else 0 := by
    have hidx : ∀ i, i * (st.msub + 1) = i + st.msub * i := fun i => by ring
    by_cases hab : a = b
    · rw [if_pos hab, sumTo_single st.msub a ha]
      · rw [if_pos (by rw [hidx, hab])]
      · intro i hi hne
        rw [hidx, if_neg (flat_ne _ _ _ _ _ ha hi (by omega))]
    · rw [if_neg hab]
      apply sumTo_eq_zero
      intro i hi
      rw [hidx, if_neg (flat_ne _ _ _ _ _ ha hi (by omega))]
  have s23 : sumTo st.msub (fun i => sumTo i (fun j =>
      (if a + st.msub * b = i + st.msub * j then -(st.L (i + st.msub_max * j)) else 0) +
      (if a + st.msub * b = j + st.msub * i then -(st.L (i + st.msub_max * j)) else 0))) =
      (if b < a then -(st.L (a + st.msub_max * b)) else 0) +
      (if a < b then -(st.L (b + st.msub_max * a)) else 0) := by
    rw [← s2, ← s3, ← sumTo_add]
    apply sumTo_congr
    intro i _
    rw [← sumTo_add]
  rw [s1, s23, s4]
  by_cases h1 : b < a
  · simp [h1, show ¬ a < b from by omega, show ¬ a = b from by omega]
    ring
  · by_cases h2 : a < b
    · simp [h1, h2, show ¬ a = b from by omega]
      ring
    · have : a = b := by omega
      simp [h1, h2, this]
      ring

end LSR1
end ParOpt

namespace ParOpt
namespace LSR1

theorem sr1_alloc_fields (st : LSR1) (ha : st.Alloc) :
    (∀ i, i < st.msub_max → (st.S i).shape = st.nvars ∧ (st.Y i).shape = st.nvars ∧
      (st.Z i).shape = st.nvars) ∧ st.r.shape = st.nvars :=
  ⟨fun i h => ⟨(ha.1.1 i h).1, (ha.1.1 i h).2, ha.2 i h⟩, ha.1.2⟩

theorem sr1_alloc_of_fields (st : LSR1)
    (h : (∀ i, i < st.msub_max → (st.S i).shape = st.nvars ∧ (st.Y i).shape = st.nvars ∧
      (st.Z i).shape = st.nvars) ∧ st.r.shape = st.nvars) : st.Alloc :=
  ⟨⟨fun i hi => ⟨(h.1 i hi).1, (h.1 i hi).2.1⟩, h.2⟩, fun i hi => (h.1 i hi).2.2⟩

theorem sr1_frame_setNewValues (st : LSR1) (s y : ParOptVec) :
    (st.setNewValues s y).msub_max = st.msub_max ∧ (st.setNewValues s y).nvars = st.nvars ∧
    (st.setNewValues s y).b0 = st.b0 ∧ (st.setNewValues s y).r = st.r ∧
    (st.setNewValues s y).Z = st.Z ∧ (st.setNewValues s y).M = st.M ∧
    (st.setNewValues s y).d0 = st.d0 ∧ (st.setNewValues s y).M_factor = st.M_factor ∧
    (st.setNewValues s y).mfpiv = st.mfpiv ∧ (st.setNewValues s y).rz = st.rz ∧
    (st.setNewValues s y).msub = if st.msub < st.msub_max then st.msub + 1 else st.msub := by
  unfold setNewValues
  by_cases h : st.msub < st.msub_max
  · simp [h]
  · simp [h]

theorem sr1_frame_updateSmall (st : LSR1) :
    st.updateSmall.msub = st.msub ∧ st.updateSmall.msub_max = st.msub_max ∧
    st.updateSmall.nvars = st.nvars ∧ st.updateSmall.S = st.S ∧ st.updateSmall.Y = st.Y ∧
    st.updateSmall.b0 = st.b0 ∧ st.updateSmall.r = st.r ∧ st.updateSmall.Z = st.Z ∧
    st.updateSmall.M = st.M ∧ st.updateSmall.d0 = st.d0 ∧
    st.updateSmall.M_factor = st.M_factor ∧ st.updateSmall.mfpiv = st.mfpiv ∧
    st.updateSmall.rz = st.rz := by
  simp [updateSmall]

/-- What LSR1::update leaves after its last three steps. -/
theorem sr1_assembled_finish (st : LSR1) (hm : st.msub ≤ st.msub_max) (ha : st.Alloc) :
    st.setM.setZ.factor.Assembled := by
  have hf := sr1_alloc_fields st ha
  refine ⟨?_, ?_, ?_⟩
  · intro i j hi hj
    exact sr1_setM_entry st i j hi hj
  · intro i hi
    have hi' : i < st.msub := hi
    have hsh : (st.Z i).shape = (st.Y i).shape := by
      rw [(hf.1 i (by omega)).2.2, (hf.1 i (by omega)).2.1]
    constructor
    · show forLoop st.msub (fun i Z => Function.update Z i
          (((Z i).copyValues (st.Y i)).axpy (-st.b0) (st.S i))) st.Z i =
        (st.Y i).axpy (-st.b0) (st.S i)
      rw [forLoop_map_spec (fun i z => (z.copyValues (st.Y i)).axpy (-st.b0) (st.S i)) st.Z
        st.msub i, if_pos hi', ParOptVec.copyValues_eq _ _ hsh]
    · show forLoop st.msub (fun i d0 => Function.update d0 i 1.0) st.d0 i = 1
      rw [forLoop_map_spec (fun _ _ => (1.0 : ParOptScalar)) st.d0 st.msub i, if_pos hi']
      norm_num
  · refine ⟨memcpy st.M_factor st.setM.M (st.msub * st.msub), st.mfpiv, rfl, rfl, ?_⟩
    intro k hk
    have hk' : k < st.msub * st.msub := hk
    show memcpy st.M_factor st.setM.M (st.msub * st.msub) k = st.setM.M k
    unfold memcpy
    rw [if_pos hk']

theorem sr1_alloc_finish (st : LSR1) (ha : st.Alloc) : st.setM.setZ.factor.Alloc := by
  have hf := sr1_alloc_fields st ha
  apply sr1_alloc_of_fields
  refine ⟨fun i hi => ?_, hf.2⟩
  have hi' : i < st.msub_max := hi
  refine ⟨(hf.1 i hi').1, (hf.1 i hi').2.1, ?_⟩
  show (forLoop st.msub (fun i Z => Function.update Z i
      (((Z i).copyValues (st.Y i)).axpy (-st.b0) (st.S i))) st.Z i).shape = st.nvars
  rw [forLoop_map_spec (fun i z => (z.copyValues (st.Y i)).axpy (-st.b0) (st.S i)) st.Z
    st.msub i]
  split_ifs
  · rw [ParOptVec.shape_axpy, ParOptVec.shape_copyValues]
    exact (hf.1 i hi').2.2
  · exact (hf.1 i hi').2.2

/-- The vectors keep their local sizes through "Set up the new values" and "Update the
matrices". -/
theorem sr1_alloc_store (st : LSR1) (s y : ParOptVec) (hm : st.msub ≤ st.msub_max)
    (hp : 1 ≤ st.msub_max) (ha : st.Alloc) : ((st.setNewValues s y).updateSmall).Alloc := by
  have hm' : st.toLBFGS.msub ≤ st.toLBFGS.msub_max := hm
  have hp' : 1 ≤ st.toLBFGS.msub_max := hp
  have h1 := LBFGS.alloc_updateSmall _ (LBFGS.alloc_setNewValues st.toLBFGS s y hm' hp' ha.1)
  rw [← toLBFGS_setNewValues, ← toLBFGS_updateSmall] at h1
  refine ⟨h1, fun i hi => ?_⟩
  have fs := sr1_frame_setNewValues st s y
  have fu := sr1_frame_updateSmall (st.setNewValues s y)
  rw [fu.2.1, fs.1] at hi
  rw [fu.2.2.2.2.2.2.2.1, fs.2.2.2.2.1, fu.2.2.1, fs.2.1]
  exact ha.2 i hi

theorem sr1_consistent_store (st : LSR1) (s y : ParOptVec) (hm : st.msub ≤ st.msub_max)
    (hp : 1 ≤ st.msub_max) (ha : st.Alloc) (hc : st.Consistent) :
    ((st.setNewValues s y).updateSmall).Consistent := by
  have hm' : st.toLBFGS.msub ≤ st.toLBFGS.msub_max := hm
  have hp' : 1 ≤ st.toLBFGS.msub_max := hp
  have hc' : st.toLBFGS.Consistent := hc
  have h1 := LBFGS.consistent_store st.toLBFGS s y hm' hp' ha.1 hc'
  rw [← toLBFGS_setNewValues, ← toLBFGS_updateSmall] at h1
  exact h1

theorem sr1_consistent_finish (st : LSR1) (hc : st.Consistent) :
    st.setM.setZ.factor.Consistent := hc

theorem sr1_firstScale_spec (st stA : LSR1) (g a : ParOptScalar)
    (h : st.firstScale g a = some stA) :
    (st.msub ≠ 0 → stA = st) ∧
    (st.msub = 0 → a ≠ 0 ∧ stA = { st with b0 := g / a }) := by
  unfold firstScale at h
  by_cases hm : st.msub = 0
  · rw [if_pos hm] at h
    simp only [Option.map_eq_some'] at h
    obtain ⟨q, hq, h2⟩ := h
    obtain ⟨ha, hq'⟩ := sdiv_spec _ _ _ hq
    subst hq'
    exact ⟨fun hne => absurd hm hne, fun _ => ⟨ha, h2.symm⟩⟩
  · rw [if_neg hm] at h
    simp only [Option.some.injEq] at h
    exact ⟨fun _ => h.symm, fun h0 => absurd h0 hm⟩

theorem sr1_firstScale_frame (st stA : LSR1) (g a : ParOptScalar)
    (h : st.firstScale g a = some stA) : stA = { st with b0 := stA.b0 } := by
  by_cases hm : st.msub = 0
  · rw [((sr1_firstScale_spec st stA g a h).2 hm).2]
  · rw [(sr1_firstScale_spec st stA g a h).1 hm]

theorem sr1_update_eq (st st' : LSR1) (s y : ParOptVec) (h : (st.update s y).1 = some st') :
    ∃ stA, st.firstScale (y.dot y) (y.dot s) = some stA ∧
      st' = ((((stA.setNewValues s y).updateSmall).setM).setZ).factor := by
  unfold update at h
  simp only [Option.map_eq_some'] at h
  obtain ⟨stA, h1, h2⟩ := h
  exact ⟨stA, h1, h2.symm⟩

/-- LSR1::update has a model to return unless it is the first update and y.s = 0. -/
theorem sr1_update_defined (st : LSR1) (s y : ParOptVec) (h : st.msub = 0 → y.dot s ≠ 0) :
    ∃ st', (st.update s y).1 = some st' := by
  unfold update firstScale sdiv
  by_cases hm : st.msub = 0
  · simp only [if_pos hm, if_neg (h hm)]
    exact ⟨_, rfl⟩
  · simp only [if_neg hm]
    exact ⟨_, rfl⟩

theorem sr1_update_none (st : LSR1) (s y : ParOptVec) (hm : st.msub = 0) (h : y.dot s = 0) :
    (st.update s y).1 = none := by
  unfold update firstScale sdiv
  simp [hm, h]

end LSR1
end ParOpt

namespace ParOpt
namespace LSR1

theorem sr1_inv_firstScale (st stA : LSR1) (g a : ParOptScalar)
    (h : st.firstScale g a = some stA) (hi : st.Inv) :
    stA.Inv ∧ stA.msub = st.msub ∧ stA.msub_max = st.msub_max ∧ stA.nvars = st.nvars ∧
      stA.S = st.S ∧ stA.Y = st.Y := by
  have f := sr1_firstScale_frame st stA g a h
  rw [f]
  exact ⟨hi, rfl, rfl, rfl, rfl, rfl⟩

/-- LSR1::update keeps the invariant and leaves M, Z, d0 and the factors assembled; it sets
b0 only when the model holds no pair. -/
theorem sr1_inv_update (st st' : LSR1) (s y : ParOptVec) (hi : st.Inv)
    (h : (st.update s y).1 = some st') :
    st'.Inv ∧ st'.Assembled ∧ st'.nvars = st.nvars ∧ st'.msub_max = st.msub_max ∧
    st'.msub = (if st.msub < st.msub_max then st.msub + 1 else st.msub) ∧
    (st.msub ≠ 0 → st'.b0 = st.b0) ∧
    (st.msub = 0 → y.dot s ≠ 0 ∧ st'.b0 = y.dot y / y.dot s) := by
  obtain ⟨stA, h1, hst⟩ := sr1_update_eq st st' s y h
  obtain ⟨hiA, e1, e2, e3, _, _⟩ := sr1_inv_firstScale st stA _ _ h1 hi
  obtain ⟨hm, hp, ha, hc⟩ := hiA
  have fs := sr1_frame_setNewValues stA s y
  have fu := sr1_frame_updateSmall (stA.setNewValues s y)
  have ff := sr1_frame_finish (stA.setNewValues s y).updateSmall
  have hall := sr1_alloc_store stA s y hm hp ha
  have hcon := sr1_consistent_store stA s y hm hp ha hc
  have hmsub : st'.msub = if st.msub < st.msub_max then st.msub + 1 else st.msub := by
    rw [hst, ff.1, fu.1, fs.2.2.2.2.2.2.2.2.2.2, e1, e2]
  have hmax : st'.msub_max = st.msub_max := by rw [hst, ff.2.1, fu.2.1, fs.1, e2]
  have hb : st'.b0 = stA.b0 := by rw [hst, ff.2.2.2.2.2.1, fu.2.2.2.2.2.1, fs.2.2.1]
  have hle : ((stA.setNewValues s y).updateSmall).msub ≤
      ((stA.setNewValues s y).updateSmall).msub_max := by
    rw [fu.1, fu.2.1, fs.2.2.2.2.2.2.2.2.2.2, fs.1]
    split_ifs <;> omega
  refine ⟨⟨?_, ?_, ?_, ?_⟩, ?_, ?_, hmax, hmsub, ?_, ?_⟩
  · rw [hmsub, hmax]
    rw [e1, e2] at hm
    split_ifs <;> omega
  · rw [hmax, ← e2]; exact hp
  · rw [hst]; exact sr1_alloc_finish _ hall
  · rw [hst]; exact sr1_consistent_finish _ hcon
  · rw [hst]; exact sr1_assembled_finish _ hle hall
  · rw [hst, ff.2.2.1, fu.2.2.1, fs.2.1, e3]
  · intro hne
    rw [hb, (sr1_firstScale_spec st stA _ _ h1).1 hne]
  · intro h0
    obtain ⟨ha0, hA⟩ := (sr1_firstScale_spec st stA _ _ h1).2 h0
    refine ⟨ha0, ?_⟩
    rw [hb, hA]

/-- The columns after LSR1::update: the supplied pair is the newest, the older pairs keep
their order. -/
theorem sr1_columns_update (st st' : LSR1) (s y : ParOptVec) (hi : st.Inv)
    (h : (st.update s y).1 = some st') :
    (s.shape = st.nvars → st'.S (st'.msub - 1) = s) ∧
    (y.shape = st.nvars → st'.Y (st'.msub - 1) = y) ∧
    ∀ i, i + 1 < st'.msub →
      st'.S i = st.S (i + if st.msub < st.msub_max then 0 else 1) ∧
      st'.Y i = st.Y (i + if st.msub < st.msub_max then 0 else 1) := by
  obtain ⟨stA, h1, hst⟩ := sr1_update_eq st st' s y h
  obtain ⟨hiA, e1, e2, e3, e4, e5⟩ := sr1_inv_firstScale st stA _ _ h1 hi
  obtain ⟨hm, hp, ha, _⟩ := hiA
  have hf := sr1_alloc_fields stA ha
  have fs := sr1_frame_setNewValues stA s y
  have fu := sr1_frame_updateSmall (stA.setNewValues s y)
  have ff := sr1_frame_finish (stA.setNewValues s y).updateSmall
  have hS : st'.S = (stA.toLBFGS.setNewValues s y).S := by
    rw [hst, ff.2.2.2.1, fu.2.2.2.1, ← toLBFGS_setNewValues]
    rfl
  have hY : st'.Y = (stA.toLBFGS.setNewValues s y).Y := by
    rw [hst, ff.2.2.2.2.1, fu.2.2.2.2.1, ← toLBFGS_setNewValues]
    rfl
  have hmsub : st'.msub = (stA.toLBFGS.setNewValues s y).msub := by
    rw [hst, ff.1, fu.1, ← toLBFGS_setNewValues]
    rfl
  have hn := LBFGS.newest_setNewValues stA.toLBFGS s y
  have hidx : (if stA.msub < stA.msub_max then stA.msub else 0) < stA.msub_max := by
    split_ifs <;> omega
  refine ⟨fun hs => ?_, fun hy => ?_, fun i hlt => ?_⟩
  · rw [hS, hmsub, hn.1]
    exact ParOptVec.copyValues_eq _ s (by
      show (stA.S (if stA.msub < stA.msub_max then stA.msub else 0)).shape = s.shape
      rw [(hf.1 _ hidx).1, e3, hs])
  · rw [hY, hmsub, hn.2]
    exact ParOptVec.copyValues_eq _ y (by
      show (stA.Y (if stA.msub < stA.msub_max then stA.msub else 0)).shape = y.shape
      rw [(hf.1 _ hidx).2.1, e3, hy])
  · rw [hmsub] at hlt
    have hm' : stA.toLBFGS.msub ≤ stA.toLBFGS.msub_max := hm
    have hp' : 1 ≤ stA.toLBFGS.msub_max := hp
    obtain ⟨o1, o2, _⟩ := LBFGS.older_setNewValues stA.toLBFGS s y hm' hp' i hlt
    have o1' : (stA.toLBFGS.setNewValues s y).S i =
        stA.S (i + if stA.msub < stA.msub_max then 0 else 1) := o1
    have o2' : (stA.toLBFGS.setNewValues s y).Y i =
        stA.Y (i + if stA.msub < stA.msub_max then 0 else 1) := o2
    rw [hS, hY, o1', o2', e4, e5, e1, e2]
    exact ⟨rfl, rfl⟩

theorem sr1_alloc_new (nvars : List Nat) (p : Nat) : (LSR1.new nvars p).Alloc := by
  apply sr1_alloc_of_fields
  refine ⟨fun i hi => ?_, ParOptVec.shape_new _⟩
  have hi' : i < p := hi
  simp only [LSR1.new, if_pos hi']
  exact ⟨ParOptVec.shape_new _, ParOptVec.shape_new _, ParOptVec.shape_new _⟩

theorem sr1_alloc_reset (st : LSR1) (h : st.Alloc) : st.reset.Alloc := h

theorem sr1_inv_start (st : LSR1) (h0 : st.msub = 0) (hp : 1 ≤ st.msub_max) (ha : st.Alloc) :
    st.Inv :=
  ⟨by omega, hp, ha, fun i j hi => absurd hi (by omega)⟩

end LSR1
end ParOpt

namespace ParOpt

/-- A column-major array whose n x n matrix has a nonzero determinant is nonsingular in
the elementary sense. -/
theorem nonsingular_of_det_gen (n : Nat) (A : Nat → ParOptScalar)
    (h : (Matrix.of (fun (i j : Fin n) => A (i.val + n * j.val))).det ≠ 0) :
    Nonsingular n (toMat n A) := by
  intro v hv k hk
  have hz : (Matrix.of (fun (i j : Fin n) => A (i.val + n * j.val))).mulVec
      (fun j => v j.val) = 0 := by
    funext i
    have := hv i.val i.isLt
    rw [sumTo_eq_sum] at this
    simp only [Matrix.mulVec, Matrix.dotProduct, Pi.zero_apply]
    rw [← this, ← Fin.sum_univ_eq_sum_range (fun k => toMat n A i.val k * v k)]
    rfl
  have := Matrix.eq_zero_of_mulVec_eq_zero h hz
  exact congrFun this ⟨k, hk⟩

/-- The solution of a linear system is the product of the right-hand side with the
inverse matrix. -/
theorem solution_eq_inv_gen (n : Nat) (A : Nat → ParOptScalar)
    (h : (Matrix.of (fun (i j : Fin n) => A (i.val + n * j.val))).det ≠ 0)
    (c b : Nat → ParOptScalar)
    (hc : ∀ i, i < n → sumTo n (fun k => toMat n A i k * c k) = b i) (i : Fin n) :
    c i.val = (Matrix.of (fun (i j : Fin n) => A (i.val + n * j.val)))⁻¹.mulVec
      (fun j => b j.val) i := by
  have hz : (Matrix.of (fun (i j : Fin n) => A (i.val + n * j.val))).mulVec
      (fun j => c j.val) = fun j => b j.val := by
    funext i
    have := hc i.val i.isLt
    rw [sumTo_eq_sum] at this
    simp only [Matrix.mulVec, Matrix.dotProduct]
    rw [← this, ← Fin.sum_univ_eq_sum_range (fun k => toMat n A i.val k * c k)]
    rfl
  rw [← hz, Matrix.mulVec_mulVec, Matrix.nonsing_inv_mul _ (by
    rw [isUnit_iff_ne_zero]; exact h), Matrix.one_mulVec]

namespace LSR1

/-- LSR1::mult on a model with assembled arrays and a nonsingular M: the solve succeeds and
y receives b0*x minus the combination of the vectors Z with the solution. -/
theorem sr1_mult_solve (st : LSR1) (x y : ParOptVec) (hm : 0 < st.msub) (ha : st.Assembled)
    (hns : Nonsingular st.msub (toMat st.msub st.M)) :
    ∃ (c : Nat → ParOptScalar) (w : ParOptVec),
      st.mult x y = some ({ st with rz := c }, w) ∧ w.shape = y.shape ∧
      (∀ i, i < st.msub →
        sumTo st.msub (fun k => toMat st.msub st.M i k * c k) = x.dot (st.Z i)) ∧
      (∀ r k, r < y.length → k < y.size r →
        w.get r k = st.b0 * x.get r k -
          sumTo st.msub (fun i => (st.Z i).get r k * c i)) := by
  obtain ⟨_, _, F, piv, hF, hp, hFM⟩ := ha
  have hFM2 : ∀ i k, i < st.msub → k < st.msub →
      toMat st.msub F i k = toMat st.msub st.M i k := by
    intro i k hi hk
    unfold toMat
    exact hFM _ (flat_lt_sq st.msub i k hi hk)
  have hns2 : Nonsingular st.msub (toMat st.msub F) := nonsingular_congr _ _ _ hFM2 hns
  obtain ⟨c, hc, hsol⟩ := dgetrs_dgetrf st.msub F piv (x.mdot st.Z st.msub st.rz) hns2
  rw [← hF, ← hp] at hc
  refine ⟨c, forLoop st.msub (fun i y => y.axpy (-(c i)) (st.Z i))
    ((y.copyValues x).scale st.b0), ?_, ?_, ?_, ?_⟩
  · unfold mult
    simp only [if_pos hm, hc, Option.map_some']
  · rw [shape_axpyLoop, ParOptVec.shape_scale, ParOptVec.shape_copyValues]
  · intro i hi
    have h1 := hsol i hi
    rw [mdot_spec _ _ _ _ _ hi] at h1
    rw [← h1]
    apply sumTo_congr
    intro k hk
    rw [hFM2 i k hi hk]
  · intro r k hr hk
    have hin : r < ((y.copyValues x).scale st.b0).length ∧
        k < ((y.copyValues x).scale st.b0).size r := by
      refine (inrange_congr ((y.copyValues x).scale st.b0) y ?_ r k).mpr ⟨hr, hk⟩
      rw [ParOptVec.shape_scale, ParOptVec.shape_copyValues]
    have h2 := get_axpyLoop st.msub (fun i => -(c i)) st.Z ((y.copyValues x).scale st.b0) r k
    rw [if_pos hin, ParOptVec.get_scale, ParOptVec.get_copyValues, if_pos ⟨hr, hk⟩] at h2
    rw [h2, sub_eq_add_neg, ← neg_one_mul (sumTo _ _), ← sumTo_mul_left]
    congr 1
    apply sumTo_congr
    intro i _
    ring

/-- What LSR1::update does to b0 and to the number of pairs, for any state. -/
theorem sr1_b0_update (st st' : LSR1) (s y : ParOptVec) (h : (st.update s y).1 = some st') :
    (st.msub = 0 → y.dot s ≠ 0 ∧ st'.b0 = y.dot y / y.dot s) ∧
    (st.msub ≠ 0 → st'.b0 = st.b0) ∧
    st'.msub = (if st.msub < st.msub_max then st.msub + 1 else st.msub) ∧
    st'.msub_max = st.msub_max ∧ st'.nvars = st.nvars := by
  obtain ⟨stA, h1, hst⟩ := sr1_update_eq st st' s y h
  have f := sr1_firstScale_frame st stA _ _ h1
  have e1 : stA.msub = st.msub := by rw [f]
  have e2 : stA.msub_max = st.msub_max := by rw [f]
  have e3 : stA.nvars = st.nvars := by rw [f]
  have fs := sr1_frame_setNewValues stA s y
  have fu := sr1_frame_updateSmall (stA.setNewValues s y)
  have ff := sr1_frame_finish (stA.setNewValues s y).updateSmall
  have hb : st'.b0 = stA.b0 := by rw [hst, ff.2.2.2.2.2.1, fu.2.2.2.2.2.1, fs.2.2.1]
  refine ⟨fun h0 => ?_, fun hne => ?_, ?_, ?_, ?_⟩
  · obtain ⟨ha0, hA⟩ := (sr1_firstScale_spec st stA _ _ h1).2 h0
    exact ⟨ha0, by rw [hb, hA]⟩
  · rw [hb, (sr1_firstScale_spec st stA _ _ h1).1 hne]
  · rw [hst, ff.1, fu.1, fs.2.2.2.2.2.2.2.2.2.2, e1, e2]
  · rw [hst, ff.2.1, fu.2.1, fs.1, e2]
  · rw [hst, ff.2.2.1, fu.2.2.1, fs.2.1, e3]

/-- Calls of update on a model that holds a pair leave b0 as it is. -/
theorem sr1_b0_updates (ps : List (ParOptVec × ParOptVec)) (st st' : LSR1)
    (hp : 1 ≤ st.msub_max) (hm : 0 < st.msub) (h : st.updates ps = some st') :
    st'.b0 = st.b0 ∧ 0 < st'.msub ∧ st'.msub_max = st.msub_max := by
  induction ps generalizing st with
  | nil =>
    simp only [updates, Option.some.injEq] at h
    subst h
    exact ⟨rfl, hm, rfl⟩
  | cons p rest ih =>
    simp only [updates, Option.bind_eq_some] at h
    obtain ⟨st1, h1, h2⟩ := h
    obtain ⟨_, b2, b3, b4, _⟩ := sr1_b0_update st st1 p.1 p.2 h1
    have hm1 : 0 < st1.msub := by
      rw [b3]; split_ifs <;> omega
    obtain ⟨i1, i2, i3⟩ := ih st1 (by rw [b4]; exact hp) hm1 h2
    exact ⟨by rw [i1, b2 (by omega)], i2, by rw [i3, b4]⟩

end LSR1
end ParOpt

namespace ParOpt

theorem sumTo_succ_front (n : Nat) (g : Nat → ParOptScalar) :
    sumTo (n + 1) g = g 0 + sumTo n (fun i => g (i + 1)) := by
  rw [Nat.add_comm n 1, sumTo_append 1 n g]
  simp [sumTo]

/-- A sum over the indices of a list is the sum of the list of terms. -/
theorem sumTo_list {α : Type} (l : List α) (d : α) (f : α → ParOptScalar) :
    sumTo l.length (fun i => f (l.getD i d)) = (l.map f).sum := by
  induction l with
  | nil => rfl
  | cons a l ih =>
    rw [List.length_cons, sumTo_succ_front, List.map_cons, List.sum_cons, ← ih]
    rfl

/-- The sum against the unit matrix picks one entry. -/
theorem dsum_delta (sh : List Nat) (c : ParOptScalar) (f : Nat → Nat → ParOptScalar)
    (r k : Nat) :
    dsum sh (fun r' k' => (if r = r' ∧ k = k' then c else 0) * f r' k') =
      if r < sh.length ∧ k < sh.getD r 0 then c * f r k else 0 := by
  unfold dsum
  by_cases hin : r < sh.length ∧ k < sh.getD r 0
  · rw [if_pos hin, sumTo_single sh.length r hin.1]
    · rw [sumTo_single (sh.getD r 0) k hin.2]
      · simp
      · intro j _ hne
        beta_reduce
        rw [if_neg (fun h : r = r ∧ k = j => hne h.2.symm), zero_mul]
    · intro i _ hne
      apply sumTo_eq_zero
      intro j _
      beta_reduce
      rw [if_neg (fun h : r = i ∧ k = j => hne h.1.symm), zero_mul]
  · rw [if_neg hin]
    apply sumTo_eq_zero
    intro i hi
    apply sumTo_eq_zero
    intro j hj
    beta_reduce
    rw [if_neg (fun h : r = i ∧ k = j => hin (by rw [h.1, h.2]; exact ⟨hi, hj⟩)), zero_mul]

theorem dsum_list_sum {α : Type} (sh : List Nat) (l : List α)
    (F : α → Nat → Nat → ParOptScalar) :
    dsum sh (fun r k => (l.map (fun p => F p r k)).sum) = (l.map (fun p => dsum sh (F p))).sum := by
  induction l with
  | nil => simp [dsum_zero]
  | cons a l ih =>
    simp only [List.map_cons, List.sum_cons]
    rw [dsum_add sh (F a) (fun r k => (l.map (fun p => F p r k)).sum), ih]

namespace LSR1

/-- Calls of update that only append: the columns of the model are the old ones followed
by the pairs supplied, in order. -/
theorem sr1_append_updates (ps : List (ParOptVec × ParOptVec)) (st : LSR1) (hi : st.Inv)
    (hlen : st.msub + ps.length ≤ st.msub_max)
    (hsh : ∀ p, p ∈ ps → p.1.shape = st.nvars ∧ p.2.shape = st.nvars)
    (hdef : st.msub = 0 → ∀ p rest, ps = p :: rest → p.2.dot p.1 ≠ 0) :
    ∃ st', st.updates ps = some st' ∧ st'.Inv ∧ st'.msub = st.msub + ps.length ∧
      st'.nvars = st.nvars ∧ st'.msub_max = st.msub_max ∧
      (∀ i, i < st.msub → st'.S i = st.S i ∧ st'.Y i = st.Y i) ∧
      (∀ i, i < ps.length → st'.S (st.msub + i) = (ps.getD i ([], [])).1 ∧
        st'.Y (st.msub + i) = (ps.getD i ([], [])).2) ∧
      (st.msub ≠ 0 → st'.b0 = st.b0) ∧
      (st.msub = 0 → ∀ p rest, ps = p :: rest → st'.b0 = p.2.dot p.2 / p.2.dot p.1) ∧
      (ps ≠ [] → st'.Assembled) := by
  induction ps generalizing st with
  | nil =>
    exact ⟨st, rfl, hi, rfl, rfl, rfl, fun _ _ => ⟨rfl, rfl⟩,
      fun i h => absurd h (Nat.not_lt_zero i), fun _ => rfl,
      fun _ p rest h => absurd h (by simp), fun h => absurd rfl h⟩
  | cons p rest ih =>
    simp only [List.length_cons] at hlen
    have hcap : st.msub < st.msub_max := by omega
    obtain ⟨st1, h1⟩ := sr1_update_defined st p.1 p.2 (fun h0 => hdef h0 p rest rfl)
    obtain ⟨hi1, ha1, n1, x1, m1, b1, b2⟩ := sr1_inv_update st st1 p.1 p.2 hi h1
    rw [if_pos hcap] at m1
    obtain ⟨c1, c2, c3⟩ := sr1_columns_update st st1 p.1 p.2 hi h1
    have hp := hsh p (List.mem_cons_self _ _)
    have hS1 : st1.S st.msub = p.1 := by
      have := c1 hp.1
      rwa [m1, Nat.add_sub_cancel] at this
    have hY1 : st1.Y st.msub = p.2 := by
      have := c2 hp.2
      rwa [m1, Nat.add_sub_cancel] at this
    have hold : ∀ i, i < st.msub → st1.S i = st.S i ∧ st1.Y i = st.Y i := by
      intro i hlt
      have := c3 i (by rw [m1]; omega)
      rw [if_pos hcap, Nat.add_zero] at this
      exact this
    obtain ⟨st', u, hi', m', n', x', o1, o2, o3, _, o5⟩ := ih st1 hi1
      (by rw [m1, x1]; omega)
      (fun q hq => by rw [n1]; exact hsh q (List.mem_cons_of_mem _ hq))
      (fun h0 => absurd h0 (by rw [m1]; omega))
    have hb1 : st'.b0 = st1.b0 := o3 (by rw [m1]; omega)
    refine ⟨st', ?_, hi', ?_, by rw [n', n1], by rw [x', x1], ?_, ?_, ?_, ?_, ?_⟩
    · simp only [updates, h1, Option.some_bind]
      exact u
    · rw [m', m1, List.length_cons]
      omega
    · intro i hlt
      obtain ⟨q1, q2⟩ := o1 i (by rw [m1]; omega)
      rw [q1, q2]
      exact hold i hlt
    · intro i hlt
      cases i with
      | zero =>
        obtain ⟨q1, q2⟩ := o1 st.msub (by rw [m1]; omega)
        rw [Nat.add_zero, q1, q2, hS1, hY1]
        exact ⟨rfl, rfl⟩
      | succ j =>
        simp only [List.length_cons] at hlt
        obtain ⟨q1, q2⟩ := o2 j (by omega)
        rw [m1] at q1 q2
        rw [show st.msub + (j + 1) = st.msub + 1 + j from by omega, q1, q2]
        exact ⟨rfl, rfl⟩
    · intro hne
      rw [hb1, b1 hne]
    · intro h0 q rest' e
      simp only [List.cons.injEq] at e
      rw [hb1, (b2 h0).2, e.1]
    · intro _
      by_cases hr : rest = []
      · subst hr
        simp only [updates, Option.some.injEq] at u
        rw [← u]
        exact ha1
      · exact o5 hr

end LSR1
end ParOpt

namespace ParOpt

theorem get_out_of_shape (v : ParOptVec) (sh : List Nat) (h : v.shape = sh) (r k : Nat)
    (hout : ¬ (r < sh.length ∧ k < sh.getD r 0)) : v.get r k = 0 := by
  apply ParOptVec.get_of_not
  intro hc
  apply hout
  rw [← h, ← ParOptVec.length_eq_shape, ← ParOptVec.size_eq_shape]
  exact hc

/-- The product of y - b0*s with a vector. -/
theorem col_dot (sh : List Nat) (b0 : ParOptScalar) (p : ParOptVec × ParOptVec)
    (v : ParOptVec) (h1 : p.1.shape = sh) (h2 : p.2.shape = sh) :
    dsum sh (fun r k => sr1Col b0 p r k * v.get r k) = p.2.dot v - b0 * p.1.dot v := by
  rw [dot_dsum p.2 v sh h2, dot_dsum p.1 v sh h1, ← dsum_mul_left, ← dsum_sub]
  apply dsum_congr
  intro r k _ _
  unfold sr1Col
  ring

/-- The dense matrix b0*I plus the rank-one terms of the pairs of a list, applied to a
vector. -/
theorem denseMul_closed (sh : List Nat) (b0 : ParOptScalar)
    (l : List (ParOptVec × ParOptVec)) (v : ParOptVec) (r k : Nat) (hv : v.shape = sh)
    (hl : ∀ p, p ∈ l → p.1.shape = sh ∧ p.2.shape = sh) :
    denseMul sh (fun r k r' k' => (if r = r' ∧ k = k' then b0 else 0) +
        (l.map (fun p => sr1Col b0 p r k * sr1Col b0 p r' k' / sr1Den b0 p)).sum) v r k =
      b0 * v.get r k +
        (l.map (fun p => sr1Col b0 p r k * (p.2.dot v - b0 * p.1.dot v) / sr1Den b0 p)).sum := by
  unfold denseMul
  rw [dsum_congr sh _ (fun r' k' => (if r = r' ∧ k = k' then b0 else 0) * v.get r' k' +
      (l.map (fun p => sr1Col b0 p r k / sr1Den b0 p *
        (sr1Col b0 p r' k' * v.get r' k'))).sum)
    (fun r' k' _ _ => by
      rw [add_mul, ← List.sum_map_mul_right]
      congr 2
      apply List.map_congr_left
      intro p _
      ring)]
  rw [dsum_add sh (fun r' k' => (if r = r' ∧ k = k' then b0 else 0) * v.get r' k')
    (fun r' k' => (l.map (fun p => sr1Col b0 p r k / sr1Den b0 p *
        (sr1Col b0 p r' k' * v.get r' k'))).sum), dsum_delta,
    dsum_list_sum sh l (fun p r' k' => sr1Col b0 p r k / sr1Den b0 p *
        (sr1Col b0 p r' k' * v.get r' k'))]
  congr 1
  · split_ifs with hin
    · rfl
    · rw [get_out_of_shape v sh hv r k hin, mul_zero]
  · congr 1
    apply List.map_congr_left
    intro p hp
    rw [dsum_mul_left, col_dot sh b0 p v (hl p hp).1 (hl p hp).2]
    ring

/-- One step of the recursion on a matrix b0*I plus rank-one terms adds the term of the
new pair, when the step of the new pair is orthogonal to the earlier steps and to the
earlier gradient differences. -/
theorem sr1Step_closed (sh : List Nat) (b0 : ParOptScalar)
    (l : List (ParOptVec × ParOptVec)) (q : ParOptVec × ParOptVec)
    (hq : q.1.shape = sh ∧ q.2.shape = sh)
    (hl : ∀ p, p ∈ l → p.1.shape = sh ∧ p.2.shape = sh)
    (ho : ∀ p, p ∈ l → p.1.dot q.1 = 0 ∧ p.2.dot q.1 = 0) :
    sr1Step sh (fun r k r' k' => (if r = r' ∧ k = k' then b0 else 0) +
        (l.map (fun p => sr1Col b0 p r k * sr1Col b0 p r' k' / sr1Den b0 p)).sum) q.1 q.2 =
      fun r k r' k' => (if r = r' ∧ k = k' then b0 else 0) +
        ((l ++ [q]).map (fun p => sr1Col b0 p r k * sr1Col b0 p r' k' / sr1Den b0 p)).sum := by
  have hmul : ∀ r k, denseMul sh (fun r k r' k' => (if r = r' ∧ k = k' then b0 else 0) +
      (l.map (fun p => sr1Col b0 p r k * sr1Col b0 p r' k' / sr1Den b0 p)).sum) q.1 r k =
      b0 * q.1.get r k := by
    intro r k
    rw [denseMul_closed sh b0 l q.1 r k hq.1 hl]
    have hz : (l.map (fun p =>
        sr1Col b0 p r k * (p.2.dot q.1 - b0 * p.1.dot q.1) / sr1Den b0 p)).sum = 0 := by
      apply List.sum_eq_zero
      intro t ht
      rw [List.mem_map] at ht
      obtain ⟨p, hp, e⟩ := ht
      rw [← e, (ho p hp).1, (ho p hp).2]
      ring
    rw [hz, add_zero]
  unfold sr1Step
  funext r k r' k'
  have hden : dsum sh (fun a b => (q.2.get a b - denseMul sh (fun r k r' k' =>
      (if r = r' ∧ k = k' then b0 else 0) +
        (l.map (fun p => sr1Col b0 p r k * sr1Col b0 p r' k' / sr1Den b0 p)).sum) q.1 a b) *
        q.1.get a b) = sr1Den b0 q := by
    rw [dsum_congr sh _ (fun a b => sr1Col b0 q a b * q.1.get a b)
      (fun a b _ _ => by rw [hmul a b]; rfl), col_dot sh b0 q q.1 hq.1 hq.2]
    rfl
  rw [hden, hmul r k, hmul r' k', List.map_append, List.sum_append, List.map_singleton,
    List.sum_singleton, add_assoc]
  rfl

/-- The dense SR1 Hessian of pairs whose steps are orthogonal to the earlier steps and to
the earlier gradient differences is b0*I plus the rank-one terms of the pairs. -/
theorem sr1Dense_closed (sh : List Nat) (b0 : ParOptScalar)
    (ps : List (ParOptVec × ParOptVec))
    (hl : ∀ p, p ∈ ps → p.1.shape = sh ∧ p.2.shape = sh)
    (ho : ps.Pairwise (fun p q => p.1.dot q.1 = 0 ∧ p.2.dot q.1 = 0)) :
    sr1Dense sh b0 ps = fun r k r' k' => (if r = r' ∧ k = k' then b0 else 0) +
      (ps.map (fun p => sr1Col b0 p r k * sr1Col b0 p r' k' / sr1Den b0 p)).sum := by
  have key : ∀ (l done : List (ParOptVec × ParOptVec)),
      (∀ p, p ∈ done ++ l → p.1.shape = sh ∧ p.2.shape = sh) →
      (done ++ l).Pairwise (fun p q => p.1.dot q.1 = 0 ∧ p.2.dot q.1 = 0) →
      l.foldl (fun B p => sr1Step sh B p.1 p.2)
        (fun r k r' k' => (if r = r' ∧ k = k' then b0 else 0) +
          (done.map (fun p => sr1Col b0 p r k * sr1Col b0 p r' k' / sr1Den b0 p)).sum) =
      fun r k r' k' => (if r = r' ∧ k = k' then b0 else 0) +
        ((done ++ l).map (fun p =>
          sr1Col b0 p r k * sr1Col b0 p r' k' / sr1Den b0 p)).sum := by
    intro l
    induction l with
    | nil =>
      intro done _ _
      simp
    | cons q l ih =>
      intro done hsh hpw
      rw [List.foldl_cons, sr1Step_closed sh b0 done q
        (hsh q (by simp)) (fun p hp => hsh p (by simp [hp]))
        (fun p hp => (List.pairwise_append.mp hpw).2.2 p hp q (by simp))]
      have e : done ++ q :: l = (done ++ [q]) ++ l := by simp
      rw [e] at hsh hpw ⊢
      exact ih (done ++ [q]) hsh hpw
  have := key ps [] (by simpa using hl) (by simpa using ho)
  simpa [sr1Dense] using this

end ParOpt

namespace ParOpt
namespace LSR1

/-- The matrix M of an LSR1 model whose steps are mutually orthogonal and orthogonal to the
earlier gradient differences is diagonal. -/
theorem sr1_M_diag (st : LSR1) (hi : st.Inv) (ha : st.Assembled)
    (ho : ∀ i j, i < st.msub → j < st.msub → i ≠ j → (st.S i).dot (st.S j) = 0)
    (hL : ∀ i j, j < i → i < st.msub → (st.S i).dot (st.Y j) = 0)
    (i j : Nat) (h1 : i < st.msub) (h2 : j < st.msub) :
    toMat st.msub st.M i j = if i = j then -(sr1Den st.b0 (st.S i, st.Y i)) else 0 := by
  unfold toMat
  rw [ha.1 i j h1 h2]
  obtain ⟨c1, c2, c3⟩ := hi.2.2.2 i j h1 h2
  obtain ⟨_, _, c4⟩ := hi.2.2.2 j i h2 h1
  have hf := sr1_alloc_fields st hi.2.2.1
  have hle := hi.1
  rw [Nat.mul_comm st.msub_max j, c1]
  by_cases hji : j < i
  · rw [if_pos hji, c3 hji, if_neg (by omega), ho i j h1 h2 (by omega), hL i j hji h1]
    ring
  · rw [if_neg hji]
    by_cases hij : i < j
    · rw [if_pos hij, Nat.mul_comm st.msub_max i, c4 hij, if_neg (by omega),
        ho i j h1 h2 (by omega), hL j i hij h2]
      ring
    · have e : i = j := by omega
      subst e
      rw [if_neg hij, c2, if_pos rfl]
      unfold sr1Den
      simp only
      rw [ParOptVec.dot_comm (st.Y i) (st.S i)
        (by rw [(hf.1 i (by omega)).2.1, (hf.1 i (by omega)).1])]
      ring

/-- LSR1::mult on such a model: b0*x plus the rank-one terms of the stored pairs. -/
theorem sr1_code_closed (st : LSR1) (hi : st.Inv) (ha : st.Assembled) (hm : 0 < st.msub)
    (ho : ∀ i j, i < st.msub → j < st.msub → i ≠ j → (st.S i).dot (st.S j) = 0)
    (hL : ∀ i j, j < i → i < st.msub → (st.S i).dot (st.Y j) = 0)
    (hd : ∀ i, i < st.msub → sr1Den st.b0 (st.S i, st.Y i) ≠ 0)
    (x y0 : ParOptVec) (hx : x.shape = st.nvars) (hy0 : y0.shape = st.nvars) :
    ∃ (rz : Nat → ParOptScalar) (w : ParOptVec),
      st.mult x y0 = some ({ st with rz := rz }, w) ∧ w.shape = st.nvars ∧
      ∀ r k, r < x.length → k < x.size r →
        w.get r k = st.b0 * x.get r k +
          sumTo st.msub (fun i => sr1Col st.b0 (st.S i, st.Y i) r k *
            ((st.Y i).dot x - st.b0 * (st.S i).dot x) / sr1Den st.b0 (st.S i, st.Y i)) := by
  have hf := sr1_alloc_fields st hi.2.2.1
  have hle := hi.1
  have hM := sr1_M_diag st hi ha ho hL
  have hrow : ∀ (v : Nat → ParOptScalar) i, i < st.msub →
      sumTo st.msub (fun k => toMat st.msub st.M i k * v k) =
        -(sr1Den st.b0 (st.S i, st.Y i)) * v i := by
    intro v i h
    rw [sumTo_single st.msub i h]
    · rw [hM i i h h, if_pos rfl]
    · intro j hj hne
      rw [hM i j h hj, if_neg (fun e => hne e.symm), zero_mul]
  have hns : Nonsingular st.msub (toMat st.msub st.M) := by
    intro v hv k hk
    have := hv k hk
    rw [hrow v k hk] at this
    rcases mul_eq_zero.mp this with h | h
    · exact absurd (neg_eq_zero.mp h) (hd k hk)
    · exact h
  obtain ⟨c, w, hmult, hsh, hc, hw⟩ := sr1_mult_solve st x y0 hm ha hns
  have hZx : ∀ i, i < st.msub → x.dot (st.Z i) = (st.Y i).dot x - st.b0 * (st.S i).dot x := by
    intro i h
    rw [ParOptVec.dot_comm x (st.Z i) (by rw [hx, (hf.1 i (by omega)).2.2]), (ha.2.1 i h).1,
      ParOptVec.dot_axpy_left _ _ _ _
        (by rw [(hf.1 i (by omega)).1, (hf.1 i (by omega)).2.1])]
    ring
  have hci : ∀ i, i < st.msub →
      c i = -(((st.Y i).dot x - st.b0 * (st.S i).dot x) / sr1Den st.b0 (st.S i, st.Y i)) := by
    intro i h
    have e := hc i h
    rw [hrow c i h, hZx i h] at e
    have hdi := hd i h
    field_simp
    linear_combination -e
  refine ⟨c, w, hmult, hsh.trans hy0, fun r k hr hk => ?_⟩
  have hin := (inrange_congr y0 x (by rw [hy0, hx]) r k).mpr ⟨hr, hk⟩
  rw [hw r k hin.1 hin.2, sub_eq_add_neg, ← neg_one_mul (sumTo _ _), ← sumTo_mul_left]
  congr 1
  apply sumTo_congr
  intro i h
  have hinY : r < (st.Y i).length ∧ k < (st.Y i).size r :=
    (inrange_congr (st.Y i) x (by rw [(hf.1 i (by omega)).2.1, hx]) r k).mpr ⟨hr, hk⟩
  rw [hci i h, (ha.2.1 i h).1, ParOptVec.get_axpy, if_pos hinY]
  unfold sr1Col
  simp only
  ring

end LSR1
end ParOpt

namespace ParOpt

/-- For mutually orthogonal steps with S^T Y diagonal the matrix (D + L + L^T) - b0*S^T S
is diagonal, so that its invertibility makes every (y_i - b0*s_i).s_i nonzero. -/
theorem sr1Middle_diag (sh : List Nat) (b0 : ParOptScalar)
    (ps : List (ParOptVec × ParOptVec))
    (hsh : ∀ p, p ∈ ps → p.1.shape = sh ∧ p.2.shape = sh)
    (horth : ps.Pairwise (fun p q => p.1.dot q.1 = 0))
    (hdiag : ps.Pairwise (fun p q => p.1.dot q.2 = 0 ∧ q.1.dot p.2 = 0))
    (hinv : (sr1Middle b0 ps).det ≠ 0) (i : Fin ps.length) : sr1Den b0 (ps.get i) ≠ 0 := by
  have ho := List.pairwise_iff_get.mp horth
  have hd := List.pairwise_iff_get.mp hdiag
  have hs : ∀ i : Fin ps.length, (ps.get i).1.shape = sh ∧ (ps.get i).2.shape = sh :=
    fun i => hsh _ (List.get_mem ps i.val i.isLt)
  have e : sr1Middle b0 ps = Matrix.diagonal (fun i => sr1Den b0 (ps.get i)) := by
    ext a b
    unfold sr1Middle sr1Den
    simp only [Matrix.of_apply, Matrix.diagonal_apply]
    by_cases hba : b < a
    · rw [if_pos hba, if_neg (fun h => by rw [h] at hba; exact lt_irrefl _ hba), (hd b a hba).2,
        ParOptVec.dot_comm (ps.get a).1 (ps.get b).1 (by rw [(hs a).1, (hs b).1]),
        ho b a hba]
      ring
    · rw [if_neg hba]
      by_cases hab : a < b
      · rw [if_pos hab, if_neg (fun h => by rw [h] at hab; exact lt_irrefl _ hab),
          (hd a b hab).2, ho a b hab]
        ring
      · have hEq : a = b := le_antisymm (not_lt.mp hba) (not_lt.mp hab)
        subst hEq
        rw [if_neg hab, if_pos rfl,
          ParOptVec.dot_comm (ps.get a).2 (ps.get a).1 (by rw [(hs a).1, (hs a).2])]
  rw [e, Matrix.det_diagonal] at hinv
  exact Finset.prod_ne_zero_iff.mp hinv i (Finset.mem_univ i)

theorem getD_eq_get {α : Type} (l : List α) (d : α) (i : Nat) (h : i < l.length) :
    l.getD i d = l.get ⟨i, h⟩ := by
  simp [List.getD_eq_getElem?_getD, List.getElem?_eq_getElem h]

end ParOpt

namespace ParOpt

/-- The list of the first n entries of a list that holds at least n entries. -/
theorem map_range_getD_take (n : Nat) (y : List ParOptScalar) (h : n ≤ y.length) :
    (List.range n).map (fun i => y.getD i 0) = y.take n := by
  apply List.ext_getElem
  · simp [h]
  · intro i h1 h2
    simp at h1
    simp [List.getD_eq_getElem?_getD, List.getElem?_eq_getElem (show i < y.length by omega)]

/-- BLASdaxpy over the whole array y reads the first entries of an array x that is at
least as long. -/
theorem daxpy_zipWith (alpha : ParOptScalar) (x y : List ParOptScalar)
    (h : y.length ≤ x.length) :
    BLASdaxpy y.length alpha x y = List.zipWith (fun b a => b + alpha * a) y x := by
  unfold BLASdaxpy
  apply List.ext_getElem
  · simp [h]
  · intro i h1 h2
    simp at h1
    simp [List.getD_eq_getElem?_getD, List.getElem?_eq_getElem h1,
      List.getElem?_eq_getElem (show i < x.length by omega)]

/-- BLASddot over the whole array x reads the first entries of an array y that is at
least as long. -/
theorem ddot_zipWith (x y : List ParOptScalar) (h : x.length ≤ y.length) :
    BLASddot x.length x y = (List.zipWith (fun a b => a * b) x y).sum := by
  unfold BLASddot
  induction x generalizing y with
  | nil => simp [sumTo]
  | cons a x ih =>
    cases y with
    | nil => simp at h
    | cons b y =>
      simp only [List.length_cons] at h ⊢
      rw [sumTo_succ_front, List.zipWith_cons_cons, List.sum_cons]
      have := ih y (by omega)
      simp only [List.getD_cons_zero, List.getD_cons_succ]
      rw [this]

end ParOpt

namespace ParOpt

/-- A value in the range of the type int is held as it is. -/
theorem int32_of_fits (v : Int) (h1 : -2147483648 ≤ v) (h2 : v ≤ INT_MAX) : int32 v = v := by
  unfold int32
  unfold INT_MAX at h2
  rw [Int.emod_eq_of_lt (by omega) (by omega)]
  omega

/-- Wrapping an intermediate sum does not change the wrapped total. -/
theorem int32_add_int32 (a b : Int) : int32 (a + int32 b) = int32 (a + b) := by
  unfold int32
  congr 1
  have e : a + ((b + 2147483648) % 4294967296 - 2147483648) + 2147483648 =
      a + (b + 2147483648) % 4294967296 := by ring
  rw [e, Int.add_emod, Int.emod_emod_of_dvd _ (dvd_refl _), ← Int.add_emod]
  congr 1
  ring

namespace ParOptVec

/-- The sum of the first r+1 local lengths. -/
theorem take_succ_sum (self : ParOptVec) (r : Nat) :
    (self.shape.take (r + 1)).sum = (self.shape.take r).sum + self.size r := by
  rw [List.take_succ, List.sum_append]
  congr 1
  unfold size loc shape
  by_cases h : r < self.length
  · simp [List.getD_eq_getElem?_getD, List.getElem?_eq_getElem h]
  · simp [List.getD_eq_getElem?_getD, List.getElem?_eq_none (show self.length ≤ r by omega)]

/-- The prefix sums of the local lengths do not decrease. -/
theorem take_sum_mono (self : ParOptVec) (r r' : Nat) (h : r ≤ r') :
    (self.shape.take r).sum ≤ (self.shape.take r').sum := by
  induction r' with
  | zero =>
    have : r = 0 := by omega
    rw [this]
  | succ n ih =>
    by_cases e : r = n + 1
    · rw [e]
    · have := ih (by omega)
      rw [take_succ_sum]
      omega

/-- The loop of writeToFile, stopped after n iterations: the entries up to n hold the
prefix sums in the arithmetic of int, the later ones what MPI_Allgather stored. -/
theorem writeRange_loop (self : ParOptVec) (n i : Nat) :
    forLoop n
        (fun i range => Function.update range (i + 1) (int32 (range (i + 1) + range i)))
        (fun i => if i = 0 then 0 else (self.size (i - 1) : Int)) i =
      if i ≤ n then int32 ((self.shape.take i).sum : Nat) else (self.size (i - 1) : Int) := by
  induction n generalizing i with
  | zero =>
    simp only [forLoop]
    by_cases h : i = 0
    · subst h
      simp only [if_true, le_refl, List.take_zero, List.sum_nil]
      exact (int32_of_fits 0 (by decide) (by decide)).symm
    · simp [h]
  | succ n ih =>
    rw [forLoop_succ]
    by_cases h : i = n + 1
    · subst h
      rw [Function.update_same, ih, ih, if_neg (by omega), if_pos (le_refl n),
        if_pos (le_refl _), take_succ_sum, int32_add_int32]
      simp only [Nat.add_sub_cancel]
      congr 1
      push_cast
      ring
    · rw [Function.update_noteq h, ih]
      by_cases h2 : i ≤ n
      · rw [if_pos h2, if_pos (by omega)]
      · rw [if_neg h2, if_neg (by omega)]

/-- The offset of rank r is, in the arithmetic of int, the sum of the local lengths of the
ranks before r. -/
theorem writeRange_wrapped (self : ParOptVec) (r : Nat) (h : r ≤ self.length) :
    self.writeRange r = int32 ((self.shape.take r).sum : Nat) := by
  unfold writeRange
  rw [writeRange_loop, if_pos h]

/-- The offset of rank r is the sum of the local lengths of the ranks before r, when the
global length fits the type int. -/
theorem writeRange_spec (self : ParOptVec) (hN : (self.shape.sum : Int) ≤ INT_MAX) (r : Nat)
    (h : r ≤ self.length) : self.writeRange r = ((self.shape.take r).sum : Nat) := by
  rw [writeRange_wrapped self r h]
  apply int32_of_fits
  · have : (0 : Int) ≤ ((self.shape.take r).sum : Nat) := Int.ofNat_nonneg _
    omega
  · have h1 := take_sum_mono self r self.length h
    rw [length_eq_shape, List.take_length] at h1
    have h2 : (((self.shape.take r).sum : Nat) : Int) ≤ (self.shape.sum : Nat) := by
      exact_mod_cast h1
    exact le_trans h2 hN

/-- Every offset below the global length lies in the slice of one rank. -/
theorem take_sum_cover (self : ParOptVec) (n k : Nat) (h : k < (self.shape.take n).sum) :
    ∃ r, r < n ∧ (self.shape.take r).sum ≤ k ∧ k < (self.shape.take r).sum + self.size r := by
  induction n with
  | zero => simp at h
  | succ n ih =>
    by_cases h2 : k < (self.shape.take n).sum
    · obtain ⟨r, h3, h4⟩ := ih h2
      exact ⟨r, by omega, h4⟩
    · rw [take_succ_sum] at h
      exact ⟨n, by omega, by omega, h⟩

end ParOptVec

end ParOpt

namespace ParOpt

/-- A write at an offset that is not negative. -/
theorem write_at_nat (fp : MPIFile) (off : Nat) (x : List ParOptScalar) (count k : Nat) :
    MPI_File_write_at fp (off : Int) x count k =
      if off ≤ k ∧ k < off + count then some (x.getD (k - off) 0) else fp k := by
  unfold MPI_File_write_at
  rw [if_neg (by omega)]
  simp only [Int.toNat_ofNat]

namespace ParOptVec

/-- The writes of the ranks 0, ..., n-1 of writeToFile when the global length fits the type
int: every rank finds its local array in its slice, and the offsets from the n-th prefix
sum on are untouched. -/
theorem write_loop (self : ParOptVec) (hN : (self.shape.sum : Int) ≤ INT_MAX) (f : MPIFile)
    (n : Nat) (hn : n ≤ self.length) :
    (∀ r j, r < n → j < self.size r →
      forLoop n (fun rank f =>
          MPI_File_write_at f (self.writeRange rank) (self.loc rank) (self.size rank)) f
        ((self.shape.take r).sum + j) = some (self.get r j)) ∧
    ∀ k, (self.shape.take n).sum ≤ k →
      forLoop n (fun rank f =>
          MPI_File_write_at f (self.writeRange rank) (self.loc rank) (self.size rank)) f k =
        f k := by
  induction n with
  | zero => exact ⟨fun r j h _ => absurd h (Nat.not_lt_zero r), fun k _ => rfl⟩
  | succ n ih =>
    obtain ⟨ih1, ih2⟩ := ih (by omega)
    have en := writeRange_spec self hN n (by omega)
    constructor
    · intro r j hr hj
      rw [forLoop_succ, en, write_at_nat]
      by_cases e : r = n
      · subst e
        rw [if_pos ⟨by omega, by omega⟩, Nat.add_sub_cancel_left]
        rfl
      · have hm := take_sum_mono self (r + 1) n (by omega)
        rw [take_succ_sum] at hm
        rw [if_neg (by omega)]
        exact ih1 r j (by omega) hj
    · intro k hk
      rw [forLoop_succ, en, write_at_nat]
      rw [take_succ_sum] at hk
      rw [if_neg (by omega)]
      exact ih2 k (by omega)

end ParOptVec

end ParOpt

namespace ParOpt

/-- A sum with at most two nonzero terms. -/
theorem sumTo_pair (n p q : Nat) (hp : p < n) (hq : q < n) (hpq : p ≠ q)
    (f : Nat → ParOptScalar) (h : ∀ j, j < n → j ≠ p → j ≠ q → f j = 0) :
    sumTo n f = f p + f q := by
  rw [sumTo_eq_sum]
  exact Finset.sum_eq_add p q hpq
    (fun c hc hcc => h c (Finset.mem_range.mp hc) hcc.1 hcc.2)
    (fun hni => absurd (Finset.mem_range.mpr hp) hni)
    (fun hni => absurd (Finset.mem_range.mpr hq) hni)

/-- Two solutions of a linear system with a nonsingular matrix agree. -/
theorem solve_unique (n : Nat) (a : Nat → Nat → ParOptScalar) (hns : Nonsingular n a)
    (c v b : Nat → ParOptScalar)
    (hc : ∀ i, i < n → sumTo n (fun k => a i k * c k) = b i)
    (hv : ∀ i, i < n → sumTo n (fun k => a i k * v k) = b i) :
    ∀ k, k < n → c k = v k := by
  intro k hk
  have h0 := hns (fun k => c k - v k) (fun i hi => by
    have e : sumTo n (fun k => a i k * (c k - v k)) =
        sumTo n (fun k => a i k * c k - a i k * v k) :=
      sumTo_congr _ _ _ (fun k _ => by ring)
    rw [e, sumTo_sub, hc i hi, hv i hi, sub_self]) k hk
  exact sub_eq_zero.mp h0

namespace LBFGS

/-- The vector with 1 at the place of the newest column of S and -1 at the place of the
newest column of Y solves the small system of mult for the newest step. -/
theorem secant_system (st : LBFGS) (hi : st.Inv) (ha : st.Assembled) (hm : 0 < st.msub)
    (i : Nat) (h : i < 2 * st.msub) :
    sumTo (2 * st.msub) (fun k => toMat (2 * st.msub) st.M i k *
        (if k = st.msub - 1 then 1 else if k = st.msub - 1 + st.msub then -1 else 0)) =
      (st.S (st.msub - 1)).dot (st.Z i) * st.d0 i := by
  obtain ⟨hle, _, hal, hco⟩ := hi
  obtain ⟨hM, hZ, _⟩ := ha
  have hl : st.msub - 1 < st.msub := by omega
  rw [sumTo_pair (2 * st.msub) (st.msub - 1) (st.msub - 1 + st.msub) (by omega) (by omega)
    (by omega) _ (fun j _ h1 h2 => by rw [if_neg h1, if_neg h2, mul_zero])]
  rw [if_pos rfl, if_neg (by omega), if_pos rfl]
  unfold toMat
  by_cases hc : i < st.msub
  · rw [(hM i (st.msub - 1) hc hl).1, (hM i (st.msub - 1) hc hl).2.1, if_neg (by omega),
      (hZ i hc).1, (hZ i hc).2.2.1, Nat.mul_comm st.msub_max,
      (hco i (st.msub - 1) hc hl).1,
      ParOptVec.dot_comm (st.S i) (st.S (st.msub - 1))
        (by rw [(hal.1 i (by omega)).1, (hal.1 _ (by omega)).1])]
    ring
  · obtain ⟨j, rfl⟩ : ∃ j, i = j + st.msub := ⟨i - st.msub, by omega⟩
    have hj : j < st.msub := by omega
    rw [(hM (st.msub - 1) j hl hj).2.2.1, (hZ j hj).2.1, (hZ j hj).2.2.2]
    have e4 : st.M (j + st.msub + 2 * st.msub * (st.msub - 1 + st.msub)) =
        (if j = st.msub - 1 then -(st.D j) else 0) := by
      rw [Nat.add_comm j st.msub, Nat.add_comm (st.msub - 1) st.msub]
      exact (hM j (st.msub - 1) hj hl).2.2.2
    rw [e4]
    by_cases hj2 : j < st.msub - 1
    · rw [if_pos hj2, if_neg (by omega), Nat.mul_comm st.msub_max,
        (hco (st.msub - 1) j hl hj).2.2 hj2]
      ring
    · have ej : j = st.msub - 1 := by omega
      rw [if_neg hj2, if_pos ej, (hco j j hj hj).2.1, ← ej]
      ring

/-- The secant equation of the LBFGS model: with assembled arrays and a nonsingular M,
mult applied to the newest column of S yields the newest column of Y. -/
theorem secant_newest (st : LBFGS) (y0 : ParOptVec) (hi : st.Inv) (ha : st.Assembled)
    (hm : 0 < st.msub) (hns : Nonsingular (2 * st.msub) (toMat (2 * st.msub) st.M))
    (hy0 : y0.shape = st.nvars) :
    ∃ rz, st.mult (st.S (st.msub - 1)) y0 =
      some ({ st with rz := rz }, st.Y (st.msub - 1)) := by
  obtain ⟨c, rz, w, h1, h2, h3, h4⟩ := mult_solve st (st.S (st.msub - 1)) y0 hm ha hns
  have hc := solve_unique _ _ hns c _ _ h3 (secant_system st hi ha hm)
  have hl : st.msub - 1 < st.msub := by omega
  have hsh := hi.2.2.1.1 (st.msub - 1) (by have := hi.1; omega)
  refine ⟨rz, ?_⟩
  rw [h1]
  congr 2
  apply ParOptVec.ext_get
  · rw [h2, hy0, hsh.2]
  · intro r k hr hk
    have hr' : r < y0.length := by
      rw [ParOptVec.length_eq_shape] at hr ⊢
      rw [← h2]
      exact hr
    have hk' : k < y0.size r := by
      rw [ParOptVec.size_eq_shape] at hk ⊢
      rw [← h2]
      exact hk
    rw [h4 r k hr' hk']
    have e : sumTo (2 * st.msub) (fun i => (st.Z i).get r k * (st.d0 i * c i)) =
        sumTo (2 * st.msub) (fun i => (st.Z i).get r k * (st.d0 i *
          (if i = st.msub - 1 then 1 else if i = st.msub - 1 + st.msub then -1 else 0))) :=
      sumTo_congr _ _ _ (fun i hi2 => by rw [hc i hi2])
    rw [e, sumTo_pair (2 * st.msub) (st.msub - 1) (st.msub - 1 + st.msub) (by omega)
      (by omega) (by omega) _ (fun j _ h1 h2 => by
        rw [if_neg h1, if_neg h2, mul_zero, mul_zero])]
    rw [if_pos rfl, if_neg (by omega), if_pos rfl, (ha.2.1 _ hl).1, (ha.2.1 _ hl).2.1,
      (ha.2.1 _ hl).2.2.1, (ha.2.1 _ hl).2.2.2]
    ring

end LBFGS

end ParOpt

namespace ParOpt

namespace LBFGS

/-- LBFGS::update changes neither the local sizes nor the capacity of the model. -/
theorem nvars_update (st st' : LBFGS) (s y : ParOptVec) (t : Nat)
    (h : st.update s y = some (st', t)) :
    st'.nvars = st.nvars ∧ st'.msub_max = st.msub_max := by
  obtain ⟨st1, nv, hc, hst⟩ := update_eq st st' s y t h
  have f := curvature_frame st st1 s y nv t hc
  have e1 : st1.nvars = st.nvars := by rw [f]
  have e2 : st1.msub_max = st.msub_max := by rw [f]
  subst hst
  have a := frame_finish ((st1.setNewValues s nv).updateSmall)
  have b := frame_updateSmall (st1.setNewValues s nv)
  have c := frame_setNewValues st1 s nv
  exact ⟨by rw [a.2.2.1, b.2.2.1, c.2.1, e1], by rw [a.2.1, b.2.1, c.1, e2]⟩

end LBFGS

end ParOpt

namespace ParOpt

namespace LSR1

/-- The vector with -1 at the place of the newest pair solves the small system of
LSR1::mult for the newest step. -/
theorem sr1_secant_system (st : LSR1) (hi : st.Inv) (ha : st.Assembled) (hm : 0 < st.msub)
    (i : Nat) (h : i < st.msub) :
    sumTo st.msub (fun k => toMat st.msub st.M i k * (if k = st.msub - 1 then -1 else 0)) =
      (st.S (st.msub - 1)).dot (st.Z i) := by
  obtain ⟨hle, _, hal, hco⟩ := hi
  obtain ⟨hM, hZ, _⟩ := ha
  have hf := sr1_alloc_fields st hal
  have hl : st.msub - 1 < st.msub := by omega
  have s1 := hf.1 i (by omega)
  have s2 := hf.1 (st.msub - 1) (by omega)
  rw [sumTo_single st.msub (st.msub - 1) hl _
    (fun j _ h1 => by rw [if_neg h1, mul_zero]), if_pos rfl]
  unfold toMat
  rw [hM i (st.msub - 1) h hl, if_neg (by omega), (hZ i h).1,
    ParOptVec.dot_comm _ ((st.Y i).axpy (-st.b0) (st.S i))
      (by rw [ParOptVec.shape_axpy, s2.1, s1.2.1]),
    ParOptVec.dot_axpy_left _ _ _ _ (by rw [s1.1, s1.2.1]), Nat.mul_comm st.msub_max,
    (hco i (st.msub - 1) h hl).1,
    ParOptVec.dot_comm (st.Y i) (st.S (st.msub - 1)) (by rw [s1.2.1, s2.1])]
  by_cases hc : i < st.msub - 1
  · rw [if_pos hc, Nat.mul_comm st.msub_max, (hco (st.msub - 1) i hl h).2.2 hc]
    ring
  · have e : i = st.msub - 1 := by omega
    rw [if_neg hc, (hco i i h h).2.1, ← e]
    ring

/-- The secant equation of the LSR1 model: with assembled arrays and a nonsingular M, mult
applied to the newest column of S yields the newest column of Y. -/
theorem sr1_secant_newest (st : LSR1) (y0 : ParOptVec) (hi : st.Inv) (ha : st.Assembled)
    (hm : 0 < st.msub) (hns : Nonsingular st.msub (toMat st.msub st.M))
    (hy0 : y0.shape = st.nvars) :
    ∃ rz, st.mult (st.S (st.msub - 1)) y0 =
      some ({ st with rz := rz }, st.Y (st.msub - 1)) := by
  obtain ⟨c, w, h1, h2, h3, h4⟩ := sr1_mult_solve st (st.S (st.msub - 1)) y0 hm ha hns
  have hc := solve_unique _ _ hns c _ _ h3 (sr1_secant_system st hi ha hm)
  have hl : st.msub - 1 < st.msub := by omega
  have hsh := (sr1_alloc_fields st hi.2.2.1).1 (st.msub - 1) (by have := hi.1; omega)
  refine ⟨c, ?_⟩
  rw [h1]
  congr 2
  apply ParOptVec.ext_get
  · rw [h2, hy0, hsh.2.1]
  · intro r k hr hk
    have hr' : r < y0.length := by
      rw [ParOptVec.length_eq_shape] at hr ⊢
      rw [← h2]
      exact hr
    have hk' : k < y0.size r := by
      rw [ParOptVec.size_eq_shape] at hk ⊢
      rw [← h2]
      exact hk
    rw [h4 r k hr' hk']
    have e : sumTo st.msub (fun i => (st.Z i).get r k * c i) =
        sumTo st.msub (fun i => (st.Z i).get r k * (if i = st.msub - 1 then -1 else 0)) :=
      sumTo_congr _ _ _ (fun i hi2 => by rw [hc i hi2])
    rw [e, sumTo_single st.msub (st.msub - 1) hl _
      (fun j _ h1 => by rw [if_neg h1, mul_zero]), if_pos rfl, (ha.2.1 _ hl).1,
      ParOptVec.get_axpy]
    have hin : r < (st.Y (st.msub - 1)).length ∧ k < (st.Y (st.msub - 1)).size r := by
      apply ParOptVec.in_range_of_shape _ st.nvars hsh.2.1
      · rw [← hy0, ← ParOptVec.length_eq_shape]
        exact hr'
      · rw [← hy0, ← ParOptVec.size_eq_shape]
        exact hk'
    rw [if_pos hin]
    ring

end LSR1

end ParOpt

namespace ParOpt

end ParOpt

namespace ParOpt

namespace KKTPoint

end KKTPoint

end ParOpt

namespace ParOpt

/-- The value of an int lies in the range of the type. -/
theorem int32_range (v : Int) : -2147483648 ≤ int32 v ∧ int32 v ≤ INT_MAX := by
  unfold int32 INT_MAX
  have h1 := Int.emod_nonneg (v + 2147483648) (show (4294967296 : Int) ≠ 0 by norm_num)
  have h2 := Int.emod_lt_of_pos (v + 2147483648) (show (0 : Int) < 4294967296 by norm_num)
  constructor <;> omega

/-- Bringing a value into the range a second time changes nothing. -/
theorem int32_idem (v : Int) : int32 (int32 v) = int32 v :=
  int32_of_fits _ (int32_range v).1 (int32_range v).2

/-- Wrapping the first term of a sum does not change the wrapped total. -/
theorem int32_int32_add (a b : Int) : int32 (int32 a + b) = int32 (a + b) := by
  rw [add_comm, int32_add_int32, add_comm]

/-- A counted loop whose iterations each add their share to a count kept beside the
state: the loop adds the sum of the shares. -/
theorem forLoop_ghost {σ : Type} (Inv : (Int → Nat) → σ → Prop) (n : Nat)
    (body : Nat → σ → σ) (cnt : Nat → Int → Nat)
    (h : ∀ t, t < n → ∀ F st, Inv F st → Inv (fun v => F v + cnt t v) (body t st))
    (F : Int → Nat) (st : σ) (h0 : Inv F st) :
    Inv (fun v => F v + ∑ t in Finset.range n, cnt t v) (forLoop n body st) := by
  induction n with
  | zero =>
    simp only [Finset.range_zero, Finset.sum_empty, add_zero]
    exact h0
  | succ n ih =>
    rw [forLoop_succ]
    have h1 := h n (Nat.lt_succ_self n) _ _ (ih (fun t ht => h t (Nat.lt_succ_of_lt ht)))
    have e : (fun v => F v + ∑ t in Finset.range (n + 1), cnt t v) =
        (fun v => F v + ∑ t in Finset.range n, cnt t v + cnt n v) := by
      funext v
      rw [Finset.sum_range_succ, Nat.add_assoc]
    rw [e]
    exact h1

/-- The loop `for (i = n-1; i >= 0; i--) colp[i+1] = colp[i]` moves the entries
0, ..., n-1 up by one place. -/
theorem shift_loop (n : Nat) (colp : Int → Int) (v : Int) :
    forDown n (fun i colp => Function.update colp ((i : Int) + 1) (colp i)) colp v =
      if 1 ≤ v ∧ v ≤ n then colp (v - 1) else colp v := by
  induction n generalizing colp with
  | zero =>
    simp only [forDown]
    rw [if_neg]
    intro h
    have := h.1
    have := h.2
    omega
  | succ n ih =>
    simp only [forDown]
    rw [ih]
    by_cases h1 : 1 ≤ v ∧ v ≤ n
    · rw [if_pos h1, if_pos ⟨h1.1, by have := h1.2; push_cast; omega⟩,
        Function.update_noteq (by have := h1.2; omega)]
    · rw [if_neg h1]
      by_cases h2 : v = (n : Int) + 1
      · rw [if_pos ⟨by omega, by push_cast; omega⟩, h2, Function.update_same]
        congr 1
        omega
      · rw [if_neg (by
          intro h3
          have := h3.2
          push_cast at this
          omega), Function.update_noteq h2]

end ParOpt

namespace ParOpt

/-- One step of the first pass of build_matrix adds one visit of the variable met. -/
theorem countPass_step (ivar : Int) (F : Int → Nat) (colp : Int → Int)
    (h : ∀ v, colp v = int32 (8 * (F v : Int))) :
    ∀ v, Function.update colp ivar (int32 (colp ivar + 8)) v =
      int32 (8 * ((F v + if ivar = v then 1 else 0 : Nat) : Int)) := by
  intro v
  by_cases e : ivar = v
  · subst e
    rw [Function.update_same, h, int32_int32_add, if_pos rfl]
    congr 1
  · rw [Function.update_noteq (Ne.symm e), h, if_neg e, Nat.add_zero]

/-- After the first pass of build_matrix colp[v] holds 8 times the number of visits of the
variable v, in the arithmetic of int. -/
theorem countPass_spec (nx : Nat) (iperm : Option (Int → Int)) (v : Int) :
    countPass nx iperm (fun _ => 0) v = int32 (8 * (visits nx iperm v : Int)) := by
  have h := forLoop_ghost (fun F (colp : Int → Int) => ∀ v, colp v = int32 (8 * (F v : Int)))
    nx _ _ (fun i _ => forLoop_ghost _ nx _ _ (fun j _ => forLoop_ghost _ 2 _ _
      (fun k _ => forLoop_ghost _ 4 _ _ (fun ii _ F colp hF =>
        countPass_step (ivarOf iperm (nodes nx i j ii) k) F colp hF))))
    (fun _ => 0) (fun _ => 0)
    (fun v => (int32_of_fits _ (by norm_num) (by unfold INT_MAX; norm_num)).symm) v
  unfold countPass visits
  rw [h]
  simp only [Nat.zero_add]

end ParOpt

namespace ParOpt

/-- The loop of the second pass of build_matrix, stopped after k iterations: nnz is the
sum of the first k counts, the entries before k hold the sums of the counts before them,
the others are untouched; all in the arithmetic of int. -/
theorem scan_loop (c : Int → Int) (k : Nat) :
    (forLoop k (fun i (st : (Int → Int) × Int) =>
        (Function.update st.1 (i : Int) st.2, int32 (st.2 + st.1 i))) (c, 0)).2 =
      int32 (∑ u in Finset.range k, c u) ∧
    ∀ v : Int, (forLoop k (fun i (st : (Int → Int) × Int) =>
        (Function.update st.1 (i : Int) st.2, int32 (st.2 + st.1 i))) (c, 0)).1 v =
      if 0 ≤ v ∧ v < k then int32 (∑ u in Finset.range v.toNat, c u) else c v := by
  induction k with
  | zero =>
    refine ⟨?_, fun v => ?_⟩
    · simp only [forLoop, Finset.range_zero, Finset.sum_empty]
      exact (int32_of_fits 0 (by norm_num) (by unfold INT_MAX; norm_num)).symm
    · simp only [forLoop]
      rw [if_neg]
      intro h
      have := h.1
      have := h.2
      omega
  | succ k ih =>
    obtain ⟨ih1, ih2⟩ := ih
    rw [forLoop_succ]
    refine ⟨?_, fun v => ?_⟩
    · simp only
      rw [ih1, ih2 k, if_neg (by omega), int32_int32_add, Finset.sum_range_succ]
    · simp only
      by_cases e : v = (k : Int)
      · subst e
        rw [Function.update_same, ih1, if_pos ⟨by omega, by push_cast; omega⟩,
          Int.toNat_ofNat]
      · rw [Function.update_noteq e, ih2 v]
        by_cases h : 0 ≤ v ∧ v < k
        · rw [if_pos h, if_pos ⟨h.1, by have := h.2; push_cast; omega⟩]
        · rw [if_neg h, if_neg (by
            intro h3
            have := h3.2
            push_cast at this
            omega)]

/-- After the second pass of build_matrix colp[v] holds, for 0 <= v <= size, the sum of
the counts of the variables before v, and nnz the sum of all counts, in the arithmetic of
int. -/
theorem scanPass_spec (size : Int) (hs : 0 ≤ size) (c : Int → Int) :
    (scanPass size c).2 = int32 (∑ u in Finset.range size.toNat, c u) ∧
    ∀ v : Int, (scanPass size c).1 v =
      if 0 ≤ v ∧ v ≤ size then int32 (∑ u in Finset.range v.toNat, c u) else c v := by
  obtain ⟨h1, h2⟩ := scan_loop c size.toNat
  have hn : ((size.toNat : Nat) : Int) = size := Int.toNat_of_nonneg hs
  unfold scanPass
  refine ⟨h1, fun v => ?_⟩
  simp only
  by_cases e : v = size
  · subst e
    rw [Function.update_same, h1, if_pos ⟨hs, le_refl _⟩]
  · rw [Function.update_noteq e, h2 v]
    by_cases h : 0 ≤ v ∧ v < (size.toNat : Nat)
    · rw [if_pos h, if_pos ⟨h.1, by have := h.2; omega⟩]
    · rw [if_neg h, if_neg (by
        intro h3
        have := h3.2
        omega)]

end ParOpt

namespace ParOpt

/-- The number of times the third pass of build_matrix meets a variable is 8 times the
number of times the first pass does. -/
theorem fill_count (nx : Nat) (iperm : Option (Int → Int)) (v : Int) :
    (∑ i in Finset.range nx, ∑ j in Finset.range nx, ∑ ki in Finset.range 2,
      ∑ _kj in Finset.range 2, ∑ ii in Finset.range 4, ∑ _jj in Finset.range 4,
        if ivarOf iperm (nodes nx i j ii) ki = v then 1 else 0) = 8 * visits nx iperm v := by
  unfold visits
  simp only [Finset.mul_sum]
  apply Finset.sum_congr rfl
  intro i _
  apply Finset.sum_congr rfl
  intro j _
  apply Finset.sum_congr rfl
  intro ki _
  simp only [Finset.sum_const, Finset.card_range, smul_eq_mul, ← Finset.mul_sum]
  ring

/-- One step of the third pass of build_matrix: the column of the variable met is
advanced by one place, which has just received a row index. -/
theorem fillEntry_step (nx : Nat) (iperm : Option (Int → Int)) (size : Int) (S : Int → Int)
    (i j ki kj ii jj : Nat)
    (hj : 0 ≤ ivarOf iperm (nodes nx i j jj) kj ∧ ivarOf iperm (nodes nx i j jj) kj < size)
    (F : Int → Nat) (st : (Int → Int) × (Int → Int) × (Int → ParOptScalar))
    (h : FillInv size S F st) :
    FillInv size S (fun v => F v + if ivarOf iperm (nodes nx i j ii) ki = v then 1 else 0)
      (fillEntry nx iperm i j ki kj ii jj st) := by
  obtain ⟨h1, h2⟩ := h
  unfold fillEntry
  refine ⟨fun v => ?_, fun v f hf => ?_⟩
  · simp only
    by_cases e : ivarOf iperm (nodes nx i j ii) ki = v
    · subst e
      rw [Function.update_same, h1, int32_int32_add, if_pos rfl]
      congr 1
      push_cast
      ring
    · rw [Function.update_noteq (Ne.symm e), h1, if_neg e, Nat.add_zero]
  · simp only
    by_cases q : int32 (S v + (f : Int)) = st.1 (ivarOf iperm (nodes nx i j ii) ki)
    · rw [q, Function.update_same]
      exact hj
    · rw [Function.update_noteq q]
      apply h2 v f
      by_cases e : ivarOf iperm (nodes nx i j ii) ki = v
      · subst e
        simp only [if_pos] at hf
        rcases Nat.lt_succ_iff_lt_or_eq.mp hf with h3 | h3
        · exact h3
        · exfalso
          apply q
          rw [h3, h1]
      · simp only [if_neg e, Nat.add_zero] at hf
        exact hf

/-- After the third pass of build_matrix every column has advanced by its count, and the
places it passed hold row indices of the matrix. -/
theorem fillPass_spec (nx : Nat) (iperm : Option (Int → Int)) (size : Int) (S : Int → Int)
    (hS : ∀ v, int32 (S v) = S v)
    (hj : ∀ i j jj kj, i < nx → j < nx → jj < 4 → kj < 2 →
      0 ≤ ivarOf iperm (nodes nx i j jj) kj ∧ ivarOf iperm (nodes nx i j jj) kj < size)
    (rows0 : Int → Int) (kvals0 : Int → ParOptScalar) :
    FillInv size S (fun v => 8 * visits nx iperm v) (fillPass nx iperm (S, rows0, kvals0)) := by
  have h0 : FillInv size S (fun _ => 0) (S, rows0, kvals0) :=
    ⟨fun v => by simp only [Nat.cast_zero, add_zero]; exact (hS v).symm,
      fun v f hf => absurd hf (Nat.not_lt_zero f)⟩
  have h := forLoop_ghost (FillInv size S) nx
    (fun i st => forLoop nx (fun j st => forLoop 2 (fun ki st => forLoop 2 (fun kj st =>
      forLoop 4 (fun ii st => forLoop 4 (fun jj st => fillEntry nx iperm i j ki kj ii jj st)
        st) st) st) st) st)
    (fun i v => ∑ j in Finset.range nx, ∑ ki in Finset.range 2, ∑ _kj in Finset.range 2,
      ∑ ii in Finset.range 4, ∑ _jj in Finset.range 4,
        if ivarOf iperm (nodes nx i j ii) ki = v then 1 else 0)
    (fun i hi => forLoop_ghost (FillInv size S) nx
      (fun j st => forLoop 2 (fun ki st => forLoop 2 (fun kj st =>
        forLoop 4 (fun ii st => forLoop 4 (fun jj st => fillEntry nx iperm i j ki kj ii jj st)
          st) st) st) st)
      (fun j v => ∑ ki in Finset.range 2, ∑ _kj in Finset.range 2,
        ∑ ii in Finset.range 4, ∑ _jj in Finset.range 4,
          if ivarOf iperm (nodes nx i j ii) ki = v then 1 else 0)
      (fun j hj2 => forLoop_ghost (FillInv size S) 2
        (fun ki st => forLoop 2 (fun kj st =>
          forLoop 4 (fun ii st => forLoop 4 (fun jj st =>
            fillEntry nx iperm i j ki kj ii jj st) st) st) st)
        (fun ki v => ∑ _kj in Finset.range 2,
          ∑ ii in Finset.range 4, ∑ _jj in Finset.range 4,
            if ivarOf iperm (nodes nx i j ii) ki = v then 1 else 0)
        (fun ki _ => forLoop_ghost (FillInv size S) 2
          (fun kj st => forLoop 4 (fun ii st => forLoop 4 (fun jj st =>
            fillEntry nx iperm i j ki kj ii jj st) st) st)
          (fun _kj v => ∑ ii in Finset.range 4, ∑ _jj in Finset.range 4,
            if ivarOf iperm (nodes nx i j ii) ki = v then 1 else 0)
          (fun kj hkj => forLoop_ghost (FillInv size S) 4
            (fun ii st => forLoop 4 (fun jj st => fillEntry nx iperm i j ki kj ii jj st) st)
            (fun ii v => ∑ _jj in Finset.range 4,
              if ivarOf iperm (nodes nx i j ii) ki = v then 1 else 0)
            (fun ii _ => forLoop_ghost (FillInv size S) 4
              (fun jj st => fillEntry nx iperm i j ki kj ii jj st)
              (fun _jj v => if ivarOf iperm (nodes nx i j ii) ki = v then 1 else 0)
              (fun jj hjj F st hF => fillEntry_step nx iperm size S i j ki kj ii jj
                (hj i j jj kj hi hj2 hjj hkj) F st hF))))))
    (fun _ => 0) (S, rows0, kvals0) h0
  have e : (fun v => 0 + ∑ i in Finset.range nx, ∑ j in Finset.range nx,
      ∑ ki in Finset.range 2, ∑ _kj in Finset.range 2, ∑ ii in Finset.range 4,
      ∑ _jj in Finset.range 4, if ivarOf iperm (nodes nx i j ii) ki = v then 1 else 0) =
      (fun v => 8 * visits nx iperm v) := by
    funext v
    rw [Nat.zero_add, fill_count]
  rw [e] at h
  exact h

end ParOpt

namespace ParOpt

/-- The nodes of an element are nodes of the grid. -/
theorem gridNode_lt (nx i j ii : Nat) (hi : i < nx) (hj : j < nx) (hii : ii < 4) :
    gridNode nx i j ii < (nx + 1) * (nx + 1) := by
  unfold gridNode
  have h1 : ii % 2 ≤ 1 := by omega
  have h2 : ii / 2 ≤ 1 := by omega
  have h3 : (j + ii / 2) * (nx + 1) ≤ nx * (nx + 1) := Nat.mul_le_mul_right _ (by omega)
  have h4 : (nx + 1) * (nx + 1) = nx * (nx + 1) + nx + 1 := by ring
  omega

/-- The four nodes of an element, counted from the first. -/
theorem gridNode_cases (nx i j : Nat) :
    gridNode nx i j 1 = gridNode nx i j 0 + 1 ∧
    gridNode nx i j 2 = gridNode nx i j 0 + (nx + 1) ∧
    gridNode nx i j 3 = gridNode nx i j 0 + (nx + 2) := by
  unfold gridNode
  refine ⟨?_, ?_, ?_⟩
  · norm_num
    ring
  · norm_num
    ring
  · norm_num
    ring

/-- The bound on nx that keeps every count of build_matrix in the range of int also keeps
the number of variables there. -/
theorem size_fits (nx : Nat) (h1 : 1 ≤ nx) (hb : 64 * nx * nx ≤ 2147483647) :
    2 * (nx + 1) * (nx + 1) ≤ 2147483647 := by
  have h2 : (nx + 1) * (nx + 1) ≤ (2 * nx) * (2 * nx) :=
    Nat.mul_le_mul (by omega) (by omega)
  have h3 : 2 * (nx + 1) * (nx + 1) = 2 * ((nx + 1) * (nx + 1)) := by ring
  have h4 : (2 * nx) * (2 * nx) = 4 * (nx * nx) := by ring
  have h5 : 64 * nx * nx = 64 * (nx * nx) := by ring
  omega

/-- The node numbers of an element, in the arithmetic of int. -/
theorem nodes_exact (nx i j ii : Nat) (hii : ii < 4) :
    nodes nx i j ii = int32 (gridNode nx i j ii : Int) := by
  have h4 : ii = 0 ∨ ii = 1 ∨ ii = 2 ∨ ii = 3 := by omega
  rcases h4 with e | e | e | e
  · subst e
    have e1 : ((gridNode nx i j 0 : Nat) : Int) = (i : Int) + j * ((nx : Int) + 1) := by
      unfold gridNode
      push_cast
      simp
    rw [e1]
    unfold nodes
    rw [List.getD_cons_zero]
  · subst e
    have e1 : ((gridNode nx i j 1 : Nat) : Int) = (i : Int) + 1 + j * ((nx : Int) + 1) := by
      unfold gridNode
      push_cast
      simp
    rw [e1]
    unfold nodes
    rw [List.getD_cons_succ, List.getD_cons_zero]
  · subst e
    have e1 : ((gridNode nx i j 2 : Nat) : Int) =
        (i : Int) + ((j : Int) + 1) * ((nx : Int) + 1) := by
      unfold gridNode
      push_cast
      simp
    rw [e1]
    unfold nodes
    rw [List.getD_cons_succ, List.getD_cons_succ, List.getD_cons_zero]
  · subst e
    have e1 : ((gridNode nx i j 3 : Nat) : Int) =
        (i : Int) + 1 + ((j : Int) + 1) * ((nx : Int) + 1) := by
      unfold gridNode
      push_cast
      simp
    rw [e1]
    unfold nodes
    rw [List.getD_cons_succ, List.getD_cons_succ, List.getD_cons_succ, List.getD_cons_zero]

/-- The node numbers of an element are computed without leaving the range of int. -/
theorem nodes_eq (nx i j ii : Nat) (hs : 2 * (nx + 1) * (nx + 1) ≤ 2147483647)
    (hi : i < nx) (hj : j < nx) (hii : ii < 4) :
    nodes nx i j ii = (gridNode nx i j ii : Int) := by
  have hlt := gridNode_lt nx i j ii hi hj hii
  have h3 : 2 * (nx + 1) * (nx + 1) = 2 * ((nx + 1) * (nx + 1)) := by ring
  rw [nodes_exact nx i j ii hii]
  exact int32_of_fits _ (by omega) (by unfold INT_MAX; omega)

/-- The variable numbers are computed without leaving the range of int and lie below
size. -/
theorem var_fits (nx n k : Nat) (hs : 2 * (nx + 1) * (nx + 1) ≤ 2147483647)
    (hn : n < (nx + 1) * (nx + 1)) (hk : k < 2) :
    int32 (2 * (n : Int) + (k : Int)) = ((2 * n + k : Nat) : Int) ∧
      2 * n + k < 2 * (nx + 1) * (nx + 1) := by
  have h3 : 2 * (nx + 1) * (nx + 1) = 2 * ((nx + 1) * (nx + 1)) := by ring
  refine ⟨?_, by omega⟩
  rw [int32_of_fits _ (by omega) (by unfold INT_MAX; omega)]
  push_cast
  ring

theorem ivarOf_none (node : Int) (k : Nat) :
    ivarOf none node k = int32 (2 * node + (k : Int)) := rfl

theorem ivarOf_some (p : Int → Int) (node : Int) (k : Nat) :
    ivarOf (some p) node k = p (int32 (2 * node + (k : Int))) := rfl

/-- The variable of a node of the grid, with or without a permutation, is one of the
variables 0, ..., size-1. -/
theorem ivarOf_range (nx n k : Nat) (iperm : Option (Int → Int))
    (hs : 2 * (nx + 1) * (nx + 1) ≤ 2147483647) (hp : IsPerm (2 * (nx + 1) * (nx + 1)) iperm)
    (hn : n < (nx + 1) * (nx + 1)) (hk : k < 2) :
    0 ≤ ivarOf iperm (n : Int) k ∧
      ivarOf iperm (n : Int) k < ((2 * (nx + 1) * (nx + 1) : Nat) : Int) := by
  obtain ⟨h1, h2⟩ := var_fits nx n k hs hn hk
  cases iperm with
  | none =>
    rw [ivarOf_none, h1]
    exact ⟨Int.ofNat_nonneg _, by exact_mod_cast h2⟩
  | some p =>
    rw [ivarOf_some, h1]
    exact hp.1 _ (Int.ofNat_nonneg _) (by exact_mod_cast h2)

/-- Two variables of nodes of the grid agree only when the nodes and the components
agree. -/
theorem ivarOf_inj (nx n k n' k' : Nat) (iperm : Option (Int → Int))
    (hs : 2 * (nx + 1) * (nx + 1) ≤ 2147483647) (hp : IsPerm (2 * (nx + 1) * (nx + 1)) iperm)
    (hn : n < (nx + 1) * (nx + 1)) (hk : k < 2) (hn' : n' < (nx + 1) * (nx + 1))
    (hk' : k' < 2) :
    ivarOf iperm (n : Int) k = ivarOf iperm (n' : Int) k' ↔ n = n' ∧ k = k' := by
  obtain ⟨h1, h2⟩ := var_fits nx n k hs hn hk
  obtain ⟨h1', h2'⟩ := var_fits nx n' k' hs hn' hk'
  constructor
  · intro h
    have e : ((2 * n + k : Nat) : Int) = ((2 * n' + k' : Nat) : Int) := by
      cases iperm with
      | none =>
        rw [ivarOf_none, ivarOf_none, h1, h1'] at h
        exact h
      | some p =>
        rw [ivarOf_some, ivarOf_some, h1, h1'] at h
        exact hp.2 _ _ (Int.ofNat_nonneg _) (by exact_mod_cast h2) (Int.ofNat_nonneg _)
          (by exact_mod_cast h2') h
    have e2 : 2 * n + k = 2 * n' + k' := by exact_mod_cast e
    omega
  · rintro ⟨rfl, rfl⟩
    rfl

end ParOpt

namespace ParOpt

/-- Among the numbers 0, ..., sz-1 exactly one is a given int of that range. -/
theorem sum_indicator_cast (sz : Nat) (x : Int) (h0 : 0 ≤ x) (h1 : x < sz) :
    (∑ u in Finset.range sz, if x = (u : Int) then 1 else 0) = 1 := by
  rw [Finset.sum_eq_single x.toNat]
  · rw [if_pos (Int.toNat_of_nonneg h0).symm]
  · intro b _ hb
    rw [if_neg]
    intro e
    apply hb
    rw [e, Int.toNat_ofNat]
  · intro h
    exfalso
    apply h
    rw [Finset.mem_range]
    omega

/-- The first pass of build_matrix meets 8*nx*nx variables in all. -/
theorem visits_total (nx : Nat) (iperm : Option (Int → Int))
    (hs : 2 * (nx + 1) * (nx + 1) ≤ 2147483647)
    (hp : IsPerm (2 * (nx + 1) * (nx + 1)) iperm) :
    (∑ u in Finset.range (2 * (nx + 1) * (nx + 1)), visits nx iperm (u : Int)) =
      8 * nx * nx := by
  unfold visits
  rw [Finset.sum_comm]
  have h : ∀ i, i ∈ Finset.range nx →
      (∑ u in Finset.range (2 * (nx + 1) * (nx + 1)), ∑ j in Finset.range nx,
        ∑ k in Finset.range 2, ∑ ii in Finset.range 4,
          if ivarOf iperm (nodes nx i j ii) k = (u : Int) then 1 else 0) = 8 * nx := by
    intro i hi
    rw [Finset.sum_comm]
    have h2 : ∀ j, j ∈ Finset.range nx →
        (∑ u in Finset.range (2 * (nx + 1) * (nx + 1)),
          ∑ k in Finset.range 2, ∑ ii in Finset.range 4,
            if ivarOf iperm (nodes nx i j ii) k = (u : Int) then 1 else 0) = 8 := by
      intro j hj
      rw [Finset.sum_comm]
      have h3 : ∀ k, k ∈ Finset.range 2 →
          (∑ u in Finset.range (2 * (nx + 1) * (nx + 1)), ∑ ii in Finset.range 4,
            if ivarOf iperm (nodes nx i j ii) k = (u : Int) then 1 else 0) = 4 := by
        intro k hk
        rw [Finset.sum_comm]
        have h4 : ∀ ii, ii ∈ Finset.range 4 →
            (∑ u in Finset.range (2 * (nx + 1) * (nx + 1)),
              if ivarOf iperm (nodes nx i j ii) k = (u : Int) then 1 else 0) = 1 := by
          intro ii hii
          rw [nodes_eq nx i j ii hs (Finset.mem_range.mp hi) (Finset.mem_range.mp hj)
            (Finset.mem_range.mp hii)]
          have hr := ivarOf_range nx (gridNode nx i j ii) k iperm hs hp
            (gridNode_lt nx i j ii (Finset.mem_range.mp hi) (Finset.mem_range.mp hj)
              (Finset.mem_range.mp hii)) (Finset.mem_range.mp hk)
          exact sum_indicator_cast _ _ hr.1 hr.2
        rw [Finset.sum_congr rfl h4, Finset.sum_const, Finset.card_range]
        rfl
      rw [Finset.sum_congr rfl h3, Finset.sum_const, Finset.card_range]
      rfl
    rw [Finset.sum_congr rfl h2, Finset.sum_const, Finset.card_range, smul_eq_mul]
    ring
  rw [Finset.sum_congr rfl h, Finset.sum_const, Finset.card_range, smul_eq_mul]
  ring

theorem sum_range_two (f : Nat → Nat) : (∑ k in Finset.range 2, f k) = f 0 + f 1 := by
  rw [Finset.sum_range_succ, Finset.sum_range_succ, Finset.sum_range_zero, Nat.zero_add]

theorem sum_range_four (f : Nat → Nat) :
    (∑ k in Finset.range 4, f k) = f 0 + f 1 + f 2 + f 3 := by
  rw [Finset.sum_range_succ, Finset.sum_range_succ, Finset.sum_range_succ,
    Finset.sum_range_succ, Finset.sum_range_zero, Nat.zero_add]
/-- Among the eight variables of an element, the variable (n, k0) occurs once when n is a
node of the element and not at all otherwise. -/
theorem element_count (nx i j n k0 : Nat) (h1 : 1 ≤ nx) (hk0 : k0 < 2) :
    (∑ k in Finset.range 2, ∑ ii in Finset.range 4,
      if gridNode nx i j ii = n ∧ k = k0 then (1 : Nat) else 0) =
    if n ∈ [gridNode nx i j 0, gridNode nx i j 1, gridNode nx i j 2, gridNode nx i j 3]
    then (1 : Nat) else 0 := by
  obtain ⟨e1, e2, e3⟩ := gridNode_cases nx i j
  rw [sum_range_two, sum_range_four, sum_range_four, e1, e2, e3]
  generalize gridNode nx i j 0 = g
  simp only [List.mem_cons, List.mem_singleton, List.not_mem_nil, or_false]
  have hk : k0 = 0 ∨ k0 = 1 := by omega
  rcases hk with rfl | rfl
  · simp only [and_true, and_false, if_false, Nat.add_zero, one_ne_zero]
    split_ifs <;> omega
  · simp only [and_true, and_false, if_false, Nat.zero_add, zero_ne_one]
    split_ifs <;> omega

/-- The first pass of build_matrix meets the variable of the node n as often as there are
elements incident to n. -/
theorem visits_incident (nx n k0 : Nat) (iperm : Option (Int → Int)) (h1 : 1 ≤ nx)
    (hs : 2 * (nx + 1) * (nx + 1) ≤ 2147483647)
    (hp : IsPerm (2 * (nx + 1) * (nx + 1)) iperm)
    (hn : n < (nx + 1) * (nx + 1)) (hk0 : k0 < 2) :
    visits nx iperm (ivarOf iperm (n : Int) k0) = incident nx n := by
  unfold visits incident
  apply Finset.sum_congr rfl
  intro i hi
  apply Finset.sum_congr rfl
  intro j hj
  rw [← element_count nx i j n k0 h1 hk0]
  apply Finset.sum_congr rfl
  intro k hk
  apply Finset.sum_congr rfl
  intro ii hii
  rw [nodes_eq nx i j ii hs (Finset.mem_range.mp hi) (Finset.mem_range.mp hj)
    (Finset.mem_range.mp hii)]
  exact if_congr (ivarOf_inj nx _ k n k0 iperm hs hp
    (gridNode_lt nx i j ii (Finset.mem_range.mp hi) (Finset.mem_range.mp hj)
      (Finset.mem_range.mp hii)) (Finset.mem_range.mp hk) hn hk0) rfl rfl

end ParOpt

namespace ParOpt

/-- The sums of the counts of the first variables do not decrease. -/
theorem cumul_mono (nx : Nat) (iperm : Option (Int → Int)) (v w : Nat) (h : v ≤ w) :
    (∑ u in Finset.range v, 8 * visits nx iperm (u : Int)) ≤
      ∑ u in Finset.range w, 8 * visits nx iperm (u : Int) :=
  Finset.sum_le_sum_of_subset (Finset.range_mono h)

/-- The counts of all variables add up to 64*nx*nx. -/
theorem cumul_total (nx : Nat) (iperm : Option (Int → Int))
    (hs : 2 * (nx + 1) * (nx + 1) ≤ 2147483647)
    (hp : IsPerm (2 * (nx + 1) * (nx + 1)) iperm) :
    (∑ u in Finset.range (2 * (nx + 1) * (nx + 1)), 8 * visits nx iperm (u : Int)) =
      64 * nx * nx := by
  rw [← Finset.mul_sum, visits_total nx iperm hs hp]
  ring

/-- Below the bound on nx no sum of counts leaves the range of int. -/
theorem cumul_fits (nx : Nat) (iperm : Option (Int → Int)) (h1 : 1 ≤ nx)
    (hb : 64 * nx * nx ≤ 2147483647) (hp : IsPerm (2 * (nx + 1) * (nx + 1)) iperm)
    (v : Nat) (hv : v ≤ 2 * (nx + 1) * (nx + 1)) :
    (∑ u in Finset.range v, 8 * visits nx iperm (u : Int)) ≤ 2147483647 := by
  have h2 := cumul_mono nx iperm v _ hv
  rw [cumul_total nx iperm (size_fits nx h1 hb) hp] at h2
  omega

/-- Below the bound on nx the first pass of build_matrix leaves in colp[u] the exact count
of the variable u. -/
theorem count_exact (nx : Nat) (iperm : Option (Int → Int)) (h1 : 1 ≤ nx)
    (hb : 64 * nx * nx ≤ 2147483647) (hp : IsPerm (2 * (nx + 1) * (nx + 1)) iperm)
    (u : Nat) (hu : u < 2 * (nx + 1) * (nx + 1)) :
    countPass nx iperm (fun _ => 0) (u : Int) = ((8 * visits nx iperm (u : Int) : Nat) : Int) := by
  rw [countPass_spec]
  have h2 := cumul_fits nx iperm h1 hb hp (u + 1) hu
  rw [Finset.sum_range_succ] at h2
  have e : (8 * (visits nx iperm (u : Int) : Int)) =
      ((8 * visits nx iperm (u : Int) : Nat) : Int) := by
    push_cast
    ring
  rw [e]
  exact int32_of_fits _ (by omega) (by unfold INT_MAX; omega)

/-- The number of variables is computed without leaving the range of int. -/
theorem size_exact (nx : Nat) (hs : 2 * (nx + 1) * (nx + 1) ≤ 2147483647) :
    int32 (2 * ((nx : Int) + 1) * ((nx : Int) + 1)) = ((2 * (nx + 1) * (nx + 1) : Nat) : Int) := by
  have e : 2 * ((nx : Int) + 1) * ((nx : Int) + 1) = ((2 * (nx + 1) * (nx + 1) : Nat) : Int) := by
    push_cast
    ring
  rw [e]
  exact int32_of_fits _ (by omega) (by unfold INT_MAX; omega)

/-- Every entry of the column starts lies in the range of int. -/
theorem starts_range (nx : Nat) (iperm : Option (Int → Int)) (v : Int) :
    int32 (columnStarts nx iperm v) = columnStarts nx iperm v := by
  unfold columnStarts
  by_cases hs : 0 ≤ int32 (2 * ((nx : Int) + 1) * ((nx : Int) + 1))
  · rw [(scanPass_spec _ hs _).2 v]
    split_ifs
    · exact int32_idem _
    · rw [countPass_spec]
      exact int32_idem _
  · unfold scanPass
    simp only
    rw [Int.toNat_eq_zero.mpr (by omega)]
    simp only [forLoop]
    by_cases e : v = int32 (2 * ((nx : Int) + 1) * ((nx : Int) + 1))
    · rw [e, Function.update_same]
      exact int32_of_fits 0 (by norm_num) (by unfold INT_MAX; norm_num)
    · rw [Function.update_noteq e, countPass_spec]
      exact int32_idem _

/-- Below the bound on nx the column start of the variable v is the exact sum of the
counts of the variables before v. -/
theorem starts_exact (nx : Nat) (iperm : Option (Int → Int)) (h1 : 1 ≤ nx)
    (hb : 64 * nx * nx ≤ 2147483647) (hp : IsPerm (2 * (nx + 1) * (nx + 1)) iperm)
    (v : Nat) (hv : v ≤ 2 * (nx + 1) * (nx + 1)) :
    columnStarts nx iperm (v : Int) =
      ((∑ u in Finset.range v, 8 * visits nx iperm (u : Int) : Nat) : Int) := by
  have hs := size_fits nx h1 hb
  unfold columnStarts
  rw [size_exact nx hs, (scanPass_spec _ (Int.ofNat_nonneg _) _).2 (v : Int),
    if_pos ⟨Int.ofNat_nonneg _, by exact_mod_cast hv⟩, Int.toNat_ofNat,
    Finset.sum_congr rfl (fun u hu => count_exact nx iperm h1 hb hp u
      (by have := Finset.mem_range.mp hu; omega)), ← Nat.cast_sum]
  have h2 := cumul_fits nx iperm h1 hb hp v hv
  exact int32_of_fits _ (by omega) (by unfold INT_MAX; omega)

end ParOpt

namespace ParOpt

/-- Every place below the sum of the first n counts lies in the column of one of the
first n variables. -/
theorem cumul_cover (nx : Nat) (iperm : Option (Int → Int)) (n pos : Nat)
    (h : pos < ∑ u in Finset.range n, 8 * visits nx iperm (u : Int)) :
    ∃ v, v < n ∧ (∑ u in Finset.range v, 8 * visits nx iperm (u : Int)) ≤ pos ∧
      pos < ∑ u in Finset.range (v + 1), 8 * visits nx iperm (u : Int) := by
  induction n with
  | zero => simp at h
  | succ n ih =>
    by_cases h2 : pos < ∑ u in Finset.range n, 8 * visits nx iperm (u : Int)
    · obtain ⟨v, h3, h4⟩ := ih h2
      exact ⟨v, by omega, h4⟩
    · exact ⟨n, by omega, by omega, h⟩

/-- The state after the third pass of build_matrix, below the bound on nx. -/
theorem fill_inv (nx : Nat) (iperm : Option (Int → Int)) (h1 : 1 ≤ nx)
    (hb : 64 * nx * nx ≤ 2147483647) (hp : IsPerm (2 * (nx + 1) * (nx + 1)) iperm)
    (rows0 : Int → Int) (kvals0 : Int → ParOptScalar) :
    FillInv ((2 * (nx + 1) * (nx + 1) : Nat) : Int) (columnStarts nx iperm)
      (fun v => 8 * visits nx iperm v)
      (fillPass nx iperm (columnStarts nx iperm, rows0, kvals0)) := by
  have hs := size_fits nx h1 hb
  apply fillPass_spec nx iperm _ _ (starts_range nx iperm)
  intro i j jj kj hi hj hjj hkj
  rw [nodes_eq nx i j jj hs hi hj hjj]
  exact ivarOf_range nx _ kj iperm hs hp (gridNode_lt nx i j jj hi hj hjj) hkj

/-- Below the bound on nx the array colp that build_matrix hands back holds at v the
exact sum of the counts of the variables before v, for 0 <= v <= size. -/
theorem build_colp (nx : Nat) (iperm : Option (Int → Int)) (h1 : 1 ≤ nx)
    (hb : 64 * nx * nx ≤ 2147483647) (hp : IsPerm (2 * (nx + 1) * (nx + 1)) iperm)
    (rows0 : Int → Int) (kvals0 : Int → ParOptScalar)
    (v : Nat) (hv : v ≤ 2 * (nx + 1) * (nx + 1)) :
    (build_matrix nx iperm rows0 kvals0).colp (v : Int) =
      ((∑ u in Finset.range v, 8 * visits nx iperm (u : Int) : Nat) : Int) := by
  have hs := size_fits nx h1 hb
  have hf := (fill_inv nx iperm h1 hb hp rows0 kvals0).1
  unfold build_matrix shiftPass
  simp only
  rw [size_exact nx hs]
  cases v with
  | zero =>
    rw [show ((0 : Nat) : Int) = 0 from rfl, Function.update_same, Finset.range_zero,
      Finset.sum_empty]
    rfl
  | succ w =>
    rw [Function.update_noteq (by push_cast; omega), shift_loop, Int.toNat_ofNat,
      if_pos ⟨by push_cast; omega, by exact_mod_cast hv⟩]
    have e : ((w + 1 : Nat) : Int) - 1 = (w : Int) := by
      push_cast
      ring
    rw [e, hf (w : Int), starts_exact nx iperm h1 hb hp w (by omega), ← Nat.cast_add,
      ← Finset.sum_range_succ]
    have h2 := cumul_fits nx iperm h1 hb hp (w + 1) hv
    exact int32_of_fits _ (by omega) (by unfold INT_MAX; omega)

/-- Below the bound on nx every place of rows below nnz = 64*nx*nx holds a row index
between 0 and size-1. -/
theorem build_rows (nx : Nat) (iperm : Option (Int → Int)) (h1 : 1 ≤ nx)
    (hb : 64 * nx * nx ≤ 2147483647) (hp : IsPerm (2 * (nx + 1) * (nx + 1)) iperm)
    (rows0 : Int → Int) (kvals0 : Int → ParOptScalar)
    (pos : Nat) (hpos : pos < 64 * nx * nx) :
    0 ≤ (build_matrix nx iperm rows0 kvals0).rows (pos : Int) ∧
      (build_matrix nx iperm rows0 kvals0).rows (pos : Int) <
        ((2 * (nx + 1) * (nx + 1) : Nat) : Int) := by
  have hs := size_fits nx h1 hb
  have hf := (fill_inv nx iperm h1 hb hp rows0 kvals0).2
  rw [← cumul_total nx iperm hs hp] at hpos
  obtain ⟨v, hv, h3, h4⟩ := cumul_cover nx iperm _ pos hpos
  rw [Finset.sum_range_succ] at h4
  have h5 := hf (v : Int) (pos - ∑ u in Finset.range v, 8 * visits nx iperm (u : Int))
    (by
      show pos - ∑ u in Finset.range v, 8 * visits nx iperm (u : Int) <
        8 * visits nx iperm (v : Int)
      omega)
  rw [starts_exact nx iperm h1 hb hp v (by omega), ← Nat.cast_add,
    Nat.add_sub_cancel' h3] at h5
  have h6 := cumul_fits nx iperm h1 hb hp _ (le_refl _)
  rw [int32_of_fits _ (by omega) (by unfold INT_MAX; omega)] at h5
  exact h5

end ParOpt

namespace ParOpt

/-- The third pass of build_matrix leaves every entry of colp in the range of int. -/
theorem fill_range (nx : Nat) (iperm : Option (Int → Int))
    (st : (Int → Int) × (Int → Int) × (Int → ParOptScalar))
    (h : ∀ v, int32 (st.1 v) = st.1 v) :
    ∀ v, int32 ((fillPass nx iperm st).1 v) = (fillPass nx iperm st).1 v := by
  unfold fillPass
  refine forLoop_inv (fun _ s => ∀ v, int32 (s.1 v) = s.1 v) nx _ st h (fun i s _ hs => ?_)
  refine forLoop_inv (fun _ s => ∀ v, int32 (s.1 v) = s.1 v) nx _ s hs (fun j s _ hs => ?_)
  refine forLoop_inv (fun _ s => ∀ v, int32 (s.1 v) = s.1 v) 2 _ s hs (fun ki s _ hs => ?_)
  refine forLoop_inv (fun _ s => ∀ v, int32 (s.1 v) = s.1 v) 2 _ s hs (fun kj s _ hs => ?_)
  refine forLoop_inv (fun _ s => ∀ v, int32 (s.1 v) = s.1 v) 4 _ s hs (fun ii s _ hs => ?_)
  refine forLoop_inv (fun _ s => ∀ v, int32 (s.1 v) = s.1 v) 4 _ s hs (fun jj s _ hs => ?_)
  intro v
  unfold fillEntry
  simp only
  by_cases e : v = ivarOf iperm (nodes nx i j ii) ki
  · rw [e, Function.update_same]
    exact int32_idem _
  · rw [Function.update_noteq e]
    exact hs v

/-- Every entry of the array colp that build_matrix hands back lies in the range of int,
whatever nx is. -/
theorem colp_range (nx : Nat) (iperm : Option (Int → Int)) (rows0 : Int → Int)
    (kvals0 : Int → ParOptScalar) (v : Int) :
    (build_matrix nx iperm rows0 kvals0).colp v ≤ INT_MAX := by
  have hf := fill_range nx iperm (columnStarts nx iperm, rows0, kvals0)
    (starts_range nx iperm)
  unfold build_matrix shiftPass
  simp only
  by_cases e : v = 0
  · rw [e, Function.update_same]
    unfold INT_MAX
    norm_num
  · rw [Function.update_noteq e, shift_loop]
    split_ifs
    · rw [← hf]
      exact (int32_range _).2
    · rw [← hf]
      exact (int32_range _).2

end ParOpt

namespace ParOpt
namespace LBFGS

/-- The number of pairs after a sequence of updates: every update adds one pair until the
capacity is reached. -/
theorem msub_updates (ps : List (ParOptVec × ParOptVec)) (st0 st : LBFGS)
    (h : st0.updates ps = some st) (hm : st0.msub ≤ st0.msub_max) :
    st.msub = min (st0.msub + ps.length) st0.msub_max := by
  induction ps generalizing st0 with
  | nil =>
    simp only [updates, Option.some.injEq] at h
    subst h
    simp [hm]
  | cons p rest ih =>
    simp only [updates, Option.bind_eq_some] at h
    obtain ⟨⟨st1, t⟩, h1, h2⟩ := h
    have e1 := msub_update st0 st1 p.1 p.2 t h1
    have e2 : st1.msub_max = st0.msub_max :=
      (msub_max_updates [p] st0 st1 (by simp [updates, h1])).1
    have hm1 : st1.msub ≤ st1.msub_max := by
      rw [e1, e2]
      split_ifs <;> omega
    rw [ih st1 h2 hm1, e1, e2, List.length_cons]
    split_ifs with hc
    · congr 1
      omega
    · have e : st0.msub = st0.msub_max := by omega
      rw [e]
      simp

/-- The steps a model holds after a sequence of updates since construction or reset() are
the last ones supplied, oldest first. -/
theorem steps_updates (ps : List (ParOptVec × ParOptVec)) (st0 st : LBFGS)
    (h0 : st0.msub = 0) (hp : 1 ≤ st0.msub_max) (ha : st0.Alloc)
    (hsh : ∀ p, p ∈ ps → p.1.shape = st0.nvars ∧ p.2.shape = st0.nvars)
    (h : st0.updates ps = some st) :
    ∀ i, i < st.msub → (ps.map Prod.fst)[ps.length - st.msub + i]? = some (st.S i) := by
  obtain ⟨K, _, h2, _, h4⟩ := fifo_updates ps st0 st [] (inv_start st0 h0 hp ha)
    hsh h (by simp [h0]) (by intro i hi; omega)
  have hl : K.length = ps.length := by
    have := congrArg List.length h2
    simpa using this
  intro i hi
  have e := h4 i hi
  rw [List.nil_append, hl] at e
  rw [← h2, List.getElem?_map, e]
  rfl

end LBFGS
end ParOpt

namespace ParOpt
namespace LBFGS

/-- The first update of a model without pairs, when it is damped: it returns 1 and stores
theta*y + (1 - theta)*b*s with b = y.y/y.s, beta = b*(s.s) and
theta = 0.8*beta/(beta - y.s). -/
theorem first_update_damped (st st' : LBFGS) (s y : ParOptVec) (t : Nat) (h0 : st.msub = 0)
    (hi : st.Inv) (hs : s.shape = st.nvars) (hy : y.shape = st.nvars) (hys : 0 < y.dot s)
    (hu : st.update s y = some (st', t)) (ht0 : t ≠ 0) :
    t = 1 ∧ ∀ q k, q < s.length → k < s.size q →
      (st'.Y 0).get q k =
        0.8 * (y.dot y / y.dot s * s.dot s) / (y.dot y / y.dot s * s.dot s - y.dot s) *
            y.get q k +
          (1 - 0.8 * (y.dot y / y.dot s * s.dot s) /
            (y.dot y / y.dot s * s.dot s - y.dot s)) * (y.dot y / y.dot s * s.get q k) := by
  have ha : st.Alloc := hi.2.2.1
  obtain ⟨st1, nv, hc, hst⟩ := update_eq st st' s y t hu
  obtain ⟨stA, stB, r, d, b0, h1, h2, h3, _, _, ht, hnv⟩ := curvature_spec st st1 s y nv t hc
  obtain ⟨_, hA⟩ := (firstScale_spec st stA _ _ h1).2 h0
  have hmA : stA.msub = 0 := by rw [hA]; exact h0
  have hrA : stA.r = st.r := by rw [hA]
  have hq : 0 < y.dot y / y.dot s :=
    div_pos (dot_self_pos_of y s (ne_of_gt hys)) hys
  have hbA : stA.b0 = y.dot y / y.dot s := by
    rw [hA]
    simp only
    rw [if_neg (not_le.mpr hq)]
  rw [mult_zero stA s stA.r hmA] at h2
  simp only [Option.some.injEq, Prod.mk.injEq] at h2
  obtain ⟨_, hr⟩ := h2
  rw [hrA, ParOptVec.copyValues_eq _ s (by rw [ha.2, hs]), hbA] at hr
  have hbeta : r.dot s = y.dot y / y.dot s * s.dot s := by
    rw [← hr, ParOptVec.dot_scale_left]
  have hm : st'.msub = 1 := by
    rw [msub_update st st' s y t hu, h0]
    exact if_pos (show 0 < st.msub_max from hi.2.1)
  have hY : st'.Y 0 = nv := by
    have := (newest_update st st' st1 s y nv t hi hy hc hst).1
    rw [hm] at this
    exact this
  rcases damp_spec _ _ _ _ _ _ _ h3 with ⟨_, _, hd1, hd2, hd3, _⟩ | ⟨_, hd⟩
  · refine ⟨by rw [ht, hd1], fun q k hq hk => ?_⟩
    rw [hY, hnv, hd3, hd2, hbeta, ParOptVec.get_axpy, ParOptVec.get_scale, ← hr,
      ParOptVec.get_scale]
    have hin : q < ((s.scale (y.dot y / y.dot s)).scale
          (1.0 - 0.8 * (y.dot y / y.dot s * s.dot s) /
            (y.dot y / y.dot s * s.dot s - y.dot s))).length ∧
        k < ((s.scale (y.dot y / y.dot s)).scale
          (1.0 - 0.8 * (y.dot y / y.dot s * s.dot s) /
            (y.dot y / y.dot s * s.dot s - y.dot s))).size q := by
      rw [ParOptVec.length_eq_shape, ParOptVec.size_eq_shape, ParOptVec.shape_scale,
        ParOptVec.shape_scale, ← ParOptVec.length_eq_shape, ← ParOptVec.size_eq_shape]
      exact ⟨hq, hk⟩
    rw [if_pos hin]
    norm_num
    ring
  · exfalso
    apply ht0
    rw [ht, hd]

end LBFGS
end ParOpt

namespace ParOpt
namespace KKTPoint

end KKTPoint
end ParOpt

/-! # The properties of the models -/

namespace ParOpt

/-- C1: for a model that holds m >= 1 pairs after its last update and whose matrix M is
nonsingular, mult(x, y) succeeds, returns the model with nothing but the scratch array rz
changed, and leaves y = b0*x - Z*diag(d0)*M^{-1}*diag(d0)*Z^T*x.  The columns of Z are those
of S followed by those of Y, and d0 is b0 on the first m entries and 1 on the other m, so
that this is b0*x - [b0*S Y]*M^{-1}*[b0*S^T x ; Y^T x]. -/
theorem LBFGS_mult_formula (prev st : LBFGS) (s yv : ParOptVec) (typ : Nat) (x y : ParOptVec)
    (hu : prev.update s yv = some (st, typ)) (hm : 1 ≤ st.msub) (hdet : st.matM.det ≠ 0)
    (hy : y.shape = x.shape) :
    (∃ (rz : Nat → ParOptScalar) (w : ParOptVec),
      st.mult x y = some ({ st with rz := rz }, w) ∧ w.shape = x.shape ∧
      ∀ r k, r < x.length → k < x.size r →
        w.get r k = st.b0 * x.get r k -
          ∑ i : Fin (2 * st.msub), (st.Z i.val).get r k *
            (st.d0 i.val *
              (st.matM)⁻¹.mulVec (fun j => st.d0 j.val * x.dot (st.Z j.val)) i)) ∧
    (∀ i, i < st.msub → st.Z i = st.S i ∧ st.Z (i + st.msub) = st.Y i ∧
      st.d0 i = st.b0 ∧ st.d0 (i + st.msub) = 1) := by
  obtain ⟨st1, nv, _, hst⟩ := LBFGS.update_eq prev st s yv typ hu
  have ha : st.Assembled := by rw [hst]; exact LBFGS.assembled_finish _
  refine ⟨?_, ha.2.1⟩
  obtain ⟨c, rz, w, hmult, hsh, hc, hw⟩ :=
    LBFGS.mult_solve st x y (by omega) ha (nonsingular_of_det st hdet)
  refine ⟨rz, w, hmult, hsh.trans hy, ?_⟩
  intro r k hr hk
  have hin := (inrange_congr y x hy r k).mpr ⟨hr, hk⟩
  rw [hw r k hin.1 hin.2, sumTo_eq_sum,
    ← Fin.sum_univ_eq_sum_range (fun i => (st.Z i).get r k * (st.d0 i * c i))]
  congr 1
  apply Finset.sum_congr rfl
  intro i _
  have e := solution_eq_inv st hdet c (fun j => st.d0 j * x.dot (st.Z j))
    (fun j hj => by rw [hc j hj]; ring) i
  rw [e]

/-- C1, an instance: the model after update((1,0), (1,3)) on an empty model of capacity
two, applied to x = (1,2). -/
theorem LBFGS_mult_formula_witness :
    ∃ st typ, (LBFGS.new [2] 2).update [[1, 0]] [[1, 3]] = some (st, typ) ∧
      1 ≤ st.msub ∧ st.matM.det ≠ 0 ∧
      (st.mult [[1, 2]] [[0, 0]]).map Prod.snd = some [[22 / 3, 188 / 9]] ∧
      (∃ (rz : Nat → ParOptScalar) (w : ParOptVec),
        st.mult [[1, 2]] [[0, 0]] = some ({ st with rz := rz }, w) ∧
        w.shape = ParOptVec.shape [[1, 2]] ∧
        ∀ r k, r < List.length ([[1, 2]] : ParOptVec) → k < ParOptVec.size [[1, 2]] r →
          w.get r k = st.b0 * ParOptVec.get [[1, 2]] r k -
            ∑ i : Fin (2 * st.msub), (st.Z i.val).get r k *
              (st.d0 i.val * (st.matM)⁻¹.mulVec
                (fun j => st.d0 j.val * ParOptVec.dot [[1, 2]] (st.Z j.val)) i)) := by
  have hs : ((LBFGS.new [2] 2).update [[1, 0]] [[1, 3]]).isSome = true := by decide!
  obtain ⟨q, hq⟩ := Option.isSome_iff_exists.mp hs
  have hq2 : ((LBFGS.new [2] 2).update [[1, 0]] [[1, 3]]).getD (LBFGS.new [2] 2, 0) = q := by
    rw [hq]; rfl
  have hm : 1 ≤ (((LBFGS.new [2] 2).update [[1, 0]] [[1, 3]]).getD
      (LBFGS.new [2] 2, 0)).1.msub := by decide!
  have hdet : (((LBFGS.new [2] 2).update [[1, 0]] [[1, 3]]).getD
      (LBFGS.new [2] 2, 0)).1.matM.det ≠ 0 := by decide!
  have hval : ((((LBFGS.new [2] 2).update [[1, 0]] [[1, 3]]).getD
      (LBFGS.new [2] 2, 0)).1.mult [[1, 2]] [[0, 0]]).map Prod.snd =
      some [[22 / 3, 188 / 9]] := by decide!
  rw [hq2] at hm hdet hval
  exact ⟨q.1, q.2, hq, hm, hdet, hval,
    (LBFGS_mult_formula (LBFGS.new [2] 2) q.1 [[1, 0]] [[1, 3]] q.2 [[1, 2]] [[0, 0]]
      hq hm hdet rfl).1⟩

end ParOpt

namespace ParOpt

/-- C3: for a model of capacity p >= 1 and every sequence of k update calls since
construction or reset() (more than p calls included), the model holds m = min(k, p) pairs
and the small arrays agree with the stored columns: B[i + j*p] = S[i].S[j] and
D[i] = S[i].Y[i] for i, j < m, and L[i + j*p] = S[i].Y[j] for j < i < m; the stored steps
S[0..m-1] are the last m steps supplied, oldest first, so that a full memory has evicted its
oldest pair and shifted the others. -/
theorem LBFGS_small_arrays_agree (st0 st : LBFGS) (ps : List (ParOptVec × ParOptVec))
    (h0 : st0.msub = 0) (hp : 1 ≤ st0.msub_max) (ha : st0.Alloc)
    (h : st0.updates ps = some st) :
    st.msub = min ps.length st0.msub_max ∧ st.msub_max = st0.msub_max ∧
    (∀ i j, i < st.msub → j < st.msub →
      st.B (i + j * st.msub_max) = (st.S i).dot (st.S j) ∧
      st.D i = (st.S i).dot (st.Y i) ∧
      (j < i → st.L (i + j * st.msub_max) = (st.S i).dot (st.Y j))) ∧
    ((∀ p, p ∈ ps → p.1.shape = st0.nvars ∧ p.2.shape = st0.nvars) →
      ∀ i, i < st.msub → (ps.map Prod.fst)[ps.length - st.msub + i]? = some (st.S i)) := by
  refine ⟨?_, (LBFGS.msub_max_updates ps st0 st h).1,
    (LBFGS.inv_of_updates ps st0 st h (LBFGS.inv_start st0 h0 hp ha)).2.2.2,
    fun hsh => LBFGS.steps_updates ps st0 st h0 hp ha hsh h⟩
  have e := LBFGS.msub_updates ps st0 st h (by omega)
  rw [h0, Nat.zero_add] at e
  exact e

/-- C2: after k >= 1 updates of a model of capacity p started at construction or reset(),
with m = min(k, p) pairs held, the 2m x 2m matrix M (column-major, leading dimension 2m) is
the block matrix [[b0*B, L], [L^T, -D]]: M(i,j) = b0*B(i,j), M(i,m+j) = M(m+j,i) = L(i,j)
when j < i and 0 otherwise, M(m+i,m+i) = -D[i], every other entry 0; and M is symmetric.
In terms of the stored columns, M(i,j) = b0*(S[i].S[j]), M(i,m+j) = S[i].Y[j] for j < i and
M(m+i,m+i) = -(S[i].Y[i]), where S[0..m-1] are the last m steps supplied and b0 > 0. -/
theorem LBFGS_M_block_form (st0 st : LBFGS) (ps : List (ParOptVec × ParOptVec))
    (h0 : st0.msub = 0) (hp : 1 ≤ st0.msub_max) (ha : st0.Alloc) (hne : ps ≠ [])
    (h : st0.updates ps = some st) :
    st.msub = min ps.length st0.msub_max ∧ 0 < st.msub ∧
    (∀ i j, i < st.msub → j < st.msub →
      toMat (2 * st.msub) st.M i j = st.b0 * toMat st.msub_max st.B i j ∧
      toMat (2 * st.msub) st.M i (j + st.msub) =
        (if j < i then toMat st.msub_max st.L i j else 0) ∧
      toMat (2 * st.msub) st.M (j + st.msub) i =
        (if j < i then toMat st.msub_max st.L i j else 0) ∧
      toMat (2 * st.msub) st.M (st.msub + i) (st.msub + j) =
        (if i = j then -(st.D i) else 0)) ∧
    (∀ a b, a < 2 * st.msub → b < 2 * st.msub →
      toMat (2 * st.msub) st.M a b = toMat (2 * st.msub) st.M b a) ∧
    (∀ i j, i < st.msub → j < st.msub →
      toMat (2 * st.msub) st.M i j = st.b0 * (st.S i).dot (st.S j) ∧
      toMat (2 * st.msub) st.M i (j + st.msub) =
        (if j < i then (st.S i).dot (st.Y j) else 0) ∧
      toMat (2 * st.msub) st.M (j + st.msub) i =
        (if j < i then (st.S i).dot (st.Y j) else 0) ∧
      toMat (2 * st.msub) st.M (st.msub + i) (st.msub + j) =
        (if i = j then -((st.S i).dot (st.Y i)) else 0)) ∧
    ((∀ p, p ∈ ps → p.1.shape = st0.nvars ∧ p.2.shape = st0.nvars) →
      0 < st.b0 ∧
      ∀ i, i < st.msub → (ps.map Prod.fst)[ps.length - st.msub + i]? = some (st.S i)) := by
  have hiq := LBFGS.inv_updates ps st0 st h (LBFGS.inv_start st0 h0 hp ha) (Or.inr hne)
  have e := LBFGS.msub_updates ps st0 st h (by omega)
  rw [h0, Nat.zero_add] at e
  have hl : 0 < ps.length := List.length_pos.mpr hne
  have hm : 0 < st.msub := by
    rw [e]
    exact lt_min hl hp
  refine ⟨e, hm, hiq.2.1, LBFGS.M_symm st hiq.1 hiq.2, fun i j hi hj => ?_, fun hsh => ?_⟩
  · have a := hiq.2.1 i j hi hj
    obtain ⟨c1, c2, c3⟩ := hiq.1.2.2.2 i j hi hj
    have eB : toMat st.msub_max st.B i j = (st.S i).dot (st.S j) := by
      unfold toMat
      rw [Nat.mul_comm]
      exact c1
    have eL : (if j < i then toMat st.msub_max st.L i j else 0) =
        (if j < i then (st.S i).dot (st.Y j) else 0) := by
      split_ifs with hji
      · unfold toMat
        rw [Nat.mul_comm]
        exact c3 hji
      · rfl
    exact ⟨a.1.trans (congrArg (fun v => st.b0 * v) eB), a.2.1.trans eL, a.2.2.1.trans eL,
      a.2.2.2.trans (by rw [c2])⟩
  · obtain ⟨hg, _, _, _⟩ := LBFGS.poscurv_updates ps st0 st
      (LBFGS.poscurv_start st0 h0 hp ha) hsh h
    exact ⟨(hg.2.1 hm).2, LBFGS.steps_updates ps st0 st h0 hp ha hsh h⟩

/-- C3, an instance: three updates of a model of capacity 2; the first pair is evicted, the
model holds the steps (0,1), (1,1) with the differences (0,2), (1,1), and
B = [[1,1],[1,2]], D = (2,2), L(1,0) = 2. -/
theorem LBFGS_small_arrays_agree_witness :
    (LBFGS.new [2] 2).msub = 0 ∧ 1 ≤ (LBFGS.new [2] 2).msub_max ∧ (LBFGS.new [2] 2).Alloc ∧
    ∃ st, (LBFGS.new [2] 2).updates
        [([[1, 0]], [[1, 0]]), ([[0, 1]], [[0, 2]]), ([[1, 1]], [[1, 1]])] = some st ∧
      st.msub = 2 ∧ st.msub_max = 2 ∧
      st.S 0 = [[0, 1]] ∧ st.S 1 = [[1, 1]] ∧ st.Y 0 = [[0, 2]] ∧ st.Y 1 = [[1, 1]] ∧
      (List.range 4).map st.B = [1, 1, 1, 2] ∧ (List.range 2).map st.D = [2, 2] ∧
      st.L 1 = 2 ∧
      ∀ i j, i < st.msub → j < st.msub →
        st.B (i + j * st.msub_max) = (st.S i).dot (st.S j) ∧
        st.D i = (st.S i).dot (st.Y i) ∧
        (j < i → st.L (i + j * st.msub_max) = (st.S i).dot (st.Y j)) := by
  have hs : ((LBFGS.new [2] 2).updates
      [([[1, 0]], [[1, 0]]), ([[0, 1]], [[0, 2]]), ([[1, 1]], [[1, 1]])]).isSome = true := by
    decide!
  obtain ⟨st, hst⟩ := Option.isSome_iff_exists.mp hs
  have hq : ((LBFGS.new [2] 2).updates
      [([[1, 0]], [[1, 0]]), ([[0, 1]], [[0, 2]]), ([[1, 1]], [[1, 1]])]).getD
        (LBFGS.new [2] 2) = st := by rw [hst]; rfl
  have hv : ∀ q : LBFGS, q = ((LBFGS.new [2] 2).updates
      [([[1, 0]], [[1, 0]]), ([[0, 1]], [[0, 2]]), ([[1, 1]], [[1, 1]])]).getD
        (LBFGS.new [2] 2) →
      q.S 0 = [[0, 1]] ∧ q.S 1 = [[1, 1]] ∧ q.Y 0 = [[0, 2]] ∧ q.Y 1 = [[1, 1]] ∧
      (List.range 4).map q.B = [1, 1, 1, 2] ∧ (List.range 2).map q.D = [2, 2] ∧
      q.L 1 = 2 := by
    intro q e
    subst e
    decide!
  obtain ⟨e1, e2, e3, _⟩ := LBFGS_small_arrays_agree (LBFGS.new [2] 2) st _ rfl (by decide)
    (LBFGS.alloc_new _ _) hst
  obtain ⟨v1, v2, v3, v4, v5, v6, v7⟩ := hv st hq.symm
  exact ⟨rfl, by decide, LBFGS.alloc_new _ _, st, hst, e1, e2, v1, v2, v3, v4, v5, v6, v7, e3⟩

/-- C2, an instance: the same three updates of a model of capacity 2; afterwards m = 2,
b0 = 1 and M is the 4 x 4 matrix [[1,1,0,0],[1,2,2,0],[0,2,-2,0],[0,0,0,-2]]. -/
theorem LBFGS_M_block_form_witness :
    (LBFGS.new [2] 2).msub = 0 ∧ 1 ≤ (LBFGS.new [2] 2).msub_max ∧ (LBFGS.new [2] 2).Alloc ∧
    [(([[1, 0]] : ParOptVec), ([[1, 0]] : ParOptVec)), ([[0, 1]], [[0, 2]]),
      ([[1, 1]], [[1, 1]])] ≠ [] ∧
    ∃ st, (LBFGS.new [2] 2).updates
        [([[1, 0]], [[1, 0]]), ([[0, 1]], [[0, 2]]), ([[1, 1]], [[1, 1]])] = some st ∧
      st.msub = 2 ∧ st.b0 = 1 ∧
      (List.range 16).map st.M = [1, 1, 0, 0, 1, 2, 2, 0, 0, 2, -2, 0, 0, 0, 0, -2] ∧
      (∀ i j, i < st.msub → j < st.msub →
        toMat (2 * st.msub) st.M i j = st.b0 * toMat st.msub_max st.B i j ∧
        toMat (2 * st.msub) st.M i (j + st.msub) =
          (if j < i then toMat st.msub_max st.L i j else 0) ∧
        toMat (2 * st.msub) st.M (j + st.msub) i =
          (if j < i then toMat st.msub_max st.L i j else 0) ∧
        toMat (2 * st.msub) st.M (st.msub + i) (st.msub + j) =
          (if i = j then -(st.D i) else 0)) ∧
      ∀ a b, a < 2 * st.msub → b < 2 * st.msub →
        toMat (2 * st.msub) st.M a b = toMat (2 * st.msub) st.M b a := by
  have hs : ((LBFGS.new [2] 2).updates
      [([[1, 0]], [[1, 0]]), ([[0, 1]], [[0, 2]]), ([[1, 1]], [[1, 1]])]).isSome = true := by
    decide!
  obtain ⟨st, hst⟩ := Option.isSome_iff_exists.mp hs
  have hq : ((LBFGS.new [2] 2).updates
      [([[1, 0]], [[1, 0]]), ([[0, 1]], [[0, 2]]), ([[1, 1]], [[1, 1]])]).getD
        (LBFGS.new [2] 2) = st := by rw [hst]; rfl
  have hv : ∀ q : LBFGS, q = ((LBFGS.new [2] 2).updates
      [([[1, 0]], [[1, 0]]), ([[0, 1]], [[0, 2]]), ([[1, 1]], [[1, 1]])]).getD
        (LBFGS.new [2] 2) →
      q.b0 = 1 ∧
      (List.range 16).map q.M = [1, 1, 0, 0, 1, 2, 2, 0, 0, 2, -2, 0, 0, 0, 0, -2] := by
    intro q e
    subst e
    decide!
  obtain ⟨e1, _, e3, e4, _⟩ := LBFGS_M_block_form (LBFGS.new [2] 2) st _ rfl (by decide)
    (LBFGS.alloc_new _ _) (by simp) hst
  obtain ⟨v1, v2⟩ := hv st hq.symm
  exact ⟨rfl, by decide, LBFGS.alloc_new _ _, by simp, st, hst, e1, v1, v2, e3, e4⟩

end ParOpt

namespace ParOpt


/-- C4: after k updates since construction or reset() on a model of capacity p >= 1 the
model holds m = min(k, p) pairs, and S[0..m-1], Y[0..m-1] are the last m supplied steps with
the gradient differences stored for them, in the order supplied, oldest first: a full memory
always discards its oldest pair. -/
theorem LBFGS_fifo_order (st0 st : LBFGS) (ps : List (ParOptVec × ParOptVec))
    (h0 : st0.msub = 0) (hp : 1 ≤ st0.msub_max) (ha : st0.Alloc)
    (hsh : ∀ p, p ∈ ps → p.1.shape = st0.nvars ∧ p.2.shape = st0.nvars)
    (h : st0.updates ps = some st) :
    ∃ K, st0.storedPairs ps = some K ∧ K.map Prod.fst = ps.map Prod.fst ∧
      st.msub = min ps.length st0.msub_max ∧
      ∀ i, i < st.msub → K[ps.length - st.msub + i]? = some (st.S i, st.Y i) := by
  obtain ⟨K, h1, h2, h3, h4⟩ := LBFGS.fifo_updates ps st0 st [] (LBFGS.inv_start st0 h0 hp ha)
    hsh h (by simp [h0]) (by intro i hi; omega)
  have hl : K.length = ps.length := by
    have := congrArg List.length h2
    simpa using this
  refine ⟨K, h1, h2, by simpa [hl] using h3, ?_⟩
  intro i hi
  have := h4 i hi
  simpa [hl] using this

theorem LBFGS_fifo_order_witness :
    (LBFGS.new [2] 2).msub = 0 ∧ 1 ≤ (LBFGS.new [2] 2).msub_max ∧ (LBFGS.new [2] 2).Alloc ∧
    ∃ st K, (LBFGS.new [2] 2).updates
        [([[1, 0]], [[1, 0]]), ([[0, 1]], [[0, 2]]), ([[1, 1]], [[1, 1]])] = some st ∧
      (LBFGS.new [2] 2).storedPairs
        [([[1, 0]], [[1, 0]]), ([[0, 1]], [[0, 2]]), ([[1, 1]], [[1, 1]])] = some K ∧
      st.msub = 2 ∧ K[1]? = some (st.S 0, st.Y 0) ∧ K[2]? = some (st.S 1, st.Y 1) ∧
      st.S 0 = [[0, 1]] ∧ st.S 1 = [[1, 1]] := by
  have hs : ((LBFGS.new [2] 2).updates
      [([[1, 0]], [[1, 0]]), ([[0, 1]], [[0, 2]]), ([[1, 1]], [[1, 1]])]).isSome = true := by
    decide!
  obtain ⟨st, hst⟩ := Option.isSome_iff_exists.mp hs
  obtain ⟨K, h1, h2, h3, h4⟩ := LBFGS_fifo_order (LBFGS.new [2] 2) st
    [([[1, 0]], [[1, 0]]), ([[0, 1]], [[0, 2]]), ([[1, 1]], [[1, 1]])] rfl (by decide)
    (LBFGS.alloc_new _ _)
    (by
      intro p hp
      simp only [List.mem_cons, List.mem_singleton, List.not_mem_nil, or_false] at hp
      rcases hp with rfl | rfl | rfl <;> exact ⟨rfl, rfl⟩)
    hst
  have hm : st.msub = 2 := by rw [h3]; rfl
  have k0 := h4 0 (by omega)
  have k1 := h4 1 (by omega)
  rw [hm] at k0 k1
  have k0' : K[1]? = some (st.S 0, st.Y 0) := k0
  have k1' : K[2]? = some (st.S 1, st.Y 1) := k1
  have e0 : (K.map Prod.fst)[1]? = some (st.S 0) := by rw [List.getElem?_map, k0']; rfl
  have e1 : (K.map Prod.fst)[2]? = some (st.S 1) := by rw [List.getElem?_map, k1']; rfl
  rw [h2] at e0 e1
  simp only [List.map_cons, List.map_nil] at e0 e1
  refine ⟨rfl, by decide, LBFGS.alloc_new _ _, st, K, hst, h1, hm, k0', k1', ?_, ?_⟩
  · exact (Option.some.inj e0).symm
  · exact (Option.some.inj e1).symm

end ParOpt

namespace ParOpt

/-- C5 (amended): whenever update(s, y) returns, it returns 1 (damped) exactly when
y.s <= 0.2 * r.s and 0 otherwise, where r = B*s is the product that mult computes inside the
call: on a model that holds pairs B is the model before the call, on a model without pairs
b0 is first set to y.y / y.s (to 1 when that is not positive).  Any s, y with r.s > 0 and
y.s = 0.1 * r.s gets the damped return. -/
theorem LBFGS_update_return (st st' : LBFGS) (s y : ParOptVec) (t : Nat)
    (h : st.update s y = some (st', t)) :
    ∃ stA stB r,
      (st.msub ≠ 0 → stA = st) ∧
      (st.msub = 0 →
        stA = { st with b0 := if y.dot y / y.dot s ≤ 0 then 1 else y.dot y / y.dot s }) ∧
      stA.mult s stA.r = some (stB, r) ∧
      (t = 1 ↔ y.dot s ≤ 0.2 * r.dot s) ∧ (t = 0 ↔ ¬ y.dot s ≤ 0.2 * r.dot s) ∧
      (0 < r.dot s → y.dot s = 0.1 * r.dot s → t = 1) := by
  obtain ⟨st1, nv, hc, _⟩ := LBFGS.update_eq st st' s y t h
  obtain ⟨stA, stB, r, d, b0, h1, h2, h3, _, _, ht, _⟩ := LBFGS.curvature_spec st st1 s y nv t hc
  have hf := LBFGS.firstScale_spec st stA _ _ h1
  have key : (t = 1 ↔ y.dot s ≤ 0.2 * r.dot s) ∧ (t = 0 ↔ ¬ y.dot s ≤ 0.2 * r.dot s) := by
    rcases LBFGS.damp_spec _ _ _ _ _ _ _ h3 with ⟨hle, _, hd1, _⟩ | ⟨hnle, hd⟩
    · rw [ht, hd1]
      exact ⟨⟨fun _ => hle, fun _ => rfl⟩, ⟨fun e => absurd e (by simp), fun e => absurd hle e⟩⟩
    · rw [ht, hd]
      exact ⟨⟨fun e => absurd e (by simp), fun e => absurd e hnle⟩, ⟨fun _ => hnle, fun _ => rfl⟩⟩
  refine ⟨stA, stB, r, hf.1, fun h0 => (hf.2 h0).2, h2, key.1, key.2, fun hpos he => ?_⟩
  apply key.1.mpr
  rw [he]
  have : (0.1 : ℚ) * r.dot s ≤ 0.2 * r.dot s := by
    apply mul_le_mul_of_nonneg_right _ hpos.le
    norm_num
  exact this

theorem LBFGS_update_return_witness :
    ∃ st', (LBFGS.new [2] 2).update [[1, 0]] [[1, 3]] = some (st', 1) ∧
    ∃ stA stB r,
      ((LBFGS.new [2] 2).msub ≠ 0 → stA = LBFGS.new [2] 2) ∧
      ((LBFGS.new [2] 2).msub = 0 →
        stA = { LBFGS.new [2] 2 with
          b0 := if ParOptVec.dot [[1, 3]] [[1, 3]] / ParOptVec.dot [[1, 3]] [[1, 0]] ≤ 0 then 1
            else ParOptVec.dot [[1, 3]] [[1, 3]] / ParOptVec.dot [[1, 3]] [[1, 0]] }) ∧
      stA.mult [[1, 0]] stA.r = some (stB, r) ∧
      ((1 : Nat) = 1 ↔ ParOptVec.dot [[1, 3]] [[1, 0]] ≤ 0.2 * r.dot [[1, 0]]) ∧
      ((1 : Nat) = 0 ↔ ¬ ParOptVec.dot [[1, 3]] [[1, 0]] ≤ 0.2 * r.dot [[1, 0]]) ∧
      (0 < r.dot [[1, 0]] → ParOptVec.dot [[1, 3]] [[1, 0]] = 0.1 * r.dot [[1, 0]] →
        (1 : Nat) = 1) := by
  have hs : ((LBFGS.new [2] 2).update [[1, 0]] [[1, 3]]).isSome = true := by decide!
  have ht : ((LBFGS.new [2] 2).update [[1, 0]] [[1, 3]]).map Prod.snd = some 1 := by decide!
  obtain ⟨⟨st', t⟩, hst⟩ := Option.isSome_iff_exists.mp hs
  rw [hst] at ht
  simp only [Option.map_some', Option.some.injEq] at ht
  subst ht
  exact ⟨st', hst, LBFGS_update_return _ st' _ _ 1 hst⟩

/-- C5, as stated, fails: on a freshly constructed model (B = I, so that s.B.s = 1 for
s = (1, 0)) the pair y = (1, 3) has y.s = 1 > 0.2 * s.B.s, yet update returns 1; and for
s = (1), y = (1/10), where y.s = 0.1 * s.B.s with s.B.s = 1 > 0, update returns 0. -/
theorem LBFGS_update_return_counterexample :
    ((LBFGS.new [2] 2).mult [[1, 0]] [[0, 0]]).map Prod.snd = some [[1, 0]] ∧
    ¬ (ParOptVec.dot [[1, 3]] [[1, 0]] ≤ 0.2 * ParOptVec.dot [[1, 0]] [[1, 0]]) ∧
    ((LBFGS.new [2] 2).update [[1, 0]] [[1, 3]]).map Prod.snd = some 1 ∧
    ((LBFGS.new [1] 1).mult [[1]] [[0]]).map Prod.snd = some [[1]] ∧
    0 < ParOptVec.dot [[1]] [[1]] ∧
    ParOptVec.dot [[1 / 10]] [[1]] = 0.1 * ParOptVec.dot [[1]] [[1]] ∧
    ((LBFGS.new [1] 1).update [[1]] [[1 / 10]]).map Prod.snd = some 0 := by
  refine ⟨by decide!, by decide!, by decide!, by decide!, by decide!, by decide!, by decide!⟩

end ParOpt

namespace ParOpt

/-- C6: when LBFGS::update takes the damped branch (alpha <= 0.2*beta) with beta != alpha,
where alpha = y.s, r is the result of the preliminary mult(s) and beta = r.s, the vector it
chooses for storage is y' = theta*y + (1 - theta)*r with theta = 0.8*beta/(beta - alpha),
and y'.s = 0.2*beta.  Every call that returns returns 1 with y' as the newest column of Y;
the call does return, with 1 and with y' stored, whenever beta is not 0, and that is so
(beta > 0) on every model reached from construction or reset() by updates. -/
theorem LBFGS_damped_column (st stA stB : LBFGS) (s y r : ParOptVec) (hi : st.Inv)
    (hy : y.shape = st.nvars)
    (h1 : st.firstScale (y.dot y) (y.dot s) = some stA)
    (h2 : stA.mult s stA.r = some (stB, r))
    (hd : y.dot s ≤ 0.2 * r.dot s) (hne : r.dot s ≠ y.dot s) :
    LBFGS.damp r s y (y.dot y) (y.dot s) (r.dot s) =
      some (1, (r.scale (1.0 - 0.8 * r.dot s / (r.dot s - y.dot s))).axpy
          (0.8 * r.dot s / (r.dot s - y.dot s)) y,
        (r.scale (1.0 - 0.8 * r.dot s / (r.dot s - y.dot s))).axpy
          (0.8 * r.dot s / (r.dot s - y.dot s)) y,
        ((r.scale (1.0 - 0.8 * r.dot s / (r.dot s - y.dot s))).axpy
          (0.8 * r.dot s / (r.dot s - y.dot s)) y).dot
          ((r.scale (1.0 - 0.8 * r.dot s / (r.dot s - y.dot s))).axpy
            (0.8 * r.dot s / (r.dot s - y.dot s)) y),
        ((r.scale (1.0 - 0.8 * r.dot s / (r.dot s - y.dot s))).axpy
          (0.8 * r.dot s / (r.dot s - y.dot s)) y).dot s) ∧
    (∀ q k, q < r.length → k < r.size q →
      ((r.scale (1.0 - 0.8 * r.dot s / (r.dot s - y.dot s))).axpy
        (0.8 * r.dot s / (r.dot s - y.dot s)) y).get q k =
        0.8 * r.dot s / (r.dot s - y.dot s) * y.get q k +
          (1 - 0.8 * r.dot s / (r.dot s - y.dot s)) * r.get q k) ∧
    ((r.scale (1.0 - 0.8 * r.dot s / (r.dot s - y.dot s))).axpy
      (0.8 * r.dot s / (r.dot s - y.dot s)) y).dot s = 0.2 * r.dot s ∧
    (∀ st' t, st.update s y = some (st', t) →
      t = 1 ∧ st'.Y (st'.msub - 1) =
        (r.scale (1.0 - 0.8 * r.dot s / (r.dot s - y.dot s))).axpy
          (0.8 * r.dot s / (r.dot s - y.dot s)) y) ∧
    (r.dot s ≠ 0 →
      ∃ st', st.update s y = some (st', 1) ∧ st'.Y (st'.msub - 1) =
        (r.scale (1.0 - 0.8 * r.dot s / (r.dot s - y.dot s))).axpy
          (0.8 * r.dot s / (r.dot s - y.dot s)) y) ∧
    (∀ (st0 : LBFGS) (ps : List (ParOptVec × ParOptVec)),
      st0.msub = 0 → 1 ≤ st0.msub_max → st0.Alloc →
      (∀ p, p ∈ ps → p.1.shape = st0.nvars ∧ p.2.shape = st0.nvars) →
      st0.updates ps = some st → s.shape = st0.nvars →
      0 < r.dot s ∧
      ∃ st', st.update s y = some (st', 1) ∧ st'.Y (st'.msub - 1) =
        (r.scale (1.0 - 0.8 * r.dot s / (r.dot s - y.dot s))).axpy
          (0.8 * r.dot s / (r.dot s - y.dot s)) y) := by
  have hsub : r.dot s - y.dot s ≠ 0 := sub_ne_zero.mpr hne
  have hrs : r.shape = st.nvars := by
    have f1 := LBFGS.firstScale_frame st stA _ _ h1
    have hr : stA.r = st.r := by rw [f1]
    rw [(LBFGS.mult_frame stA stB s stA.r r h2).2, hr]
    exact hi.2.2.1.2
  have hdamp : LBFGS.damp r s y (y.dot y) (y.dot s) (r.dot s) =
      some (1, (r.scale (1.0 - 0.8 * r.dot s / (r.dot s - y.dot s))).axpy
          (0.8 * r.dot s / (r.dot s - y.dot s)) y,
        (r.scale (1.0 - 0.8 * r.dot s / (r.dot s - y.dot s))).axpy
          (0.8 * r.dot s / (r.dot s - y.dot s)) y,
        ((r.scale (1.0 - 0.8 * r.dot s / (r.dot s - y.dot s))).axpy
          (0.8 * r.dot s / (r.dot s - y.dot s)) y).dot
          ((r.scale (1.0 - 0.8 * r.dot s / (r.dot s - y.dot s))).axpy
            (0.8 * r.dot s / (r.dot s - y.dot s)) y),
        ((r.scale (1.0 - 0.8 * r.dot s / (r.dot s - y.dot s))).axpy
          (0.8 * r.dot s / (r.dot s - y.dot s)) y).dot s) := by
    unfold LBFGS.damp sdiv
    rw [if_pos hd, if_neg hsub]
    rfl
  have hret : r.dot s ≠ 0 →
      ∃ st', st.update s y = some (st', 1) ∧ st'.Y (st'.msub - 1) =
        (r.scale (1.0 - 0.8 * r.dot s / (r.dot s - y.dot s))).axpy
          (0.8 * r.dot s / (r.dot s - y.dot s)) y := by
    intro hb
    have hnz : ((r.scale (1.0 - 0.8 * r.dot s / (r.dot s - y.dot s))).axpy
        (0.8 * r.dot s / (r.dot s - y.dot s)) y).dot s ≠ 0 := by
      rw [LBFGS.damped_dot r s y (by rw [hy, hrs]) hsub]
      exact mul_ne_zero (by norm_num) hb
    have h4 : sdiv (((r.scale (1.0 - 0.8 * r.dot s / (r.dot s - y.dot s))).axpy
          (0.8 * r.dot s / (r.dot s - y.dot s)) y).dot
          ((r.scale (1.0 - 0.8 * r.dot s / (r.dot s - y.dot s))).axpy
            (0.8 * r.dot s / (r.dot s - y.dot s)) y))
        (((r.scale (1.0 - 0.8 * r.dot s / (r.dot s - y.dot s))).axpy
          (0.8 * r.dot s / (r.dot s - y.dot s)) y).dot s) = some
        ((((r.scale (1.0 - 0.8 * r.dot s / (r.dot s - y.dot s))).axpy
          (0.8 * r.dot s / (r.dot s - y.dot s)) y).dot
          ((r.scale (1.0 - 0.8 * r.dot s / (r.dot s - y.dot s))).axpy
            (0.8 * r.dot s / (r.dot s - y.dot s)) y)) /
        (((r.scale (1.0 - 0.8 * r.dot s / (r.dot s - y.dot s))).axpy
          (0.8 * r.dot s / (r.dot s - y.dot s)) y).dot s)) := by
      unfold sdiv
      rw [if_neg hnz]
    have hc := LBFGS.curvature_of_steps st stA stB s y r _ _ h1 h2 hdamp h4
    refine ⟨_, ?_, (LBFGS.newest_update st _ _ s y _ _ hi hy hc rfl).1⟩
    unfold LBFGS.update
    rw [hc]
    rfl
  refine ⟨hdamp, ?_, LBFGS.damped_dot r s y (by rw [hy, hrs]) hsub, ?_, hret, ?_⟩
  rotate_left 2
  · intro st0 ps h0 hp ha hsh hst hs
    obtain ⟨hg, hn, _, _⟩ := LBFGS.poscurv_updates ps st0 st
      (LBFGS.poscurv_start st0 h0 hp ha) hsh hst
    have hs' : s.shape = st.nvars := by rw [hs, hn]
    obtain ⟨stB', r', g2, _, hnn, hpos⟩ := (LBFGS.prelim st hg s y hs').1 stA h1
    rw [h2] at g2
    simp only [Option.some.injEq, Prod.mk.injEq] at g2
    obtain ⟨_, g5⟩ := g2
    subst g5
    have hbeta : 0 < r.dot s := by
      by_cases ha0 : y.dot s = 0
      · rw [ha0] at hne
        exact lt_of_le_of_ne hnn (Ne.symm hne)
      · apply hpos
        have e : s.dot y = y.dot s := ParOptVec.dot_comm s y (by rw [hs', hy])
        exact ne_of_gt (LBFGS.dot_self_pos_of s y (by rw [e]; exact ha0))
    exact ⟨hbeta, hret (ne_of_gt hbeta)⟩
  · intro q k hq hk
    rw [ParOptVec.get_axpy, ParOptVec.get_scale]
    have hin : q < (r.scale (1.0 - 0.8 * r.dot s / (r.dot s - y.dot s))).length ∧
        k < (r.scale (1.0 - 0.8 * r.dot s / (r.dot s - y.dot s))).size q := by
      rw [ParOptVec.length_eq_shape, ParOptVec.size_eq_shape, ParOptVec.shape_scale,
        ← ParOptVec.length_eq_shape, ← ParOptVec.size_eq_shape]
      exact ⟨hq, hk⟩
    rw [if_pos hin]
    norm_num
    ring
  · intro st' t h
    obtain ⟨st1, nv, hc, hst⟩ := LBFGS.update_eq st st' s y t h
    obtain ⟨stA', stB', r', d, b0, g1, g2, g3, _, _, ht, hnv⟩ :=
      LBFGS.curvature_spec st st1 s y nv t hc
    rw [h1] at g1
    simp only [Option.some.injEq] at g1
    subst g1
    rw [h2] at g2
    simp only [Option.some.injEq, Prod.mk.injEq] at g2
    obtain ⟨g4, g5⟩ := g2
    subst g4 g5
    rw [hdamp] at g3
    simp only [Option.some.injEq] at g3
    subst g3
    refine ⟨ht, ?_⟩
    rw [(LBFGS.newest_update st st' st1 s y nv t hi hy hc hst).1, hnv]

/-- C6, an instance: the first update of a model of capacity 2 with s = (1,0), y = (1,3):
alpha = 1, r = 10*s, beta = 10, theta = 8/9; the call returns 1 and stores
y' = (2, 8/3) as Y[0], with y'.s = 2 = 0.2*beta. -/
theorem LBFGS_damped_column_witness :
    (LBFGS.new [2] 2).Inv ∧ ParOptVec.shape [[1, 3]] = (LBFGS.new [2] 2).nvars ∧
    (LBFGS.new [2] 2).firstScale (ParOptVec.dot [[1, 3]] [[1, 3]])
      (ParOptVec.dot [[1, 3]] [[1, 0]]) = some { LBFGS.new [2] 2 with b0 := 10 } ∧
    LBFGS.mult { LBFGS.new [2] 2 with b0 := 10 } [[1, 0]] (LBFGS.new [2] 2).r =
      some ({ LBFGS.new [2] 2 with b0 := 10 }, [[10, 0]]) ∧
    ParOptVec.dot [[1, 3]] [[1, 0]] ≤ 0.2 * ParOptVec.dot [[10, 0]] [[1, 0]] ∧
    ParOptVec.dot [[10, 0]] [[1, 0]] ≠ ParOptVec.dot [[1, 3]] [[1, 0]] ∧
    (∃ st', (LBFGS.new [2] 2).update [[1, 0]] [[1, 3]] = some (st', 1) ∧
      st'.Y (st'.msub - 1) = [[2, 8 / 3]] ∧
      (st'.Y (st'.msub - 1)).dot [[1, 0]] = 0.2 * ParOptVec.dot [[10, 0]] [[1, 0]]) ∧
    ((LBFGS.new [2] 2).update [[1, 0]] [[1, 3]]).map
      (fun q => (q.2, q.1.msub, q.1.Y 0, q.1.S 0)) = some (1, 1, [[2, 8 / 3]], [[1, 0]]) := by
  have hinv : (LBFGS.new [2] 2).Inv :=
    LBFGS.inv_start _ rfl (by decide) (LBFGS.alloc_new _ _)
  have h1 : (LBFGS.new [2] 2).firstScale (ParOptVec.dot [[1, 3]] [[1, 3]])
      (ParOptVec.dot [[1, 3]] [[1, 0]]) = some { LBFGS.new [2] 2 with b0 := 10 } := by
    have e : sdiv (ParOptVec.dot [[1, 3]] [[1, 3]]) (ParOptVec.dot [[1, 3]] [[1, 0]]) =
        some 10 := by decide!
    unfold LBFGS.firstScale
    rw [if_pos (show (LBFGS.new [2] 2).msub = 0 from rfl), e]
    norm_num
  have h2 : LBFGS.mult { LBFGS.new [2] 2 with b0 := 10 } [[1, 0]] (LBFGS.new [2] 2).r =
      some ({ LBFGS.new [2] 2 with b0 := 10 }, [[10, 0]]) := by
    rw [LBFGS.mult_zero _ _ _ rfl]
    have e : (ParOptVec.copyValues (LBFGS.new [2] 2).r [[1, 0]]).scale 10 = [[10, 0]] := by
      decide!
    rw [← e]
  have hd : ParOptVec.dot [[1, 3]] [[1, 0]] ≤ 0.2 * ParOptVec.dot [[10, 0]] [[1, 0]] := by
    decide!
  have hne : ParOptVec.dot [[10, 0]] [[1, 0]] ≠ ParOptVec.dot [[1, 3]] [[1, 0]] := by
    decide!
  have hv : (ParOptVec.axpy (ParOptVec.scale [[10, 0]]
        (1.0 - 0.8 * ParOptVec.dot [[10, 0]] [[1, 0]] /
          (ParOptVec.dot [[10, 0]] [[1, 0]] - ParOptVec.dot [[1, 3]] [[1, 0]])))
      (0.8 * ParOptVec.dot [[10, 0]] [[1, 0]] /
        (ParOptVec.dot [[10, 0]] [[1, 0]] - ParOptVec.dot [[1, 3]] [[1, 0]])) [[1, 3]]) =
      [[2, 8 / 3]] := by decide!
  obtain ⟨_, _, e3, _, _, e6⟩ :=
    LBFGS_damped_column _ _ _ [[1, 0]] [[1, 3]] [[10, 0]] hinv rfl h1 h2 hd hne
  obtain ⟨_, st', hu, hY⟩ := e6 (LBFGS.new [2] 2) [] rfl (by decide) (LBFGS.alloc_new _ _)
    (fun p hp => absurd hp (List.not_mem_nil p)) rfl rfl
  rw [hv] at hY e3
  exact ⟨hinv, rfl, h1, h2, hd, hne, ⟨st', hu, hY, by rw [hY]; exact e3⟩, by decide!⟩

end ParOpt

namespace ParOpt

/-- The property s.(B s) > 0 on the paths of update that keep it: for every model reached
from reset() by calls of update that returned, every nonzero step s and every y, with y.s
nonzero when the model holds no pair, update(s, y) returns, mult(s) on the updated model
returns, and s.(B s) > 0 strictly. -/
theorem LBFGS_update_positive (st0 st : LBFGS) (ps : List (ParOptVec × ParOptVec))
    (s y y0 : ParOptVec) (ha : st0.Alloc) (hp : 1 ≤ st0.msub_max)
    (hsh : ∀ p, p ∈ ps → p.1.shape = st0.nvars ∧ p.2.shape = st0.nvars)
    (h : st0.reset.updates ps = some st)
    (hs : s.shape = st0.nvars) (hy : y.shape = st0.nvars) (hy0 : y0.shape = st0.nvars)
    (hne : s ≠ ParOptVec.new st0.nvars) (h0 : st.msub = 0 → y.dot s ≠ 0) :
    ∃ (st' : LBFGS) (t : Nat) (rz : Nat → ParOptScalar) (w : ParOptVec),
      st.update s y = some (st', t) ∧ st'.mult s y0 = some ({ st' with rz := rz }, w) ∧
      0 < s.dot w := by
  have hg0 : st0.reset.PosCurv :=
    LBFGS.poscurv_start st0.reset rfl hp (LBFGS.alloc_reset st0 ha)
  obtain ⟨hg, hn, _, _⟩ := LBFGS.poscurv_updates ps st0.reset st hg0 hsh h
  have hn' : st.nvars = st0.nvars := hn
  have hss : s.dot s ≠ 0 :=
    ne_of_gt (ParOptVec.dot_self_pos s (by rw [hs]; exact hne))
  obtain ⟨st', t, hu⟩ := LBFGS.update_defined st s y hg (by rw [hs, hn']) (by rw [hy, hn'])
    hss h0
  obtain ⟨hg', hm', hn2, _⟩ := LBFGS.poscurv_update st st' s y t hg (by rw [hs, hn'])
    (by rw [hy, hn']) hu
  obtain ⟨ha', hb'⟩ := hg'.2.1 hm'
  obtain ⟨rz, w, hmult, _, _, hpos⟩ := LBFGS.mult_pos st' hg'.1 ha' hb' hg'.2.2 hm' s y0
    (by rw [hs, hn2, hn']) (by rw [hy0, hn2, hn'])
  exact ⟨st', t, rz, w, hu, hmult, hpos hss⟩

/-- An instance of the positive curvature after an update: after update((1,0), (1,3)) on
an empty model of capacity 2, the step s = (0,1) with y = (0,2). -/
theorem LBFGS_update_positive_witness :
    (LBFGS.new [2] 2).Alloc ∧ 1 ≤ (LBFGS.new [2] 2).msub_max ∧
    ([[0, 1]] : ParOptVec) ≠ ParOptVec.new (LBFGS.new [2] 2).nvars ∧
    ∃ st, (LBFGS.new [2] 2).reset.updates [([[1, 0]], [[1, 3]])] = some st ∧
      ∃ (st' : LBFGS) (t : Nat) (rz : Nat → ParOptScalar) (w : ParOptVec),
        st.update [[0, 1]] [[0, 2]] = some (st', t) ∧
        st'.mult [[0, 1]] [[0, 0]] = some ({ st' with rz := rz }, w) ∧
        0 < ParOptVec.dot [[0, 1]] w := by
  have hs : ((LBFGS.new [2] 2).reset.updates [([[1, 0]], [[1, 3]])]).isSome = true := by
    decide!
  obtain ⟨st, hst⟩ := Option.isSome_iff_exists.mp hs
  have hq : ((LBFGS.new [2] 2).reset.updates [([[1, 0]], [[1, 3]])]).getD (LBFGS.new [2] 2) =
      st := by rw [hst]; rfl
  have hm : (((LBFGS.new [2] 2).reset.updates [([[1, 0]], [[1, 3]])]).getD
      (LBFGS.new [2] 2)).msub ≠ 0 := by decide!
  rw [hq] at hm
  have hsh : ∀ p, p ∈ [(([[1, 0]] : ParOptVec), ([[1, 3]] : ParOptVec))] →
      ParOptVec.shape p.1 = (LBFGS.new [2] 2).nvars ∧
        ParOptVec.shape p.2 = (LBFGS.new [2] 2).nvars := by
    intro p hp
    simp only [List.mem_singleton] at hp
    subst hp
    exact ⟨rfl, rfl⟩
  have hne : ([[0, 1]] : ParOptVec) ≠ ParOptVec.new (LBFGS.new [2] 2).nvars := by decide!
  exact ⟨LBFGS.alloc_new _ _, by decide, hne, st, hst,
    LBFGS_update_positive (LBFGS.new [2] 2) st _ [[0, 1]] [[0, 2]] [[0, 0]]
      (LBFGS.alloc_new _ _) (by decide) hsh hst rfl rfl rfl hne (fun e => absurd e hm)⟩

/-- C7: the first update of a model without pairs with a nonzero step s and y.s = 0, as
for s = (1,0) with y = (0,0) or y = (0,1).  The quotient b0 = y.y / y.s that update forms
first has the divisor 0, the guard b0 <= 0 that follows cannot repair it, and update yields
no model with s.(B s) > 0.  The neighbouring paths keep the property by damping: the first
update with y.s < 0 (s = (1,0), y = (-1,0)) is damped and gives s.(B s) = 1/5, and with a
pair already stored the update with y = 0 (after update((1,0), (1,0)), s = (0,1),
y = (0,0)) is damped and gives s.(B s) = 1/5. -/
theorem LBFGS_update_zero_curvature :
    ([[1, 0]] : ParOptVec) ≠ ParOptVec.new [2] ∧
    ParOptVec.dot [[0, 0]] [[1, 0]] = 0 ∧ ParOptVec.dot [[0, 1]] [[1, 0]] = 0 ∧
    sdiv (ParOptVec.dot [[0, 0]] [[0, 0]]) (ParOptVec.dot [[0, 0]] [[1, 0]]) = none ∧
    sdiv (ParOptVec.dot [[0, 1]] [[0, 1]]) (ParOptVec.dot [[0, 1]] [[1, 0]]) = none ∧
    (LBFGS.new [2] 2).reset.update [[1, 0]] [[0, 0]] = none ∧
    (LBFGS.new [2] 2).reset.update [[1, 0]] [[0, 1]] = none ∧
    ((LBFGS.new [2] 2).reset.update [[1, 0]] [[-1, 0]]).bind
      (fun q => (q.1.mult [[1, 0]] [[0, 0]]).map
        (fun v => (q.2, v.2, ParOptVec.dot [[1, 0]] v.2))) = some (1, [[1 / 5, 0]], 1 / 5) ∧
    (((LBFGS.new [2] 2).reset.updates [([[1, 0]], [[1, 0]])]).bind
      (fun st => st.update [[0, 1]] [[0, 0]])).bind
      (fun q => (q.1.mult [[0, 1]] [[0, 0]]).map
        (fun v => (q.2, v.2, ParOptVec.dot [[0, 1]] v.2))) = some (1, [[0, 1 / 5]], 1 / 5) := by
  refine ⟨by decide!, by decide!, by decide!, by decide!, by decide!, ?_, ?_, by decide!,
    by decide!⟩
  · have h : ((LBFGS.new [2] 2).reset.update [[1, 0]] [[0, 0]]).isSome = false := by decide!
    exact Option.not_isSome_iff_eq_none.mp (by rw [h]; decide)
  · have h : ((LBFGS.new [2] 2).reset.update [[1, 0]] [[0, 1]]).isSome = false := by decide!
    exact Option.not_isSome_iff_eq_none.mp (by rw [h]; decide)

end ParOpt

namespace ParOpt

/-- C8 (amended): for every s, y with y.s > 0, reset() followed by update(s, y) returns,
and mult(x) is, for every x, the single-pair BFGS product
B x = b0*x - b0*s*(s.x)/(s.s) + y'*(y'.x)/(y'.s) with b0 = y'.y'/y'.s, built from s and
the vector y' = Y[0] that the update stored.  The update is not damped (type 0) exactly
when y.s > 0.2*(y.y/y.s)*(s.s); then y' = y and this is the textbook product of the
supplied pair with b0 = y.y/y.s.  Otherwise the update is damped (type 1) and
y' = theta*y + (1 - theta)*(y.y/y.s)*s with beta = (y.y/y.s)*(s.s) and
theta = 0.8*beta/(beta - y.s). -/
theorem LBFGS_single_pair_product (st0 : LBFGS) (s y x y0 : ParOptVec) (ha : st0.Alloc)
    (hp : 1 ≤ st0.msub_max) (hs : s.shape = st0.nvars) (hy : y.shape = st0.nvars)
    (hx : x.shape = st0.nvars) (hy0 : y0.shape = st0.nvars) (hys : 0 < y.dot s) :
    ∃ (st : LBFGS) (t : Nat) (rz : Nat → ParOptScalar) (w : ParOptVec),
      st0.reset.update s y = some (st, t) ∧
      st.mult x y0 = some ({ st with rz := rz }, w) ∧ w.shape = x.shape ∧
      (∀ r k, r < x.length → k < x.size r →
        w.get r k = st.b0 * x.get r k - st.b0 * s.get r k * (s.dot x / s.dot s) +
          (st.Y 0).get r k * ((st.Y 0).dot x / (st.Y 0).dot s)) ∧
      st.b0 = (st.Y 0).dot (st.Y 0) / (st.Y 0).dot s ∧
      (t = 0 ↔ 0.2 * (y.dot y / y.dot s * s.dot s) < y.dot s) ∧
      (t = 0 →
        st.Y 0 = y ∧ st.b0 = y.dot y / y.dot s ∧
        ∀ r k, r < x.length → k < x.size r →
          w.get r k = y.dot y / y.dot s * x.get r k -
            y.dot y / y.dot s * s.get r k * (s.dot x / s.dot s) +
            y.get r k * (y.dot x / y.dot s)) ∧
      (t ≠ 0 →
        t = 1 ∧ ∀ r k, r < s.length → k < s.size r →
          (st.Y 0).get r k =
            0.8 * (y.dot y / y.dot s * s.dot s) /
                (y.dot y / y.dot s * s.dot s - y.dot s) * y.get r k +
              (1 - 0.8 * (y.dot y / y.dot s * s.dot s) /
                (y.dot y / y.dot s * s.dot s - y.dot s)) *
                (y.dot y / y.dot s * s.get r k)) := by
  have har : st0.reset.Alloc := LBFGS.alloc_reset st0 ha
  have hg0 : st0.reset.PosCurv := LBFGS.poscurv_start st0.reset rfl hp har
  have hss : s.dot s ≠ 0 := by
    have h1 : s.dot y = y.dot s := ParOptVec.dot_comm s y (by rw [hs, hy])
    exact ne_of_gt (LBFGS.dot_self_pos_of s y (by rw [h1]; exact ne_of_gt hys))
  obtain ⟨st, t, hu⟩ := LBFGS.update_defined st0.reset s y hg0 hs hy hss
    (fun _ => ne_of_gt hys)
  obtain ⟨hg, hm0, hn, _⟩ := LBFGS.poscurv_update st0.reset st s y t hg0 hs hy hu
  have hn' : st.nvars = st0.nvars := hn
  have hm : st.msub = 1 := by
    have := LBFGS.msub_update st0.reset st s y t hu
    rw [this]
    exact if_pos (show (0 : Nat) < st0.msub_max from hp)
  obtain ⟨st1, nv, hc, hst⟩ := LBFGS.update_eq st0.reset st s y t hu
  obtain ⟨n1, _, n3⟩ := LBFGS.newest_update st0.reset st st1 s y nv t hg0.1 hy hc hst
  obtain ⟨_, b2, b3, _⟩ := LBFGS.b0_curvature st0.reset st1 s y nv t hc
  rw [hm] at n1 n3
  have hS0 : st.S 0 = s := n3 hs
  have hb0 : st.b0 = (st.Y 0).dot (st.Y 0) / (st.Y 0).dot s := by
    have e : (st.Y 0) = nv := n1
    rw [e, ← b2]
    exact (LBFGS.newest_update st0.reset st st1 s y nv t hg0.1 hy hc hst).2.1
  obtain ⟨rz, w, hmult, hsh, hw⟩ := LBFGS.single_pair st hg hm x y0 (by rw [hx, hn'])
    (by rw [hy0, hn'])
  rw [hS0] at hw
  have hty := (LBFGS.first_update_type st0.reset st s y t rfl har hs hys hu).1
  refine ⟨st, t, rz, w, hu, hmult, by rw [hsh, hn', hx], hw, hb0, hty, fun ht => ?_,
    fun ht => LBFGS.first_update_damped st0.reset st s y t rfl hg0.1 hs hy hys hu ht⟩
  have hY : st.Y 0 = y := by
    have e : (st.Y 0) = nv := n1
    rw [e]
    exact b3 ht
  have hb : st.b0 = y.dot y / y.dot s := by rw [hb0, hY]
  refine ⟨hY, hb, fun r k hr hk => ?_⟩
  rw [hw r k hr hk, hb, hY]

/-- C8 (amended), an instance: s = (1, 0), y = (2, 1), x = (1, 2) on a model of capacity 2;
here y.s = 2 exceeds 0.2*(y.y/y.s)*(s.s) = 1/2 and the update is not damped.  At the
boundary y.s = 0.2*(y.y/y.s)*(s.s), as for s = (1, 0), y = (1, 2), the update is damped with
theta = 1 and y' = y, and the product is (5, 20). -/
theorem LBFGS_single_pair_product_witness :
    (LBFGS.new [2] 2).Alloc ∧ 1 ≤ (LBFGS.new [2] 2).msub_max ∧
    0 < ParOptVec.dot [[2, 1]] [[1, 0]] ∧
    ((LBFGS.new [2] 2).reset.update [[1, 0]] [[2, 1]]).bind
      (fun q => (q.1.mult [[1, 2]] [[0, 0]]).map (fun v => (q.2, v.2))) =
        some (0, [[4, 7]]) ∧
    ((LBFGS.new [2] 2).reset.update [[1, 0]] [[1, 2]]).bind
      (fun q => (q.1.mult [[1, 2]] [[0, 0]]).map (fun v => (q.2, q.1.Y 0, v.2))) =
        some (1, [[1, 2]], [[5, 20]]) ∧
    ∃ (st : LBFGS) (t : Nat) (rz : Nat → ParOptScalar) (w : ParOptVec),
      (LBFGS.new [2] 2).reset.update [[1, 0]] [[2, 1]] = some (st, t) ∧
      st.mult [[1, 2]] [[0, 0]] = some ({ st with rz := rz }, w) ∧
      (t = 0 ↔ 0.2 * (ParOptVec.dot [[2, 1]] [[2, 1]] / ParOptVec.dot [[2, 1]] [[1, 0]] *
        ParOptVec.dot [[1, 0]] [[1, 0]]) < ParOptVec.dot [[2, 1]] [[1, 0]]) := by
  have hys : 0 < ParOptVec.dot [[2, 1]] [[1, 0]] := by decide!
  obtain ⟨st, t, rz, w, h1, h2, _, _, _, h6, _⟩ :=
    LBFGS_single_pair_product (LBFGS.new [2] 2) [[1, 0]] [[2, 1]] [[1, 2]] [[0, 0]]
      (LBFGS.alloc_new _ _) (by decide) rfl rfl rfl rfl hys
  exact ⟨LBFGS.alloc_new _ _, by decide, hys, by decide!, by decide!, st, t, rz, w, h1, h2,
    h6⟩

/-- C8, as stated, fails: s = (1, 0), y = (1, 3) have y.s = 1 > 0, but the update is damped
and stores y' = (2, 8/3) with b0 = 50/9; for x = (1, 2) mult yields (22/3, 188/9), while the
product built from the supplied pair with b0 = y.y/y.s = 10 is (7, 41). -/
theorem LBFGS_single_pair_product_counterexample :
    0 < ParOptVec.dot [[1, 3]] [[1, 0]] ∧
    ((LBFGS.new [2] 2).reset.update [[1, 0]] [[1, 3]]).bind
      (fun q => (q.1.mult [[1, 2]] [[0, 0]]).map (fun v => (q.2, v.2))) =
        some (1, [[22 / 3, 188 / 9]]) ∧
    ParOptVec.axpy (ParOptVec.axpy
        (ParOptVec.scale [[1, 2]] (ParOptVec.dot [[1, 3]] [[1, 3]] / ParOptVec.dot [[1, 3]] [[1, 0]]))
        (-(ParOptVec.dot [[1, 3]] [[1, 3]] / ParOptVec.dot [[1, 3]] [[1, 0]] *
          (ParOptVec.dot [[1, 0]] [[1, 2]] / ParOptVec.dot [[1, 0]] [[1, 0]]))) [[1, 0]])
      (ParOptVec.dot [[1, 3]] [[1, 2]] / ParOptVec.dot [[1, 3]] [[1, 0]]) [[1, 3]] =
        [[7, 41]] := by
  refine ⟨by decide!, by decide!, by decide!⟩

end ParOpt

namespace ParOpt

/-- C9: for both compact models (LBFGS and LSR1), every model state, every scalar alpha and
vectors x, y: multAdd(alpha, x, y) leaves y equal to its previous value plus alpha times the
vector that mult(x, .) produces (written into any vector y0 of the same local sizes), with
the same effect on the model, and it has no result exactly when mult has none; in particular
multAdd(1, x, y') with y' zero yields the vector of mult(x, y). -/
theorem compact_multAdd_eq_mult (alpha : ParOptScalar) (x y y0 : ParOptVec)
    (h : y0.shape = y.shape) :
    (∀ st : LBFGS,
      st.multAdd alpha x y = (st.mult x y0).map (fun q => (q.1, y.axpy alpha q.2)) ∧
      st.multAdd 1 x y.zeroEntries = st.mult x y) ∧
    (∀ st : LSR1,
      st.multAdd alpha x y = (st.mult x y0).map (fun q => (q.1, y.axpy alpha q.2)) ∧
      st.multAdd 1 x y.zeroEntries = st.mult x y) := by
  constructor
  · intro st
    refine ⟨LBFGS.multAdd_eq st alpha x y y0 h, ?_⟩
    rw [LBFGS.multAdd_eq st 1 x y.zeroEntries y (zeroEntries_shape y).symm]
    cases hm : st.mult x y with
    | none => rfl
    | some q =>
      obtain ⟨st1, out⟩ := q
      simp only [Option.map_some', Option.some.injEq, Prod.mk.injEq, true_and]
      exact axpy_zero_one y out (LBFGS.mult_frame st st1 x y out hm).2
  · intro st
    refine ⟨LSR1.sr1_multAdd_eq st alpha x y y0 h, ?_⟩
    rw [LSR1.sr1_multAdd_eq st 1 x y.zeroEntries y (zeroEntries_shape y).symm]
    cases hm : st.mult x y with
    | none => rfl
    | some q =>
      obtain ⟨st1, out⟩ := q
      simp only [Option.map_some', Option.some.injEq, Prod.mk.injEq, true_and]
      exact axpy_zero_one y out (LSR1.sr1_mult_frame st st1 x y out hm).2

theorem compact_multAdd_eq_mult_witness :
    ParOptVec.shape [[0, 0]] = ParOptVec.shape [[5, 7]] ∧
    ((LBFGS.new [2] 2).update [[1, 0]] [[1, 3]]).bind
      (fun q => (q.1.multAdd 3 [[1, 2]] [[5, 7]]).map Prod.snd) = some [[27, 209 / 3]] ∧
    ∀ st : LBFGS, st.multAdd 3 [[1, 2]] [[5, 7]] =
      (st.mult [[1, 2]] [[0, 0]]).map (fun q => (q.1, ParOptVec.axpy [[5, 7]] 3 q.2)) := by
  refine ⟨rfl, by decide!,
    fun st => ((compact_multAdd_eq_mult 3 [[1, 2]] [[5, 7]] [[0, 0]] rfl).1 st).1⟩

end ParOpt

namespace ParOpt

/-- C10 (amended): after reset() (or construction) the first update(s, y), when it returns,
leaves one pair and b0 = y'.y' / y'.s, where y' = Y[0] is the gradient difference it stored;
when the update is not damped y' = y and b0 = y.y / y.s.  (The quotient y.y / y.s, replaced
by 1 when it is not positive, is only the scaling of the preliminary product B*s.) -/
theorem LBFGS_first_scaling (st st' : LBFGS) (s y : ParOptVec) (t : Nat)
    (h0 : st.msub = 0) (hp : 1 ≤ st.msub_max) (ha : st.Alloc) (hy : y.shape = st.nvars)
    (h : st.update s y = some (st', t)) :
    st'.msub = 1 ∧ (st'.Y 0).dot s ≠ 0 ∧
    st'.b0 = (st'.Y 0).dot (st'.Y 0) / (st'.Y 0).dot s ∧
    (t = 0 → st'.Y 0 = y ∧ st'.b0 = y.dot y / y.dot s) := by
  obtain ⟨st1, nv, hc, hst⟩ := LBFGS.update_eq st st' s y t h
  have hm : st'.msub = 1 := by
    rw [LBFGS.msub_update st st' s y t h, h0, if_pos (by omega)]
  have hn := LBFGS.newest_update st st' st1 s y nv t (LBFGS.inv_start st h0 hp ha) hy hc hst
  rw [hm] at hn
  obtain ⟨b1, b2, b3, _⟩ := LBFGS.b0_curvature st st1 s y nv t hc
  have hY : st'.Y 0 = nv := hn.1
  rw [hY, hn.2.1]
  refine ⟨hm, b1, b2, fun e => ?_⟩
  have := b3 e
  subst this
  exact ⟨rfl, b2⟩

theorem LBFGS_first_scaling_witness :
    (LBFGS.new [2] 2).reset.msub = 0 ∧ 1 ≤ (LBFGS.new [2] 2).reset.msub_max ∧
    (LBFGS.new [2] 2).reset.Alloc ∧
    ParOptVec.shape [[1, 3]] = (LBFGS.new [2] 2).reset.nvars ∧
    ∃ st' t, (LBFGS.new [2] 2).reset.update [[1, 0]] [[1, 3]] = some (st', t) ∧
      st'.msub = 1 ∧ (st'.Y 0).dot [[1, 0]] ≠ 0 ∧
      st'.b0 = (st'.Y 0).dot (st'.Y 0) / (st'.Y 0).dot [[1, 0]] ∧
      (t = 0 → st'.Y 0 = [[1, 3]] ∧
        st'.b0 = ParOptVec.dot [[1, 3]] [[1, 3]] / ParOptVec.dot [[1, 3]] [[1, 0]]) := by
  have hs : ((LBFGS.new [2] 2).reset.update [[1, 0]] [[1, 3]]).isSome = true := by decide!
  obtain ⟨⟨st', t⟩, hst⟩ := Option.isSome_iff_exists.mp hs
  have ha : (LBFGS.new [2] 2).reset.Alloc := LBFGS.alloc_reset _ (LBFGS.alloc_new _ _)
  exact ⟨rfl, by decide, ha, rfl, st', t, hst,
    LBFGS_first_scaling _ st' _ _ t rfl (by decide) ha rfl hst⟩

/-- C10, as stated, fails: after reset(), update with s = (1, 0), y = (1, 3), where
y.y / y.s = 10 is positive, leaves b0 = 50/9; and with s = (1), y = (-1), where
y.y / y.s = -1 is not positive, it leaves b0 = 1/5. -/
theorem LBFGS_first_scaling_counterexample :
    ParOptVec.dot [[1, 3]] [[1, 3]] / ParOptVec.dot [[1, 3]] [[1, 0]] = 10 ∧
    ((LBFGS.new [2] 2).reset.update [[1, 0]] [[1, 3]]).map (fun q => q.1.b0) = some (50 / 9) ∧
    ParOptVec.dot [[-1]] [[-1]] / ParOptVec.dot [[-1]] [[1]] = -1 ∧
    ((LBFGS.new [1] 1).reset.update [[1]] [[-1]]).map (fun q => q.1.b0) = some (1 / 5) := by
  refine ⟨by decide!, by decide!, by decide!, by decide!⟩

end ParOpt

namespace ParOpt

/-- C11: for an LBFGS model whose stored pairs all have positive curvature (D[i] > 0 for
i < m) and every s, y for which the preliminary curvature beta = r.s, r = B*s, is positive
(so that s is not zero) and update(s, y) returns damped: the matrix M rebuilt by that
update is nonsingular. -/
theorem LBFGS_damped_nonsingular (st st' stA stB : LBFGS) (s y r : ParOptVec)
    (hi : st.Inv) (hD : ∀ i, i < st.msub → 0 < st.D i)
    (hs : s.shape = st.nvars) (hy : y.shape = st.nvars)
    (h1 : st.firstScale (y.dot y) (y.dot s) = some stA)
    (h2 : stA.mult s stA.r = some (stB, r)) (hbeta : 0 < r.dot s)
    (hu : st.update s y = some (st', 1)) :
    st'.matM.det ≠ 0 := by
  obtain ⟨st1, nv, hc, hst⟩ := LBFGS.update_eq st st' s y 1 hu
  obtain ⟨stA', stB', r', d, b0, k1, k2, k3, _, _, ht, hnv⟩ :=
    LBFGS.curvature_spec st st1 s y nv 1 hc
  rw [h1] at k1
  simp only [Option.some.injEq] at k1
  subst k1
  rw [h2] at k2
  simp only [Option.some.injEq, Prod.mk.injEq] at k2
  obtain ⟨_, e⟩ := k2
  subst e
  have hrs : r.shape = st.nvars := by
    rw [(LBFGS.mult_frame stA stB s stA.r r h2).2]
    have f := LBFGS.firstScale_frame st stA _ _ h1
    have : stA.r = st.r := by rw [f]
    rw [this]
    exact hi.2.2.1.2
  have hpos : 0 < nv.dot s := by
    rcases LBFGS.damp_spec _ _ _ _ _ _ _ k3 with ⟨_, hne, _, hd, hd2, _⟩ | ⟨_, hd⟩
    · rw [hnv, hd2, hd, LBFGS.damped_dot r s y (by rw [hy, hrs]) hne]
      exact mul_pos (by norm_num) hbeta
    · rw [hd] at ht
      exact absurd ht (by simp)
  have hD' : ∀ i, i < st.msub → 0 < (st.S i).dot (st.Y i) := by
    intro i h
    rw [← (hi.2.2.2 i i h h).2.1]
    exact hD i h
  obtain ⟨⟨hi', hp, hD2⟩, hm⟩ :=
    LBFGS.poscurv_store st st' st1 s y nv 1 hi hD' hs hy hc hst hu hpos
  obtain ⟨ha, hb⟩ := hp hm
  exact nonsingular_det st' (LBFGS.nonsingular_pos st' hi' ha hb hD2)

/-- C11, an instance: on the model left by update((1,0), (1,3)) with capacity 2, the call
update((0,1), (0,1)) has beta = 82/9 and is damped. -/
theorem LBFGS_damped_nonsingular_witness :
    ∃ (st st' stA stB : LBFGS) (r : ParOptVec),
      ((LBFGS.new [2] 2).update [[1, 0]] [[1, 3]]).map Prod.fst = some st ∧
      st.Inv ∧ (∀ i, i < st.msub → 0 < st.D i) ∧
      st.firstScale (ParOptVec.dot [[0, 1]] [[0, 1]]) (ParOptVec.dot [[0, 1]] [[0, 1]]) =
        some stA ∧
      stA.mult [[0, 1]] stA.r = some (stB, r) ∧ 0 < r.dot [[0, 1]] ∧
      st.update [[0, 1]] [[0, 1]] = some (st', 1) ∧ st'.matM.det ≠ 0 := by
  have hg0 : (LBFGS.new [2] 2).PosCurv :=
    LBFGS.poscurv_start _ rfl (by decide) (LBFGS.alloc_new _ _)
  have hs0 : ((LBFGS.new [2] 2).update [[1, 0]] [[1, 3]]).isSome = true := by decide!
  obtain ⟨q0, hq0⟩ := Option.isSome_iff_exists.mp hs0
  obtain ⟨hg, _, hn, _⟩ :=
    LBFGS.poscurv_update (LBFGS.new [2] 2) q0.1 [[1, 0]] [[1, 3]] q0.2 hg0 rfl rfl hq0
  have hn' : q0.1.nvars = [2] := hn
  have hss : ParOptVec.dot [[0, 1]] [[0, 1]] ≠ 0 := by decide!
  obtain ⟨stA, h1⟩ := (LBFGS.prelim q0.1 hg [[0, 1]] [[0, 1]] (by rw [hn']; rfl)).2
    (fun _ => hss)
  obtain ⟨stB, r, h2, _, _, hb⟩ :=
    (LBFGS.prelim q0.1 hg [[0, 1]] [[0, 1]] (by rw [hn']; rfl)).1 stA h1
  have hD : ∀ i, i < q0.1.msub → 0 < q0.1.D i := by
    intro i h
    rw [(hg.1.2.2.2 i i h h).2.1]
    exact hg.2.2 i h
  have hs1 : (((LBFGS.new [2] 2).update [[1, 0]] [[1, 3]]).bind
      (fun q => q.1.update [[0, 1]] [[0, 1]])).isSome = true := by decide!
  obtain ⟨q, hq⟩ := Option.isSome_iff_exists.mp hs1
  have hq2 : (((LBFGS.new [2] 2).update [[1, 0]] [[1, 3]]).bind
      (fun q => q.1.update [[0, 1]] [[0, 1]])).getD (LBFGS.new [2] 2, 0) = q := by
    rw [hq]; rfl
  have ht : ((((LBFGS.new [2] 2).update [[1, 0]] [[1, 3]]).bind
      (fun q => q.1.update [[0, 1]] [[0, 1]])).getD (LBFGS.new [2] 2, 0)).2 = 1 := by decide!
  rw [hq2] at ht
  rw [hq0, Option.some_bind] at hq
  have hu : q0.1.update [[0, 1]] [[0, 1]] = some (q.1, 1) := by
    rw [hq, ← ht]
  exact ⟨q0.1, q.1, stA, stB, r, by rw [hq0]; rfl, hg.1, hD, h1, h2, hb hss, hu,
    LBFGS_damped_nonsingular q0.1 q.1 stA stB [[0, 1]] [[0, 1]] r hg.1 hD
      (by rw [hn']; rfl) (by rw [hn']; rfl) h1 h2 (hb hss) hu⟩

end ParOpt

namespace ParOpt

/-- C12: after every LBFGS update that returns, getCompactMat returns the rank 2m and
exposes the current b0, the unfactored matrix M, the columns Z = [S[0], ..., S[m-1],
Y[0], ..., Y[m-1]] and the vector d0 = [b0 (m times), 1 (m times)]; it returns 0 after
construction and after reset().  The function yields these values only: the model it is
called on is not changed. -/
theorem LBFGS_getCompactMat (st st' : LBFGS) (s y : ParOptVec) (t : Nat)
    (hu : st.update s y = some (st', t)) :
    (st'.getCompactMat.1 = 2 * st'.msub ∧ st'.getCompactMat.2.1 = st'.b0 ∧
      st'.getCompactMat.2.2.2.1 = st'.M ∧
      ∀ i, i < st'.msub →
        st'.getCompactMat.2.2.2.2 i = st'.S i ∧
        st'.getCompactMat.2.2.2.2 (i + st'.msub) = st'.Y i ∧
        st'.getCompactMat.2.2.1 i = st'.b0 ∧
        st'.getCompactMat.2.2.1 (i + st'.msub) = 1) ∧
    (∀ nvars p, (LBFGS.new nvars p).getCompactMat.1 = 0) ∧
    (∀ a : LBFGS, a.reset.getCompactMat.1 = 0) := by
  obtain ⟨st1, nv, _, hst⟩ := LBFGS.update_eq st st' s y t hu
  have ha : st'.Assembled := by rw [hst]; exact LBFGS.assembled_finish _
  exact ⟨⟨rfl, rfl, rfl, ha.2.1⟩, fun _ _ => rfl, fun _ => rfl⟩

/-- C12, an instance: the model after update((1,0), (1,3)) on an empty model of capacity 2
has rank 2, b0 = 50/9 and d0 = (50/9, 1). -/
theorem LBFGS_getCompactMat_witness :
    ∃ st' t, (LBFGS.new [2] 2).update [[1, 0]] [[1, 3]] = some (st', t) ∧
      st'.getCompactMat.1 = 2 ∧ st'.getCompactMat.2.1 = 50 / 9 ∧
      st'.getCompactMat.2.2.2.2 0 = st'.S 0 ∧ st'.getCompactMat.2.2.2.2 1 = st'.Y 0 ∧
      st'.getCompactMat.2.2.1 0 = 50 / 9 ∧ st'.getCompactMat.2.2.1 1 = 1 := by
  have hs : ((LBFGS.new [2] 2).update [[1, 0]] [[1, 3]]).isSome = true := by decide!
  obtain ⟨q, hq⟩ := Option.isSome_iff_exists.mp hs
  have hq2 : ((LBFGS.new [2] 2).update [[1, 0]] [[1, 3]]).getD (LBFGS.new [2] 2, 0) = q := by
    rw [hq]; rfl
  have hm : (((LBFGS.new [2] 2).update [[1, 0]] [[1, 3]]).getD
      (LBFGS.new [2] 2, 0)).1.msub = 1 := by decide!
  have hb : (((LBFGS.new [2] 2).update [[1, 0]] [[1, 3]]).getD
      (LBFGS.new [2] 2, 0)).1.b0 = 50 / 9 := by decide!
  rw [hq2] at hm hb
  obtain ⟨⟨h1, h2, _, h4⟩, _, _⟩ :=
    LBFGS_getCompactMat (LBFGS.new [2] 2) q.1 [[1, 0]] [[1, 3]] q.2 hq
  obtain ⟨z1, z2, z3, z4⟩ := h4 0 (by rw [hm]; decide)
  rw [hm] at z2 z4
  exact ⟨q.1, q.2, hq, by rw [h1, hm], by rw [h2, hb], z1, z2, by rw [z3, hb], z4⟩

end ParOpt

namespace ParOpt

/-- C13: reset() on either compact model, from any state, leaves m = 0, b0 = 1 and the
allocated arrays d0, M, the factored M, D, L and B all zero, as the constructor does (a
freshly constructed model is not changed by reset()); then mult(x) yields x for every x,
getCompactMat returns rank 0, and reset() followed by reset() is a single reset(). -/
theorem reset_restores (a : LBFGS) (b : LSR1) (x y : ParOptVec) (hy : y.shape = x.shape) :
    (a.reset.msub = 0 ∧ a.reset.b0 = 1 ∧
      (∀ i, i < 2 * a.msub_max → a.reset.d0 i = 0) ∧
      (∀ i, i < 4 * a.msub_max * a.msub_max → a.reset.M i = 0 ∧ a.reset.M_factor i = 0) ∧
      (∀ i, i < a.msub_max → a.reset.D i = 0) ∧
      (∀ i, i < a.msub_max * a.msub_max → a.reset.L i = 0 ∧ a.reset.B i = 0) ∧
      a.reset.mult x y = some (a.reset, x) ∧ a.reset.getCompactMat.1 = 0 ∧
      a.reset.reset = a.reset ∧
      ∀ nvars p, (LBFGS.new nvars p).reset = LBFGS.new nvars p) ∧
    (b.reset.msub = 0 ∧ b.reset.b0 = 1 ∧
      (∀ i, i < b.msub_max → b.reset.d0 i = 0) ∧
      (∀ i, i < b.msub_max * b.msub_max → b.reset.M i = 0 ∧ b.reset.M_factor i = 0) ∧
      (∀ i, i < b.msub_max → b.reset.D i = 0) ∧
      (∀ i, i < b.msub_max * b.msub_max → b.reset.L i = 0 ∧ b.reset.B i = 0) ∧
      b.reset.mult x y = some (b.reset, x) ∧ b.reset.getCompactMat.1 = 0 ∧
      b.reset.reset = b.reset ∧
      ∀ nvars p, (LSR1.new nvars p).reset = LSR1.new nvars p) := by
  have hx : (y.copyValues x).scale 1 = x := by
    rw [scale_one, ParOptVec.copyValues_eq y x hy]
  refine ⟨⟨rfl, rfl, fun i h => memset0_lt _ _ i h,
      fun i h => ⟨memset0_lt _ _ i h, memset0_lt _ _ i h⟩, fun i h => memset0_lt _ _ i h,
      fun i h => ⟨memset0_lt _ _ i h, memset0_lt _ _ i h⟩, ?_, rfl, ?_, ?_⟩,
    ⟨rfl, rfl, fun i h => memset0_lt _ _ i h,
      fun i h => ⟨memset0_lt _ _ i h, memset0_lt _ _ i h⟩, fun i h => memset0_lt _ _ i h,
      fun i h => ⟨memset0_lt _ _ i h, memset0_lt _ _ i h⟩, ?_, rfl, ?_, ?_⟩⟩
  · rw [LBFGS.mult_zero a.reset x y rfl]
    exact congrArg (fun v => some (a.reset, v)) hx
  · simp only [LBFGS.reset, memset0_idem]
  · intro nvars p
    simp only [LBFGS.reset, LBFGS.new, memset0_zero]
  · rw [LSR1.sr1_mult_zero b.reset x y rfl]
    exact congrArg (fun v => some (b.reset, v)) hx
  · simp only [LSR1.reset, memset0_idem]
  · intro nvars p
    simp only [LSR1.reset, LSR1.new, memset0_zero]

/-- C13, an instance: reset() of the models reached by update((1,0), (1,3)), applied to
x = (1, 2). -/
theorem reset_restores_witness :
    ∃ (a : LBFGS) (b : LSR1),
      ((LBFGS.new [2] 2).update [[1, 0]] [[1, 3]]).map Prod.fst = some a ∧
      ((LSR1.new [2] 2).update [[1, 0]] [[1, 3]]).1 = some b ∧
      a.msub = 1 ∧ b.msub = 1 ∧ a.b0 = 50 / 9 ∧ b.b0 = 10 ∧
      a.reset.mult [[1, 2]] [[0, 0]] = some (a.reset, [[1, 2]]) ∧
      b.reset.mult [[1, 2]] [[0, 0]] = some (b.reset, [[1, 2]]) ∧
      a.reset.msub = 0 ∧ b.reset.msub = 0 ∧ a.reset.b0 = 1 ∧ b.reset.b0 = 1 := by
  have ha : (((LBFGS.new [2] 2).update [[1, 0]] [[1, 3]]).map Prod.fst).isSome = true := by
    decide!
  have hb : ((LSR1.new [2] 2).update [[1, 0]] [[1, 3]]).1.isSome = true := by decide!
  obtain ⟨a, ha'⟩ := Option.isSome_iff_exists.mp ha
  obtain ⟨b, hb'⟩ := Option.isSome_iff_exists.mp hb
  have e1 : (((LBFGS.new [2] 2).update [[1, 0]] [[1, 3]]).map Prod.fst).getD
      (LBFGS.new [2] 2) = a := by rw [ha']; rfl
  have e2 : ((LSR1.new [2] 2).update [[1, 0]] [[1, 3]]).1.getD (LSR1.new [2] 2) = b := by
    rw [hb']; rfl
  have m1 : ((((LBFGS.new [2] 2).update [[1, 0]] [[1, 3]]).map Prod.fst).getD
      (LBFGS.new [2] 2)).msub = 1 := by decide!
  have m2 : (((LSR1.new [2] 2).update [[1, 0]] [[1, 3]]).1.getD (LSR1.new [2] 2)).msub = 1 := by
    decide!
  have b1 : ((((LBFGS.new [2] 2).update [[1, 0]] [[1, 3]]).map Prod.fst).getD
      (LBFGS.new [2] 2)).b0 = 50 / 9 := by decide!
  have b2 : (((LSR1.new [2] 2).update [[1, 0]] [[1, 3]]).1.getD (LSR1.new [2] 2)).b0 = 10 := by
    decide!
  rw [e1] at m1 b1
  rw [e2] at m2 b2
  obtain ⟨⟨h1, h2, _, _, _, _, h3, _⟩, ⟨k1, k2, _, _, _, _, k3, _⟩⟩ :=
    reset_restores a b [[1, 2]] [[0, 0]] rfl
  exact ⟨a, b, ha', hb', m1, m2, b1, b2, h3, k3, h1, k1, h2, k2⟩

end ParOpt

namespace ParOpt

/-- C14: after every LSR1 update that returns, on a model that then holds m >= 1 pairs with
nonsingular M: Z[i] = Y[i] - b0*S[i] and d0[i] = 1 for every i < m, and mult(x, y) returns,
changes nothing of the model but the scratch array rz, and leaves
y = b0*x - Z*M^{-1}*Z^T*x for every x, with M the m x m matrix the model stores. -/
theorem LSR1_mult_formula (st st' : LSR1) (s yv x y : ParOptVec) (hi : st.Inv)
    (hu : (st.update s yv).1 = some st') (hm : 1 ≤ st'.msub) (hdet : st'.matM.det ≠ 0)
    (hy : y.shape = x.shape) :
    (∀ i, i < st'.msub →
      st'.Z i = (st'.Y i).axpy (-st'.b0) (st'.S i) ∧
      (∀ r k, (st'.Z i).get r k = (st'.Y i).get r k - st'.b0 * (st'.S i).get r k) ∧
      st'.d0 i = 1) ∧
    ∃ (rz : Nat → ParOptScalar) (w : ParOptVec),
      st'.mult x y = some ({ st' with rz := rz }, w) ∧ w.shape = x.shape ∧
      ∀ r k, r < x.length → k < x.size r →
        w.get r k = st'.b0 * x.get r k -
          ∑ i : Fin st'.msub, (st'.Z i.val).get r k *
            (st'.matM)⁻¹.mulVec (fun j => x.dot (st'.Z j.val)) i := by
  obtain ⟨hi', ha', _⟩ := LSR1.sr1_inv_update st st' s yv hi hu
  have hf := LSR1.sr1_alloc_fields st' hi'.2.2.1
  constructor
  · intro i h
    obtain ⟨z1, z2⟩ := ha'.2.1 i h
    refine ⟨z1, fun r k => ?_, z2⟩
    rw [z1, ParOptVec.get_axpy]
    have hle := hi'.1
    split_ifs with hin
    · ring
    · have hsh : (st'.S i).shape = (st'.Y i).shape := by
        rw [(hf.1 i (by omega)).1, (hf.1 i (by omega)).2.1]
      have hin2 : ¬ (r < (st'.S i).length ∧ k < (st'.S i).size r) :=
        fun hc => hin ((inrange_congr (st'.S i) (st'.Y i) hsh r k).mp hc)
      rw [ParOptVec.get_of_not _ r k hin, ParOptVec.get_of_not _ r k hin2]
      ring
  · obtain ⟨c, w, hmult, hsh, hc, hw⟩ :=
      LSR1.sr1_mult_solve st' x y (by omega) ha' (nonsingular_of_det_gen st'.msub st'.M hdet)
    refine ⟨c, w, hmult, hsh.trans hy, ?_⟩
    intro r k hr hk
    have hin := (inrange_congr y x hy r k).mpr ⟨hr, hk⟩
    rw [hw r k hin.1 hin.2, sumTo_eq_sum,
      ← Fin.sum_univ_eq_sum_range (fun i => (st'.Z i).get r k * c i)]
    congr 1
    apply Finset.sum_congr rfl
    intro i _
    have e := solution_eq_inv_gen st'.msub st'.M hdet c (fun j => x.dot (st'.Z j)) hc i
    rw [e]
    rfl

/-- C14, an instance: the model after update((1,0), (1,1)) on an empty model of capacity 2,
where b0 = 2, Z[0] = (-1, 1) and M = (1), applied to x = (1, 2). -/
theorem LSR1_mult_formula_witness :
    (LSR1.new [2] 2).Inv ∧
    ∃ st', ((LSR1.new [2] 2).update [[1, 0]] [[1, 1]]).1 = some st' ∧
      1 ≤ st'.msub ∧ st'.matM.det ≠ 0 ∧ st'.Z 0 = [[-1, 1]] ∧
      (st'.mult [[1, 2]] [[0, 0]]).map Prod.snd = some [[3, 3]] ∧
      ∃ (rz : Nat → ParOptScalar) (w : ParOptVec),
        st'.mult [[1, 2]] [[0, 0]] = some ({ st' with rz := rz }, w) ∧
        ∀ r k, r < List.length ([[1, 2]] : ParOptVec) → k < ParOptVec.size [[1, 2]] r →
          w.get r k = st'.b0 * ParOptVec.get [[1, 2]] r k -
            ∑ i : Fin st'.msub, (st'.Z i.val).get r k *
              (st'.matM)⁻¹.mulVec (fun j => ParOptVec.dot [[1, 2]] (st'.Z j.val)) i := by
  have hi : (LSR1.new [2] 2).Inv :=
    LSR1.sr1_inv_start _ rfl (by decide) (LSR1.sr1_alloc_new _ _)
  have hs : ((LSR1.new [2] 2).update [[1, 0]] [[1, 1]]).1.isSome = true := by decide!
  obtain ⟨q, hq⟩ := Option.isSome_iff_exists.mp hs
  have hq2 : ((LSR1.new [2] 2).update [[1, 0]] [[1, 1]]).1.getD (LSR1.new [2] 2) = q := by
    rw [hq]; rfl
  have hm : 1 ≤ (((LSR1.new [2] 2).update [[1, 0]] [[1, 1]]).1.getD
      (LSR1.new [2] 2)).msub := by decide!
  have hdet : (((LSR1.new [2] 2).update [[1, 0]] [[1, 1]]).1.getD
      (LSR1.new [2] 2)).matM.det ≠ 0 := by decide!
  have hz : (((LSR1.new [2] 2).update [[1, 0]] [[1, 1]]).1.getD
      (LSR1.new [2] 2)).Z 0 = [[-1, 1]] := by decide!
  have hv : ((((LSR1.new [2] 2).update [[1, 0]] [[1, 1]]).1.getD
      (LSR1.new [2] 2)).mult [[1, 2]] [[0, 0]]).map Prod.snd = some [[3, 3]] := by decide!
  rw [hq2] at hm hdet hz hv
  obtain ⟨_, rz, w, h1, _, h3⟩ :=
    LSR1_mult_formula (LSR1.new [2] 2) q [[1, 0]] [[1, 1]] [[1, 2]] [[0, 0]] hi hq hm hdet rfl
  exact ⟨hi, q, hq, hm, hdet, hz, hv, rz, w, h1, h3⟩

end ParOpt

namespace ParOpt

/-- C15 (amended): after every LSR1 update that returns, the m x m matrix M that the model
stores, and exposes through getCompactMat, is b0*S^T S - (D + L + L^T), where L is the
strict lower triangle and D the diagonal of S^T Y for the columns currently stored: the
negative of (D + L + L^T) - b0*S^T S. -/
theorem LSR1_M_form (st st' : LSR1) (s y : ParOptVec) (hi : st.Inv)
    (h : (st.update s y).1 = some st') :
    st'.getCompactMat.1 = st'.msub ∧
    ∀ i j, i < st'.msub → j < st'.msub →
      st'.getCompactMat.2.2.2.1 (i + st'.msub * j) =
        st'.b0 * (st'.S i).dot (st'.S j) -
          (if j < i then (st'.S i).dot (st'.Y j)
            else if i < j then (st'.S j).dot (st'.Y i) else (st'.S i).dot (st'.Y i)) := by
  obtain ⟨hi', ha', _⟩ := LSR1.sr1_inv_update st st' s y hi h
  refine ⟨rfl, fun i j h1 h2 => ?_⟩
  show st'.M (i + st'.msub * j) = _
  rw [ha'.1 i j h1 h2]
  obtain ⟨c1, c2, c3⟩ := hi'.2.2.2 i j h1 h2
  obtain ⟨_, _, c4⟩ := hi'.2.2.2 j i h2 h1
  rw [Nat.mul_comm st'.msub_max j, c1]
  congr 1
  by_cases hji : j < i
  · rw [if_pos hji, if_pos hji, c3 hji]
  · rw [if_neg hji, if_neg hji]
    by_cases hij : i < j
    · rw [if_pos hij, if_pos hij, Nat.mul_comm st'.msub_max i, c4 hij]
    · rw [if_neg hij, if_neg hij, c2]

/-- C15 (amended), an instance: after update((1,0), (1,1)) on an empty model of capacity 2
the 1 x 1 matrix M is b0*s.s - s.y = 2*1 - 1 = 1. -/
theorem LSR1_M_form_witness :
    (LSR1.new [2] 2).Inv ∧
    ∃ st', ((LSR1.new [2] 2).update [[1, 0]] [[1, 1]]).1 = some st' ∧ st'.msub = 1 ∧
      st'.getCompactMat.2.2.2.1 0 =
        st'.b0 * (st'.S 0).dot (st'.S 0) - (st'.S 0).dot (st'.Y 0) := by
  have hi : (LSR1.new [2] 2).Inv :=
    LSR1.sr1_inv_start _ rfl (by decide) (LSR1.sr1_alloc_new _ _)
  obtain ⟨st', hst⟩ := LSR1.sr1_update_defined (LSR1.new [2] 2) [[1, 0]] [[1, 1]]
    (fun _ => by decide!)
  have hm : st'.msub = 1 :=
    (LSR1.sr1_inv_update _ st' _ _ hi hst).2.2.2.2.1
  have := (LSR1_M_form (LSR1.new [2] 2) st' [[1, 0]] [[1, 1]] hi hst).2 0 0
    (by rw [hm]; decide) (by rw [hm]; decide)
  simp only [lt_irrefl, if_false, Nat.mul_zero, Nat.add_zero] at this
  exact ⟨hi, st', hst, hm, this⟩

/-- C15, as stated, fails: after update((1,0), (1,1)) on an empty model of capacity 2, with
one pair stored, b0 = 2, S^T S = (1) and D = (1), the matrix stored is M = (1), while
(D + L + L^T) - b0*S^T S = (-1). -/
theorem LSR1_M_form_counterexample :
    ((LSR1.new [2] 2).update [[1, 0]] [[1, 1]]).1.map
      (fun st => (st.msub, st.getCompactMat.2.2.2.1 0,
        (st.S 0).dot (st.Y 0) - st.b0 * (st.S 0).dot (st.S 0))) = some (1, 1, -1) := by
  decide!

end ParOpt

namespace ParOpt

/-- C16: for pairs (s_1, y_1), ..., (s_m, y_m), 1 <= m <= p, supplied to a freshly reset
LSR1 model, with the s_i mutually orthogonal, S^T Y diagonal and (D + L + L^T) - b0*S^T S
invertible, where b0 = y_1.y_1 / y_1.s_1: all updates return, the model holds that b0, and
mult(x) is, for every x, the product of x with the dense SR1 Hessian that the rank-one
recursion B <- B + (y_i - B s_i)(y_i - B s_i)^T / ((y_i - B s_i)^T s_i) builds from
B_0 = b0*I for i = 1, ..., m. -/
theorem LSR1_dense_sr1 (st0 : LSR1) (p1 : ParOptVec × ParOptVec)
    (rest : List (ParOptVec × ParOptVec)) (x y0 : ParOptVec)
    (ha : st0.Alloc) (hlen : (p1 :: rest).length ≤ st0.msub_max)
    (hsh : ∀ p, p ∈ p1 :: rest → p.1.shape = st0.nvars ∧ p.2.shape = st0.nvars)
    (hx : x.shape = st0.nvars) (hy0 : y0.shape = st0.nvars)
    (horth : (p1 :: rest).Pairwise (fun p q => p.1.dot q.1 = 0))
    (hdiag : (p1 :: rest).Pairwise (fun p q => p.1.dot q.2 = 0 ∧ q.1.dot p.2 = 0))
    (hinv : (sr1Middle (p1.2.dot p1.2 / p1.2.dot p1.1) (p1 :: rest)).det ≠ 0) :
    ∃ (st : LSR1) (rz : Nat → ParOptScalar) (w : ParOptVec),
      st0.reset.updates (p1 :: rest) = some st ∧
      st.b0 = p1.2.dot p1.2 / p1.2.dot p1.1 ∧
      st.mult x y0 = some ({ st with rz := rz }, w) ∧ w.shape = x.shape ∧
      ∀ r k, r < x.length → k < x.size r →
        w.get r k = denseMul st0.nvars
          (sr1Dense st0.nvars (p1.2.dot p1.2 / p1.2.dot p1.1) (p1 :: rest)) x r k := by
  have hden := sr1Middle_diag st0.nvars _ (p1 :: rest) hsh horth hdiag hinv
  have hsh1 := hsh p1 (List.mem_cons_self _ _)
  -- the first quotient is defined
  have hb : p1.2.dot p1.1 ≠ 0 := by
    intro h0
    have h1 := hden ⟨0, by simp⟩
    apply h1
    show p1.2.dot p1.1 - p1.2.dot p1.2 / p1.2.dot p1.1 * p1.1.dot p1.1 = 0
    rw [h0, div_zero, zero_mul, sub_zero]
  -- the model after the updates
  have hi0 : st0.reset.Inv :=
    LSR1.sr1_inv_start st0.reset rfl (by
      have : st0.reset.msub_max = st0.msub_max := rfl
      rw [this]
      simp only [List.length_cons] at hlen
      omega) (LSR1.sr1_alloc_reset st0 ha)
  obtain ⟨st, hu, hi, hm, hn, _, _, hcol, _, hb0, hasm⟩ :=
    LSR1.sr1_append_updates (p1 :: rest) st0.reset hi0
      (by show 0 + (p1 :: rest).length ≤ st0.msub_max; omega) hsh
      (fun _ p r e => by
        simp only [List.cons.injEq] at e
        rw [← e.1]
        exact hb)
  have hb0' : st.b0 = p1.2.dot p1.2 / p1.2.dot p1.1 := hb0 rfl p1 rest rfl
  have hm' : st.msub = (p1 :: rest).length := by
    rw [hm]
    show 0 + (p1 :: rest).length = (p1 :: rest).length
    omega
  have hn' : st.nvars = st0.nvars := hn
  have hcol' : ∀ i (h : i < (p1 :: rest).length),
      (st.S i, st.Y i) = (p1 :: rest).get ⟨i, h⟩ := by
    intro i h
    obtain ⟨c1, c2⟩ := hcol i h
    have e0 : st0.reset.msub + i = i := by
      show 0 + i = i
      omega
    rw [e0, getD_eq_get _ _ i h] at c1 c2
    rw [c1, c2]
  have hS : ∀ i (h : i < (p1 :: rest).length), st.S i = ((p1 :: rest).get ⟨i, h⟩).1 :=
    fun i h => by rw [← hcol' i h]
  have hY : ∀ i (h : i < (p1 :: rest).length), st.Y i = ((p1 :: rest).get ⟨i, h⟩).2 :=
    fun i h => by rw [← hcol' i h]
  have hs : ∀ i : Fin (p1 :: rest).length,
      ((p1 :: rest).get i).1.shape = st0.nvars ∧ ((p1 :: rest).get i).2.shape = st0.nvars :=
    fun i => hsh _ (List.get_mem _ i.val i.isLt)
  have ho := List.pairwise_iff_get.mp horth
  have hd := List.pairwise_iff_get.mp hdiag
  -- the product computed by the code
  obtain ⟨rz, w, hmult, hwsh, hw⟩ := LSR1.sr1_code_closed st hi (hasm (by simp))
    (by rw [hm']; simp)
    (fun i j h1 h2 hne => by
      rw [hm'] at h1 h2
      rw [hS i h1, hS j h2]
      rcases Nat.lt_or_gt_of_ne hne with h | h
      · exact ho ⟨i, h1⟩ ⟨j, h2⟩ h
      · rw [ParOptVec.dot_comm _ _ (by rw [(hs ⟨i, h1⟩).1, (hs ⟨j, h2⟩).1])]
        exact ho ⟨j, h2⟩ ⟨i, h1⟩ h)
    (fun i j hji h1 => by
      rw [hm'] at h1
      have h2 : j < (p1 :: rest).length := by omega
      rw [hS i h1, hY j h2]
      exact (hd ⟨j, h2⟩ ⟨i, h1⟩ hji).2)
    (fun i h => by
      rw [hm'] at h
      rw [hcol' i h, hb0']
      exact hden ⟨i, h⟩)
    x y0 (by rw [hx, hn']) (by rw [hy0, hn'])
  refine ⟨st, rz, w, hu, hb0', hmult, by rw [hwsh, hn', hx], fun r k hr hk => ?_⟩
  -- the product with the dense matrix
  have hpw : (p1 :: rest).Pairwise (fun p q => p.1.dot q.1 = 0 ∧ p.2.dot q.1 = 0) := by
    have h1 : (p1 :: rest).Pairwise (fun p q => p.1.dot q.1 = 0 ∧
        (p.1.dot q.2 = 0 ∧ q.1.dot p.2 = 0)) := List.Pairwise.and horth hdiag
    refine List.Pairwise.imp_of_mem ?_ h1
    intro p q hp hq hr
    refine ⟨hr.1, ?_⟩
    rw [ParOptVec.dot_comm p.2 q.1 (by rw [(hsh p hp).2, (hsh q hq).1])]
    exact hr.2.2
  rw [sr1Dense_closed st0.nvars _ (p1 :: rest) hsh hpw,
    denseMul_closed st0.nvars _ (p1 :: rest) x r k hx hsh, hw r k hr hk, hb0', hm',
    ← sumTo_list (p1 :: rest) ([], [])]
  congr 1
  apply sumTo_congr
  intro i h
  rw [getD_eq_get _ _ i h, ← hcol' i h]

/-- C16, an instance: on two ranks with local sizes (2, 1) and capacity 2, the pairs
s_1 = (1,0 | 0), y_1 = (2,0 | 1) and s_2 = (0,1 | 0), y_2 = (0,3 | 1) give b0 = 5/2, and
for x = (1,1 | 1) both products are (3, 4 | 9/2). -/
theorem LSR1_dense_sr1_witness :
    (sr1Middle (5 / 2) [([[1, 0], [0]], [[2, 0], [1]]), ([[0, 1], [0]], [[0, 3], [1]])]).det ≠ 0 ∧
    denseMul [2, 1] (sr1Dense [2, 1] (5 / 2)
      [([[1, 0], [0]], [[2, 0], [1]]), ([[0, 1], [0]], [[0, 3], [1]])]) [[1, 1], [1]] 1 0 =
        9 / 2 ∧
    ((LSR1.new [2, 1] 2).reset.updates
      [([[1, 0], [0]], [[2, 0], [1]]), ([[0, 1], [0]], [[0, 3], [1]])]).bind
        (fun st => (st.mult [[1, 1], [1]] [[0, 0], [0]]).map Prod.snd) =
      some [[3, 4], [9 / 2]] ∧
    ∃ (st : LSR1) (rz : Nat → ParOptScalar) (w : ParOptVec),
      (LSR1.new [2, 1] 2).reset.updates
        [([[1, 0], [0]], [[2, 0], [1]]), ([[0, 1], [0]], [[0, 3], [1]])] = some st ∧
      st.mult [[1, 1], [1]] [[0, 0], [0]] = some ({ st with rz := rz }, w) ∧
      ∀ r k, r < List.length ([[1, 1], [1]] : ParOptVec) → k < ParOptVec.size [[1, 1], [1]] r →
        w.get r k = denseMul [2, 1] (sr1Dense [2, 1]
          (ParOptVec.dot [[2, 0], [1]] [[2, 0], [1]] / ParOptVec.dot [[2, 0], [1]] [[1, 0], [0]])
          [([[1, 0], [0]], [[2, 0], [1]]), ([[0, 1], [0]], [[0, 3], [1]])]) [[1, 1], [1]] r k := by
  have hq : ParOptVec.dot [[2, 0], [1]] [[2, 0], [1]] /
      ParOptVec.dot [[2, 0], [1]] [[1, 0], [0]] = 5 / 2 := by decide!
  have hinv : (sr1Middle (5 / 2)
      [([[1, 0], [0]], [[2, 0], [1]]), ([[0, 1], [0]], [[0, 3], [1]])]).det ≠ 0 := by decide!
  have hsh : ∀ p : ParOptVec × ParOptVec,
      p ∈ [(([[1, 0], [0]] : ParOptVec), ([[2, 0], [1]] : ParOptVec)),
        ([[0, 1], [0]], [[0, 3], [1]])] →
      ParOptVec.shape p.1 = (LSR1.new [2, 1] 2).nvars ∧
        ParOptVec.shape p.2 = (LSR1.new [2, 1] 2).nvars := by
    intro p hp
    simp only [List.mem_cons, List.mem_singleton, List.not_mem_nil, or_false] at hp
    rcases hp with e | e <;> subst e <;> exact ⟨rfl, rfl⟩
  obtain ⟨st, rz, w, h1, _, h3, _, h5⟩ :=
    LSR1_dense_sr1 (LSR1.new [2, 1] 2) ([[1, 0], [0]], [[2, 0], [1]])
      [([[0, 1], [0]], [[0, 3], [1]])] [[1, 1], [1]] [[0, 0], [0]]
      (LSR1.sr1_alloc_new _ _) (by decide) hsh rfl rfl (by decide!) (by decide!)
      (by rw [hq]; exact hinv)
  exact ⟨hinv, by decide!, by decide!, st, rz, w, h1, h3, h5⟩

end ParOpt

namespace ParOpt

/-- C17: LSR1::update assigns b0 only when the model holds no pair, which is the case only
for the first update after construction or reset(): that update, when y.s is not zero,
leaves b0 = y.y / y.s; an update on a model that holds a pair, whether or not it evicts
the oldest column, returns a model with b0 unchanged.  After any update the model holds a
pair. -/
theorem LSR1_b0_first_only (st : LSR1) (s y : ParOptVec) (hp : 1 ≤ st.msub_max) :
    (st.msub = 0 → y.dot s ≠ 0 →
      ∃ st', (st.update s y).1 = some st' ∧ st'.b0 = y.dot y / y.dot s ∧ 0 < st'.msub) ∧
    (st.msub ≠ 0 →
      ∃ st', (st.update s y).1 = some st' ∧ st'.b0 = st.b0 ∧ 0 < st'.msub) ∧
    (∀ nvars p, (LSR1.new nvars p).msub = 0) ∧ (∀ a : LSR1, a.reset.msub = 0) := by
  refine ⟨fun h0 hne => ?_, fun hne => ?_, fun _ _ => rfl, fun _ => rfl⟩
  · obtain ⟨st', h⟩ := LSR1.sr1_update_defined st s y (fun _ => hne)
    obtain ⟨b1, _, b3, _, _⟩ := LSR1.sr1_b0_update st st' s y h
    refine ⟨st', h, (b1 h0).2, ?_⟩
    rw [b3]
    split_ifs <;> omega
  · obtain ⟨st', h⟩ := LSR1.sr1_update_defined st s y (fun h0 => absurd h0 hne)
    obtain ⟨_, b2, b3, _, _⟩ := LSR1.sr1_b0_update st st' s y h
    refine ⟨st', h, b2 hne, ?_⟩
    rw [b3]
    split_ifs <;> omega

/-- C17, an instance: on a model of capacity 1 the first update((1), (2)) sets b0 = 2; the
second update((1), (-3)), which evicts the first pair, leaves b0 = 2. -/
theorem LSR1_b0_first_only_witness :
    ∃ st1 st2, ((LSR1.new [1] 1).update [[1]] [[2]]).1 = some st1 ∧ st1.b0 = 2 ∧
      st1.msub = 1 ∧ st1.msub_max = 1 ∧
      (st1.update [[1]] [[-3]]).1 = some st2 ∧ st2.b0 = 2 := by
  obtain ⟨h1, _, _, _⟩ := LSR1_b0_first_only (LSR1.new [1] 1) [[1]] [[2]] (by decide)
  obtain ⟨st1, u1, b1, _⟩ := h1 rfl (by decide!)
  obtain ⟨_, _, m1, x1, _⟩ := LSR1.sr1_b0_update (LSR1.new [1] 1) st1 [[1]] [[2]] u1
  have hm : st1.msub = 1 := by rw [m1]; rfl
  have hx : st1.msub_max = 1 := x1
  obtain ⟨_, h2, _, _⟩ := LSR1_b0_first_only st1 [[1]] [[-3]] (by rw [hx])
  obtain ⟨st2, u2, b2, _⟩ := h2 (by rw [hm]; decide)
  have hb : st1.b0 = 2 := by rw [b1]; decide!
  exact ⟨st1, st2, u1, hb, hm, hx, u2, by rw [b2, hb]⟩

end ParOpt

namespace ParOpt

/-- C18 (amended): after the calls update(s_1, y_1), ..., update(s_n, y_n), n >= 1, that
follow reset() (or construction) and all returned, b0 is y_1.y_1 / y_1.s_1, the quotient
of the first pair; it is strictly positive exactly when y_1.s_1 > 0 and strictly negative
exactly when y_1.s_1 < 0. -/
theorem LSR1_b0_sign (st0 st : LSR1) (p : ParOptVec × ParOptVec)
    (rest : List (ParOptVec × ParOptVec)) (hp : 1 ≤ st0.msub_max)
    (h : st0.reset.updates (p :: rest) = some st) :
    st.b0 = p.2.dot p.2 / p.2.dot p.1 ∧ (0 < st.b0 ↔ 0 < p.2.dot p.1) ∧
      (st.b0 < 0 ↔ p.2.dot p.1 < 0) := by
  simp only [LSR1.updates, Option.bind_eq_some] at h
  obtain ⟨st1, h1, h2⟩ := h
  obtain ⟨b1, _, b3, b4, _⟩ := LSR1.sr1_b0_update st0.reset st1 p.1 p.2 h1
  obtain ⟨hne, hb⟩ := b1 rfl
  have hm1 : 0 < st1.msub := by
    have e0 : st0.reset.msub = 0 := rfl
    have e1 : st0.reset.msub_max = st0.msub_max := rfl
    rw [b3, e0, e1, if_pos (show 0 < st0.msub_max from hp)]
    exact Nat.one_pos
  obtain ⟨i1, _, _⟩ := LSR1.sr1_b0_updates rest st1 st (by rw [b4]; exact hp) hm1 h2
  have hg : 0 < p.2.dot p.2 := LBFGS.dot_self_pos_of p.2 p.1 hne
  have hq : st.b0 = p.2.dot p.2 / p.2.dot p.1 := by rw [i1, hb]
  refine ⟨hq, ?_, ?_⟩
  · rw [hq]
    constructor
    · intro h0
      by_contra hc
      have : p.2.dot p.1 < 0 := lt_of_le_of_ne (not_lt.mp hc) hne
      have := div_neg_of_pos_of_neg hg this
      linarith
    · intro h0
      exact div_pos hg h0
  · rw [hq]
    constructor
    · intro h0
      by_contra hc
      have : 0 < p.2.dot p.1 := lt_of_le_of_ne (not_lt.mp hc) (Ne.symm hne)
      have := div_pos hg this
      linarith
    · intro h0
      exact div_neg_of_pos_of_neg hg h0

/-- C18 (amended), an instance: the pairs ((1,0), (1,3)) and ((0,1), (0,-2)) on a model of
capacity 2 leave b0 = 10. -/
theorem LSR1_b0_sign_witness :
    ∃ st, (LSR1.new [2] 2).reset.updates [([[1, 0]], [[1, 3]]), ([[0, 1]], [[0, -2]])] =
        some st ∧
      st.b0 = ParOptVec.dot [[1, 3]] [[1, 3]] / ParOptVec.dot [[1, 3]] [[1, 0]] ∧
      st.b0 = 10 ∧ 0 < st.b0 := by
  have hs : ((LSR1.new [2] 2).reset.updates
      [([[1, 0]], [[1, 3]]), ([[0, 1]], [[0, -2]])]).isSome = true := by decide!
  obtain ⟨st, hst⟩ := Option.isSome_iff_exists.mp hs
  obtain ⟨h1, h2, _⟩ := LSR1_b0_sign (LSR1.new [2] 2) st ([[1, 0]], [[1, 3]])
    [([[0, 1]], [[0, -2]])] (by decide) hst
  have hv : ParOptVec.dot [[1, 3]] [[1, 3]] / ParOptVec.dot [[1, 3]] [[1, 0]] = 10 := by
    decide!
  exact ⟨st, hst, h1, by rw [h1]; exact hv, h2.mpr (by decide!)⟩

/-- C18, as stated, fails: after reset(), update with s = (1), y = (-1) returns a model
with b0 = y.y / y.s = -1. -/
theorem LSR1_b0_sign_counterexample :
    ((LSR1.new [1] 1).reset.update [[1]] [[-1]]).1.map (fun st => st.b0) = some (-1) ∧
    ((LSR1.new [1] 1).reset.update [[1]] [[-1]]).2 = 0 := by
  refine ⟨by decide!, rfl⟩

end ParOpt

namespace ParOpt

/-- C19: LSR1::update returns 0 for every model state and every s, y; the model it
returns (there is one unless the model holds no pair and y.s = 0, where the first scaling
divides by zero) holds the supplied y itself as the newest column of Y. -/
theorem LSR1_update_return (st : LSR1) (s y : ParOptVec) :
    (st.update s y).2 = 0 ∧
    (∀ st', st.Inv → y.shape = st.nvars → (st.update s y).1 = some st' →
      st'.Y (st'.msub - 1) = y ∧ 0 < st'.msub) ∧
    ((st.msub = 0 → y.dot s ≠ 0) → ∃ st', (st.update s y).1 = some st') := by
  refine ⟨rfl, fun st' hi hy h => ?_, LSR1.sr1_update_defined st s y⟩
  refine ⟨(LSR1.sr1_columns_update st st' s y hi h).2.1 hy, ?_⟩
  rw [(LSR1.sr1_inv_update st st' s y hi h).2.2.2.2.1]
  have := hi.1
  have := hi.2.1
  split_ifs <;> omega

/-- C19, an instance: update((1,0), (1,-3)) on an empty model of capacity 2, where
y.s = 1 is far below any damping threshold of the LBFGS model. -/
theorem LSR1_update_return_witness :
    ((LSR1.new [2] 2).update [[1, 0]] [[1, -3]]).2 = 0 ∧
    ∃ st', ((LSR1.new [2] 2).update [[1, 0]] [[1, -3]]).1 = some st' ∧
      st'.Y (st'.msub - 1) = [[1, -3]] ∧ 0 < st'.msub := by
  obtain ⟨h1, h2, h3⟩ := LSR1_update_return (LSR1.new [2] 2) [[1, 0]] [[1, -3]]
  obtain ⟨st', hst⟩ := h3 (fun _ => by decide!)
  exact ⟨h1, st', hst,
    h2 st' (LSR1.sr1_inv_start _ rfl (by decide) (LSR1.sr1_alloc_new _ _)) rfl hst⟩

end ParOpt

namespace ParOpt

/-- C20: for every vector x, every k and vectors V[0], ..., V[k-1], mdot(V, k, out) leaves
out[i], for each i < k, equal to the value that x.dot(V[i]) returns, which is the sum over
all ranks of the local products; the entries of out from k on are left as they were.  The
function yields only the array out: x and the V[i] are read, not written. -/
theorem mdot_eq_dot (x : ParOptVec) (V : Nat → ParOptVec) (k : Nat)
    (out : Nat → ParOptScalar) :
    (∀ i, i < k → x.mdot V k out i = x.dot (V i) ∧
      x.dot (V i) = sumTo x.length (fun r =>
        sumTo (x.size r) (fun j => x.get r j * (V i).get r j))) ∧
    (∀ i, k ≤ i → x.mdot V k out i = out i) := by
  refine ⟨fun i hi => ⟨mdot_spec x V k out i hi, rfl⟩, fun i hi => ?_⟩
  unfold ParOptVec.mdot
  simp only [if_neg (show ¬ i < k from by omega)]

/-- C20, an instance: x = (1, 2 | 3) on two ranks with V[0] = (1, 1 | 1), V[1] = (0, 1 | 2). -/
theorem mdot_eq_dot_witness :
    ParOptVec.mdot [[1, 2], [3]] (fun i => if i = 0 then [[1, 1], [1]] else [[0, 1], [2]]) 2
        (fun _ => 9) 1 =
      ParOptVec.dot [[1, 2], [3]] [[0, 1], [2]] ∧
    ParOptVec.dot [[1, 2], [3]] [[0, 1], [2]] = 8 ∧
    ParOptVec.mdot [[1, 2], [3]] (fun i => if i = 0 then [[1, 1], [1]] else [[0, 1], [2]]) 2
        (fun _ => 9) 2 = 9 :=
  ⟨((mdot_eq_dot [[1, 2], [3]] (fun i => if i = 0 then [[1, 1], [1]] else [[0, 1], [2]]) 2
      (fun _ => 9)).1 1 (by decide)).1, by decide!,
    (mdot_eq_dot [[1, 2], [3]] (fun i => if i = 0 then [[1, 1], [1]] else [[0, 1], [2]]) 2
      (fun _ => 9)).2 2 (by decide)⟩

end ParOpt

namespace ParOpt

/-- C21 (amended): copyValues, axpy, dot and mdot compare no lengths and have no failing
path; each works on the receiver's own local length.  Applied to an argument that holds,
on every rank, at least as many local entries as the receiver, equally many or more, each
completes on the first entries of the argument: copyValues overwrites the receiver with
them, axpy adds alpha times them to the receiver, dot and mdot yield the sum over the
ranks of the products with them. -/
theorem binary_ops_unchecked (self vec : ParOptVec) (alpha : ParOptScalar)
    (V : Nat → ParOptVec) (n : Nat) (out : Nat → ParOptScalar)
    (hle : ∀ r, r < self.length → self.size r ≤ vec.size r)
    (hV : ∀ i r, i < n → r < self.length → self.size r ≤ (V i).size r) :
    ((self.copyValues vec).shape = self.shape ∧
      ∀ r, r < self.length → (self.copyValues vec).loc r = (vec.loc r).take (self.size r)) ∧
    ((self.axpy alpha vec).shape = self.shape ∧
      ∀ r, r < self.length →
        (self.axpy alpha vec).loc r =
          List.zipWith (fun b a => b + alpha * a) (self.loc r) (vec.loc r)) ∧
    self.dot vec =
      sumTo self.length
        (fun r => (List.zipWith (fun a b => a * b) (self.loc r) (vec.loc r)).sum) ∧
    ∀ i, i < n →
      self.mdot V n out i =
        sumTo self.length
          (fun r => (List.zipWith (fun a b => a * b) (self.loc r) ((V i).loc r)).sum) := by
  have hdot : ∀ w : ParOptVec, (∀ r, r < self.length → self.size r ≤ w.size r) →
      self.dot w = sumTo self.length
        (fun r => (List.zipWith (fun a b => a * b) (self.loc r) (w.loc r)).sum) := by
    intro w hw
    unfold ParOptVec.dot MPI_Allreduce_SUM
    exact sumTo_congr _ _ _ (fun r hr => ddot_zipWith _ _ (hw r hr))
  refine ⟨⟨ParOptVec.shape_copyValues _ _, fun r hr => ?_⟩,
    ⟨ParOptVec.shape_axpy _ _ _, fun r hr => ?_⟩, hdot vec hle, fun i hi => ?_⟩
  · rw [← map_range_getD_take _ _ (hle r hr)]
    unfold ParOptVec.copyValues
    conv_lhs => unfold ParOptVec.loc
    rw [getD_map_range, if_pos hr]
    rfl
  · rw [← daxpy_zipWith alpha _ _ (hle r hr)]
    unfold ParOptVec.axpy
    conv_lhs => unfold ParOptVec.loc
    rw [getD_map_range, if_pos hr]
    rfl
  · rw [mdot_spec self V n out i hi]
    exact hdot (V i) (fun r hr => hV i r hi hr)

/-- C21 (amended), an instance: a receiver with the local lengths (1, 2) and an argument
with the local lengths (2, 2). -/
theorem binary_ops_unchecked_witness :
    ParOptVec.copyValues [[1], [2, 3]] [[5, 7], [4, 6]] = [[5], [4, 6]] ∧
    ParOptVec.loc (ParOptVec.axpy [[1], [2, 3]] 2 [[5, 7], [4, 6]]) 0 =
      List.zipWith (fun b a => b + 2 * a) (ParOptVec.loc [[1], [2, 3]] 0)
        (ParOptVec.loc [[5, 7], [4, 6]] 0) ∧
    ParOptVec.axpy [[1], [2, 3]] 2 [[5, 7], [4, 6]] = [[11], [10, 15]] ∧
    ParOptVec.dot [[1], [2, 3]] [[5, 7], [4, 6]] = 31 :=
  ⟨by decide!,
    (binary_ops_unchecked [[1], [2, 3]] [[5, 7], [4, 6]] 2 (fun _ => [[5, 7], [4, 6]]) 1
      (fun _ => 0) (by decide) (by
        intro i r _
        show r < 2 → ParOptVec.size [[1], [2, 3]] r ≤ ParOptVec.size [[5, 7], [4, 6]] r
        revert r
        decide)).2.1.2 0 (by decide),
    by decide!, by decide!⟩

/-- C21, as stated, fails: with a receiver of local length 1 and an argument of local
length 2 every one of the four operations completes; copyValues and axpy modify the
receiver, dot and mdot produce a value. -/
theorem binary_ops_unchecked_counterexample :
    ParOptVec.shape [[1]] ≠ ParOptVec.shape [[5, 7]] ∧
    ParOptVec.copyValues [[1]] [[5, 7]] = [[5]] ∧
    ParOptVec.axpy [[1]] 2 [[5, 7]] = [[11]] ∧
    ParOptVec.dot [[1]] [[5, 7]] = 5 ∧
    ParOptVec.mdot [[1]] (fun _ => [[5, 7]]) 1 (fun _ => 0) 0 = 5 := by
  decide!

end ParOpt

namespace ParOpt

/-- C22 (amended): for every list of local lengths whose sum N, the global length, does
not exceed INT_MAX, the offset range[r] at which rank r writes in writeToFile is the sum
of the local lengths of the ranks before r.  The slices [range[r], range[r] + n_r)
therefore follow each other in rank order without overlap and cover exactly the offsets
below N = range[P].  When the file was opened the call returns 0 and each rank finds its
local array in its slice, the offsets from N on being left as they were; when it was not
opened the call returns 1 and writes nothing. -/
theorem writeToFile_offsets (self : ParOptVec) (f : MPIFile)
    (hN : (self.shape.sum : Int) ≤ INT_MAX) :
    (∀ r, r ≤ self.length → self.writeRange r = ((self.shape.take r).sum : Nat)) ∧
    (∀ r r', r < r' → r' < self.length →
      self.writeRange r + (self.size r : Nat) ≤ self.writeRange r') ∧
    self.writeRange self.length = (self.shape.sum : Nat) ∧
    (∀ k : Nat, k < self.shape.sum →
      ∃ r, r < self.length ∧ self.writeRange r ≤ (k : Nat) ∧
        (k : Int) < self.writeRange r + (self.size r : Nat)) ∧
    (∃ g, self.writeToFile (some f) = (some g, 0) ∧
      (∀ r j, r < self.length → j < self.size r →
        g ((self.writeRange r).toNat + j) = some (self.get r j)) ∧
      ∀ k, self.shape.sum ≤ k → g k = f k) ∧
    self.writeToFile none = (none, 1) := by
  have hfull : (self.shape.take self.length).sum = self.shape.sum := by
    rw [ParOptVec.length_eq_shape, List.take_length]
  have hr := ParOptVec.writeRange_spec self hN
  refine ⟨hr, fun r r' h1 h2 => ?_, ?_, fun k hk => ?_, ⟨_, rfl, ?_, ?_⟩, rfl⟩
  · rw [hr r (by omega), hr r' (by omega)]
    have := ParOptVec.take_sum_mono self (r + 1) r' (by omega)
    rw [ParOptVec.take_succ_sum] at this
    exact_mod_cast this
  · rw [hr _ (le_refl _), hfull]
  · rw [← hfull] at hk
    obtain ⟨r, h1, h2, h3⟩ := ParOptVec.take_sum_cover self _ k hk
    refine ⟨r, h1, ?_, ?_⟩
    · rw [hr r (by omega)]
      exact_mod_cast h2
    · rw [hr r (by omega)]
      exact_mod_cast h3
  · intro r j h1 h2
    rw [hr r (by omega), Int.toNat_ofNat]
    exact (ParOptVec.write_loop self hN f self.length (le_refl _)).1 r j h1 h2
  · intro k hk
    exact (ParOptVec.write_loop self hN f self.length (le_refl _)).2 k
      (by rw [hfull]; exact hk)

/-- C22 (amended), an instance: four ranks with the local lengths 2, 1, 0, 3 write at the
offsets 0, 2, 3, 3, and the file holds the six entries in rank order. -/
theorem writeToFile_offsets_witness :
    (List.range 5).map (ParOptVec.writeRange [[1, 2], [3], [], [4, 5, 6]]) = [0, 2, 3, 3, 6] ∧
    ((ParOptVec.writeToFile [[1, 2], [3], [], [4, 5, 6]] (some (fun _ => none))).1.map
      (fun g => (List.range 7).map g)) =
        some [some 1, some 2, some 3, some 4, some 5, some 6, none] ∧
    (ParOptVec.writeToFile [[1, 2], [3], [], [4, 5, 6]] (some (fun _ => none))).2 = 0 ∧
    ParOptVec.writeToFile [[1, 2], [3], [], [4, 5, 6]] none = (none, 1) ∧
    ParOptVec.writeRange [[1, 2], [3], [], [4, 5, 6]] 3 =
      ((List.take 3 (ParOptVec.shape [[1, 2], [3], [], [4, 5, 6]])).sum : Nat) :=
  ⟨by decide!, by decide!, by decide!, rfl,
    (writeToFile_offsets [[1, 2], [3], [], [4, 5, 6]] (fun _ => none) (by decide)).1 3
      (by decide)⟩

/-- C22, as stated, fails: for three ranks with the local lengths 2^30, 2^30 and 1 the
sum of the first two lengths is 2^31, which the int range[2] cannot hold: the offset that
rank 2 uses is -2^31. -/
theorem writeToFile_offsets_counterexample :
    ParOptVec.writeRange (ParOptVec.new [1073741824, 1073741824, 1]) 2 = -2147483648 ∧
    (((ParOptVec.shape (ParOptVec.new [1073741824, 1073741824, 1])).take 2).sum : Int) =
      2147483648 := by
  have hl : 2 ≤ (ParOptVec.new [1073741824, 1073741824, 1]).length := by
    rw [ParOptVec.length_eq_shape, ParOptVec.shape_new]
    exact Nat.le_succ 2
  rw [ParOptVec.writeRange_wrapped _ 2 hl, ParOptVec.shape_new]
  have e : (List.take 2 [1073741824, 1073741824, 1]).sum = 2147483648 := by
    simp only [List.take_succ_cons, List.take_zero, List.sum_cons, List.sum_nil]
    norm_num
  rw [e]
  constructor
  · unfold int32
    norm_num
  · norm_num

end ParOpt

namespace ParOpt

end ParOpt

namespace ParOpt

/-- C24: for every LBFGS model state between two calls and every s, y for which the
preliminary curvature beta = r.s, r = B*s, computed inside update is positive (so that s
is not zero): update(s, y) returns, the newest pair stored is (s, y') with y' = y when the
update is not damped, the newest curvature D[m-1] = s.y' is positive, and the scaling is
b0 = y'.y' / y'.s > 0. -/
theorem LBFGS_newest_curvature (st stA stB : LBFGS) (s y r : ParOptVec)
    (hi : st.Inv) (hs : s.shape = st.nvars) (hy : y.shape = st.nvars)
    (h1 : st.firstScale (y.dot y) (y.dot s) = some stA)
    (h2 : stA.mult s stA.r = some (stB, r)) (hbeta : 0 < r.dot s) :
    ∃ st' t, st.update s y = some (st', t) ∧ 0 < st'.msub ∧
      st'.S (st'.msub - 1) = s ∧ (t = 0 → st'.Y (st'.msub - 1) = y) ∧
      st'.D (st'.msub - 1) = s.dot (st'.Y (st'.msub - 1)) ∧ 0 < st'.D (st'.msub - 1) ∧
      st'.b0 = (st'.Y (st'.msub - 1)).dot (st'.Y (st'.msub - 1)) /
        (st'.Y (st'.msub - 1)).dot s ∧
      0 < st'.b0 := by
  have hrs : r.shape = st.nvars := by
    rw [(LBFGS.mult_frame stA stB s stA.r r h2).2]
    have f := LBFGS.firstScale_frame st stA _ _ h1
    have : stA.r = st.r := by rw [f]
    rw [this]
    exact hi.2.2.1.2
  obtain ⟨d, h3, hne⟩ := LBFGS.damp_defined r s y (by rw [hy, hrs]) hbeta
  have h4 : sdiv d.2.2.2.1 d.2.2.2.2 = some (d.2.2.2.1 / d.2.2.2.2) := by
    unfold sdiv
    rw [if_neg hne]
  have hc := LBFGS.curvature_of_steps st stA stB s y r d _ h1 h2 h3 h4
  have hu : st.update s y = some
      ((((({ stB with r := d.2.1, b0 := d.2.2.2.1 / d.2.2.2.2 } : LBFGS).setNewValues s
        d.2.2.1).updateSmall).setM).setZ.factor, d.1) := by
    unfold LBFGS.update
    rw [hc]
    rfl
  obtain ⟨hY, hb, hS⟩ := LBFGS.newest_update st _ _ s y d.2.2.1 d.1 hi hy hc rfl
  obtain ⟨hnz, hb1, ht0, _⟩ := LBFGS.b0_curvature st _ s y d.2.2.1 d.1 hc
  obtain ⟨hi', _⟩ := LBFGS.inv_update st _ s y d.1 hu hi
  have hm := LBFGS.msub_update st _ s y d.1 hu
  have hmpos : 0 < (((({ stB with r := d.2.1, b0 := d.2.2.2.1 / d.2.2.2.2 } :
      LBFGS).setNewValues s d.2.2.1).updateSmall).setM).setZ.factor.msub := by
    rw [hm]
    have := hi.2.1
    have := hi.1
    split_ifs <;> omega
  have hpos : 0 < d.2.2.1.dot s := by
    rcases LBFGS.damp_spec _ _ _ _ _ _ _ h3 with ⟨_, hne2, _, hd, hd2, _⟩ | ⟨hn, hd⟩
    · rw [hd2, hd, LBFGS.damped_dot r s y (by rw [hy, hrs]) hne2]
      exact mul_pos (by norm_num) hbeta
    · rw [hd]
      show 0 < y.dot s
      have : (0.2 : ParOptScalar) * r.dot s < y.dot s := not_le.mp hn
      have h5 : (0 : ParOptScalar) < 0.2 * r.dot s := mul_pos (by norm_num) hbeta
      linarith
  have hD := (hi'.2.2.2 _ _ (Nat.sub_lt hmpos Nat.one_pos) (Nat.sub_lt hmpos Nat.one_pos)).2.1
  rw [hS hs, hY] at hD
  refine ⟨_, _, hu, hmpos, hS hs, fun ht => ?_, ?_, ?_, ?_, ?_⟩
  · rw [hY]
    exact ht0 ht
  · rw [hD, hY]
  · rw [hD, ParOptVec.dot_comm s _
      (by rw [hs, (LBFGS.curvature_shape st _ s y d.2.2.1 d.1 hc hi.2.2.1 hy).1])]
    exact hpos
  · rw [hb, hb1, hY]
  · rw [hb, hb1]
    exact div_pos (LBFGS.dot_self_pos_of _ s hnz) hpos

/-- C24, an instance: on the model left by update((1,0), (1,3)) with capacity 2, the call
update((0,1), (0,1)), which is damped, has beta = 82/9 > 0. -/
theorem LBFGS_newest_curvature_witness :
    ∃ (st stA stB : LBFGS) (r : ParOptVec),
      ((LBFGS.new [2] 2).update [[1, 0]] [[1, 3]]).map Prod.fst = some st ∧
      st.firstScale (ParOptVec.dot [[0, 1]] [[0, 1]]) (ParOptVec.dot [[0, 1]] [[0, 1]]) =
        some stA ∧
      stA.mult [[0, 1]] stA.r = some (stB, r) ∧ 0 < r.dot [[0, 1]] ∧
      ∃ st' t, st.update [[0, 1]] [[0, 1]] = some (st', t) ∧ 0 < st'.D (st'.msub - 1) ∧
        0 < st'.b0 := by
  have hg0 : (LBFGS.new [2] 2).PosCurv :=
    LBFGS.poscurv_start _ rfl (by decide) (LBFGS.alloc_new _ _)
  have hs0 : ((LBFGS.new [2] 2).update [[1, 0]] [[1, 3]]).isSome = true := by decide!
  obtain ⟨q0, hq0⟩ := Option.isSome_iff_exists.mp hs0
  obtain ⟨hg, _, hn, _⟩ :=
    LBFGS.poscurv_update (LBFGS.new [2] 2) q0.1 [[1, 0]] [[1, 3]] q0.2 hg0 rfl rfl hq0
  have hn' : q0.1.nvars = [2] := hn
  have hss : ParOptVec.dot [[0, 1]] [[0, 1]] ≠ 0 := by decide!
  obtain ⟨stA, h1⟩ := (LBFGS.prelim q0.1 hg [[0, 1]] [[0, 1]] (by rw [hn']; rfl)).2
    (fun _ => hss)
  obtain ⟨stB, r, h2, _, _, hb⟩ :=
    (LBFGS.prelim q0.1 hg [[0, 1]] [[0, 1]] (by rw [hn']; rfl)).1 stA h1
  obtain ⟨st', t, k1, _, _, _, _, k2, _, k3⟩ :=
    LBFGS_newest_curvature q0.1 stA stB [[0, 1]] [[0, 1]] r hg.1
      (by rw [hn']; rfl) (by rw [hn']; rfl) h1 h2 (hb hss)
  exact ⟨q0.1, stA, stB, r, by rw [hq0]; rfl, h1, h2, hb hss, st', t, k1, k2, k3⟩

end ParOpt

namespace ParOpt

/-- C25: after any LBFGS update(s, y) that returns and leaves M nonsingular, whether the
pair was appended or the oldest pair was evicted, the updated model satisfies the secant
equation for the newest pair: mult(s) returns and yields the stored gradient difference
y', the newest column of Y, which is y itself when the update was not damped. -/
theorem LBFGS_secant (st st' : LBFGS) (s y y0 : ParOptVec) (t : Nat) (hi : st.Inv)
    (hs : s.shape = st.nvars) (hy : y.shape = st.nvars) (hy0 : y0.shape = st.nvars)
    (hu : st.update s y = some (st', t)) (hdet : st'.matM.det ≠ 0) :
    st'.msub = (if st.msub < st.msub_max then st.msub + 1 else st.msub) ∧
    (∃ rz, st'.mult s y0 = some ({ st' with rz := rz }, st'.Y (st'.msub - 1))) ∧
    (t = 0 → st'.Y (st'.msub - 1) = y) := by
  obtain ⟨st1, nv, hc, hst⟩ := LBFGS.update_eq st st' s y t hu
  obtain ⟨hi', ha'⟩ := LBFGS.inv_update st st' s y t hu hi
  obtain ⟨hY, _, hS⟩ := LBFGS.newest_update st st' st1 s y nv t hi hy hc hst
  obtain ⟨_, _, ht0, _⟩ := LBFGS.b0_curvature st st1 s y nv t hc
  have hm := LBFGS.msub_update st st' s y t hu
  have hpos : 0 < st'.msub := by
    rw [hm]
    have := hi.2.1
    have := hi.1
    split_ifs <;> omega
  refine ⟨hm, ?_, fun h0 => by rw [hY]; exact ht0 h0⟩
  have h := LBFGS.secant_newest st' y0 hi' ha' hpos (nonsingular_of_det st' hdet)
    (by rw [hy0, (LBFGS.nvars_update st st' s y t hu).1])
  rw [hS hs] at h
  exact h

/-- C25, an instance: on the model of capacity 1 left by update((1,0), (1,3)), the call
update((0,1), (0,1)) evicts the first pair and is damped; it stores
y' = (296/1095, 82/45), and mult((0,1)) yields y'. -/
theorem LBFGS_secant_witness :
    ∃ (st st' : LBFGS),
      ((LBFGS.new [2] 1).update [[1, 0]] [[1, 3]]).map Prod.fst = some st ∧
      st.update [[0, 1]] [[0, 1]] = some (st', 1) ∧ st.msub = 1 ∧ st'.msub = 1 ∧
      st'.matM.det ≠ 0 ∧ st'.Y (st'.msub - 1) = [[296 / 1095, 82 / 45]] ∧
      ∃ rz, st'.mult [[0, 1]] [[0, 0]] = some ({ st' with rz := rz }, st'.Y (st'.msub - 1)) := by
  have hs0 : ((LBFGS.new [2] 1).update [[1, 0]] [[1, 3]]).isSome = true := by decide!
  obtain ⟨q0, hq0⟩ := Option.isSome_iff_exists.mp hs0
  have hi0 : (LBFGS.new [2] 1).Inv := LBFGS.inv_start _ rfl (by decide) (LBFGS.alloc_new _ _)
  obtain ⟨hi1, _⟩ := LBFGS.inv_update _ q0.1 _ _ q0.2 hq0 hi0
  have hn : q0.1.nvars = [2] := (LBFGS.nvars_update _ q0.1 _ _ q0.2 hq0).1
  have hs1 : (((LBFGS.new [2] 1).update [[1, 0]] [[1, 3]]).bind
      (fun q => q.1.update [[0, 1]] [[0, 1]])).isSome = true := by decide!
  obtain ⟨q, hq⟩ := Option.isSome_iff_exists.mp hs1
  have hq2 : (((LBFGS.new [2] 1).update [[1, 0]] [[1, 3]]).bind
      (fun q => q.1.update [[0, 1]] [[0, 1]])).getD (LBFGS.new [2] 1, 0) = q := by
    rw [hq]; rfl
  have hq3 : ((LBFGS.new [2] 1).update [[1, 0]] [[1, 3]]).getD (LBFGS.new [2] 1, 0) = q0 := by
    rw [hq0]; rfl
  have ht : ((((LBFGS.new [2] 1).update [[1, 0]] [[1, 3]]).bind
      (fun q => q.1.update [[0, 1]] [[0, 1]])).getD (LBFGS.new [2] 1, 0)).2 = 1 := by decide!
  have hm0 : (((LBFGS.new [2] 1).update [[1, 0]] [[1, 3]]).getD
      (LBFGS.new [2] 1, 0)).1.msub = 1 := by decide!
  have hm1 : ((((LBFGS.new [2] 1).update [[1, 0]] [[1, 3]]).bind
      (fun q => q.1.update [[0, 1]] [[0, 1]])).getD (LBFGS.new [2] 1, 0)).1.msub = 1 := by
    decide!
  have hdet : ((((LBFGS.new [2] 1).update [[1, 0]] [[1, 3]]).bind
      (fun q => q.1.update [[0, 1]] [[0, 1]])).getD (LBFGS.new [2] 1, 0)).1.matM.det ≠ 0 := by
    decide!
  have hY : ((((LBFGS.new [2] 1).update [[1, 0]] [[1, 3]]).bind
      (fun q => q.1.update [[0, 1]] [[0, 1]])).getD (LBFGS.new [2] 1, 0)).1.Y 0 =
      [[296 / 1095, 82 / 45]] := by decide!
  rw [hq2] at ht hm1 hdet hY
  rw [hq3] at hm0
  rw [hq0, Option.some_bind] at hq
  have hu : q0.1.update [[0, 1]] [[0, 1]] = some (q.1, 1) := by
    rw [hq, ← ht]
  exact ⟨q0.1, q.1, by rw [hq0]; rfl, hu, hm0, hm1, hdet, by rw [hm1]; exact hY,
    (LBFGS_secant q0.1 q.1 [[0, 1]] [[0, 1]] [[0, 0]] 1 hi1 (by rw [hn]; rfl)
      (by rw [hn]; rfl) (by rw [hn]; rfl) hu hdet).2.1⟩

end ParOpt

namespace ParOpt

/-- C26: after any LSR1 update(s, y) that returns and leaves M nonsingular, whether the
pair was appended or the oldest pair was evicted, the updated model satisfies the secant
equation for the newest pair: the newest column of Y is y, and mult(s) returns and
yields y. -/
theorem LSR1_secant (st st' : LSR1) (s y y0 : ParOptVec) (hi : st.Inv)
    (hs : s.shape = st.nvars) (hy : y.shape = st.nvars) (hy0 : y0.shape = st.nvars)
    (hu : (st.update s y).1 = some st') (hdet : st'.matM.det ≠ 0) :
    st'.msub = (if st.msub < st.msub_max then st.msub + 1 else st.msub) ∧
    st'.Y (st'.msub - 1) = y ∧
    ∃ rz, st'.mult s y0 = some ({ st' with rz := rz }, y) := by
  obtain ⟨hi', ha', hn, _, hm, _⟩ := LSR1.sr1_inv_update st st' s y hi hu
  obtain ⟨hS, hY, _⟩ := LSR1.sr1_columns_update st st' s y hi hu
  have hpos : 0 < st'.msub := by
    rw [hm]
    have := hi.2.1
    have := hi.1
    split_ifs <;> omega
  refine ⟨hm, hY hy, ?_⟩
  have h := LSR1.sr1_secant_newest st' y0 hi' ha' hpos
    (nonsingular_of_det_gen st'.msub st'.M hdet) (by rw [hy0, hn])
  rw [hS hs, hY hy] at h
  exact h

/-- C26, an instance: on the model of capacity 1 left by update((1,0), (1,1)), where
b0 = 2, the call update((0,1), (1,3)) evicts the first pair; then M = (-1) and
mult((0,1)) yields (1,3). -/
theorem LSR1_secant_witness :
    ∃ (st st' : LSR1),
      ((LSR1.new [2] 1).update [[1, 0]] [[1, 1]]).1 = some st ∧
      (st.update [[0, 1]] [[1, 3]]).1 = some st' ∧ st.msub = 1 ∧ st'.msub = 1 ∧
      st'.matM.det ≠ 0 ∧
      ∃ rz, st'.mult [[0, 1]] [[0, 0]] = some ({ st' with rz := rz }, [[1, 3]]) := by
  have hs0 : ((LSR1.new [2] 1).update [[1, 0]] [[1, 1]]).1.isSome = true := by decide!
  obtain ⟨q0, hq0⟩ := Option.isSome_iff_exists.mp hs0
  have hi0 : (LSR1.new [2] 1).Inv :=
    LSR1.sr1_inv_start _ rfl (by decide) (LSR1.sr1_alloc_new _ _)
  obtain ⟨hi1, _, hn, _⟩ := LSR1.sr1_inv_update _ q0 _ _ hi0 hq0
  have hn' : q0.nvars = [2] := hn
  have hs1 : (((LSR1.new [2] 1).update [[1, 0]] [[1, 1]]).1.bind
      (fun q => (q.update [[0, 1]] [[1, 3]]).1)).isSome = true := by decide!
  obtain ⟨q, hq⟩ := Option.isSome_iff_exists.mp hs1
  have hq2 : (((LSR1.new [2] 1).update [[1, 0]] [[1, 1]]).1.bind
      (fun q => (q.update [[0, 1]] [[1, 3]]).1)).getD (LSR1.new [2] 1) = q := by
    rw [hq]; rfl
  have hq3 : ((LSR1.new [2] 1).update [[1, 0]] [[1, 1]]).1.getD (LSR1.new [2] 1) = q0 := by
    rw [hq0]; rfl
  have hm0 : (((LSR1.new [2] 1).update [[1, 0]] [[1, 1]]).1.getD (LSR1.new [2] 1)).msub = 1 := by
    decide!
  have hm1 : ((((LSR1.new [2] 1).update [[1, 0]] [[1, 1]]).1.bind
      (fun q => (q.update [[0, 1]] [[1, 3]]).1)).getD (LSR1.new [2] 1)).msub = 1 := by decide!
  have hdet : ((((LSR1.new [2] 1).update [[1, 0]] [[1, 1]]).1.bind
      (fun q => (q.update [[0, 1]] [[1, 3]]).1)).getD (LSR1.new [2] 1)).matM.det ≠ 0 := by
    decide!
  rw [hq2] at hm1 hdet
  rw [hq3] at hm0
  rw [hq0, Option.some_bind] at hq
  exact ⟨q0, q, hq0, hq, hm0, hm1, hdet,
    (LSR1_secant q0 q [[0, 1]] [[1, 3]] [[0, 0]] hi1 (by rw [hn']; rfl) (by rw [hn']; rfl)
      (by rw [hn']; rfl) hq hdet).2.2⟩

end ParOpt

namespace ParOpt

/-- C27 (amended): for every nx >= 1 with 64*nx^2 <= INT_MAX, so that every count fits
the type int, and iperm either absent or a permutation of 0..size-1, build_matrix returns
a well-formed compressed-column structure: size = 2*(nx+1)^2, colp[0] = 0, colp is
nondecreasing with colp[size] = 64*nx^2, the column of the variable of component k of a
node n holds 8 * (number of grid elements incident to n) entries, and every place of rows
below colp[size] holds a row index in [0, size); the final shift of colp restores exactly
the column starts computed before the fill pass. -/
theorem build_matrix_csc (nx : Nat) (iperm : Option (Int → Int)) (rows0 : Int → Int)
    (kvals0 : Int → ParOptScalar) (h1 : 1 ≤ nx) (hb : 64 * nx * nx ≤ 2147483647)
    (hp : IsPerm (2 * (nx + 1) * (nx + 1)) iperm) :
    (build_matrix nx iperm rows0 kvals0).size = ((2 * (nx + 1) * (nx + 1) : Nat) : Int) ∧
    (build_matrix nx iperm rows0 kvals0).colp 0 = 0 ∧
    (∀ v : Nat, v < 2 * (nx + 1) * (nx + 1) →
      (build_matrix nx iperm rows0 kvals0).colp (v : Int) ≤
        (build_matrix nx iperm rows0 kvals0).colp ((v : Int) + 1)) ∧
    (build_matrix nx iperm rows0 kvals0).colp (build_matrix nx iperm rows0 kvals0).size =
      ((64 * nx * nx : Nat) : Int) ∧
    (∀ n k : Nat, n < (nx + 1) * (nx + 1) → k < 2 →
      0 ≤ ivarOf iperm (n : Int) k ∧
      ivarOf iperm (n : Int) k < (build_matrix nx iperm rows0 kvals0).size ∧
      (build_matrix nx iperm rows0 kvals0).colp (ivarOf iperm (n : Int) k + 1) -
        (build_matrix nx iperm rows0 kvals0).colp (ivarOf iperm (n : Int) k) =
          ((8 * incident nx n : Nat) : Int)) ∧
    (∀ pos : Nat, pos < 64 * nx * nx →
      0 ≤ (build_matrix nx iperm rows0 kvals0).rows (pos : Int) ∧
      (build_matrix nx iperm rows0 kvals0).rows (pos : Int) <
        (build_matrix nx iperm rows0 kvals0).size) ∧
    ∀ v : Nat, v ≤ 2 * (nx + 1) * (nx + 1) →
      (build_matrix nx iperm rows0 kvals0).colp (v : Int) = columnStarts nx iperm (v : Int) := by
  have hs := size_fits nx h1 hb
  have hsize : (build_matrix nx iperm rows0 kvals0).size =
      ((2 * (nx + 1) * (nx + 1) : Nat) : Int) := size_exact nx hs
  have hc := build_colp nx iperm h1 hb hp rows0 kvals0
  refine ⟨hsize, ?_, fun v hv => ?_, ?_, fun n k hn hk => ?_, fun pos hpos => ?_,
    fun v hv => ?_⟩
  · have := hc 0 (Nat.zero_le _)
    simpa using this
  · have e : (v : Int) + 1 = ((v + 1 : Nat) : Int) := by push_cast; ring
    rw [e, hc v (by omega), hc (v + 1) hv]
    exact_mod_cast cumul_mono nx iperm v (v + 1) (Nat.le_succ v)
  · rw [hsize, hc _ (le_refl _), cumul_total nx iperm hs hp]
  · obtain ⟨r1, r2⟩ := ivarOf_range nx n k iperm hs hp hn hk
    refine ⟨r1, by rw [hsize]; exact r2, ?_⟩
    obtain ⟨w, hw⟩ : ∃ w : Nat, ivarOf iperm (n : Int) k = (w : Int) :=
      ⟨(ivarOf iperm (n : Int) k).toNat, (Int.toNat_of_nonneg r1).symm⟩
    have hwlt : w < 2 * (nx + 1) * (nx + 1) := by
      rw [hw] at r2
      exact_mod_cast r2
    have e : (w : Int) + 1 = ((w + 1 : Nat) : Int) := by push_cast; ring
    rw [hw, e, hc w (by omega), hc (w + 1) hwlt, Finset.sum_range_succ, ← hw,
      visits_incident nx n k iperm h1 hs hp hn hk]
    push_cast
    ring
  · rw [hsize]
    exact build_rows nx iperm h1 hb hp rows0 kvals0 pos hpos
  · rw [hc v hv, starts_exact nx iperm h1 hb hp v hv]

/-- C27 (amended), an instance: the 2 x 2 grid with the permutation that reverses the 18
variables.  The centre node 4 belongs to 4 elements, so the columns of its two variables
hold 32 entries each, and colp[18] = 256. -/
theorem build_matrix_csc_witness :
    IsPerm (2 * (2 + 1) * (2 + 1)) (some (fun v => 17 - v)) ∧ incident 2 4 = 4 ∧
    (build_matrix 2 (some (fun v => 17 - v)) (fun _ => 0) (fun _ => 0)).size = 18 ∧
    (build_matrix 2 (some (fun v => 17 - v)) (fun _ => 0) (fun _ => 0)).colp 18 = 256 ∧
    (build_matrix 2 (some (fun v => 17 - v)) (fun _ => 0) (fun _ => 0)).colp
        (ivarOf (some (fun v => 17 - v)) 4 1 + 1) -
      (build_matrix 2 (some (fun v => 17 - v)) (fun _ => 0) (fun _ => 0)).colp
        (ivarOf (some (fun v => 17 - v)) 4 1) = 32 := by
  have hp : IsPerm (2 * (2 + 1) * (2 + 1)) (some (fun v => 17 - v)) := by
    refine ⟨fun u h0 h1 => ?_, fun u w _ _ _ _ h => ?_⟩
    · have h2 : u < 18 := by exact_mod_cast h1
      constructor
      · show 0 ≤ 17 - u
        omega
      · show 17 - u < ((2 * (2 + 1) * (2 + 1) : Nat) : Int)
        push_cast
        omega
    · have h2 : 17 - u = 17 - w := h
      omega
  have hi : incident 2 4 = 4 := by decide
  have h := build_matrix_csc 2 (some (fun v => 17 - v)) (fun _ => 0) (fun _ => 0)
    (by decide) (by decide) hp
  obtain ⟨a, _, _, b, c, _, _⟩ := h
  have c1 := (c 4 1 (by decide) (by decide)).2.2
  rw [hi] at c1
  rw [a] at b
  exact ⟨hp, hi, a, b, c1⟩

/-- C27, as stated, fails: for nx = 5793, where size = 2*5794^2 = 67140872 is an int, the
value 64*nx^2 = 2147763136 that colp[size] should hold is not: every entry of colp is at
most INT_MAX = 2147483647. -/
theorem build_matrix_csc_counterexample :
    (build_matrix 5793 none (fun _ => 0) (fun _ => 0)).size = 67140872 ∧
    (build_matrix 5793 none (fun _ => 0) (fun _ => 0)).colp
        (build_matrix 5793 none (fun _ => 0) (fun _ => 0)).size ≠
      ((64 * 5793 * 5793 : Nat) : Int) := by
  constructor
  · exact size_exact 5793 (by norm_num)
  · intro h
    have h2 := colp_range 5793 none (fun _ => 0) (fun _ => 0)
      (build_matrix 5793 none (fun _ => 0) (fun _ => 0)).size
    rw [h] at h2
    unfold INT_MAX at h2
    norm_num at h2

end ParOpt
